import Mathlib

/-! libxkbregistry: a shallow embedding of `src/xkbregistry.c`

The registry is a reference-counted object graph whose child collections are
intrusive, sentinel-headed, doubly-linked lists.  The embedding keeps the
pointer structure:

* an object lives at an address (a natural number handed out by `calloc`);
* every `struct list` cell (the `base.link` member of an object, or one of the
  list-head members `models`, `layouts`, `option_groups`, `variants`,
  `options`) has an address of type `ListRef`, and the contents of all cells
  are kept in one link store;
* a result of type `Option _` is `none` when the C program would fault
  (failed `assert`, dereference of `NULL` or of freed memory);
* a nullable pointer is an `Option Nat`, with `none` for `NULL`.

Allocation is assumed to succeed and to return a fresh address.
-/

namespace Rxkb

/-! ## Memory model -/

/-- The list-head members of the registry structs (`parent_field_` of the
first/next accessors). -/
inductive Field
  | models
  | layouts
  | option_groups
  | variants
  | options
deriving DecidableEq, Repr

/-- The struct types of the registry (`type_` of the helper declarations). -/
inductive Kind
  | context
  | model
  | layout
  | variant
  | option_group
  | option
deriving DecidableEq, Repr

/-- Address of a `struct list` cell: the member `f` of the object at `owner`,
or the member `base.link` of the object at `o`. -/
inductive ListRef
  | head (f : Field) (owner : Nat)
  | link (o : Nat)
deriving DecidableEq, Repr

/-- A nullable object pointer. -/
abbrev Ptr := Option Nat

/-- The null pointer. -/
abbrev NULL : Ptr := none

/-- Modelled from the spec: `struct list` of util-list.h, which is not among the
sources; the spec describes a doubly-linked list with a head sentinel. -/
structure list where
  prev : Option ListRef
  next : Option ListRef
deriving DecidableEq, Repr

/-- The contents of every `struct list` cell. -/
abbrev Links := ListRef → list

/-- Store to `r->prev`. -/
def set_prev (lk : Links) (r : ListRef) (v : Option ListRef) : Links :=
  fun x => if x = r then { prev := v, next := (lk x).next } else lk x

/-- Store to `r->next`. -/
def set_next (lk : Links) (r : ListRef) (v : Option ListRef) : Links :=
  fun x => if x = r then { prev := (lk x).prev, next := v } else lk x

/-- Recover the object from the address of its `base.link` member.  Applied to
a list head the C macro yields a pointer to no object: `none`. -/
def container_of : ListRef → Option Nat
  | ListRef.link o => some o
  | ListRef.head _ _ => none

/-- Modelled from the spec: `list_init` of util-list.h (missing): the cell
becomes an empty list, its own predecessor and successor. -/
def list_init (lk : Links) (l : ListRef) : Links :=
  set_next (set_prev lk l (some l)) l (some l)

/-- Modelled from the spec: `list_append` of util-list.h (missing): links `elm`
in front of the sentinel, that is at the tail.  `ok` tells which cells are
valid memory.
  elm->next = list; elm->prev = list->prev; list->prev = elm;
  elm->prev->next = elm; -/
def list_append (ok : ListRef → Bool) (lk : Links) (l elm : ListRef) :
    Option Links :=
  if ok l && ok elm then
    let lk1 := set_next lk elm (some l)
    let lk2 := set_prev lk1 elm (lk1 l).prev
    let lk3 := set_prev lk2 l (some elm)
    match (lk3 elm).prev with
    | none => none
    | some p => if ok p then some (set_next lk3 p (some elm)) else none
  else none

/-- Modelled from the spec: `list_remove` of util-list.h (missing): unlinks
`elm` from its neighbours and clears its own pointers.
  elm->prev->next = elm->next; elm->next->prev = elm->prev;
  elm->next = NULL; elm->prev = NULL; -/
def list_remove (ok : ListRef → Bool) (lk : Links) (elm : ListRef) :
    Option Links :=
  if ok elm then
    match (lk elm).prev with
    | none => none
    | some p =>
      if ok p then
        let lk1 := set_next lk p (lk elm).next
        match (lk1 elm).next with
        | none => none
        | some n =>
          if ok n then
            let lk2 := set_prev lk1 n (lk1 elm).prev
            some (set_prev (set_next lk2 elm none) elm none)
          else none
      else none
  else none

/-- Modelled from the spec: `list_empty` of util-list.h (missing):
`list->next == list`. -/
def list_empty (lk : Links) (l : ListRef) : Bool :=
  (lk l).next == some l

/-- Modelled from the spec: `list_is_last` of util-list.h (missing):
`elm->next == list`, the is-last test against the sentinel. -/
def list_is_last (lk : Links) (l elm : ListRef) : Bool :=
  (lk elm).next == some l

/-- Modelled from the spec: `list_first_entry` of util-list.h (missing):
`container_of(head->next)`. -/
def list_first_entry (lk : Links) (head : ListRef) : Option Nat :=
  (lk head).next.bind container_of

/-- Modelled from the spec: `list_last_entry` of util-list.h (missing):
`container_of(head->prev)`. -/
def list_last_entry (lk : Links) (head : ListRef) : Option Nat :=
  (lk head).prev.bind container_of

/-! ## Objects -/

/-- The values a `destroy_func_t` takes in this file. -/
inductive destroy_func_t
  | rxkb_context_destroy
  | rxkb_model_destroy
  | rxkb_layout_destroy
  | rxkb_variant_destroy
  | rxkb_option_group_destroy
  | rxkb_option_destroy
deriving DecidableEq, Repr

/-- The base every entity embeds; `refcount` is a `uint32_t`.  The member
`link` lives in the link store at `ListRef.link`. -/
structure rxkb_object where
  parent : Ptr
  refcount : Nat
  destroy : Option destroy_func_t
deriving DecidableEq, Repr

/-- The root entity; the heads `models`, `layouts`, `option_groups` live in the
link store. -/
structure rxkb_context where
  base : rxkb_object
  includes : List String
  userdata : Nat
deriving DecidableEq, Repr

/-- A keyboard model. -/
structure rxkb_model where
  base : rxkb_object
  name : Option String
  vendor : Option String
  description : Option String
deriving DecidableEq, Repr

/-- A layout; the head `variants` lives in the link store. -/
structure rxkb_layout where
  base : rxkb_object
  name : Option String
  brief : Option String
  description : Option String
deriving DecidableEq, Repr

/-- A variant of a layout. -/
structure rxkb_variant where
  base : rxkb_object
  name : Option String
  brief : Option String
  description : Option String
deriving DecidableEq, Repr

/-- An option group; the head `options` lives in the link store. -/
structure rxkb_option_group where
  base : rxkb_object
  allow_multiple : Bool
  name : Option String
  description : Option String
deriving DecidableEq, Repr

/-- An option of a group. -/
structure rxkb_option where
  base : rxkb_object
  name : Option String
  brief : Option String
  description : Option String
deriving DecidableEq, Repr

/-- What an allocated address holds. -/
inductive Obj
  | context (c : rxkb_context)
  | model (m : rxkb_model)
  | layout (l : rxkb_layout)
  | variant (v : rxkb_variant)
  | option_group (g : rxkb_option_group)
  | option (o : rxkb_option)
deriving DecidableEq, Repr

/-- The struct type of an object. -/
def Obj.kind : Obj → Kind
  | Obj.context _ => Kind.context
  | Obj.model _ => Kind.model
  | Obj.layout _ => Kind.layout
  | Obj.variant _ => Kind.variant
  | Obj.option_group _ => Kind.option_group
  | Obj.option _ => Kind.option

/-- The member `base`. -/
def Obj.base : Obj → rxkb_object
  | Obj.context c => c.base
  | Obj.model m => m.base
  | Obj.layout l => l.base
  | Obj.variant v => v.base
  | Obj.option_group g => g.base
  | Obj.option o => o.base

/-- Store to the member `base`. -/
def Obj.set_base (b : rxkb_object) : Obj → Obj
  | Obj.context c => Obj.context { c with base := b }
  | Obj.model m => Obj.model { m with base := b }
  | Obj.layout l => Obj.layout { l with base := b }
  | Obj.variant v => Obj.variant { v with base := b }
  | Obj.option_group g => Obj.option_group { g with base := b }
  | Obj.option o => Obj.option { o with base := b }

/-- The all-zero base. -/
def rxkb_object.zero : rxkb_object :=
  { parent := NULL, refcount := 0, destroy := none }

/-- The all-zero struct of each type, as `calloc` returns it. -/
def Obj.zero : Kind → Obj
  | Kind.context =>
    Obj.context { base := rxkb_object.zero, includes := [], userdata := 0 }
  | Kind.model =>
    Obj.model { base := rxkb_object.zero, name := none, vendor := none,
                description := none }
  | Kind.layout =>
    Obj.layout { base := rxkb_object.zero, name := none, brief := none,
                 description := none }
  | Kind.variant =>
    Obj.variant { base := rxkb_object.zero, name := none, brief := none,
                  description := none }
  | Kind.option_group =>
    Obj.option_group { base := rxkb_object.zero, allow_multiple := false,
                       name := none, description := none }
  | Kind.option =>
    Obj.option { base := rxkb_object.zero, name := none, brief := none,
                 description := none }

/-- Which struct type has which list-head member. -/
def Kind.has_field : Kind → Field → Bool
  | Kind.context, Field.models => true
  | Kind.context, Field.layouts => true
  | Kind.context, Field.option_groups => true
  | Kind.layout, Field.variants => true
  | Kind.option_group, Field.options => true
  | _, _ => false

/-- The program state: objects, list cells, and the next fresh address. -/
structure Heap where
  objs : Nat → Option Obj
  links : Links
  brk : Nat

/-- The heap before anything is allocated. -/
def Heap.empty : Heap :=
  { objs := fun _ => none, links := fun _ => { prev := none, next := none },
    brk := 0 }

/-- Store an object at an address. -/
def Heap.set_obj (h : Heap) (p : Nat) (ob : Option Obj) : Heap :=
  { h with objs := fun x => if x = p then ob else h.objs x }

/-- A list cell is valid memory when the object holding it is allocated and,
for a head, has that member. -/
def Heap.ok (h : Heap) : ListRef → Bool
  | ListRef.link o => (h.objs o).isSome
  | ListRef.head f p =>
    match h.objs p with
    | some ob => ob.kind.has_field f
    | none => false

/-- The `calloc(1, sizeof *t)` call: a fresh zeroed struct, whose list cells are
zeroed with it. -/
def calloc (h : Heap) (k : Kind) : Heap × Nat :=
  let z : list := { prev := none, next := none }
  ({ objs := fun x => if x = h.brk then some (Obj.zero k) else h.objs x,
     links := fun r =>
       match r with
       | ListRef.link o => if o = h.brk then z else h.links r
       | ListRef.head _ p => if p = h.brk then z else h.links r,
     brk := h.brk + 1 }, h.brk)

/-- The `free` call. -/
def free (h : Heap) (p : Nat) : Heap :=
  h.set_obj p none

/-- Store to a list cell array of the heap. -/
def Heap.set_links (h : Heap) (lk : Links) : Heap :=
  { h with links := lk }

/-- Store to `object->refcount`. -/
def Obj.set_refcount (ob : Obj) (n : Nat) : Obj :=
  ob.set_base { ob.base with refcount := n }

/-! ## Reference counting (`rxkb_object_*`, `DECLARE_HELPERS_FOR_TYPE`) -/

/-- Width of `uint32_t refcount`. -/
def UINT32_MOD : Nat := 2 ^ 32

/-- The function `rxkb_object_init`: count 1, the destroy callback, the parent,
and `list_init(&object->link)`. -/
def rxkb_object_init (h : Heap) (object : Nat) (parent : Ptr)
    (destroy : Option destroy_func_t) : Option Heap :=
  match h.objs object with
  | none => none
  | some ob =>
    let h1 := h.set_obj object
      (some (ob.set_base { parent := parent, refcount := 1, destroy := destroy }))
    some (h1.set_links (list_init h1.links (ListRef.link object)))

/-- The function `rxkb_object_ref`: `assert(object->refcount >= 1)`,
`++object->refcount`, return the object. -/
def rxkb_object_ref (h : Heap) (object : Nat) : Option (Heap × Ptr) :=
  match h.objs object with
  | none => none
  | some ob =>
    if 1 ≤ ob.base.refcount then
      some (h.set_obj object
              (some (ob.set_refcount ((ob.base.refcount + 1) % UINT32_MOD))),
            some object)
    else none

/-- Modelled from the spec: `list_for_each_safe` of util-list.h (missing): walks
the cells from `pos` up to the sentinel `head`, reading the successor of a cell
before the body runs on its object, so that the body may unlink and free that
object.  The walk gives up (`none`) after `fuel` cells. -/
def list_for_each_safe (body : Heap → Nat → Option Heap) (head : ListRef) :
    Nat → Heap → ListRef → Option Heap
  | 0, _, _ => none
  | fuel + 1, h, pos =>
    if pos = head then some h
    else if h.ok pos then
      match container_of pos, (h.links pos).next with
      | some o, some tmp =>
        (body h o).bind (fun h1 => list_for_each_safe body head fuel h1 tmp)
      | _, _ => none
    else none

/-- The loop `list_for_each_safe(o, tmp, &p->f, base.link) body(o)` from its
beginning; a list of a heap has fewer cells than the heap has addresses. -/
def for_each_entry_safe (body : Heap → Nat → Option Heap) (h : Heap)
    (f : Field) (p : Nat) : Option Heap :=
  if h.ok (ListRef.head f p) then
    match (h.links (ListRef.head f p)).next with
    | none => none
    | some pos => list_for_each_safe body (ListRef.head f p) (h.brk + 1) h pos
  else none

/-- A pointer of static type `struct k *` is used: the object is allocated and
of that type. -/
def Heap.is_kind (h : Heap) (k : Kind) (p : Nat) : Bool :=
  match h.objs p with
  | some ob => ob.kind == k
  | none => false

/-- The destroy callbacks, with `unref k` standing for the helper
`type_##_unref` of the child type `k`.  `rxkb_variant_destroy`,
`rxkb_option_destroy` and `rxkb_model_destroy` only free strings. -/
def call_destroy (unref : Kind → Heap → Nat → Option Heap)
    (f : destroy_func_t) (h : Heap) (p : Nat) : Option Heap :=
  match f with
  | destroy_func_t.rxkb_variant_destroy =>
    if h.is_kind Kind.variant p then some h else none
  | destroy_func_t.rxkb_option_destroy =>
    if h.is_kind Kind.option p then some h else none
  | destroy_func_t.rxkb_model_destroy =>
    if h.is_kind Kind.model p then some h else none
  | destroy_func_t.rxkb_layout_destroy =>
    if h.is_kind Kind.layout p then
      for_each_entry_safe (unref Kind.variant) h Field.variants p
    else none
  | destroy_func_t.rxkb_option_group_destroy =>
    if h.is_kind Kind.option_group p then
      for_each_entry_safe (unref Kind.option) h Field.options p
    else none
  | destroy_func_t.rxkb_context_destroy =>
    if h.is_kind Kind.context p then
      (for_each_entry_safe (unref Kind.model) h Field.models p).bind fun h1 =>
      (for_each_entry_safe (unref Kind.layout) h1 Field.layouts p).bind fun h2 =>
      for_each_entry_safe (unref Kind.option_group) h2 Field.option_groups p
    else none

/-- The function `rxkb_object_destroy`: the callback if there is one,
`list_remove(&object->link)`, `free(object)`. -/
def rxkb_object_destroy (unref : Kind → Heap → Nat → Option Heap)
    (h : Heap) (object : Nat) : Option Heap :=
  match h.objs object with
  | none => none
  | some ob =>
    (match ob.base.destroy with
     | none => some h
     | some f => call_destroy unref f h object).bind fun h1 =>
    (list_remove h1.ok h1.links (ListRef.link object)).bind fun lk =>
    some (free (h1.set_links lk) object)

/-- The function `rxkb_object_unref`: `assert(object->refcount >= 1)`,
`--object->refcount`, destroy at zero, return `NULL`.  The first argument
bounds the nesting of destroy callbacks. -/
def rxkb_object_unref : Nat → Heap → Nat → Option (Heap × Ptr)
  | 0, _, _ => none
  | d + 1, h, object =>
    match h.objs object with
    | none => none
    | some ob =>
      if 1 ≤ ob.base.refcount then
        let h1 := h.set_obj object (some (ob.set_refcount (ob.base.refcount - 1)))
        if ob.base.refcount - 1 = 0 then
          (rxkb_object_destroy
            (fun k hh v =>
              if hh.is_kind k v then (rxkb_object_unref d hh v).map Prod.fst
              else none)
            h1 object).map (fun h2 => (h2, NULL))
        else some (h1, NULL)
      else none

/-- Callbacks nest three deep: a context destroys layouts and option groups,
which destroy variants and options. -/
def destroy_depth : Nat := 3

/-- The helper `type_##_ref`: `rxkb_object_ref(&object->base); return object;`. -/
def T_ref (k : Kind) (h : Heap) (object : Ptr) : Option (Heap × Ptr) :=
  match object with
  | none => none
  | some o =>
    if h.is_kind k o then (rxkb_object_ref h o).map (fun r => (r.1, object))
    else none

/-- The helper `type_##_unref`:
`if (!object) return NULL; return rxkb_object_unref(&object->base);`. -/
def T_unref (k : Kind) (h : Heap) (object : Ptr) : Option (Heap × Ptr) :=
  match object with
  | none => some (h, NULL)
  | some o =>
    if h.is_kind k o then rxkb_object_unref destroy_depth h o else none

/-- The callback each `type_##_create` installs. -/
def Kind.destroy : Kind → destroy_func_t
  | Kind.context => destroy_func_t.rxkb_context_destroy
  | Kind.model => destroy_func_t.rxkb_model_destroy
  | Kind.layout => destroy_func_t.rxkb_layout_destroy
  | Kind.variant => destroy_func_t.rxkb_variant_destroy
  | Kind.option_group => destroy_func_t.rxkb_option_group_destroy
  | Kind.option => destroy_func_t.rxkb_option_destroy

/-- The helper `type_##_create`: `calloc`, then `rxkb_object_init` with the
parent and the destroy callback of the type. -/
def T_create (k : Kind) (h : Heap) (parent : Ptr) : Option (Heap × Nat) :=
  let r := calloc h k
  (rxkb_object_init r.1 r.2 parent (some k.destroy)).map (fun h1 => (h1, r.2))

/-! ## Iteration (`DECLARE_FIRST_NEXT_FOR_TYPE`) and getters -/

/-- The accessor `type_##_first`: the first entry of `parent->parent_field_`,
or `NULL` for an empty list. -/
def T_first (f : Field) (h : Heap) (parent : Nat) : Option Ptr :=
  if h.ok (ListRef.head f parent) then
    if !list_empty h.links (ListRef.head f parent) then
      (list_first_entry h.links (ListRef.head f parent)).map some
    else some NULL
  else none

/-- The accessor `type_##_next`: the entry after `o`, or `NULL` when `o` is the
last one of its parent's list (`list_is_last` against the parent's head). -/
def T_next (k : Kind) (f : Field) (h : Heap) (o : Nat) : Option Ptr :=
  match h.objs o with
  | none => none
  | some ob =>
    if ob.kind = k then
      match ob.base.parent with
      | some parent =>
        if list_is_last h.links (ListRef.head f parent) (ListRef.link o) then
          some NULL
        else (list_first_entry h.links (ListRef.link o)).map some
      | none => (list_first_entry h.links (ListRef.link o)).map some
    else none

/-- The six instances of `DECLARE_HELPERS_FOR_TYPE`. -/
def rxkb_context_ref := T_ref Kind.context
def rxkb_context_unref := T_unref Kind.context
def rxkb_context_create := T_create Kind.context
def rxkb_model_ref := T_ref Kind.model
def rxkb_model_unref := T_unref Kind.model
def rxkb_model_create := T_create Kind.model
def rxkb_layout_ref := T_ref Kind.layout
def rxkb_layout_unref := T_unref Kind.layout
def rxkb_layout_create := T_create Kind.layout
def rxkb_variant_ref := T_ref Kind.variant
def rxkb_variant_unref := T_unref Kind.variant
def rxkb_variant_create := T_create Kind.variant
def rxkb_option_group_ref := T_ref Kind.option_group
def rxkb_option_group_unref := T_unref Kind.option_group
def rxkb_option_group_create := T_create Kind.option_group
def rxkb_option_ref := T_ref Kind.option
def rxkb_option_unref := T_unref Kind.option
def rxkb_option_create := T_create Kind.option

/-- The five instances of `DECLARE_FIRST_NEXT_FOR_TYPE`. -/
def rxkb_model_first := T_first Field.models
def rxkb_model_next := T_next Kind.model Field.models
def rxkb_layout_first := T_first Field.layouts
def rxkb_layout_next := T_next Kind.layout Field.layouts
def rxkb_option_group_first := T_first Field.option_groups
def rxkb_option_group_next := T_next Kind.option_group Field.option_groups
def rxkb_variant_first := T_first Field.variants
def rxkb_variant_next := T_next Kind.variant Field.variants
def rxkb_option_first := T_first Field.options
def rxkb_option_next := T_next Kind.option Field.options

/-- The instances of `DECLARE_GETTER_FOR_TYPE`: `return object->field_`. -/
def rxkb_model_get_name (h : Heap) (m : Nat) : Option (Option String) :=
  match h.objs m with
  | some (Obj.model x) => some x.name
  | _ => none

def rxkb_model_get_vendor (h : Heap) (m : Nat) : Option (Option String) :=
  match h.objs m with
  | some (Obj.model x) => some x.vendor
  | _ => none

def rxkb_model_get_description (h : Heap) (m : Nat) : Option (Option String) :=
  match h.objs m with
  | some (Obj.model x) => some x.description
  | _ => none

def rxkb_layout_get_name (h : Heap) (l : Nat) : Option (Option String) :=
  match h.objs l with
  | some (Obj.layout x) => some x.name
  | _ => none

def rxkb_layout_get_brief (h : Heap) (l : Nat) : Option (Option String) :=
  match h.objs l with
  | some (Obj.layout x) => some x.brief
  | _ => none

def rxkb_layout_get_description (h : Heap) (l : Nat) : Option (Option String) :=
  match h.objs l with
  | some (Obj.layout x) => some x.description
  | _ => none

def rxkb_variant_get_name (h : Heap) (v : Nat) : Option (Option String) :=
  match h.objs v with
  | some (Obj.variant x) => some x.name
  | _ => none

def rxkb_variant_get_brief (h : Heap) (v : Nat) : Option (Option String) :=
  match h.objs v with
  | some (Obj.variant x) => some x.brief
  | _ => none

def rxkb_variant_get_description (h : Heap) (v : Nat) : Option (Option String) :=
  match h.objs v with
  | some (Obj.variant x) => some x.description
  | _ => none

def rxkb_option_group_get_name (h : Heap) (g : Nat) : Option (Option String) :=
  match h.objs g with
  | some (Obj.option_group x) => some x.name
  | _ => none

def rxkb_option_group_get_description (h : Heap) (g : Nat) :
    Option (Option String) :=
  match h.objs g with
  | some (Obj.option_group x) => some x.description
  | _ => none

def rxkb_option_get_name (h : Heap) (o : Nat) : Option (Option String) :=
  match h.objs o with
  | some (Obj.option x) => some x.name
  | _ => none

def rxkb_option_get_brief (h : Heap) (o : Nat) : Option (Option String) :=
  match h.objs o with
  | some (Obj.option x) => some x.brief
  | _ => none

def rxkb_option_get_description (h : Heap) (o : Nat) : Option (Option String) :=
  match h.objs o with
  | some (Obj.option x) => some x.description
  | _ => none

/-- The function `rxkb_option_group_allows_multiple`:
`return g->allow_multiple`. -/
def rxkb_option_group_allows_multiple (h : Heap) (g : Nat) : Option Bool :=
  match h.objs g with
  | some (Obj.option_group x) => some x.allow_multiple
  | _ => none

/-! ## The element tree handed over by libxml2 -/

/-- The node types the parser tells apart; everything that is neither an
element nor a text node (comments, CDATA sections, ...) is `XML_OTHER_NODE`. -/
inductive xmlElementType
  | XML_ELEMENT_NODE
  | XML_TEXT_NODE
  | XML_OTHER_NODE
deriving DecidableEq, Repr

/-- A node of the tree: `type`, `name`, `content` (nullable), the attributes
and the children in document order (`children` / `next`). -/
inductive xmlNode
  | mk (type : xmlElementType) (name : String) (content : Option String)
       (properties : List (String × String)) (children : List xmlNode)

def xmlNode.type : xmlNode → xmlElementType
  | xmlNode.mk t _ _ _ _ => t

def xmlNode.name : xmlNode → String
  | xmlNode.mk _ n _ _ _ => n

def xmlNode.content : xmlNode → Option String
  | xmlNode.mk _ _ c _ _ => c

def xmlNode.properties : xmlNode → List (String × String)
  | xmlNode.mk _ _ _ p _ => p

def xmlNode.children : xmlNode → List xmlNode
  | xmlNode.mk _ _ _ _ cs => cs

/-- An element node. -/
def xmlNode.element (name : String) (properties : List (String × String))
    (children : List xmlNode) : xmlNode :=
  xmlNode.mk xmlElementType.XML_ELEMENT_NODE name none properties children

/-- A text node. -/
def xmlNode.text (content : String) : xmlNode :=
  xmlNode.mk xmlElementType.XML_TEXT_NODE "text" (some content) [] []

/-- The libxml2 call `xmlGetProp`: the value of the attribute, `NULL` if the
node has none of that name. -/
def xmlGetProp (node : xmlNode) (name : String) : Option String :=
  match node.properties.find? (fun p => p.1 = name) with
  | some p => some p.2
  | none => none

/-- The function `is_node`: an element node of the given name. -/
def is_node (node : xmlNode) (name : String) : Bool :=
  node.type = xmlElementType.XML_ELEMENT_NODE && node.name = name

/-- The loop of `extract_text`. -/
def extract_text_loop : List xmlNode → Option String
  | [] => none
  | n :: rest =>
    if n.type = xmlElementType.XML_TEXT_NODE then n.content
    else extract_text_loop rest

/-- The function `extract_text`: a copy of the content of the first text node
among the children, `NULL` if there is none. -/
def extract_text (node : xmlNode) : Option String :=
  extract_text_loop node.children

/-- The three out-parameters of `parse_config_item`. -/
structure config_item where
  name : Option String
  description : Option String
  brief_or_vendor : Option String
deriving DecidableEq, Repr

/-- The body of the inner loop of `parse_config_item`: a `name`, a
`description`, or a `shortDescription`/`vendor` child overwrites its
out-parameter with its text. -/
def parse_config_item_child (node : xmlNode) (ci : config_item) : config_item :=
  if is_node node "name" then
    { ci with name := extract_text node }
  else if is_node node "description" then
    { ci with description := extract_text node }
  else if is_node node "shortDescription" || is_node node "vendor" then
    { ci with brief_or_vendor := extract_text node }
  else ci

/-- The inner loop of `parse_config_item`, over the children of the
`configItem`. -/
def parse_config_item_fields : List xmlNode → config_item → config_item
  | [], ci => ci
  | node :: rest, ci =>
    parse_config_item_fields rest (parse_config_item_child node ci)

/-- The outer loop of `parse_config_item`: the first `configItem` child decides;
`none` is the result `false`. -/
def parse_config_item_loop : List xmlNode → Option config_item
  | [] => none
  | ci :: rest =>
    if is_node ci "configItem" then
      some (parse_config_item_fields ci.children
              { name := none, description := none, brief_or_vendor := none })
    else parse_config_item_loop rest

/-- The function `parse_config_item`. -/
def parse_config_item (parent : xmlNode) : Option config_item :=
  parse_config_item_loop parent.children

/-- The loop `for (node = x->children; node; node = node->next) body(node)`. -/
def for_each_child (body : Heap → xmlNode → Option Heap) :
    List xmlNode → Heap → Option Heap
  | [], h => some h
  | node :: rest, h => (body h node).bind (for_each_child body rest)

/-- The append `list_append(&p->f, &o->base.link)` on the heap. -/
def Heap.list_append (h : Heap) (f : Field) (p o : Nat) : Option Heap :=
  (Rxkb.list_append h.ok h.links (ListRef.head f p) (ListRef.link o)).map
    h.set_links

/-- The call `list_remove(&o->base.link)` on the heap. -/
def Heap.list_remove (h : Heap) (o : Nat) : Option Heap :=
  (Rxkb.list_remove h.ok h.links (ListRef.link o)).map h.set_links

/-- The call `list_init(&p->f)` on the heap. -/
def Heap.list_init (h : Heap) (f : Field) (p : Nat) : Option Heap :=
  if h.ok (ListRef.head f p) then
    some (h.set_links (Rxkb.list_init h.links (ListRef.head f p)))
  else none

/-- Stores to the members of a model. -/
def Heap.store_model (h : Heap) (m : Nat) (g : rxkb_model → rxkb_model) :
    Option Heap :=
  match h.objs m with
  | some (Obj.model x) => some (h.set_obj m (some (Obj.model (g x))))
  | _ => none

def Heap.store_layout (h : Heap) (l : Nat) (g : rxkb_layout → rxkb_layout) :
    Option Heap :=
  match h.objs l with
  | some (Obj.layout x) => some (h.set_obj l (some (Obj.layout (g x))))
  | _ => none

def Heap.store_variant (h : Heap) (v : Nat) (g : rxkb_variant → rxkb_variant) :
    Option Heap :=
  match h.objs v with
  | some (Obj.variant x) => some (h.set_obj v (some (Obj.variant (g x))))
  | _ => none

def Heap.store_option_group (h : Heap) (p : Nat)
    (g : rxkb_option_group → rxkb_option_group) : Option Heap :=
  match h.objs p with
  | some (Obj.option_group x) =>
    some (h.set_obj p (some (Obj.option_group (g x))))
  | _ => none

def Heap.store_option (h : Heap) (o : Nat) (g : rxkb_option → rxkb_option) :
    Option Heap :=
  match h.objs o with
  | some (Obj.option x) => some (h.set_obj o (some (Obj.option (g x))))
  | _ => none

def Heap.store_context (h : Heap) (c : Nat) (g : rxkb_context → rxkb_context) :
    Option Heap :=
  match h.objs c with
  | some (Obj.context x) => some (h.set_obj c (some (Obj.context (g x))))
  | _ => none

/-! ## The grammar parser -/

/-- The function `parse_model`. -/
def parse_model (h : Heap) (ctx : Nat) (model : xmlNode) : Option Heap :=
  match parse_config_item model with
  | some ci =>
    (rxkb_model_create h (some ctx)).bind fun r =>
    (r.1.store_model r.2 (fun m =>
      { m with name := ci.name, description := ci.description,
               vendor := ci.brief_or_vendor })).bind fun h1 =>
    h1.list_append Field.models ctx r.2
  | none => some h

/-- The function `parse_model_list`. -/
def parse_model_list (h : Heap) (ctx : Nat) (model_list : xmlNode) :
    Option Heap :=
  for_each_child
    (fun hh node => if is_node node "model" then parse_model hh ctx node
                    else some hh)
    model_list.children h

/-- The function `parse_variant`. -/
def parse_variant (h : Heap) (l : Nat) (variant : xmlNode) : Option Heap :=
  match parse_config_item variant with
  | some ci =>
    (rxkb_variant_create h (some l)).bind fun r =>
    (r.1.store_variant r.2 (fun v =>
      { v with name := ci.name, description := ci.description,
               brief := ci.brief_or_vendor })).bind fun h1 =>
    h1.list_append Field.variants l r.2
  | none => some h

/-- The function `parse_variant_list`. -/
def parse_variant_list (h : Heap) (l : Nat) (variant_list : xmlNode) :
    Option Heap :=
  for_each_child
    (fun hh node => if is_node node "variant" then parse_variant hh l node
                    else some hh)
    variant_list.children h

/-- The last loop of `parse_layout`: the first `variantList` child is parsed and
the loop is left. -/
def parse_layout_loop (l : Nat) : List xmlNode → Heap → Option Heap
  | [], h => some h
  | node :: rest, h =>
    if is_node node "variantList" then parse_variant_list h l node
    else parse_layout_loop l rest h

/-- The function `parse_layout`. -/
def parse_layout (h : Heap) (ctx : Nat) (layout : xmlNode) : Option Heap :=
  match parse_config_item layout with
  | none => some h
  | some ci =>
    (rxkb_layout_create h (some ctx)).bind fun r =>
    (r.1.list_init Field.variants r.2).bind fun h1 =>
    (h1.store_layout r.2 (fun l =>
      { l with name := ci.name, description := ci.description,
               brief := ci.brief_or_vendor })).bind fun h2 =>
    (h2.list_append Field.layouts ctx r.2).bind fun h3 =>
    parse_layout_loop r.2 layout.children h3

/-- The function `parse_layout_list`. -/
def parse_layout_list (h : Heap) (ctx : Nat) (layout_list : xmlNode) :
    Option Heap :=
  for_each_child
    (fun hh node => if is_node node "layout" then parse_layout hh ctx node
                    else some hh)
    layout_list.children h

/-- The function `parse_option`: the brief of the config item is not stored. -/
def parse_option (h : Heap) (group : Nat) (option : xmlNode) : Option Heap :=
  match parse_config_item option with
  | some ci =>
    (rxkb_option_create h (some group)).bind fun r =>
    (r.1.store_option r.2 (fun o =>
      { o with name := ci.name, description := ci.description })).bind fun h1 =>
    h1.list_append Field.options group r.2
  | none => some h

/-- The libxml2 call `xmlStrcmp(a, b)` as a truth value: nonzero, that is true,
when the strings differ. -/
def xmlStrcmp (a b : String) : Bool :=
  a ≠ b

/-- The function `parse_group`. -/
def parse_group (h : Heap) (ctx : Nat) (group : xmlNode) : Option Heap :=
  match parse_config_item group with
  | none => some h
  | some ci =>
    (rxkb_option_group_create h (some ctx)).bind fun r =>
    (r.1.store_option_group r.2 (fun g =>
      { g with name := ci.name, description := ci.description })).bind fun h1 =>
    (match xmlGetProp group "allowMultipleSelection" with
     | some multiple =>
       if xmlStrcmp multiple "true" then
         h1.store_option_group r.2 (fun g => { g with allow_multiple := true })
       else some h1
     | none => some h1).bind fun h2 =>
    (h2.list_init Field.options r.2).bind fun h3 =>
    (h3.list_append Field.option_groups ctx r.2).bind fun h4 =>
    for_each_child
      (fun hh node => if is_node node "option" then parse_option hh r.2 node
                      else some hh)
      group.children h4

/-- The function `parse_option_list`. -/
def parse_option_list (h : Heap) (ctx : Nat) (option_list : xmlNode) :
    Option Heap :=
  for_each_child
    (fun hh node => if is_node node "group" then parse_group hh ctx node
                    else some hh)
    option_list.children h

/-- The function `parse_rules_xml`. -/
def parse_rules_xml (h : Heap) (ctx : Nat) (root : xmlNode) : Option Heap :=
  for_each_child
    (fun hh node =>
      if is_node node "modelList" then parse_model_list hh ctx node
      else if is_node node "layoutList" then parse_layout_list hh ctx node
      else if is_node node "optionList" then parse_option_list hh ctx node
      else some hh)
    root.children h

/-! ## The environment: files, directories, variables, build configuration -/

/-- What the library asks of the outside world.  `stat` is `none` when the call
fails and tells otherwise whether the path is a directory; `eaccess` is the
result of the `R_OK | X_OK` test; `xmlReadFile` yields the root element of a
document that parses.  `DFLT_XKB_CONFIG_ROOT`, `HAVE_ACCESS_CHECK` (one of
`HAVE_EACCESS`, `HAVE_EUIDACCESS` is defined) and `PATH_MAX` come from headers
that are not among the sources. -/
structure World where
  secure_getenv : String → Option String
  stat : String → Option Bool
  eaccess : String → Bool
  xmlReadFile : String → Option xmlNode
  DFLT_XKB_CONFIG_ROOT : String
  HAVE_ACCESS_CHECK : Bool
  PATH_MAX : Nat

/-- The function `parse`: `false` when the file is no XML document, otherwise
the walk of the root element and `true`. -/
def parse (w : World) (h : Heap) (ctx : Nat) (path : String) :
    Option (Heap × Bool) :=
  match w.xmlReadFile path with
  | none => some (h, false)
  | some root => (parse_rules_xml h ctx root).map (fun h1 => (h1, true))

/-- The call `snprintf(rules, PATH_MAX, "%s/rules/%s.xml", path, ruleset)`: the
text, cut to fit the buffer with its terminator.  A `String` stands for a C
string, one `Char` for one `char`. -/
def rules_path (w : World) (path ruleset : String) : String :=
  String.mk ((path ++ "/rules/" ++ ruleset ++ ".xml").data.take (w.PATH_MAX - 1))

/-- The loop of `rxkb_context_parse` over the include paths. -/
def rxkb_context_parse_loop (w : World) (ctx : Nat) (ruleset : String) :
    List String → Heap → Bool → Option (Heap × Bool)
  | [], h, success => some (h, success)
  | path :: rest, h, _ =>
    (parse w h ctx (rules_path w path ruleset)).bind fun r =>
    if r.2 then some r else rxkb_context_parse_loop w ctx ruleset rest r.1 r.2

/-- The function `rxkb_context_parse`. -/
def rxkb_context_parse (w : World) (h : Heap) (ctx : Nat) (ruleset : String) :
    Option (Heap × Bool) :=
  match h.objs ctx with
  | some (Obj.context c) =>
    rxkb_context_parse_loop w ctx ruleset c.includes h false
  | _ => none

/-- The function `rxkb_context_parse_default_ruleset`. -/
def rxkb_context_parse_default_ruleset (w : World) (h : Heap) (ctx : Nat) :
    Option (Heap × Bool) :=
  rxkb_context_parse w h ctx "evdev"

/-- The function `rxkb_context_set_user_data`: `ctx->userdata = userdata`.  The
pointer is a number the library never looks at. -/
def rxkb_context_set_user_data (h : Heap) (ctx : Nat) (userdata : Nat) : Option Heap :=
  h.store_context ctx (fun c => { c with userdata := userdata })

/-- The function `rxkb_context_get_user_data`: `return ctx->userdata`. -/
def rxkb_context_get_user_data (h : Heap) (ctx : Nat) : Option Nat :=
  match h.objs ctx with
  | some (Obj.context c) => some c.userdata
  | _ => none

/-- The function `rxkb_context_include_path_append`. -/
def rxkb_context_include_path_append (w : World) (h : Heap) (ctx : Nat)
    (path : String) : Option (Heap × Bool) :=
  match w.stat path with
  | none => some (h, false)
  | some isdir =>
    if !isdir then some (h, false)
    else if w.HAVE_ACCESS_CHECK && !w.eaccess path then some (h, false)
    else
      (h.store_context ctx (fun c =>
        { c with includes := c.includes ++ [path] })).map (fun h1 => (h1, true))

/-- The function `rxkb_context_include_path_append_default`. -/
def rxkb_context_include_path_append_default (w : World) (h : Heap)
    (ctx : Nat) : Option (Heap × Bool) :=
  let home := w.secure_getenv "HOME"
  let xdg := w.secure_getenv "XDG_CONFIG_HOME"
  (match xdg with
   | some x => rxkb_context_include_path_append w h ctx (x ++ "/xkb")
   | none =>
     match home with
     | some hm => rxkb_context_include_path_append w h ctx (hm ++ "/.config/xkb")
     | none => some (h, false)).bind fun r1 =>
  (match home with
   | some hm =>
     (rxkb_context_include_path_append w r1.1 ctx (hm ++ "/.xkb")).map
       (fun (r : Heap × Bool) => (r.1, r1.2 || r.2))
   | none => some r1).bind fun r2 =>
  (match w.secure_getenv "XKB_CONFIG_ROOT" with
   | some root => rxkb_context_include_path_append w r2.1 ctx root
   | none =>
     rxkb_context_include_path_append w r2.1 ctx w.DFLT_XKB_CONFIG_ROOT).map
    (fun (r : Heap × Bool) => (r.1, r2.2 || r.2))

/-- The flags of `enum rxkb_context_flags`. -/
def RXKB_CONTEXT_NO_FLAGS : Nat := 0

def RXKB_CONTEXT_NO_DEFAULT_INCLUDES : Nat := 1

/-- The function `rxkb_context_new`: `NULL` when the default include paths are
asked for and none of them is usable. -/
def rxkb_context_new (w : World) (h : Heap) (flags : Nat) :
    Option (Heap × Ptr) :=
  (rxkb_context_create h NULL).bind fun r =>
  (r.1.list_init Field.models r.2).bind fun h1 =>
  (h1.list_init Field.layouts r.2).bind fun h2 =>
  (h2.list_init Field.option_groups r.2).bind fun h3 =>
  if flags &&& RXKB_CONTEXT_NO_DEFAULT_INCLUDES = 0 then
    (rxkb_context_include_path_append_default w h3 r.2).bind fun a =>
    if !a.2 then (rxkb_context_unref a.1 (some r.2)).map (fun u => (u.1, NULL))
    else some (a.1, some r.2)
  else some (h3, some r.2)

/-- The loop of examples/list-all.c: `o = first; while (o) { ...; o = next(o); }`,
collecting the entries it visits.  It gives up after `fuel` entries. -/
def collect (next : Heap → Nat → Option Ptr) (h : Heap) :
    Nat → Ptr → Option (List Nat)
  | 0, _ => none
  | _ + 1, none => some []
  | fuel + 1, some o =>
    (next h o).bind fun n => (collect next h fuel n).map (fun l => o :: l)

/-- All entries of a collection, by first/next. -/
def entries (k : Kind) (f : Field) (h : Heap) (parent : Nat) :
    Option (List Nat) :=
  (T_first f h parent).bind (collect (T_next k f) h (h.brk + 1))

/-! ## Well-formed lists and collections (predicates) -/

/-- The cells `cs` are linked in this order between `a` and `b`, forwards by
`next` and backwards by `prev`. -/
def Linked (lk : Links) : ListRef → List ListRef → ListRef → Prop
  | a, [], b => (lk a).next = some b ∧ (lk b).prev = some a
  | a, c :: cs, b => (lk a).next = some c ∧ (lk c).prev = some a ∧ Linked lk c cs b

/-- The last cell of `a :: cs`. -/
def last_of : ListRef → List ListRef → ListRef
  | a, [] => a
  | _, c :: cs => last_of c cs

/-- The first cell of `cs ++ [b]`. -/
def first_of : List ListRef → ListRef → ListRef
  | [], b => b
  | c :: _, _ => c

/-- The list with sentinel `head` holds exactly the cells `cells`, in order. -/
def IsList (lk : Links) (head : ListRef) (cells : List ListRef) : Prop :=
  Linked lk head cells head ∧ (head :: cells).Nodup

/-- The type of the entries of each collection. -/
def Field.child_kind : Field → Kind
  | Field.models => Kind.model
  | Field.layouts => Kind.layout
  | Field.option_groups => Kind.option_group
  | Field.variants => Kind.variant
  | Field.options => Kind.option

/-- No object lives at or beyond the next fresh address. -/
def Heap.bounded (h : Heap) : Prop :=
  ∀ o, h.brk ≤ o → h.objs o = none

/-- The object at `o` is allocated, has the entry type of the collection `f`
and has `p` as its parent. -/
def Member (h : Heap) (f : Field) (p o : Nat) : Prop :=
  ∃ ob, h.objs o = some ob ∧ ob.kind = f.child_kind ∧ ob.base.parent = some p

/-- The collection `p->f` is a well-formed list of the objects `ids`, in this
order. -/
def ListOf (h : Heap) (f : Field) (p : Nat) (ids : List Nat) : Prop :=
  IsList h.links (ListRef.head f p) (ids.map ListRef.link) ∧
  h.ok (ListRef.head f p) = true ∧ ∀ o ∈ ids, Member h f p o

/-- The list cells after `type_##_create`: the `base.link` cell of the new
object is an empty list, its list-head cells are zeroed. -/
def Heap.new_links (h : Heap) : Links :=
  fun r =>
    match r with
    | ListRef.link o =>
      if o = h.brk then
        { prev := some (ListRef.link h.brk), next := some (ListRef.link h.brk) }
      else h.links r
    | ListRef.head _ p =>
      if p = h.brk then { prev := none, next := none } else h.links r

/-- The heap after `type_##_create`: the object `ob` at the fresh address. -/
def Heap.with_new (h : Heap) (ob : Obj) : Heap :=
  { objs := fun x => if x = h.brk then some ob else h.objs x,
    links := h.new_links,
    brk := h.brk + 1 }

/-- The base `rxkb_object_init` leaves in an object of type `k`. -/
def Kind.init_base (k : Kind) (parent : Ptr) : rxkb_object :=
  { parent := parent, refcount := 1, destroy := some k.destroy }

/-- The heap `h2` extends `h`: addresses allocated in `h` keep their objects,
and every collection outside `T` is as it was. -/
structure Ext (h h2 : Heap) (T : Field → Nat → Prop) : Prop where
  brk_le : h.brk ≤ h2.brk
  objs_eq : ∀ o, o < h.brk → h2.objs o = h.objs o
  bounded : h2.bounded
  lists : ∀ g q l, ¬ T g q → ListOf h g q l → ListOf h2 g q l
  ctx_link : ∀ o, o < h.brk → h.is_kind Kind.context o = true →
    h2.links (ListRef.link o) = h.links (ListRef.link o)

/-! ## What a caller reads back through the getters -/

/-- The three strings `rxkb_model_get_name`, `_get_description`, `_get_vendor`
return for a model. -/
def model_view (h : Heap) (m : Nat) : Option config_item :=
  (rxkb_model_get_name h m).bind fun n =>
  (rxkb_model_get_description h m).bind fun d =>
  (rxkb_model_get_vendor h m).map fun v =>
    { name := n, description := d, brief_or_vendor := v }

/-- The three strings the getters return for a layout. -/
def layout_item_view (h : Heap) (l : Nat) : Option config_item :=
  (rxkb_layout_get_name h l).bind fun n =>
  (rxkb_layout_get_description h l).bind fun d =>
  (rxkb_layout_get_brief h l).map fun v =>
    { name := n, description := d, brief_or_vendor := v }

/-- The three strings the getters return for a variant. -/
def variant_view (h : Heap) (v : Nat) : Option config_item :=
  (rxkb_variant_get_name h v).bind fun n =>
  (rxkb_variant_get_description h v).bind fun d =>
  (rxkb_variant_get_brief h v).map fun b =>
    { name := n, description := d, brief_or_vendor := b }

/-- The three strings the getters return for an option. -/
def option_view (h : Heap) (o : Nat) : Option config_item :=
  (rxkb_option_get_name h o).bind fun n =>
  (rxkb_option_get_description h o).bind fun d =>
  (rxkb_option_get_brief h o).map fun b =>
    { name := n, description := d, brief_or_vendor := b }

/-- What the getters return for an option group. -/
structure group_item where
  name : Option String
  description : Option String
  allows_multiple : Bool
deriving DecidableEq, Repr

/-- The two strings and the flag the getters return for an option group. -/
def group_item_view (h : Heap) (g : Nat) : Option group_item :=
  (rxkb_option_group_get_name h g).bind fun n =>
  (rxkb_option_group_get_description h g).bind fun d =>
  (rxkb_option_group_allows_multiple h g).map fun a =>
    { name := n, description := d, allows_multiple := a }

/-- A layout as a caller sees it: its strings and those of its variants. -/
structure layout_data where
  item : config_item
  variants : List config_item
deriving DecidableEq, Repr

/-- An option group as a caller sees it: its strings, its flag, and the strings
of its options. -/
structure group_data where
  item : group_item
  options : List config_item
deriving DecidableEq, Repr

/-- Reading each entry of a walk with `view`. -/
def read_all {α : Type} (view : Heap → Nat → Option α) (h : Heap) :
    List Nat → Option (List α)
  | [] => some []
  | o :: rest =>
    (view h o).bind fun x => (read_all view h rest).map fun xs => x :: xs

/-- The collection `p->f`, walked by first/next, each entry read by `view`. -/
def collection_view {α : Type} (view : Heap → Nat → Option α) (k : Kind)
    (f : Field) (h : Heap) (p : Nat) : Option (List α) :=
  (entries k f h p).bind (read_all view h)

/-- The models of a context, as examples/list-all.c prints them. -/
def models_view (h : Heap) (ctx : Nat) : Option (List config_item) :=
  collection_view model_view Kind.model Field.models h ctx

/-- A layout with its variants, as examples/list-all.c prints them. -/
def layout_view (h : Heap) (l : Nat) : Option layout_data :=
  (layout_item_view h l).bind fun i =>
  (collection_view variant_view Kind.variant Field.variants h l).map fun vs =>
    { item := i, variants := vs }

/-- The layouts of a context. -/
def layouts_view (h : Heap) (ctx : Nat) : Option (List layout_data) :=
  collection_view layout_view Kind.layout Field.layouts h ctx

/-- An option group with its options, as examples/list-all.c prints them. -/
def group_view (h : Heap) (g : Nat) : Option group_data :=
  (group_item_view h g).bind fun i =>
  (collection_view option_view Kind.option Field.options h g).map fun os =>
    { item := i, options := os }

/-- The option groups of a context. -/
def groups_view (h : Heap) (ctx : Nat) : Option (List group_data) :=
  collection_view group_view Kind.option_group Field.option_groups h ctx

/-- The collection `p->f` is well formed and its entries are, in order, objects
that `At` relates to the elements of `xs`. -/
def Holds {α : Type} (At : Heap → Nat → α → Prop) (f : Field) (h : Heap)
    (p : Nat) (xs : List α) : Prop :=
  ∃ ids, ListOf h f p ids ∧ List.Forall₂ (At h) ids xs

/-- The object at `o` is allocated, its count is at least 1 and fits a
`uint32_t`, and its destroy callback is the one of its type. -/
def Sound (h : Heap) (o : Nat) : Prop :=
  ∃ ob, h.objs o = some ob ∧ 1 ≤ ob.base.refcount ∧ ob.base.refcount < UINT32_MOD ∧
    ob.base.destroy = some ob.kind.destroy

/-- The object at `ctx` is a sound context whose `base.link` is in no list (an
empty list of its own, as `rxkb_object_init` leaves it). -/
def ContextOK (h : Heap) (ctx : Nat) : Prop :=
  Sound h ctx ∧ h.is_kind Kind.context ctx = true ∧
  h.links (ListRef.link ctx) =
    { prev := some (ListRef.link ctx), next := some (ListRef.link ctx) }

/-- The model at `m` reads as `ci`. -/
def ModelAt (h : Heap) (m : Nat) (ci : config_item) : Prop :=
  model_view h m = some ci ∧ Sound h m

/-- The variant at `v` reads as `ci`. -/
def VariantAt (h : Heap) (v : Nat) (ci : config_item) : Prop :=
  variant_view h v = some ci ∧ Sound h v

/-- The option at `o` reads as `ci`. -/
def OptionAt (h : Heap) (o : Nat) (ci : config_item) : Prop :=
  option_view h o = some ci ∧ Sound h o

/-- The layout at `l` reads as `d.item` and its variants as `d.variants`. -/
def LayoutAt (h : Heap) (l : Nat) (d : layout_data) : Prop :=
  layout_item_view h l = some d.item ∧ Sound h l ∧
  Holds VariantAt Field.variants h l d.variants

/-- The option group at `g` reads as `d.item` and its options as `d.options`. -/
def GroupAt (h : Heap) (g : Nat) (d : group_data) : Prop :=
  group_item_view h g = some d.item ∧ Sound h g ∧
  Holds OptionAt Field.options h g d.options

/-! ## The parser as a function from elements to entities

Pure counterparts of the `parse_*` functions: what each element contributes, in
document order.  The theorems `parse_*_spec` relate them to the functions above.
-/

/-- The models a `modelList` element contributes. -/
def model_list_items (model_list : xmlNode) : List config_item :=
  (model_list.children.filter (fun n => is_node n "model")).filterMap
    parse_config_item

/-- The variants a `variantList` element contributes. -/
def variant_list_items (variant_list : xmlNode) : List config_item :=
  (variant_list.children.filter (fun n => is_node n "variant")).filterMap
    parse_config_item

/-- The variants of a `layout` element: those of its first `variantList`. -/
def layout_variants (layout : xmlNode) : List config_item :=
  match layout.children.find? (fun n => is_node n "variantList") with
  | some vl => variant_list_items vl
  | none => []

/-- The layout a `layout` element contributes, if any. -/
def layout_item (layout : xmlNode) : Option layout_data :=
  (parse_config_item layout).map fun ci =>
    { item := ci, variants := layout_variants layout }

/-- The layouts a `layoutList` element contributes. -/
def layout_list_items (layout_list : xmlNode) : List layout_data :=
  (layout_list.children.filter (fun n => is_node n "layout")).filterMap layout_item

/-- The option an `option` element contributes, if any: name and description
only. -/
def option_item (option : xmlNode) : Option config_item :=
  (parse_config_item option).map fun ci =>
    { name := ci.name, description := ci.description, brief_or_vendor := none }

/-- The flag `parse_group` computes from the attribute. -/
def group_flag (group : xmlNode) : Bool :=
  match xmlGetProp group "allowMultipleSelection" with
  | some multiple => xmlStrcmp multiple "true"
  | none => false

/-- The option group a `group` element contributes, if any. -/
def group_data_of (group : xmlNode) : Option group_data :=
  (parse_config_item group).map fun ci =>
    { item := { name := ci.name, description := ci.description,
                allows_multiple := group_flag group },
      options := (group.children.filter (fun n => is_node n "option")).filterMap
        option_item }

/-- The option groups an `optionList` element contributes. -/
def option_list_items (option_list : xmlNode) : List group_data :=
  (option_list.children.filter (fun n => is_node n "group")).filterMap
    group_data_of

/-- The models a document contributes: those of every `modelList` child of the
root. -/
def document_models (root : xmlNode) : List config_item :=
  (root.children.filter (fun n => is_node n "modelList")).flatMap model_list_items

/-- The layouts a document contributes. -/
def document_layouts (root : xmlNode) : List layout_data :=
  (root.children.filter (fun n => is_node n "layoutList")).flatMap layout_list_items

/-- The option groups a document contributes. -/
def document_groups (root : xmlNode) : List group_data :=
  (root.children.filter (fun n => is_node n "optionList")).flatMap option_list_items

/-- The three collections of a context read as `ms`, `ls` and `gs`. -/
def Registry (h : Heap) (ctx : Nat) (ms : List config_item)
    (ls : List layout_data) (gs : List group_data) : Prop :=
  h.bounded ∧ Holds ModelAt Field.models h ctx ms ∧
  Holds LayoutAt Field.layouts h ctx ls ∧
  Holds GroupAt Field.option_groups h ctx gs ∧ ContextOK h ctx

/-! ## Vocabulary for the claims about the parser -/

/-- The element has a `configItem` child. -/
def has_config_item (e : xmlNode) : Bool :=
  e.children.any (fun c => is_node c "configItem")

/-- The strings of the first `configItem` child of an element (all `NULL` when
there is none). -/
def config_item_of (e : xmlNode) : config_item :=
  match e.children.find? (fun c => is_node c "configItem") with
  | some ci =>
    parse_config_item_fields ci.children
      { name := none, description := none, brief_or_vendor := none }
  | none => { name := none, description := none, brief_or_vendor := none }

/-- The elements named `name` with a `configItem` child, inside the children
named `list_name` of the root, in document order. -/
def entity_elements (root : xmlNode) (list_name name : String) : List xmlNode :=
  ((root.children.filter (fun n => is_node n list_name)).flatMap
    (fun l => l.children.filter (fun n => is_node n name))).filter has_config_item

/-- What the getters of an option group return for a `group` element. -/
def group_item_of (e : xmlNode) : group_item :=
  { name := (config_item_of e).name, description := (config_item_of e).description,
    allows_multiple := group_flag e }

/-- The document of the end-to-end example: one model `pc104`. -/
def pc104_document : xmlNode :=
  xmlNode.element "xkbConfigRegistry" []
    [xmlNode.element "modelList" []
      [xmlNode.element "model" []
        [xmlNode.element "configItem" []
          [xmlNode.element "name" [] [xmlNode.text "pc104"],
           xmlNode.element "description" [] [xmlNode.text "Generic 104-key PC"]]]]]

/-- A world with one include directory `/d` holding the `pc104` document as
`rules/evdev.xml`, and no environment variables. -/
def pc104_world : World where
  secure_getenv := fun _ => none
  stat := fun p => if p = "/d" then some true else none
  eaccess := fun _ => true
  xmlReadFile := fun p => if p = "/d/rules/evdev.xml" then some pc104_document else none
  DFLT_XKB_CONFIG_ROOT := "/usr/share/X11/xkb"
  HAVE_ACCESS_CHECK := true
  PATH_MAX := 4096

/-- The heap and the address of a context created without default includes in
the empty heap. -/
def fresh_context : Heap × Nat :=
  match rxkb_context_new pc104_world Heap.empty RXKB_CONTEXT_NO_DEFAULT_INCLUDES with
  | some (h, some ctx) => (h, ctx)
  | _ => (Heap.empty, 0)

/-- The top-level getters of the layouts of a context, walked by first/next. -/
def layout_items_view (h : Heap) (ctx : Nat) : Option (List config_item) :=
  collection_view layout_item_view Kind.layout Field.layouts h ctx

/-- The top-level getters of the option groups of a context, walked by
first/next. -/
def group_items_view (h : Heap) (ctx : Nat) : Option (List group_item) :=
  collection_view group_item_view Kind.option_group Field.option_groups h ctx

/-- A text-only element `<name>text</name>`. -/
def xmlNode.leaf (name text : String) : xmlNode :=
  xmlNode.element name [] [xmlNode.text text]

/-- A document with every kind of entity: two models of the same name, a model
without `configItem`, a model whose `configItem` has no name, a layout with two
variants, and three option groups (attribute `true`, `false`, absent). -/
def sample_document : xmlNode :=
  xmlNode.element "xkbConfigRegistry" []
    [xmlNode.element "modelList" []
      [xmlNode.element "model" []
        [xmlNode.element "configItem" []
          [xmlNode.leaf "name" "pc104", xmlNode.leaf "description" "Generic 104-key PC",
           xmlNode.leaf "vendor" "Generic"]],
       xmlNode.element "model" [] [xmlNode.leaf "name" "stray"],
       xmlNode.element "model" []
        [xmlNode.element "configItem" []
          [xmlNode.leaf "description" "Nameless", xmlNode.leaf "vendor" "Acme"]],
       xmlNode.element "model" []
        [xmlNode.element "configItem" []
          [xmlNode.leaf "name" "pc104", xmlNode.leaf "description" "Again"]]],
     xmlNode.element "layoutList" []
      [xmlNode.element "layout" []
        [xmlNode.element "configItem" []
          [xmlNode.leaf "name" "us", xmlNode.leaf "shortDescription" "en",
           xmlNode.leaf "description" "English (US)"],
         xmlNode.element "variantList" []
          [xmlNode.element "variant" []
            [xmlNode.element "configItem" []
              [xmlNode.leaf "name" "intl", xmlNode.leaf "description" "International"]],
           xmlNode.element "variant" []
            [xmlNode.element "configItem" [] [xmlNode.leaf "name" "dvorak"]]]]],
     xmlNode.element "optionList" []
      [xmlNode.element "group" [("allowMultipleSelection", "true")]
        [xmlNode.element "configItem" []
          [xmlNode.leaf "name" "grp", xmlNode.leaf "description" "Switching"],
         xmlNode.element "option" []
          [xmlNode.element "configItem" []
            [xmlNode.leaf "name" "grp:toggle", xmlNode.leaf "shortDescription" "tg",
             xmlNode.leaf "description" "Right Alt"]]],
       xmlNode.element "group" [("allowMultipleSelection", "false")]
        [xmlNode.element "configItem" [] [xmlNode.leaf "name" "caps"]],
       xmlNode.element "group" []
        [xmlNode.element "configItem" [] [xmlNode.leaf "name" "lv3"]]]]

/-- A world with one include directory `/s` holding the sample document as
`rules/evdev.xml`, and no environment variables. -/
def sample_world : World where
  secure_getenv := fun _ => none
  stat := fun p => if p = "/s" then some true else none
  eaccess := fun _ => true
  xmlReadFile := fun p => if p = "/s/rules/evdev.xml" then some sample_document else none
  DFLT_XKB_CONFIG_ROOT := "/usr/share/X11/xkb"
  HAVE_ACCESS_CHECK := true
  PATH_MAX := 4096

/-- The heap after the sample document was parsed into a fresh context (at
address 0). -/
def sample_heap : Heap :=
  match parse_rules_xml fresh_context.1 fresh_context.2 sample_document with
  | some h => h
  | none => Heap.empty

/-- Appending the objects `es`, in this order, to the collection `p->f`. -/
def append_all (f : Field) (p : Nat) : List Nat → Heap → Option Heap
  | [], h => some h
  | e :: es, h => (h.list_append f p e).bind (append_all f p es)

/-- The result of `n` applications of `next` to a pointer; `next` of `NULL` is a
fault. -/
def iterate_next (next : Heap → Nat → Option Ptr) (h : Heap) : Nat → Ptr → Option Ptr
  | 0, x => some x
  | _ + 1, none => none
  | n + 1, some o => (next h o).bind (iterate_next next h n)

/-- The first `configItem` child of an element. -/
def first_config_item (e : xmlNode) : Option xmlNode :=
  e.children.find? (fun c => is_node c "configItem")

/-- The test of the last branch of `parse_config_item`: a `shortDescription` or
a `vendor` element. -/
def is_brief_or_vendor (c : xmlNode) : Bool :=
  is_node c "shortDescription" || is_node c "vendor"

/-- A `group` element with a `configItem` and the attribute
`allowMultipleSelection="true"`. -/
def true_group : xmlNode :=
  xmlNode.element "group" [("allowMultipleSelection", "true")]
    [xmlNode.element "configItem" [] [xmlNode.leaf "name" "grp"]]

/-- A `group` element with a `configItem` and no attribute. -/
def plain_group : xmlNode :=
  xmlNode.element "group" []
    [xmlNode.element "configItem" [] [xmlNode.leaf "name" "lv3"]]

/-- A `model` element whose `configItem` has a description and a vendor, but no
name. -/
def nameless_model : xmlNode :=
  xmlNode.element "model" []
    [xmlNode.element "configItem" []
      [xmlNode.leaf "description" "Nameless", xmlNode.leaf "vendor" "Acme"]]

/-- A document whose only model is the nameless one. -/
def nameless_document : xmlNode :=
  xmlNode.element "xkbConfigRegistry" []
    [xmlNode.element "modelList" [] [nameless_model]]

/-- The count of the object at `o`, if it is allocated. -/
def refcount_of (h : Heap) (o : Nat) : Option Nat :=
  (h.objs o).map (fun ob => ob.base.refcount)

/-- The types without a list head: their destroy callbacks only free strings. -/
def Kind.is_leaf : Kind → Bool
  | Kind.model => true
  | Kind.variant => true
  | Kind.option => true
  | _ => false

/-- What an unref of the object `c` of the collection `p->f` leaves alone: the
objects other than `c` and its children, the collections other than `p->f` and
those of `c`, and the `base.link` cells of contexts. -/
structure FrameU (h h2 : Heap) (f : Field) (p c : Nat) : Prop where
  brk_eq : h2.brk = h.brk
  bounded : h2.bounded
  objs_eq : ∀ o, o ≠ c → (∀ g, ¬ Member h g c o) → h2.objs o = h.objs o
  lists : ∀ g q l, (g, q) ≠ (f, p) → q ≠ c → ListOf h g q l → ListOf h2 g q l
  ctx_link : ∀ x, h.is_kind Kind.context x = true →
    h2.links (ListRef.link x) = h.links (ListRef.link x)

/-- The helper `type_##_unref` as the destroy callbacks call it, with the
nesting bound `d`. -/
def unref_at (d : Nat) (k : Kind) (h : Heap) (v : Nat) : Option Heap :=
  if h.is_kind k v then (rxkb_object_unref d h v).map Prod.fst else none

/-- The collection `c->fc` is well formed and its entries are sound objects. -/
def SoundLeaves (h : Heap) (fc : Field) (c : Nat) : Prop :=
  ∃ ids, ListOf h fc c ids ∧ ∀ v ∈ ids, Sound h v

/-- The collection `ctx->f` is well formed, its entries are sound objects, and
the collection `fc` of each entry is well formed with sound entries. -/
def SoundMids (h : Heap) (f : Field) (ctx : Nat) (fc : Field) : Prop :=
  ∃ ids, ListOf h f ctx ids ∧ ∀ l ∈ ids, Sound h l ∧ SoundLeaves h fc l

/-- While a context is being destroyed: it is still allocated as `ob`, and its
`base.link` is in no list. -/
def CtxAlive (h : Heap) (ctx : Nat) (ob : Obj) : Prop :=
  h.bounded ∧ h.objs ctx = some ob ∧ ob.kind = Kind.context ∧
  h.links (ListRef.link ctx) =
    { prev := some (ListRef.link ctx), next := some (ListRef.link ctx) }

/-- The object `o` is the context `ctx` or one of the entities a caller reaches
from it by first/next: a model, a layout, an option group, a variant of one of
the layouts, or an option of one of the groups. -/
def InRegistry (h : Heap) (ctx o : Nat) : Prop :=
  o = ctx ∨
  (∃ ids, entries Kind.model Field.models h ctx = some ids ∧ o ∈ ids) ∨
  (∃ ids, entries Kind.layout Field.layouts h ctx = some ids ∧ o ∈ ids) ∨
  (∃ ids, entries Kind.option_group Field.option_groups h ctx = some ids ∧ o ∈ ids) ∨
  (∃ ids l vs, entries Kind.layout Field.layouts h ctx = some ids ∧ l ∈ ids ∧
    entries Kind.variant Field.variants h l = some vs ∧ o ∈ vs) ∨
  (∃ ids g os, entries Kind.option_group Field.option_groups h ctx = some ids ∧
    g ∈ ids ∧ entries Kind.option Field.options h g = some os ∧ o ∈ os)

/-- The sample heap with the count of the context raised to the largest
`uint32_t`, as 4294967294 calls of `rxkb_context_ref` leave it. -/
def saturated_heap : Heap :=
  match sample_heap.objs 0 with
  | some ob => sample_heap.set_obj 0 (some (ob.set_refcount 4294967295))
  | none => sample_heap

/-- The sample heap after one `rxkb_model_ref` of its first model (at address
1), whose count is then 2. -/
def shared_heap : Heap :=
  match rxkb_model_ref sample_heap (some 1) with
  | some r => r.1
  | none => sample_heap

/-- The `option` children of a `group` element that have a `configItem` child,
in document order. -/
def option_elements (group : xmlNode) : List xmlNode :=
  (group.children.filter (fun n => is_node n "option")).filter has_config_item

/-- A `group` element with one option, whose `configItem` has the
`shortDescription` "tg". -/
def brief_group : xmlNode :=
  xmlNode.element "group" []
    [xmlNode.element "configItem" [] [xmlNode.leaf "name" "grp"],
     xmlNode.element "option" []
      [xmlNode.element "configItem" []
        [xmlNode.leaf "name" "grp:toggle", xmlNode.leaf "shortDescription" "tg",
         xmlNode.leaf "description" "Right Alt"]]]

/-- The last child of a `configItem` that passes the test `p`. -/
def last_child (p : xmlNode → Bool) (cfg : xmlNode) : Option xmlNode :=
  (cfg.children.filter p).getLast?

/-- The first text node among the children of a node. -/
def first_text (n : xmlNode) : Option xmlNode :=
  n.children.find? (fun t => decide (t.type = xmlElementType.XML_TEXT_NODE))

/-- The content of the first text node of the last child of `cfg` that passes
`p`; `NULL` when there is no such child, or no text node in it. -/
def field_text (p : xmlNode → Bool) (cfg : xmlNode) : Option String :=
  (last_child p cfg).bind fun n => (first_text n).bind xmlNode.content

/-- The three strings of an element, read off its first `configItem` child. -/
def strings_of (e : xmlNode) : config_item :=
  match first_config_item e with
  | some cfg =>
    { name := field_text (fun c => is_node c "name") cfg,
      description := field_text (fun c => is_node c "description") cfg,
      brief_or_vendor := field_text is_brief_or_vendor cfg }
  | none => { name := none, description := none, brief_or_vendor := none }

/-- The `variant` children with a `configItem` child of the first `variantList`
child of a `layout` element, in document order. -/
def variant_elements (layout : xmlNode) : List xmlNode :=
  match layout.children.find? (fun n => is_node n "variantList") with
  | some vl => (vl.children.filter (fun n => is_node n "variant")).filter has_config_item
  | none => []

/-- What the getters return for a `layout` element and its variants. -/
def layout_data_of (e : xmlNode) : layout_data :=
  { item := strings_of e, variants := (variant_elements e).map strings_of }

/-- A `model` element whose `configItem` has a `name` child with empty content
(no text node), as `<name></name>` parses. -/
def empty_name_model : xmlNode :=
  xmlNode.element "model" []
    [xmlNode.element "configItem" []
      [xmlNode.element "name" [] [], xmlNode.leaf "description" "Empty"]]

/-- A document whose only model is the one with the empty name. -/
def empty_name_document : xmlNode :=
  xmlNode.element "xkbConfigRegistry" []
    [xmlNode.element "modelList" [] [empty_name_model]]

/-- A directory name of 4086 characters: 18 components of 227 characters. -/
def long_dir : String :=
  String.mk (List.replicate 18 ('/' :: List.replicate 226 'd')).flatten

/-- A world with `PATH_MAX` 4096 whose one usable directory is `long_dir`.  It
has no `rules` directory; the file `rules/ev` under it, whose name is the first
4095 characters of `long_dir/rules/evdev.xml`, is the `pc104` document. -/
def long_world : World where
  secure_getenv := fun _ => none
  stat := fun p => if p = long_dir then some true else none
  eaccess := fun _ => true
  xmlReadFile := fun p => if p = long_dir ++ "/rules/ev" then some pc104_document else none
  DFLT_XKB_CONFIG_ROOT := "/usr/share/X11/xkb"
  HAVE_ACCESS_CHECK := true
  PATH_MAX := 4096

/-- A fresh context after `long_dir` was appended to its include paths. -/
def long_heap : Heap :=
  match rxkb_context_include_path_append long_world fresh_context.1 0 long_dir with
  | some r => r.1
  | none => Heap.empty

/-- The include paths of a context. -/
def includes_of (h : Heap) (ctx : Nat) : Option (List String) :=
  match h.objs ctx with
  | some (Obj.context c) => some c.includes
  | _ => none

/-- A build with neither `HAVE_EACCESS` nor `HAVE_EUIDACCESS`, and a directory
`/locked` for which the access test would fail. -/
def unchecked_world : World where
  secure_getenv := fun _ => none
  stat := fun p => if p = "/locked" then some true else none
  eaccess := fun _ => false
  xmlReadFile := fun _ => none
  DFLT_XKB_CONFIG_ROOT := "/usr/share/X11/xkb"
  HAVE_ACCESS_CHECK := false
  PATH_MAX := 4096

/-- A fresh context after `/d` was appended to its include paths. -/
def included_heap : Heap :=
  match rxkb_context_include_path_append pc104_world fresh_context.1 0 "/d" with
  | some r => r.1
  | none => Heap.empty

/-- The strings the getters return for the option made from an `option`
element: its name and description; the brief is never stored. -/
def option_strings_of (e : xmlNode) : config_item :=
  { name := (strings_of e).name, description := (strings_of e).description,
    brief_or_vendor := none }

/-- What the getters return for a `group` element and its options. -/
def group_of (e : xmlNode) : group_data :=
  { item := { name := (strings_of e).name, description := (strings_of e).description,
              allows_multiple := group_flag e },
    options := (option_elements e).map option_strings_of }

/-- A world with three usable directories: `/a` without a rules file, `/d` with
the `pc104` document and `/s` with the sample document as `rules/evdev.xml`. -/
def three_dirs_world : World where
  secure_getenv := fun _ => none
  stat := fun p => if p = "/a" ∨ p = "/d" ∨ p = "/s" then some true else none
  eaccess := fun _ => true
  xmlReadFile := fun p =>
    if p = "/d/rules/evdev.xml" then some pc104_document
    else if p = "/s/rules/evdev.xml" then some sample_document
    else none
  DFLT_XKB_CONFIG_ROOT := "/usr/share/X11/xkb"
  HAVE_ACCESS_CHECK := true
  PATH_MAX := 4096

/-- A fresh context after `/a`, `/d` and `/s` were appended, in this order, to
its include paths. -/
def three_dirs_heap : Heap :=
  match (rxkb_context_include_path_append three_dirs_world fresh_context.1 0 "/a").bind
      (fun r1 =>
        (rxkb_context_include_path_append three_dirs_world r1.1 0 "/d").bind fun r2 =>
          rxkb_context_include_path_append three_dirs_world r2.1 0 "/s") with
  | some r => r.1
  | none => Heap.empty

/-- The tests of `rxkb_context_include_path_append` on a path: `stat` succeeds,
the path is a directory, and the access test, where the build has one, passes. -/
def usable (w : World) (path : String) : Bool :=
  match w.stat path with
  | some true => !(w.HAVE_ACCESS_CHECK && !w.eaccess path)
  | _ => false

/-- The default include paths in their order: `$XDG_CONFIG_HOME/xkb` if
`XDG_CONFIG_HOME` is set, else `$HOME/.config/xkb` if `HOME` is set; then
`$HOME/.xkb` if `HOME` is set; then `$XKB_CONFIG_ROOT` if set, else the
compiled-in root. -/
def default_candidates (w : World) : List String :=
  (match w.secure_getenv "XDG_CONFIG_HOME" with
   | some xdg => [xdg ++ "/xkb"]
   | none =>
     match w.secure_getenv "HOME" with
     | some home => [home ++ "/.config/xkb"]
     | none => []) ++
  (match w.secure_getenv "HOME" with
   | some home => [home ++ "/.xkb"]
   | none => []) ++
  [match w.secure_getenv "XKB_CONFIG_ROOT" with
   | some root => root
   | none => w.DFLT_XKB_CONFIG_ROOT]

/-- Calling `rxkb_context_include_path_append` on each path of a list in turn,
with `ret |= ...` for the result. -/
def append_each (w : World) (ctx : Nat) : List String → Heap → Bool → Option (Heap × Bool)
  | [], h, ret => some (h, ret)
  | p :: ps, h, ret =>
    (rxkb_context_include_path_append w h ctx p).bind fun r =>
      append_each w ctx ps r.1 (ret || r.2)

/-- The heap `h1` is `h` with the paths `l` added to the include paths `c` had,
and nothing else changed. -/
def IncludesAdded (h h1 : Heap) (ctx : Nat) (c : rxkb_context) (l : List String) : Prop :=
  h1.objs ctx = some (Obj.context { c with includes := c.includes ++ l }) ∧
  (∀ o, o ≠ ctx → h1.objs o = h.objs o) ∧ h1.links = h.links ∧ h1.brk = h.brk

/-- A world where only `HOME` is set; `$HOME/.config/xkb` and the compiled-in
root are usable directories, `$HOME/.xkb` does not exist. -/
def home_world : World where
  secure_getenv := fun v => if v = "HOME" then some "/home/u" else none
  stat := fun p =>
    if p = "/home/u/.config/xkb" ∨ p = "/usr/share/X11/xkb" then some true else none
  eaccess := fun _ => true
  xmlReadFile := fun _ => none
  DFLT_XKB_CONFIG_ROOT := "/usr/share/X11/xkb"
  HAVE_ACCESS_CHECK := true
  PATH_MAX := 4096

/-- A `configItem` with two children for every field. -/
def twice_config_item : xmlNode :=
  xmlNode.element "configItem" []
    [xmlNode.leaf "name" "first", xmlNode.leaf "description" "one",
     xmlNode.leaf "vendor" "v1", xmlNode.leaf "name" "second",
     xmlNode.leaf "description" "two", xmlNode.leaf "shortDescription" "v2"]

/-- A `model` element whose `configItem` has two children for every field. -/
def twice_named : xmlNode :=
  xmlNode.element "model" [] [twice_config_item]

/-- A `layout` element with two `variantList` children: the first with the
variants `intl` and `dvorak` and a `variant` without `configItem`, the second
with the variant `extra`. -/
def two_lists_layout : xmlNode :=
  xmlNode.element "layout" []
    [xmlNode.element "configItem" [] [xmlNode.leaf "name" "us"],
     xmlNode.element "variantList" []
      [xmlNode.element "variant" []
        [xmlNode.element "configItem" [] [xmlNode.leaf "name" "intl"]],
       xmlNode.element "variant" [] [xmlNode.leaf "name" "stray"],
       xmlNode.element "variant" []
        [xmlNode.element "configItem" [] [xmlNode.leaf "name" "dvorak"]]],
     xmlNode.element "variantList" []
      [xmlNode.element "variant" []
        [xmlNode.element "configItem" [] [xmlNode.leaf "name" "extra"]]]]

/-- A `layout` element with a `configItem` and no `variantList`. -/
def bare_layout : xmlNode :=
  xmlNode.element "layout" [] [xmlNode.element "configItem" [] [xmlNode.leaf "name" "de"]]

/-- The document `root` cut down to one of its children: the same root element
with `l` as its only child. -/
def alone (root l : xmlNode) : xmlNode :=
  xmlNode.mk root.type root.name root.content root.properties [l]

/-- The children of the root that `parse_rules_xml` dispatches on. -/
def is_recognised (n : xmlNode) : Bool :=
  is_node n "modelList" || is_node n "layoutList" || is_node n "optionList"

/-- A document with two `modelList` children, an element of another name
between them, and a `modelList` text node. -/
def two_model_lists_document : xmlNode :=
  xmlNode.element "xkbConfigRegistry" []
    [xmlNode.element "modelList" []
      [xmlNode.element "model" []
        [xmlNode.element "configItem" [] [xmlNode.leaf "name" "pc101"]],
       xmlNode.element "model" []
        [xmlNode.element "configItem" [] [xmlNode.leaf "name" "pc102"]]],
     xmlNode.element "extraList" []
      [xmlNode.element "model" []
        [xmlNode.element "configItem" [] [xmlNode.leaf "name" "hidden"]]],
     xmlNode.mk xmlElementType.XML_TEXT_NODE "modelList" (some "modelList") [] [],
     xmlNode.element "modelList" []
      [xmlNode.element "model" []
        [xmlNode.element "configItem" [] [xmlNode.leaf "name" "pc104"]]]]

/-- The element names the parser knows. -/
def known_names : List String :=
  ["modelList", "layoutList", "optionList", "model", "layout", "variantList", "variant",
   "group", "option", "configItem", "name", "description", "shortDescription", "vendor"]

/-- An element whose name is none of the names the parser knows. -/
def is_unknown_element (e : xmlNode) : Bool :=
  decide (e.type = xmlElementType.XML_ELEMENT_NODE) && !(known_names.contains e.name)

/-- The tree `t2` is the tree `t1` with the node `e` inserted as an additional
child, at any position among the children of any node of `t1`. -/
inductive Inserted (e : xmlNode) : xmlNode → xmlNode → Prop
  | here (ty : xmlElementType) (nm : String) (c : Option String)
      (ps : List (String × String)) (pre post : List xmlNode) :
      Inserted e (xmlNode.mk ty nm c ps (pre ++ post))
        (xmlNode.mk ty nm c ps (pre ++ e :: post))
  | inside (ty : xmlElementType) (nm : String) (c : Option String)
      (ps : List (String × String)) (pre post : List xmlNode) (x y : xmlNode) :
      Inserted e x y →
      Inserted e (xmlNode.mk ty nm c ps (pre ++ x :: post))
        (xmlNode.mk ty nm c ps (pre ++ y :: post))

/-- Two nodes the parser cannot tell apart: every function of the parser gives
the same result on both. -/
structure Agree (x y : xmlNode) : Prop where
  type_eq : x.type = y.type
  name_eq : x.name = y.name
  content_eq : x.content = y.content
  properties_eq : x.properties = y.properties
  text : extract_text x = extract_text y
  fields : ∀ ci, parse_config_item_fields x.children ci =
    parse_config_item_fields y.children ci
  item : parse_config_item x = parse_config_item y
  model : ∀ h ctx, parse_model h ctx x = parse_model h ctx y
  model_list : ∀ h ctx, parse_model_list h ctx x = parse_model_list h ctx y
  variant : ∀ h l, parse_variant h l x = parse_variant h l y
  variant_list : ∀ h l, parse_variant_list h l x = parse_variant_list h l y
  layout : ∀ h ctx, parse_layout h ctx x = parse_layout h ctx y
  layout_list : ∀ h ctx, parse_layout_list h ctx x = parse_layout_list h ctx y
  option : ∀ h g, parse_option h g x = parse_option h g y
  group : ∀ h ctx, parse_group h ctx x = parse_group h ctx y
  option_list : ∀ h ctx, parse_option_list h ctx x = parse_option_list h ctx y
  rules : ∀ h ctx, parse_rules_xml h ctx x = parse_rules_xml h ctx y

/-- Two lists of children on which every loop of the parser gives the same
result. -/
structure LoopEq (cs ds : List xmlNode) : Prop where
  text : extract_text_loop cs = extract_text_loop ds
  fields : ∀ ci, parse_config_item_fields cs ci = parse_config_item_fields ds ci
  item : parse_config_item_loop cs = parse_config_item_loop ds
  first_list : ∀ l h, parse_layout_loop l cs h = parse_layout_loop l ds h
  models : ∀ ctx h,
    for_each_child
      (fun hh node => if is_node node "model" then parse_model hh ctx node else some hh)
      cs h =
    for_each_child
      (fun hh node => if is_node node "model" then parse_model hh ctx node else some hh)
      ds h
  variants : ∀ l h,
    for_each_child
      (fun hh node => if is_node node "variant" then parse_variant hh l node else some hh)
      cs h =
    for_each_child
      (fun hh node => if is_node node "variant" then parse_variant hh l node else some hh)
      ds h
  layouts : ∀ ctx h,
    for_each_child
      (fun hh node => if is_node node "layout" then parse_layout hh ctx node else some hh)
      cs h =
    for_each_child
      (fun hh node => if is_node node "layout" then parse_layout hh ctx node else some hh)
      ds h
  options : ∀ g h,
    for_each_child
      (fun hh node => if is_node node "option" then parse_option hh g node else some hh)
      cs h =
    for_each_child
      (fun hh node => if is_node node "option" then parse_option hh g node else some hh)
      ds h
  groups : ∀ ctx h,
    for_each_child
      (fun hh node => if is_node node "group" then parse_group hh ctx node else some hh)
      cs h =
    for_each_child
      (fun hh node => if is_node node "group" then parse_group hh ctx node else some hh)
      ds h
  top : ∀ ctx h,
    for_each_child
      (fun hh node =>
        if is_node node "modelList" then parse_model_list hh ctx node
        else if is_node node "layoutList" then parse_layout_list hh ctx node
        else if is_node node "optionList" then parse_option_list hh ctx node
        else some hh)
      cs h =
    for_each_child
      (fun hh node =>
        if is_node node "modelList" then parse_model_list hh ctx node
        else if is_node node "layoutList" then parse_layout_list hh ctx node
        else if is_node node "optionList" then parse_option_list hh ctx node
        else some hh)
      ds h

/-- An element of an unknown name whose subtree has elements of known names. -/
def unknown_extension : xmlNode :=
  xmlNode.element "extension" []
    [xmlNode.element "model" []
      [xmlNode.element "configItem" [] [xmlNode.leaf "name" "hidden"]],
     xmlNode.leaf "name" "other"]

/-- The `pc104` document with `unknown_extension` inserted into the
`configItem`, between its `name` and its `description`. -/
def pc104_extended : xmlNode :=
  xmlNode.element "xkbConfigRegistry" []
    [xmlNode.element "modelList" []
      [xmlNode.element "model" []
        [xmlNode.element "configItem" []
          [xmlNode.element "name" [] [xmlNode.text "pc104"],
           unknown_extension,
           xmlNode.element "description" [] [xmlNode.text "Generic 104-key PC"]]]]]

/-- A `group` element with a `configItem` and the attribute
`allowMultipleSelection=""`. -/
def empty_attribute_group : xmlNode :=
  xmlNode.element "group" [("allowMultipleSelection", "")]
    [xmlNode.element "configItem" [] [xmlNode.leaf "name" "grp"]]

/-- A document with the one model `base101`. -/
def base_document : xmlNode :=
  xmlNode.element "xkbConfigRegistry" []
    [xmlNode.element "modelList" []
      [xmlNode.element "model" []
        [xmlNode.element "configItem" [] [xmlNode.leaf "name" "base101"]]]]

/-- A world whose directory `/d` holds `base_document` as `rules/base.xml` and
the `pc104` document as `rules/evdev.xml`. -/
def two_rules_world : World where
  secure_getenv := fun _ => none
  stat := fun p => if p = "/d" then some true else none
  eaccess := fun _ => true
  xmlReadFile := fun p =>
    if p = "/d/rules/base.xml" then some base_document
    else if p = "/d/rules/evdev.xml" then some pc104_document
    else none
  DFLT_XKB_CONFIG_ROOT := "/usr/share/X11/xkb"
  HAVE_ACCESS_CHECK := true
  PATH_MAX := 4096

/-- One unref was applied to the object at `o` between `h` and `h2`: if its
count in `h` was 1 it is freed in `h2`; if its count was above 1 it is in `h2`
with its count one lower and nothing else changed. -/
def Released (h h2 : Heap) (o : Nat) : Prop :=
  ∃ ob, h.objs o = some ob ∧
    ((ob.base.refcount = 1 ∧ h2.objs o = none) ∨
     (2 ≤ ob.base.refcount ∧
      h2.objs o = some (ob.set_refcount (ob.base.refcount - 1))))

/-- A world without environment variables whose compiled-in root does not
exist: none of the default include paths is usable. -/
def bare_world : World where
  secure_getenv := fun _ => none
  stat := fun _ => none
  eaccess := fun _ => true
  xmlReadFile := fun _ => none
  DFLT_XKB_CONFIG_ROOT := "/usr/share/X11/xkb"
  HAVE_ACCESS_CHECK := true
  PATH_MAX := 4096

/-! # Theorems -/

@[simp] theorem set_prev_prev (lk : Links) (r x : ListRef) (v : Option ListRef) :
    (set_prev lk r v x).prev = if x = r then v else (lk x).prev := by
  unfold set_prev; split <;> rfl

@[simp] theorem set_prev_next (lk : Links) (r x : ListRef) (v : Option ListRef) :
    (set_prev lk r v x).next = (lk x).next := by
  unfold set_prev; split <;> rfl

@[simp] theorem set_next_next (lk : Links) (r x : ListRef) (v : Option ListRef) :
    (set_next lk r v x).next = if x = r then v else (lk x).next := by
  unfold set_next; split <;> rfl

@[simp] theorem set_next_prev (lk : Links) (r x : ListRef) (v : Option ListRef) :
    (set_next lk r v x).prev = (lk x).prev := by
  unfold set_next; split <;> rfl

theorem list_ext {a b : list} (hp : a.prev = b.prev) (hn : a.next = b.next) :
    a = b := by
  cases a; cases b; simp_all

theorem last_of_mem (a : ListRef) (cs : List ListRef) : last_of a cs ∈ a :: cs := by
  induction cs generalizing a with
  | nil => simp [last_of]
  | cons c cs ih =>
    have := ih c
    simp only [last_of]
    exact List.mem_cons_of_mem _ this

theorem last_of_append (a : ListRef) (xs : List ListRef) (y : ListRef) (ys : List ListRef) :
    last_of a (xs ++ y :: ys) = last_of y ys := by
  induction xs generalizing a with
  | nil => simp [last_of]
  | cons x xs ih => simpa [last_of] using ih x

theorem first_of_mem (cs : List ListRef) (b : ListRef) : first_of cs b ∈ cs ++ [b] := by
  cases cs <;> simp [first_of]

theorem Linked.next_eq {lk : Links} {a b : ListRef} {cs : List ListRef}
    (h : Linked lk a cs b) : (lk a).next = some (first_of cs b) := by
  cases cs with
  | nil => exact h.1
  | cons c cs => exact h.1

theorem Linked.prev_eq {lk : Links} {a b : ListRef} {cs : List ListRef}
    (h : Linked lk a cs b) : (lk b).prev = some (last_of a cs) := by
  induction cs generalizing a with
  | nil => exact h.2
  | cons c cs ih => exact ih h.2.2

theorem Linked_append {lk : Links} {a b y : ListRef} {xs ys : List ListRef} :
    Linked lk a (xs ++ y :: ys) b ↔ Linked lk a xs y ∧ Linked lk y ys b := by
  induction xs generalizing a with
  | nil =>
    cases ys with
    | nil => simp [Linked]; tauto
    | cons z zs => simp [Linked]; tauto
  | cons x xs ih =>
    show Linked lk a (x :: (xs ++ y :: ys)) b ↔ _
    simp only [Linked]
    rw [ih]
    tauto

theorem Linked.linked_frame {lk lk2 : Links} {a b : ListRef} {cs : List ListRef}
    (h : Linked lk a cs b)
    (hn : ∀ x ∈ a :: cs, (lk2 x).next = (lk x).next)
    (hp : ∀ x ∈ cs ++ [b], (lk2 x).prev = (lk x).prev) :
    Linked lk2 a cs b := by
  induction cs generalizing a with
  | nil =>
    refine ⟨?_, ?_⟩
    · rw [hn a (by simp)]; exact h.1
    · rw [hp b (by simp)]; exact h.2
  | cons c cs ih =>
    refine ⟨?_, ?_, ?_⟩
    · rw [hn a (by simp)]; exact h.1
    · rw [hp c (by simp)]; exact h.2.1
    · apply ih h.2.2
      · intro x hx; exact hn x (List.mem_cons_of_mem _ hx)
      · intro x hx; exact hp x (by simpa using Or.inr (by simpa using hx))

/-- Redirecting the end of a chain: the last cell gets the successor `e`, and
`e` gets that cell as predecessor. -/
theorem Linked.retarget {lk lk2 : Links} {a b e : ListRef} {cs : List ListRef}
    (h : Linked lk a cs b)
    (hn : ∀ x ∈ a :: cs, x ≠ last_of a cs → (lk2 x).next = (lk x).next)
    (hp : ∀ x ∈ cs, (lk2 x).prev = (lk x).prev)
    (hl : (lk2 (last_of a cs)).next = some e)
    (he : (lk2 e).prev = some (last_of a cs))
    (hnd : (a :: cs).Nodup) :
    Linked lk2 a cs e := by
  induction cs generalizing a with
  | nil => exact ⟨hl, he⟩
  | cons c cs ih =>
    have hac : a ≠ last_of c cs := by
      intro hEq
      have hm := last_of_mem c cs
      rw [← hEq] at hm
      exact (List.nodup_cons.mp hnd).1 hm
    refine ⟨?_, ?_, ?_⟩
    · rw [hn a (by simp) hac]; exact h.1
    · rw [hp c (by simp)]; exact h.2.1
    · apply ih h.2.2
      · intro x hx hne; exact hn x (List.mem_cons_of_mem _ hx) hne
      · intro x hx; exact hp x (List.mem_cons_of_mem _ hx)
      · exact hl
      · exact he
      · exact (List.nodup_cons.mp hnd).2

theorem list_init_isList (lk : Links) (l : ListRef) : IsList (list_init lk l) l [] := by
  refine ⟨⟨?_, ?_⟩, by simp⟩ <;> simp [list_init]

theorem IsList.isList_frame {lk lk2 : Links} {head : ListRef} {cells : List ListRef}
    (h : IsList lk head cells) (hf : ∀ x ∈ head :: cells, lk2 x = lk x) :
    IsList lk2 head cells := by
  refine ⟨h.1.linked_frame ?_ ?_, h.2⟩
  · intro x hx; rw [hf x hx]
  · intro x hx
    rw [hf x]
    simp only [List.mem_append, List.mem_singleton] at hx
    rcases hx with hx | hx
    · exact List.mem_cons_of_mem _ hx
    · simp [hx]

/-- Appending to a well-formed list: the call succeeds, the new cell is the
last one, and only the new cell, the sentinel and the old last cell change. -/
theorem list_append_spec (ok : ListRef → Bool) {lk : Links} {head elm : ListRef}
    {cells : List ListRef} (h : IsList lk head cells) (he : elm ∉ head :: cells)
    (okh : ok head = true) (oke : ok elm = true)
    (okc : ∀ x ∈ cells, ok x = true) :
    ∃ lk2, list_append ok lk head elm = some lk2 ∧
      IsList lk2 head (cells ++ [elm]) ∧
      ∀ x, x ≠ elm → x ≠ head → x ≠ last_of head cells → lk2 x = lk x := by
  have hprev := h.1.prev_eq
  have hne : elm ≠ head := fun hEq => he (by simp [hEq])
  have hne2 : head ≠ elm := fun hEq => hne hEq.symm
  have hlm := last_of_mem head cells
  have hle : last_of head cells ≠ elm := fun hEq => he (hEq ▸ hlm)
  have okl : ok (last_of head cells) = true := by
    rcases List.mem_cons.mp hlm with hEq | hm
    · rw [hEq]; exact okh
    · exact okc _ hm
  refine ⟨set_next (set_prev (set_prev (set_next lk elm (some head)) elm
      (some (last_of head cells))) head (some elm)) (last_of head cells) (some elm),
    ?_, ?_, ?_⟩
  · simp [list_append, okh, oke, hprev, hne, hne2, okl]
  · refine ⟨?_, ?_⟩
    · have : cells ++ [elm] = cells ++ elm :: [] := rfl
      rw [this, Linked_append]
      refine ⟨?_, ?_, ?_⟩
      · apply h.1.retarget
        · intro x hx hxl
          have hxe : x ≠ elm := fun hEq => he (hEq ▸ hx)
          simp [hxl, hxe]
        · intro x hx
          have hxe : x ≠ elm := fun hEq => he (hEq ▸ List.mem_cons_of_mem _ hx)
          have hxh : x ≠ head := fun hEq => (List.nodup_cons.mp h.2).1 (hEq ▸ hx)
          simp [hxe, hxh]
        · simp
        · simp [hne]
        · exact h.2
      · simp [hle.symm]
      · simp
    · have hnd := h.2
      rw [List.nodup_cons] at hnd ⊢
      refine ⟨?_, ?_⟩
      · simp only [List.mem_append, List.mem_singleton, not_or]
        exact ⟨hnd.1, hne2⟩
      · rw [List.nodup_append]
        refine ⟨hnd.2, by simp, ?_⟩
        intro x hx hx2
        simp only [List.mem_singleton] at hx2
        exact he (hx2 ▸ List.mem_cons_of_mem _ hx)
  · intro x h1 h2 h3
    apply list_ext <;> simp [h1, h2, h3]

theorem nodup_split {head c : ListRef} {xs ys : List ListRef}
    (h : (head :: (xs ++ c :: ys)).Nodup) :
    (∀ x ∈ head :: xs, x ≠ c ∧ x ∉ ys) ∧ (∀ x ∈ ys, x ≠ c ∧ x ≠ head) ∧
    (head :: (xs ++ ys)).Nodup ∧ ys.Nodup := by
  have h2 : ((head :: xs) ++ c :: ys).Nodup := by simpa using h
  rw [List.nodup_append] at h2
  obtain ⟨h3, h4, h5⟩ := h2
  rw [List.nodup_cons] at h4
  refine ⟨?_, ?_, ?_, h4.2⟩
  · intro x hx
    refine ⟨?_, ?_⟩
    · intro hEq; exact h5 hx (by simp [hEq])
    · intro hy; exact h5 hx (List.mem_cons_of_mem _ hy)
  · intro x hx
    refine ⟨?_, ?_⟩
    · intro hEq; exact h4.1 (hEq ▸ hx)
    · intro hEq; exact h5 (by simp [hEq] : x ∈ head :: xs) (List.mem_cons_of_mem _ hx)
  · have : ((head :: xs) ++ ys).Nodup := by
      rw [List.nodup_append]
      exact ⟨h3, h4.2, fun _ hx hy => h5 hx (List.mem_cons_of_mem _ hy)⟩
    simpa using this

/-- Removing a cell from a well-formed list: the call succeeds, the other cells
stay in order, the removed cell is cleared, and only it and its two neighbours
change. -/
theorem list_remove_spec (ok : ListRef → Bool) {lk : Links} {head c : ListRef}
    {xs ys : List ListRef} (h : IsList lk head (xs ++ c :: ys))
    (okh : ok head = true) (okc : ok c = true)
    (okx : ∀ x ∈ xs ++ ys, ok x = true) :
    ∃ lk2, list_remove ok lk c = some lk2 ∧
      IsList lk2 head (xs ++ ys) ∧
      (∀ x, x ≠ c → x ≠ last_of head xs → x ≠ first_of ys head → lk2 x = lk x) ∧
      lk2 c = { prev := none, next := none } := by
  obtain ⟨hxs, hys⟩ := Linked_append.mp h.1
  obtain ⟨hA, hB, hC, _⟩ := nodup_split h.2
  have hp := hxs.prev_eq
  have hn := hys.next_eq
  have hpm := last_of_mem head xs
  have hpc : last_of head xs ≠ c := (hA _ hpm).1
  have hnm := first_of_mem ys head
  have hnc : first_of ys head ≠ c := by
    rcases List.mem_append.mp hnm with hm | hm
    · exact (hB _ hm).1
    · simp only [List.mem_singleton] at hm
      rw [hm]; exact (hA head (by simp)).1
  have okp : ok (last_of head xs) = true := by
    rcases List.mem_cons.mp hpm with hEq | hm
    · rw [hEq]; exact okh
    · exact okx _ (List.mem_append_left _ hm)
  have okn : ok (first_of ys head) = true := by
    rcases List.mem_append.mp hnm with hm | hm
    · exact okx _ (List.mem_append_right _ hm)
    · simp only [List.mem_singleton] at hm
      rw [hm]; exact okh
  refine ⟨set_prev (set_next (set_prev (set_next lk (last_of head xs)
      (some (first_of ys head))) (first_of ys head) (some (last_of head xs))) c none)
      c none, ?_, ⟨?_, hC⟩, ?_, ?_⟩
  · simp [list_remove, okc, hp, hn, okp, okn, hpc.symm]
  · cases ys with
    | nil =>
      simp only [List.append_nil]
      simp only [first_of] at *
      apply hxs.retarget
      · intro x hx hxl
        have := (hA x hx).1
        simp [this, hxl]
      · intro x hx
        have h1 := (hA x (List.mem_cons_of_mem _ hx)).1
        have h2 : x ≠ head := fun hEq =>
          (List.nodup_cons.mp hC).1 (by simpa [hEq] using hx)
        simp [h1, h2]
      · simp [hpc]
      · simp [hnc]
      · simpa using hC
    | cons y ys =>
      simp only [first_of] at *
      rw [Linked_append]
      refine ⟨?_, ?_⟩
      · apply hxs.retarget
        · intro x hx hxl
          have := (hA x hx).1
          simp [this, hxl]
        · intro x hx
          have h1 := hA x (List.mem_cons_of_mem _ hx)
          have h2 : x ≠ y := fun hEq => h1.2 (by simp [hEq])
          simp [h1.1, h2]
        · simp [hpc]
        · simp [hnc]
        · have : ((head :: xs) ++ (y :: ys)).Nodup := by simpa using hC
          exact (List.nodup_append.mp this).1
      · apply hys.2.2.linked_frame
        · intro x hx
          have h1 := hB x hx
          have h2 : x ≠ last_of head xs := fun hEq =>
            (hA _ hpm).2 (hEq ▸ hx)
          simp [h1.1, h2]
        · intro x hx
          have hy : (y :: ys).Nodup := by
            have : ((head :: xs) ++ (y :: ys)).Nodup := by simpa using hC
            exact (List.nodup_append.mp this).2.1
          have h1 : x ≠ c := by
            rcases List.mem_append.mp hx with hm | hm
            · exact (hB x (List.mem_cons_of_mem _ hm)).1
            · simp only [List.mem_singleton] at hm
              rw [hm]; exact (hA head (by simp)).1
          have h2 : x ≠ y := by
            rcases List.mem_append.mp hx with hm | hm
            · intro hEq; exact (List.nodup_cons.mp hy).1 (hEq ▸ hm)
            · simp only [List.mem_singleton] at hm
              rw [hm]; exact (hB y (by simp)).2.symm
          simp [h1, h2]
  · intro x h1 h2 h3
    apply list_ext <;> simp [h1, h2, h3]
  · apply list_ext <;> simp

/-- The successor of the sentinel is the first cell. -/
theorem IsList.head_next {lk : Links} {head : ListRef} {cells : List ListRef}
    (h : IsList lk head cells) : (lk head).next = some (first_of cells head) :=
  h.1.next_eq

/-- The predecessor of the sentinel is the last cell. -/
theorem IsList.head_prev {lk : Links} {head : ListRef} {cells : List ListRef}
    (h : IsList lk head cells) : (lk head).prev = some (last_of head cells) :=
  h.1.prev_eq

/-- The successor of a cell is the following cell, or the sentinel. -/
theorem IsList.cell_next {lk : Links} {head c : ListRef} {xs ys : List ListRef}
    (h : IsList lk head (xs ++ c :: ys)) : (lk c).next = some (first_of ys head) :=
  (Linked_append.mp h.1).2.next_eq

/-- The predecessor of a cell is the preceding cell, or the sentinel. -/
theorem IsList.cell_prev {lk : Links} {head c : ListRef} {xs ys : List ListRef}
    (h : IsList lk head (xs ++ c :: ys)) : (lk c).prev = some (last_of head xs) :=
  (Linked_append.mp h.1).1.prev_eq

theorem child_kind_inj {f g : Field} (h : f.child_kind = g.child_kind) : f = g := by
  cases f <;> cases g <;> simp [Field.child_kind] at h <;> rfl

theorem Member.unique {h : Heap} {f g : Field} {p q o : Nat}
    (h1 : Member h f p o) (h2 : Member h g q o) : f = g ∧ p = q := by
  obtain ⟨ob, e1, k1, p1⟩ := h1
  obtain ⟨ob2, e2, k2, p2⟩ := h2
  rw [e1] at e2
  cases e2
  refine ⟨child_kind_inj (k1.symm.trans k2), ?_⟩
  rw [p1] at p2
  exact Option.some.inj p2

theorem Member.ok {h : Heap} {f : Field} {p o : Nat} (hm : Member h f p o) :
    h.ok (ListRef.link o) = true := by
  obtain ⟨ob, e1, _, _⟩ := hm
  simp [Heap.ok, e1]

theorem Member.lt {h : Heap} {f : Field} {p o : Nat} (hm : Member h f p o)
    (hb : h.bounded) : o < h.brk := by
  by_contra hc
  obtain ⟨ob, e1, _, _⟩ := hm
  rw [hb o (Nat.le_of_not_lt hc)] at e1
  cases e1

theorem ListOf.nodup {h : Heap} {f : Field} {p : Nat} {ids : List Nat}
    (hl : ListOf h f p ids) : ids.Nodup := by
  have := (List.nodup_cons.mp hl.1.2).2
  exact List.Nodup.of_map _ this

theorem ListOf.length_le {h : Heap} {f : Field} {p : Nat} {ids : List Nat}
    (hl : ListOf h f p ids) (hb : h.bounded) : ids.length ≤ h.brk := by
  have hsub : ids ⊆ List.range h.brk := by
    intro o ho
    exact List.mem_range.mpr ((hl.2.2 o ho).lt hb)
  have := (List.Nodup.subperm hl.nodup hsub).length_le
  simpa using this

theorem last_of_map_link (head : ListRef) (ids : List Nat) :
    last_of head (ids.map ListRef.link) = head ∨
    ∃ o ∈ ids, last_of head (ids.map ListRef.link) = ListRef.link o := by
  induction ids generalizing head with
  | nil => left; rfl
  | cons a ids ih =>
    right
    simp only [List.map_cons, last_of]
    rcases ih (ListRef.link a) with hEq | ⟨o, ho, hEq⟩
    · exact ⟨a, by simp, hEq⟩
    · exact ⟨o, List.mem_cons_of_mem _ ho, hEq⟩

theorem first_of_map_link (ids : List Nat) (head : ListRef) :
    first_of (ids.map ListRef.link) head =
      match ids.head? with
      | some o => ListRef.link o
      | none => head := by
  cases ids <;> rfl

/-- A collection is untouched by changes to other cells and other objects. -/
theorem ListOf.listOf_frame {h h2 : Heap} {f : Field} {p : Nat} {ids : List Nat}
    (hl : ListOf h f p ids)
    (hlk : ∀ x ∈ ListRef.head f p :: ids.map ListRef.link, h2.links x = h.links x)
    (hp : h2.ok (ListRef.head f p) = true)
    (ho : ∀ o ∈ ids, Member h f p o → Member h2 f p o) :
    ListOf h2 f p ids :=
  ⟨hl.1.isList_frame hlk, hp, fun o hm => ho o hm (hl.2.2 o hm)⟩

/-- Appending an object to the collection it belongs to. -/
theorem heap_list_append_spec {h : Heap} {f : Field} {p o : Nat} {ids : List Nat}
    (hl : ListOf h f p ids) (hm : Member h f p o) (hni : o ∉ ids) :
    ∃ h2, h.list_append f p o = some h2 ∧ ListOf h2 f p (ids ++ [o]) ∧
      h2.objs = h.objs ∧ h2.brk = h.brk ∧
      (∀ g q l, (g, q) ≠ (f, p) → ListOf h g q l → ListOf h2 g q l) ∧
      ∀ c, h.is_kind Kind.context c = true →
        h2.links (ListRef.link c) = h.links (ListRef.link c) := by
  have he : ListRef.link o ∉ ListRef.head f p :: ids.map ListRef.link := by
    simp only [List.mem_cons, List.mem_map, not_or]
    refine ⟨by simp, ?_⟩
    rintro ⟨a, ha, hEq⟩
    cases hEq
    exact hni ha
  obtain ⟨lk2, e1, e2, e3⟩ := list_append_spec h.ok hl.1 he hl.2.1 hm.ok
    (by
      intro x hx
      obtain ⟨a, ha, rfl⟩ := List.mem_map.mp hx
      exact (hl.2.2 a ha).ok)
  refine ⟨h.set_links lk2, ?_, ?_, rfl, rfl, ?_, ?_⟩
  · simp [Heap.list_append, e1]
  · refine ⟨by simpa using e2, hl.2.1, ?_⟩
    intro a ha
    rcases List.mem_append.mp ha with ha | ha
    · exact hl.2.2 a ha
    · simp only [List.mem_singleton] at ha
      rw [ha]; exact hm
  · intro g q l hne hgl
    apply hgl.listOf_frame
    · intro x hx
      apply e3
      · rintro rfl
        rcases List.mem_cons.mp hx with hx | hx
        · cases hx
        · obtain ⟨a, ha, hEq⟩ := List.mem_map.mp hx
          cases hEq
          have := (hgl.2.2 o ha).unique hm
          exact hne (by rw [this.1, this.2])
      · rintro rfl
        rcases List.mem_cons.mp hx with hx | hx
        · cases hx; exact hne rfl
        · obtain ⟨a, _, hEq⟩ := List.mem_map.mp hx
          cases hEq
      · intro hEq
        rcases last_of_map_link (ListRef.head f p) ids with hh | ⟨a, ha, hh⟩
        · rw [hh] at hEq
          rcases List.mem_cons.mp hx with hx | hx
          · rw [hEq] at hx; cases hx; exact hne rfl
          · obtain ⟨b, _, hb⟩ := List.mem_map.mp hx
            rw [hEq] at hb; cases hb
        · rw [hh] at hEq
          rcases List.mem_cons.mp hx with hx | hx
          · rw [hEq] at hx; cases hx
          · obtain ⟨b, hb, hb2⟩ := List.mem_map.mp hx
            rw [hEq] at hb2; cases hb2
            have := (hgl.2.2 a hb).unique (hl.2.2 a ha)
            exact hne (by rw [this.1, this.2])
    · exact hgl.2.1
    · intro a _ hma; exact hma
  · intro c hc
    have hnc : ∀ a, Member h f p a → a ≠ c := by
      intro a hma hEq
      obtain ⟨ob, o1, o2, _⟩ := hma
      rw [hEq] at o1
      simp only [Heap.is_kind, o1, beq_iff_eq] at hc
      rw [hc] at o2
      cases f <;> cases o2
    apply e3
    · intro hEq
      exact hnc o hm (ListRef.link.inj hEq).symm
    · intro hEq; cases hEq
    · intro hEq
      rcases last_of_map_link (ListRef.head f p) ids with hh | ⟨a, ha, hh⟩
      · rw [hh] at hEq; cases hEq
      · rw [hh] at hEq
        exact hnc a (hl.2.2 a ha) (ListRef.link.inj hEq).symm

/-- The accessor `first` on a well-formed collection. -/
theorem T_first_spec {h : Heap} {f : Field} {p : Nat} {ids : List Nat}
    (hl : ListOf h f p ids) : T_first f h p = some ids.head? := by
  have hn := hl.1.head_next
  cases ids with
  | nil =>
    simp only [List.map_nil, first_of] at hn
    simp [T_first, hl.2.1, list_empty, hn]
  | cons a ids =>
    simp only [List.map_cons, first_of] at hn
    simp [T_first, hl.2.1, list_empty, hn, list_first_entry, container_of]

/-- The accessor `next` on an entry of a well-formed collection. -/
theorem T_next_spec {h : Heap} {f : Field} {p o : Nat} {xs ys : List Nat}
    (hl : ListOf h f p (xs ++ o :: ys)) :
    T_next f.child_kind f h o = some ys.head? := by
  obtain ⟨ob, e1, k1, p1⟩ := hl.2.2 o (by simp)
  have hn : (h.links (ListRef.link o)).next =
      some (first_of (ys.map ListRef.link) (ListRef.head f p)) := by
    have := hl.1
    rw [List.map_append, List.map_cons] at this
    exact this.cell_next
  cases ys with
  | nil =>
    simp only [List.map_nil, first_of] at hn
    simp [T_next, e1, k1, p1, list_is_last, hn]
  | cons a ys =>
    simp only [List.map_cons, first_of] at hn
    simp [T_next, e1, k1, p1, list_is_last, hn, list_first_entry, container_of]

theorem collect_spec {h : Heap} {f : Field} {p : Nat} (xs ys : List Nat)
    (hl : ListOf h f p (xs ++ ys)) (fuel : Nat) (hf : ys.length < fuel) :
    collect (T_next f.child_kind f) h fuel ys.head? = some ys := by
  induction ys generalizing xs fuel with
  | nil =>
    cases fuel with
    | zero => simp at hf
    | succ n => simp [collect]
  | cons a ys ih =>
    cases fuel with
    | zero => simp at hf
    | succ n =>
      have hn := T_next_spec hl
      have := ih (xs ++ [a]) (by simpa using hl) n (by simpa using hf)
      simp [collect, hn, this]

/-- Walking a well-formed collection by first/next visits its objects in
order. -/
theorem entries_spec {h : Heap} {f : Field} {p : Nat} {ids : List Nat}
    (hl : ListOf h f p ids) (hb : h.bounded) :
    entries f.child_kind f h p = some ids := by
  have := collect_spec [] ids hl (h.brk + 1) (Nat.lt_succ_of_le (hl.length_le hb))
  simp [entries, T_first_spec hl, this]

/-! ## Allocation and stores -/

theorem Heap.ext_iff3 {a b : Heap} (h1 : a.objs = b.objs) (h2 : a.links = b.links)
    (h3 : a.brk = b.brk) : a = b := by
  cases a; cases b; simp_all

theorem T_create_eq (k : Kind) (h : Heap) (parent : Ptr) :
    T_create k h parent =
      some (h.with_new ((Obj.zero k).set_base (k.init_base parent)), h.brk) := by
  simp only [T_create, calloc, rxkb_object_init, if_true, Option.map_some',
    Option.some.injEq, Prod.mk.injEq, and_true]
  apply Heap.ext_iff3
  · funext x
    simp only [Heap.set_links, Heap.set_obj, Heap.with_new, Kind.init_base]
    split <;> rfl
  · funext r
    simp only [Heap.set_links, Heap.set_obj, Heap.with_new, Heap.new_links, list_init]
    cases r with
    | head f p =>
      apply list_ext <;> simp
    | link o =>
      by_cases ho : o = h.brk
      · subst ho
        apply list_ext <;> simp
      · have : ListRef.link o ≠ ListRef.link h.brk := by
          intro hEq; cases hEq; exact ho rfl
        apply list_ext <;> simp [ho, this]
  · rfl

theorem Ext.refl (h : Heap) (hb : h.bounded) (T : Field → Nat → Prop) : Ext h h T :=
  ⟨Nat.le_refl _, fun _ _ => rfl, hb, fun _ _ _ _ hl => hl, fun _ _ _ => rfl⟩

theorem Ext.trans {h1 h2 h3 : Heap} {T : Field → Nat → Prop}
    (a : Ext h1 h2 T) (b : Ext h2 h3 T) : Ext h1 h3 T :=
  ⟨Nat.le_trans a.brk_le b.brk_le,
   fun o ho => (b.objs_eq o (Nat.lt_of_lt_of_le ho a.brk_le)).trans (a.objs_eq o ho),
   b.bounded,
   fun g q l hT hl => b.lists g q l hT (a.lists g q l hT hl),
   fun o ho hk =>
     (b.ctx_link o (Nat.lt_of_lt_of_le ho a.brk_le)
       (by simpa [Heap.is_kind, a.objs_eq o ho] using hk)).trans (a.ctx_link o ho hk)⟩

theorem Ext.mono {h1 h2 : Heap} {T U : Field → Nat → Prop} (a : Ext h1 h2 T)
    (hTU : ∀ g q, T g q → U g q) : Ext h1 h2 U :=
  ⟨a.brk_le, a.objs_eq, a.bounded,
   fun g q l hU hl => a.lists g q l (fun hT => hU (hTU g q hT)) hl, a.ctx_link⟩

theorem ListOf.owner_lt {h : Heap} {f : Field} {p : Nat} {ids : List Nat}
    (hl : ListOf h f p ids) (hb : h.bounded) : p < h.brk := by
  by_contra hc
  have := hl.2.1
  simp [Heap.ok, hb p (Nat.le_of_not_lt hc)] at this

/-- Allocation leaves every collection as it was. -/
theorem with_new_ext (h : Heap) (ob : Obj) (hb : h.bounded) :
    Ext h (h.with_new ob) (fun _ _ => False) := by
  refine ⟨Nat.le_succ _, ?_, ?_, ?_, ?_⟩
  · intro o ho
    simp [Heap.with_new, Nat.ne_of_lt ho]
  · intro o ho
    have h1 : o ≠ h.brk := by
      intro hEq; rw [hEq] at ho; exact Nat.not_succ_le_self _ ho
    simp only [Heap.with_new, h1, if_false]
    exact hb o (Nat.le_of_succ_le ho)
  · intro g q l _ hl
    have hq := hl.owner_lt hb
    have hq2 : q ≠ h.brk := Nat.ne_of_lt hq
    apply hl.listOf_frame
    · intro x hx
      rcases List.mem_cons.mp hx with hx | hx
      · rw [hx]; simp [Heap.with_new, Heap.new_links, hq2]
      · obtain ⟨a, ha, rfl⟩ := List.mem_map.mp hx
        have := Nat.ne_of_lt ((hl.2.2 a ha).lt hb)
        simp [Heap.with_new, Heap.new_links, this]
    · have := hl.2.1
      simpa [Heap.ok, Heap.with_new, hq2] using this
    · intro a ha hma
      obtain ⟨ob2, e1, e2, e3⟩ := hma
      have := Nat.ne_of_lt ((hl.2.2 a ha).lt hb)
      exact ⟨ob2, by simp [Heap.with_new, this, e1], e2, e3⟩
  · intro o ho _
    simp [Heap.with_new, Heap.new_links, Nat.ne_of_lt ho]

/-- A store to members other than the type tag and the parent leaves every
collection as it was. -/
theorem set_obj_ext {h : Heap} {o : Nat} {ob ob2 : Obj}
    (ho : h.objs o = some ob) (hk : ob2.kind = ob.kind)
    (hp : ob2.base.parent = ob.base.parent) :
    ∀ g q l, ListOf h g q l → ListOf (h.set_obj o (some ob2)) g q l := by
  intro g q l hl
  apply hl.listOf_frame
  · intro x _; rfl
  · have := hl.2.1
    simp only [Heap.ok, Heap.set_obj] at this ⊢
    by_cases hq : q = o
    · subst hq
      simp only [if_true]
      rw [ho] at this
      simpa [hk] using this
    · simpa [hq] using this
  · intro a _ hma
    obtain ⟨ob3, e1, e2, e3⟩ := hma
    by_cases ha : a = o
    · subst ha
      rw [ho] at e1
      cases e1
      exact ⟨ob2, by simp [Heap.set_obj], hk.trans e2, hp.trans e3⟩
    · exact ⟨ob3, by simp [Heap.set_obj, ha, e1], e2, e3⟩

theorem set_obj_bounded {h : Heap} {o : Nat} {ob : Obj} (hb : h.bounded)
    (ho : h.objs o = some ob) (ob2 : Option Obj) : (h.set_obj o ob2).bounded := by
  intro x hx
  have : x ≠ o := by
    rintro rfl
    rw [hb x hx] at ho
    cases ho
  simp only [Heap.set_obj, this, if_false]
  exact hb x hx

/-- Initialising a list head gives the empty collection and leaves the other
collections as they were. -/
theorem heap_list_init_spec {h : Heap} {f : Field} {p : Nat}
    (hp : h.ok (ListRef.head f p) = true) :
    ∃ h2, h.list_init f p = some h2 ∧ ListOf h2 f p [] ∧ h2.objs = h.objs ∧
      h2.brk = h.brk ∧
      (∀ g q l, (g, q) ≠ (f, p) → ListOf h g q l → ListOf h2 g q l) ∧
      ∀ o, h2.links (ListRef.link o) = h.links (ListRef.link o) := by
  refine ⟨h.set_links (Rxkb.list_init h.links (ListRef.head f p)), ?_, ?_, rfl, rfl,
    ?_, ?_⟩
  · simp [Heap.list_init, hp]
  · exact ⟨list_init_isList _ _, hp, by simp⟩
  · intro g q l hne hl
    apply hl.listOf_frame
    · intro x hx
      have : x ≠ ListRef.head f p := by
        rintro rfl
        rcases List.mem_cons.mp hx with hx | hx
        · cases hx; exact hne rfl
        · obtain ⟨a, _, hEq⟩ := List.mem_map.mp hx
          cases hEq
      apply list_ext <;> simp [Heap.set_links, Rxkb.list_init, this]
    · exact hl.2.1
    · intro a _ hma; exact hma
  · intro o
    apply list_ext <;> simp [Heap.set_links, Rxkb.list_init]

/-! ## Creating an entity and appending it -/

theorem create_append_spec {h : Heap} (f : Field) (p : Nat) {ids : List Nat}
    (ob : Obj) (hk : ob.kind = f.child_kind) (hp : ob.base.parent = some p)
    (hb : h.bounded) (hl : ListOf h f p ids) :
    ∃ h2, (h.with_new ob).list_append f p h.brk = some h2 ∧
      ListOf h2 f p (ids ++ [h.brk]) ∧ Ext h h2 (fun g q => g = f ∧ q = p) ∧
      h2.objs = (h.with_new ob).objs ∧ h2.brk = h.brk + 1 ∧
      ∀ g l, ListOf (h.with_new ob) g h.brk l → ListOf h2 g h.brk l := by
  have E := with_new_ext h ob hb
  have hl1 := E.lists f p ids (fun x => x) hl
  have hm : Member (h.with_new ob) f p h.brk := ⟨ob, by simp [Heap.with_new], hk, hp⟩
  have hni : h.brk ∉ ids := fun hi => Nat.lt_irrefl _ ((hl.2.2 _ hi).lt hb)
  obtain ⟨h2, e1, e2, e3, e4, e5, e6⟩ := heap_list_append_spec hl1 hm hni
  have hpl := hl.owner_lt hb
  refine ⟨h2, e1, e2, ⟨?_, ?_, ?_, ?_, ?_⟩, e3, e4, ?_⟩
  · rw [e4]; exact E.brk_le
  · intro o ho; rw [e3]; exact E.objs_eq o ho
  · intro o ho
    rw [e3]; rw [e4] at ho
    exact E.bounded o ho
  · intro g q l hT hgl
    apply e5 g q l _ (E.lists g q l (fun x => x) hgl)
    intro hEq
    cases hEq
    exact hT ⟨rfl, rfl⟩
  · intro c hc hk
    rw [e6 c (by simpa [Heap.is_kind, E.objs_eq c hc] using hk)]
    exact E.ctx_link c hc hk
  · intro g l hgl
    apply e5 g h.brk l _ hgl
    intro hEq
    cases hEq
    exact Nat.lt_irrefl _ hpl

theorem store_model_new (h : Heap) (m : rxkb_model) (g : rxkb_model → rxkb_model) :
    (h.with_new (Obj.model m)).store_model h.brk g =
      some (h.with_new (Obj.model (g m))) := by
  simp only [Heap.store_model, Heap.with_new, if_true, Option.some.injEq]
  apply Heap.ext_iff3
  · funext x; simp only [Heap.set_obj]; split <;> rfl
  · rfl
  · rfl

theorem store_variant_new (h : Heap) (m : rxkb_variant)
    (g : rxkb_variant → rxkb_variant) :
    (h.with_new (Obj.variant m)).store_variant h.brk g =
      some (h.with_new (Obj.variant (g m))) := by
  simp only [Heap.store_variant, Heap.with_new, if_true, Option.some.injEq]
  apply Heap.ext_iff3
  · funext x; simp only [Heap.set_obj]; split <;> rfl
  · rfl
  · rfl

theorem store_option_new (h : Heap) (m : rxkb_option)
    (g : rxkb_option → rxkb_option) :
    (h.with_new (Obj.option m)).store_option h.brk g =
      some (h.with_new (Obj.option (g m))) := by
  simp only [Heap.store_option, Heap.with_new, if_true, Option.some.injEq]
  apply Heap.ext_iff3
  · funext x; simp only [Heap.set_obj]; split <;> rfl
  · rfl
  · rfl

/-- The object `parse_model` creates for a config item. -/
theorem parse_model_some {h : Heap} {ctx : Nat} {model : xmlNode} {ci : config_item}
    {ids : List Nat} (hc : parse_config_item model = some ci)
    (hb : h.bounded) (hl : ListOf h Field.models ctx ids) :
    ∃ h2, parse_model h ctx model = some h2 ∧
      ListOf h2 Field.models ctx (ids ++ [h.brk]) ∧
      Ext h h2 (fun g q => g = Field.models ∧ q = ctx) ∧
      h2.brk = h.brk + 1 ∧
      h2.objs h.brk = some (Obj.model
        { base := Kind.model.init_base (some ctx), name := ci.name,
          vendor := ci.brief_or_vendor, description := ci.description }) := by
  obtain ⟨h2, e1, e2, e3, e4, e5, _⟩ := create_append_spec Field.models ctx
    (Obj.model { base := Kind.model.init_base (some ctx), name := ci.name,
                 vendor := ci.brief_or_vendor, description := ci.description })
    rfl rfl hb hl
  refine ⟨h2, ?_, e2, e3, e5, ?_⟩
  · simp only [parse_model, hc, rxkb_model_create, T_create_eq, Option.some_bind]
    have : (Obj.zero Kind.model).set_base (Kind.model.init_base (some ctx)) =
        Obj.model { base := Kind.model.init_base (some ctx), name := none,
                    vendor := none, description := none } := rfl
    rw [this, store_model_new]
    exact e1
  · rw [e4]; simp [Heap.with_new]

theorem parse_model_none {h : Heap} {ctx : Nat} {model : xmlNode}
    (hc : parse_config_item model = none) : parse_model h ctx model = some h := by
  simp [parse_model, hc]

/-- The object `parse_variant` creates for a config item. -/
theorem parse_variant_some {h : Heap} {l : Nat} {variant : xmlNode} {ci : config_item}
    {ids : List Nat} (hc : parse_config_item variant = some ci)
    (hb : h.bounded) (hl : ListOf h Field.variants l ids) :
    ∃ h2, parse_variant h l variant = some h2 ∧
      ListOf h2 Field.variants l (ids ++ [h.brk]) ∧
      Ext h h2 (fun g q => g = Field.variants ∧ q = l) ∧
      h2.brk = h.brk + 1 ∧
      h2.objs h.brk = some (Obj.variant
        { base := Kind.variant.init_base (some l), name := ci.name,
          brief := ci.brief_or_vendor, description := ci.description }) := by
  obtain ⟨h2, e1, e2, e3, e4, e5, _⟩ := create_append_spec Field.variants l
    (Obj.variant { base := Kind.variant.init_base (some l), name := ci.name,
                   brief := ci.brief_or_vendor, description := ci.description })
    rfl rfl hb hl
  refine ⟨h2, ?_, e2, e3, e5, ?_⟩
  · simp only [parse_variant, hc, rxkb_variant_create, T_create_eq, Option.some_bind]
    have : (Obj.zero Kind.variant).set_base (Kind.variant.init_base (some l)) =
        Obj.variant { base := Kind.variant.init_base (some l), name := none,
                      brief := none, description := none } := rfl
    rw [this, store_variant_new]
    exact e1
  · rw [e4]; simp [Heap.with_new]

/-- The object `parse_option` creates for a config item: its brief stays
`NULL`. -/
theorem parse_option_some {h : Heap} {g : Nat} {option : xmlNode} {ci : config_item}
    {ids : List Nat} (hc : parse_config_item option = some ci)
    (hb : h.bounded) (hl : ListOf h Field.options g ids) :
    ∃ h2, parse_option h g option = some h2 ∧
      ListOf h2 Field.options g (ids ++ [h.brk]) ∧
      Ext h h2 (fun f q => f = Field.options ∧ q = g) ∧
      h2.brk = h.brk + 1 ∧
      h2.objs h.brk = some (Obj.option
        { base := Kind.option.init_base (some g), name := ci.name,
          brief := none, description := ci.description }) := by
  obtain ⟨h2, e1, e2, e3, e4, e5, _⟩ := create_append_spec Field.options g
    (Obj.option { base := Kind.option.init_base (some g), name := ci.name,
                  brief := none, description := ci.description })
    rfl rfl hb hl
  refine ⟨h2, ?_, e2, e3, e5, ?_⟩
  · simp only [parse_option, hc, rxkb_option_create, T_create_eq, Option.some_bind]
    have : (Obj.zero Kind.option).set_base (Kind.option.init_base (some g)) =
        Obj.option { base := Kind.option.init_base (some g), name := none,
                     brief := none, description := none } := rfl
    rw [this, store_option_new]
    exact e1
  · rw [e4]; simp [Heap.with_new]

/-! ## Loops over child elements -/

theorem for_each_child_spec {α : Type} (body : Heap → xmlNode → Option Heap)
    (step : α → xmlNode → α) (P : Heap → α → Prop)
    (hstep : ∀ h a node, P h a → ∃ h2, body h node = some h2 ∧ P h2 (step a node)) :
    ∀ (nodes : List xmlNode) (h : Heap) (a : α), P h a →
      ∃ h2, for_each_child body nodes h = some h2 ∧ P h2 (nodes.foldl step a) := by
  intro nodes
  induction nodes with
  | nil => intro h a hP; exact ⟨h, rfl, hP⟩
  | cons n ns ih =>
    intro h a hP
    obtain ⟨h1, e1, hP1⟩ := hstep h a n hP
    obtain ⟨h2, e2, hP2⟩ := ih h1 (step a n) hP1
    exact ⟨h2, by simp [for_each_child, e1, e2], hP2⟩

theorem foldl_contrib {α : Type} (name : String) (g : xmlNode → Option α)
    (nodes : List xmlNode) (a : List α) :
    nodes.foldl (fun acc n =>
        if is_node n name then
          match g n with
          | some x => acc ++ [x]
          | none => acc
        else acc) a =
      a ++ (nodes.filter (fun n => is_node n name)).filterMap g := by
  induction nodes generalizing a with
  | nil => simp
  | cons n ns ih =>
    simp only [List.foldl_cons, ih]
    by_cases hn : is_node n name = true
    · cases hg : g n with
      | none => simp [hn, List.filter_cons, List.filterMap_cons, hg]
      | some x => simp [hn, List.filter_cons, List.filterMap_cons, hg]
    · simp [hn, List.filter_cons]

theorem foldl_contrib_list {α : Type} (name : String) (g : xmlNode → List α)
    (nodes : List xmlNode) (a : List α) :
    nodes.foldl (fun acc n => if is_node n name then acc ++ g n else acc) a =
      a ++ (nodes.filter (fun n => is_node n name)).flatMap g := by
  induction nodes generalizing a with
  | nil => simp
  | cons n ns ih =>
    simp only [List.foldl_cons, ih]
    by_cases hn : is_node n name = true
    · simp [hn, List.filter_cons, List.append_assoc]
    · simp [hn, List.filter_cons]

/-! ## Reading collections back -/

theorem model_view_congr {h h2 : Heap} {m : Nat} (e : h2.objs m = h.objs m) :
    model_view h2 m = model_view h m := by
  simp [model_view, rxkb_model_get_name, rxkb_model_get_description,
    rxkb_model_get_vendor, e]

theorem variant_view_congr {h h2 : Heap} {m : Nat} (e : h2.objs m = h.objs m) :
    variant_view h2 m = variant_view h m := by
  simp [variant_view, rxkb_variant_get_name, rxkb_variant_get_description,
    rxkb_variant_get_brief, e]

theorem option_view_congr {h h2 : Heap} {m : Nat} (e : h2.objs m = h.objs m) :
    option_view h2 m = option_view h m := by
  simp [option_view, rxkb_option_get_name, rxkb_option_get_description,
    rxkb_option_get_brief, e]

theorem layout_item_view_congr {h h2 : Heap} {m : Nat} (e : h2.objs m = h.objs m) :
    layout_item_view h2 m = layout_item_view h m := by
  simp [layout_item_view, rxkb_layout_get_name, rxkb_layout_get_description,
    rxkb_layout_get_brief, e]

theorem group_item_view_congr {h h2 : Heap} {m : Nat} (e : h2.objs m = h.objs m) :
    group_item_view h2 m = group_item_view h m := by
  simp [group_item_view, rxkb_option_group_get_name,
    rxkb_option_group_get_description, rxkb_option_group_allows_multiple, e]

/-- A collection outside `T` reads the same in an extended heap. -/
theorem Holds.holds_ext {α : Type} {At : Heap → Nat → α → Prop} {f : Field} {h h2 : Heap}
    {p : Nat} {xs : List α} {T : Field → Nat → Prop}
    (hh : Holds At f h p xs) (E : Ext h h2 T) (hT : ¬ T f p) (hb : h.bounded)
    (hAt : ∀ o x, o < h.brk → At h o x → At h2 o x) :
    Holds At f h2 p xs := by
  obtain ⟨ids, hl, hf⟩ := hh
  refine ⟨ids, E.lists f p ids hT hl, ?_⟩
  have hlt : ∀ o ∈ ids, o < h.brk := fun o ho => (hl.2.2 o ho).lt hb
  clear hl
  induction hf with
  | nil => exact List.Forall₂.nil
  | cons hx _ ih =>
    refine List.Forall₂.cons (hAt _ _ (hlt _ (by simp)) hx) (ih ?_)
    intro o ho; exact hlt o (List.mem_cons_of_mem _ ho)

/-- A collection that grew by one entry. -/
theorem Holds.snoc {α : Type} {At : Heap → Nat → α → Prop} {f : Field} {h h2 : Heap}
    {p n : Nat} {xs : List α} {x : α} {ids : List Nat}
    (hl : ListOf h f p ids) (hf : List.Forall₂ (At h) ids xs)
    (hl2 : ListOf h2 f p (ids ++ [n])) (hb : h.bounded)
    (hAt : ∀ o y, o < h.brk → At h o y → At h2 o y) (hn : At h2 n x) :
    Holds At f h2 p (xs ++ [x]) := by
  refine ⟨ids ++ [n], hl2, ?_⟩
  have hlt : ∀ o ∈ ids, o < h.brk := fun o ho => (hl.2.2 o ho).lt hb
  clear hl hl2
  induction hf with
  | nil => exact List.Forall₂.cons hn List.Forall₂.nil
  | cons hx _ ih =>
    refine List.Forall₂.cons (hAt _ _ (hlt _ (by simp)) hx) (ih ?_)
    intro o ho; exact hlt o (List.mem_cons_of_mem _ ho)

theorem read_all_spec {α : Type} {At : Heap → Nat → α → Prop}
    {view : Heap → Nat → Option α} {h : Heap} {ids : List Nat} {xs : List α}
    (hv : ∀ o x, At h o x → view h o = some x) (hf : List.Forall₂ (At h) ids xs) :
    read_all view h ids = some xs := by
  induction hf with
  | nil => rfl
  | cons hx _ ih => simp [read_all, hv _ _ hx, ih]

/-- A well-formed collection reads back, by first/next and the getters, as its
contents. -/
theorem Holds.view {α : Type} {At : Heap → Nat → α → Prop}
    {view : Heap → Nat → Option α} {f : Field} {h : Heap} {p : Nat} {xs : List α}
    (hh : Holds At f h p xs) (hb : h.bounded)
    (hv : ∀ o x, At h o x → view h o = some x) :
    collection_view view f.child_kind f h p = some xs := by
  obtain ⟨ids, hl, hf⟩ := hh
  simp [collection_view, entries_spec hl hb, read_all_spec hv hf]

/-! ## The list walks of the parser -/

/-- A walk that appends, for each child element of the given name, the entity
`parse_one` makes of it. -/
theorem list_loop_spec {α : Type} (At : Heap → Nat → α → Prop) (f : Field)
    (name : String) (contrib : xmlNode → Option α)
    (parse_one : Heap → Nat → xmlNode → Option Heap) (p : Nat)
    (hAt : ∀ h h2 o x, Ext h h2 (fun g q => g = f ∧ q = p) → h.bounded →
      o < h.brk → At h o x → At h2 o x)
    (hone : ∀ h node ids, h.bounded → ListOf h f p ids →
      ∃ h2, parse_one h p node = some h2 ∧
        match contrib node with
        | none => h2 = h
        | some x => ListOf h2 f p (ids ++ [h.brk]) ∧
            Ext h h2 (fun g q => g = f ∧ q = p) ∧ At h2 h.brk x)
    (nodes : List xmlNode) (h : Heap) (xs : List α) (hb : h.bounded)
    (hh : Holds At f h p xs) :
    ∃ h2, for_each_child
        (fun hh node => if is_node node name then parse_one hh p node else some hh)
        nodes h = some h2 ∧
      Holds At f h2 p (xs ++ (nodes.filter (fun n => is_node n name)).filterMap contrib) ∧
      Ext h h2 (fun g q => g = f ∧ q = p) := by
  have key := for_each_child_spec
    (fun hh node => if is_node node name then parse_one hh p node else some hh)
    (fun (acc : List α) n =>
        if is_node n name then
          match contrib n with
          | some x => acc ++ [x]
          | none => acc
        else acc)
    (fun hh a => Ext h hh (fun g q => g = f ∧ q = p) ∧ Holds At f hh p a)
    (by
      intro h1 a node hP
      obtain ⟨E, ids, hl, hf⟩ := hP
      by_cases hn : is_node node name = true
      · simp only [hn, if_true]
        obtain ⟨h2, e1, e2⟩ := hone h1 node ids E.bounded hl
        refine ⟨h2, e1, ?_⟩
        cases hc : contrib node with
        | none =>
          rw [hc] at e2
          simp only at e2
          subst e2
          exact ⟨E, ids, hl, hf⟩
        | some x =>
          rw [hc] at e2
          simp only at e2
          obtain ⟨l2, E2, a2⟩ := e2
          refine ⟨E.trans E2, ?_⟩
          exact Holds.snoc hl hf l2 E.bounded
            (fun o y ho hy => hAt h1 h2 o y E2 E.bounded ho hy) a2
      · simp only [hn]
        exact ⟨h1, rfl, E, ids, hl, hf⟩)
    nodes h xs ⟨Ext.refl h hb _, hh⟩
  obtain ⟨h2, e1, E, hh2⟩ := key
  rw [foldl_contrib] at hh2
  exact ⟨h2, e1, hh2, E⟩

theorem Sound.of_init {h : Heap} {o : Nat} {ob : Obj} (parent : Ptr)
    (e : h.objs o = some ob) (hb : ob.base = ob.kind.init_base parent) : Sound h o := by
  refine ⟨ob, e, ?_, ?_, ?_⟩
  · rw [hb]; exact Nat.le_refl 1
  · rw [hb]; exact (by decide : 1 < UINT32_MOD)
  · rw [hb]; rfl

theorem Sound.sound_congr {h h2 : Heap} {o : Nat} (e : h2.objs o = h.objs o)
    (hs : Sound h o) : Sound h2 o := by
  obtain ⟨ob, o1, o2⟩ := hs
  exact ⟨ob, by rw [e]; exact o1, o2⟩

theorem ModelAt.model_ext {h h2 : Heap} {T : Field → Nat → Prop} {o : Nat} {x : config_item}
    (E : Ext h h2 T) (ho : o < h.brk) (hx : ModelAt h o x) : ModelAt h2 o x := by
  unfold ModelAt at *
  rw [model_view_congr (E.objs_eq o ho)]
  exact ⟨hx.1, hx.2.sound_congr (E.objs_eq o ho)⟩

theorem VariantAt.variant_ext {h h2 : Heap} {T : Field → Nat → Prop} {o : Nat} {x : config_item}
    (E : Ext h h2 T) (ho : o < h.brk) (hx : VariantAt h o x) : VariantAt h2 o x := by
  unfold VariantAt at *
  rw [variant_view_congr (E.objs_eq o ho)]
  exact ⟨hx.1, hx.2.sound_congr (E.objs_eq o ho)⟩

theorem OptionAt.option_ext {h h2 : Heap} {T : Field → Nat → Prop} {o : Nat} {x : config_item}
    (E : Ext h h2 T) (ho : o < h.brk) (hx : OptionAt h o x) : OptionAt h2 o x := by
  unfold OptionAt at *
  rw [option_view_congr (E.objs_eq o ho)]
  exact ⟨hx.1, hx.2.sound_congr (E.objs_eq o ho)⟩

theorem LayoutAt.layout_ext {h h2 : Heap} {T : Field → Nat → Prop} {o : Nat} {x : layout_data}
    (E : Ext h h2 T) (hb : h.bounded) (hT : ¬ T Field.variants o) (ho : o < h.brk)
    (hx : LayoutAt h o x) : LayoutAt h2 o x := by
  obtain ⟨h1, hs, hv⟩ := hx
  refine ⟨?_, hs.sound_congr (E.objs_eq o ho),
    hv.holds_ext E hT hb (fun a y ha hy => VariantAt.variant_ext E ha hy)⟩
  rw [layout_item_view_congr (E.objs_eq o ho)]; exact h1

theorem GroupAt.group_ext {h h2 : Heap} {T : Field → Nat → Prop} {o : Nat} {x : group_data}
    (E : Ext h h2 T) (hb : h.bounded) (hT : ¬ T Field.options o) (ho : o < h.brk)
    (hx : GroupAt h o x) : GroupAt h2 o x := by
  obtain ⟨h1, hs, hv⟩ := hx
  refine ⟨?_, hs.sound_congr (E.objs_eq o ho),
    hv.holds_ext E hT hb (fun a y ha hy => OptionAt.option_ext E ha hy)⟩
  rw [group_item_view_congr (E.objs_eq o ho)]; exact h1

/-- The walk of `parse_model_list`. -/
theorem parse_model_list_spec {h : Heap} {ctx : Nat} (model_list : xmlNode)
    {ms : List config_item} (hb : h.bounded)
    (hh : Holds ModelAt Field.models h ctx ms) :
    ∃ h2, parse_model_list h ctx model_list = some h2 ∧
      Holds ModelAt Field.models h2 ctx (ms ++ model_list_items model_list) ∧
      Ext h h2 (fun g q => g = Field.models ∧ q = ctx) := by
  apply list_loop_spec ModelAt Field.models "model" parse_config_item
    (fun hh c node => parse_model hh c node) ctx
    (fun h1 h2 o x E _ ho hx => ModelAt.model_ext E ho hx) _ model_list.children h ms hb hh
  intro h1 node ids hb1 hl
  cases hc : parse_config_item node with
  | none => exact ⟨h1, parse_model_none hc, rfl⟩
  | some ci =>
    obtain ⟨h2, e1, e2, e3, e4, e5⟩ := parse_model_some hc hb1 hl
    refine ⟨h2, e1, e2, e3, ?_, Sound.of_init (some ctx) e5 rfl⟩
    simp [model_view, rxkb_model_get_name, rxkb_model_get_description,
      rxkb_model_get_vendor, e5]

/-- The walk of `parse_variant_list`. -/
theorem parse_variant_list_spec {h : Heap} {l : Nat} (variant_list : xmlNode)
    {vs : List config_item} (hb : h.bounded)
    (hh : Holds VariantAt Field.variants h l vs) :
    ∃ h2, parse_variant_list h l variant_list = some h2 ∧
      Holds VariantAt Field.variants h2 l (vs ++ variant_list_items variant_list) ∧
      Ext h h2 (fun g q => g = Field.variants ∧ q = l) := by
  apply list_loop_spec VariantAt Field.variants "variant" parse_config_item
    (fun hh c node => parse_variant hh c node) l
    (fun h1 h2 o x E _ ho hx => VariantAt.variant_ext E ho hx) _ variant_list.children h vs hb hh
  intro h1 node ids hb1 hl
  cases hc : parse_config_item node with
  | none => exact ⟨h1, by simp [parse_variant, hc], rfl⟩
  | some ci =>
    obtain ⟨h2, e1, e2, e3, e4, e5⟩ := parse_variant_some hc hb1 hl
    refine ⟨h2, e1, e2, e3, ?_, Sound.of_init (some l) e5 rfl⟩
    simp [variant_view, rxkb_variant_get_name, rxkb_variant_get_description,
      rxkb_variant_get_brief, e5]

/-- The walk over the `option` children in `parse_group`. -/
theorem parse_options_spec {h : Heap} {g : Nat} (nodes : List xmlNode)
    {os : List config_item} (hb : h.bounded)
    (hh : Holds OptionAt Field.options h g os) :
    ∃ h2, for_each_child
        (fun hh node => if is_node node "option" then parse_option hh g node
                        else some hh) nodes h = some h2 ∧
      Holds OptionAt Field.options h2 g
        (os ++ (nodes.filter (fun n => is_node n "option")).filterMap option_item) ∧
      Ext h h2 (fun f q => f = Field.options ∧ q = g) := by
  apply list_loop_spec OptionAt Field.options "option" option_item
    (fun hh c node => parse_option hh c node) g
    (fun h1 h2 o x E _ ho hx => OptionAt.option_ext E ho hx) _ nodes h os hb hh
  intro h1 node ids hb1 hl
  cases hc : parse_config_item node with
  | none => exact ⟨h1, by simp [parse_option, hc], by simp [option_item, hc]⟩
  | some ci =>
    obtain ⟨h2, e1, e2, e3, e4, e5⟩ := parse_option_some hc hb1 hl
    refine ⟨h2, e1, ?_⟩
    simp only [option_item, hc, Option.map_some']
    refine ⟨e2, e3, ?_, Sound.of_init (some g) e5 rfl⟩
    simp [option_view, rxkb_option_get_name, rxkb_option_get_description,
      rxkb_option_get_brief, e5]

theorem parse_layout_loop_eq (l : Nat) (nodes : List xmlNode) (h : Heap) :
    parse_layout_loop l nodes h =
      match nodes.find? (fun n => is_node n "variantList") with
      | some vl => parse_variant_list h l vl
      | none => some h := by
  induction nodes with
  | nil => rfl
  | cons n ns ih =>
    by_cases hn : is_node n "variantList" = true
    · simp [parse_layout_loop, hn, List.find?_cons]
    · simp only [parse_layout_loop, hn, List.find?_cons]
      simpa using ih

/-! ## Layouts and option groups -/

theorem with_new_list_init (h : Heap) (ob : Obj) (f : Field)
    (hk : ob.kind.has_field f = true) :
    (h.with_new ob).list_init f h.brk =
      some ((h.with_new ob).set_links
        (Rxkb.list_init h.new_links (ListRef.head f h.brk))) := by
  simp [Heap.list_init, Heap.ok, Heap.with_new, hk]

theorem with_new_list_init_layout (h : Heap) (m : rxkb_layout) :
    (h.with_new (Obj.layout m)).list_init Field.variants h.brk =
      some ((h.with_new (Obj.layout m)).set_links
        (Rxkb.list_init h.new_links (ListRef.head Field.variants h.brk))) :=
  with_new_list_init h _ _ rfl

theorem with_new_list_init_group (h : Heap) (m : rxkb_option_group) :
    (h.with_new (Obj.option_group m)).list_init Field.options h.brk =
      some ((h.with_new (Obj.option_group m)).set_links
        (Rxkb.list_init h.new_links (ListRef.head Field.options h.brk))) :=
  with_new_list_init h _ _ rfl

theorem store_layout_new (h : Heap) (m : rxkb_layout) (lk : Links)
    (g : rxkb_layout → rxkb_layout) :
    ((h.with_new (Obj.layout m)).set_links lk).store_layout h.brk g =
      some ((h.with_new (Obj.layout (g m))).set_links lk) := by
  simp only [Heap.store_layout, Heap.with_new, Heap.set_links, if_true,
    Option.some.injEq]
  apply Heap.ext_iff3
  · funext x; simp only [Heap.set_obj]; split <;> rfl
  · rfl
  · rfl

theorem store_option_group_new (h : Heap) (m : rxkb_option_group)
    (g : rxkb_option_group → rxkb_option_group) :
    (h.with_new (Obj.option_group m)).store_option_group h.brk g =
      some (h.with_new (Obj.option_group (g m))) := by
  simp only [Heap.store_option_group, Heap.with_new, if_true, Option.some.injEq]
  apply Heap.ext_iff3
  · funext x; simp only [Heap.set_obj]; split <;> rfl
  · rfl
  · rfl

/-- A new object with one list head: the head is initialised, the object is
appended to its parent's collection. -/
theorem create_init_append_spec {h : Heap} (f : Field) (p : Nat) (fc : Field)
    {ids : List Nat} (ob : Obj) (hk : ob.kind = f.child_kind)
    (hp : ob.base.parent = some p) (hf : ob.kind.has_field fc = true)
    (hb : h.bounded) (hl : ListOf h f p ids) :
    ∃ h3, ((h.with_new ob).set_links
        (Rxkb.list_init h.new_links (ListRef.head fc h.brk))).list_append
          f p h.brk = some h3 ∧
      ListOf h3 f p (ids ++ [h.brk]) ∧ ListOf h3 fc h.brk [] ∧
      h3.bounded ∧ h3.brk = h.brk + 1 ∧ h3.objs h.brk = some ob ∧
      (∀ o, o < h.brk → h3.objs o = h.objs o) ∧
      (∀ g q l, ¬ (g = f ∧ q = p) → ListOf h g q l → ListOf h3 g q l) ∧
      ∀ c, c < h.brk → h.is_kind Kind.context c = true →
        h3.links (ListRef.link c) = h.links (ListRef.link c) := by
  have E := with_new_ext h ob hb
  have hok : (h.with_new ob).ok (ListRef.head fc h.brk) = true := by
    simp [Heap.ok, Heap.with_new, hf]
  obtain ⟨H2, i1, i2, i3, i4, i5, i6⟩ := heap_list_init_spec hok
  rw [with_new_list_init h ob fc hf] at i1
  cases i1
  have hpl := hl.owner_lt hb
  have hne : ∀ g q l, ListOf h g q l → (g, q) ≠ (fc, h.brk) := by
    intro g q l hgl hEq
    cases hEq
    exact Nat.lt_irrefl _ (hgl.owner_lt hb)
  have hlH2 := i5 f p ids (hne f p ids hl) (E.lists f p ids (fun x => x) hl)
  have hm : Member ((h.with_new ob).set_links
      (Rxkb.list_init h.new_links (ListRef.head fc h.brk))) f p h.brk :=
    ⟨ob, by simp [Heap.with_new, Heap.set_links], hk, hp⟩
  have hni : h.brk ∉ ids := fun hi => Nat.lt_irrefl _ ((hl.2.2 _ hi).lt hb)
  obtain ⟨H3, a1, a2, a3, a4, a5, a6⟩ := heap_list_append_spec hlH2 hm hni
  refine ⟨H3, a1, a2, ?_, ?_, ?_, ?_, ?_, ?_, ?_⟩
  · apply a5 fc h.brk [] _ i2
    intro hEq
    cases hEq
    exact Nat.lt_irrefl _ hpl
  · intro o ho
    rw [a3]; rw [a4] at ho
    exact E.bounded o ho
  · rw [a4]; rfl
  · rw [a3]; simp [Heap.with_new, Heap.set_links]
  · intro o ho
    rw [a3]; exact E.objs_eq o ho
  · intro g q l hT hgl
    apply a5 g q l _ (i5 g q l (hne g q l hgl) (E.lists g q l (fun x => x) hgl))
    intro hEq
    cases hEq
    exact hT ⟨rfl, rfl⟩
  · intro c hc hk
    have hk2 : ((h.with_new ob).set_links
        (Rxkb.list_init h.new_links (ListRef.head fc h.brk))).is_kind Kind.context c
        = true := by
      have := E.objs_eq c hc
      simp only [Heap.is_kind, Heap.set_links] at hk ⊢
      rw [this]; exact hk
    rw [a6 c hk2, i6 c]
    exact E.ctx_link c hc hk

/-- The layout `parse_layout` creates for a config item, with the variants of
the first `variantList`. -/
theorem parse_layout_some {h : Heap} {ctx : Nat} {layout : xmlNode} {ci : config_item}
    {ids : List Nat} (hc : parse_config_item layout = some ci)
    (hb : h.bounded) (hl : ListOf h Field.layouts ctx ids) :
    ∃ h2, parse_layout h ctx layout = some h2 ∧
      ListOf h2 Field.layouts ctx (ids ++ [h.brk]) ∧
      Ext h h2 (fun g q => g = Field.layouts ∧ q = ctx) ∧
      LayoutAt h2 h.brk { item := ci, variants := layout_variants layout } := by
  obtain ⟨H3, a1, a2, a3, a4, a5, a6, a7, a8, a9⟩ := create_init_append_spec
    Field.layouts ctx Field.variants
    (Obj.layout { base := Kind.layout.init_base (some ctx), name := ci.name,
                  brief := ci.brief_or_vendor, description := ci.description })
    rfl rfl rfl hb hl
  have hv0 : Holds VariantAt Field.variants H3 h.brk [] := ⟨[], a3, List.Forall₂.nil⟩
  have hloop : ∃ H4, parse_layout_loop h.brk layout.children H3 = some H4 ∧
      Holds VariantAt Field.variants H4 h.brk (layout_variants layout) ∧
      Ext H3 H4 (fun g q => g = Field.variants ∧ q = h.brk) := by
    rw [parse_layout_loop_eq]
    unfold layout_variants
    cases layout.children.find? (fun n => is_node n "variantList") with
    | none => exact ⟨H3, rfl, hv0, Ext.refl H3 a4 _⟩
    | some vl =>
      obtain ⟨H4, p1, p2, p3⟩ := parse_variant_list_spec vl a4 hv0
      exact ⟨H4, p1, by simpa using p2, p3⟩
  obtain ⟨H4, p1, p2, p3⟩ := hloop
  have hlt : h.brk < H3.brk := by rw [a5]; exact Nat.lt_succ_self _
  have hctx : ∀ c, c < h.brk → h.is_kind Kind.context c = true →
      H4.links (ListRef.link c) = h.links (ListRef.link c) := by
    intro c hc1 hk
    rw [p3.ctx_link c (Nat.lt_trans hc1 hlt)
      (by simpa [Heap.is_kind, a7 c hc1] using hk)]
    exact a9 c hc1 hk
  have hob := p3.objs_eq h.brk hlt
  rw [a6] at hob
  refine ⟨H4, ?_, ?_, ⟨?_, ?_, p3.bounded, ?_, hctx⟩, ?_,
    Sound.of_init (some ctx) hob rfl, p2⟩
  · simp only [parse_layout, hc, rxkb_layout_create, T_create_eq, Option.some_bind]
    have : (Obj.zero Kind.layout).set_base (Kind.layout.init_base (some ctx)) =
        Obj.layout { base := Kind.layout.init_base (some ctx), name := none,
                     brief := none, description := none } := rfl
    rw [this, with_new_list_init_layout]
    simp only [Option.some_bind]
    rw [store_layout_new]
    simp only [Option.some_bind]
    rw [a1]
    exact p1
  · exact p3.lists _ _ _ (by simp) a2
  · have := p3.brk_le
    rw [a5] at this
    exact Nat.le_of_succ_le this
  · intro o ho
    rw [p3.objs_eq o (Nat.lt_trans ho hlt)]
    exact a7 o ho
  · intro g q l hT hgl
    apply p3.lists g q l _ (a8 g q l hT hgl)
    rintro ⟨_, hq⟩
    have := hgl.owner_lt hb
    rw [hq] at this
    exact Nat.lt_irrefl _ this
  · have := p3.objs_eq h.brk hlt
    rw [a6] at this
    simp [layout_item_view, rxkb_layout_get_name, rxkb_layout_get_description,
      rxkb_layout_get_brief, this]

/-- The walk of `parse_layout_list`. -/
theorem parse_layout_list_spec {h : Heap} {ctx : Nat} (layout_list : xmlNode)
    {ls : List layout_data} (hb : h.bounded)
    (hh : Holds LayoutAt Field.layouts h ctx ls) :
    ∃ h2, parse_layout_list h ctx layout_list = some h2 ∧
      Holds LayoutAt Field.layouts h2 ctx (ls ++ layout_list_items layout_list) ∧
      Ext h h2 (fun g q => g = Field.layouts ∧ q = ctx) := by
  apply list_loop_spec LayoutAt Field.layouts "layout" layout_item
    (fun hh c node => parse_layout hh c node) ctx
    (fun h1 h2 o x E hb1 ho hx => LayoutAt.layout_ext E hb1 (by simp) ho hx) _
    layout_list.children h ls hb hh
  intro h1 node ids hb1 hl
  cases hc : parse_config_item node with
  | none => exact ⟨h1, by simp [parse_layout, hc], by simp [layout_item, hc]⟩
  | some ci =>
    obtain ⟨h2, e1, e2, e3, e4⟩ := parse_layout_some hc hb1 hl
    refine ⟨h2, e1, ?_⟩
    simp only [layout_item, hc, Option.map_some']
    exact ⟨e2, e3, e4⟩

/-- The option group `parse_group` creates for a config item, with its flag and
its options. -/
theorem parse_group_some {h : Heap} {ctx : Nat} {group : xmlNode} {ci : config_item}
    {ids : List Nat} (hc : parse_config_item group = some ci)
    (hb : h.bounded) (hl : ListOf h Field.option_groups ctx ids) :
    ∃ h2, parse_group h ctx group = some h2 ∧
      ListOf h2 Field.option_groups ctx (ids ++ [h.brk]) ∧
      Ext h h2 (fun g q => g = Field.option_groups ∧ q = ctx) ∧
      GroupAt h2 h.brk
        { item := { name := ci.name, description := ci.description,
                    allows_multiple := group_flag group },
          options := (group.children.filter (fun n => is_node n "option")).filterMap
            option_item } := by
  obtain ⟨H3, a1, a2, a3, a4, a5, a6, a7, a8, a9⟩ := create_init_append_spec
    Field.option_groups ctx Field.options
    (Obj.option_group { base := Kind.option_group.init_base (some ctx),
                        allow_multiple := group_flag group, name := ci.name,
                        description := ci.description })
    rfl rfl rfl hb hl
  have hv0 : Holds OptionAt Field.options H3 h.brk [] := ⟨[], a3, List.Forall₂.nil⟩
  obtain ⟨H4, p1, p2, p3⟩ := parse_options_spec group.children a4 hv0
  have hlt : h.brk < H3.brk := by rw [a5]; exact Nat.lt_succ_self _
  have hctx : ∀ c, c < h.brk → h.is_kind Kind.context c = true →
      H4.links (ListRef.link c) = h.links (ListRef.link c) := by
    intro c hc1 hk
    rw [p3.ctx_link c (Nat.lt_trans hc1 hlt)
      (by simpa [Heap.is_kind, a7 c hc1] using hk)]
    exact a9 c hc1 hk
  have hob := p3.objs_eq h.brk hlt
  rw [a6] at hob
  refine ⟨H4, ?_, ?_, ⟨?_, ?_, p3.bounded, ?_, hctx⟩, ?_,
    Sound.of_init (some ctx) hob rfl, by simpa using p2⟩
  · simp only [parse_group, hc, rxkb_option_group_create, T_create_eq,
      Option.some_bind]
    have : (Obj.zero Kind.option_group).set_base
          (Kind.option_group.init_base (some ctx)) =
        Obj.option_group { base := Kind.option_group.init_base (some ctx),
                           allow_multiple := false, name := none,
                           description := none } := rfl
    rw [this, store_option_group_new]
    simp only [Option.some_bind]
    have hflag : (match xmlGetProp group "allowMultipleSelection" with
        | some multiple =>
          if xmlStrcmp multiple "true" = true then
            (h.with_new (Obj.option_group
              { base := Kind.option_group.init_base (some ctx),
                allow_multiple := false, name := ci.name,
                description := ci.description })).store_option_group h.brk
              (fun g => { g with allow_multiple := true })
          else some (h.with_new (Obj.option_group
              { base := Kind.option_group.init_base (some ctx),
                allow_multiple := false, name := ci.name,
                description := ci.description }))
        | none => some (h.with_new (Obj.option_group
              { base := Kind.option_group.init_base (some ctx),
                allow_multiple := false, name := ci.name,
                description := ci.description }))) =
        some (h.with_new (Obj.option_group
              { base := Kind.option_group.init_base (some ctx),
                allow_multiple := group_flag group, name := ci.name,
                description := ci.description })) := by
      unfold group_flag
      cases xmlGetProp group "allowMultipleSelection" with
      | none => rfl
      | some m =>
        by_cases hm : xmlStrcmp m "true" = true
        · simp only [hm, if_true]
          rw [store_option_group_new]
        · simp only [hm]
          simp at hm
          simp [hm]
    rw [hflag]
    simp only [Option.some_bind]
    rw [with_new_list_init_group]
    simp only [Option.some_bind]
    rw [a1]
    exact p1
  · exact p3.lists _ _ _ (by simp) a2
  · have := p3.brk_le
    rw [a5] at this
    exact Nat.le_of_succ_le this
  · intro o ho
    rw [p3.objs_eq o (Nat.lt_trans ho hlt)]
    exact a7 o ho
  · intro g q l hT hgl
    apply p3.lists g q l _ (a8 g q l hT hgl)
    rintro ⟨_, hq⟩
    have := hgl.owner_lt hb
    rw [hq] at this
    exact Nat.lt_irrefl _ this
  · have := p3.objs_eq h.brk hlt
    rw [a6] at this
    simp [group_item_view, rxkb_option_group_get_name,
      rxkb_option_group_get_description, rxkb_option_group_allows_multiple, this]

/-- The walk of `parse_option_list`. -/
theorem parse_option_list_spec {h : Heap} {ctx : Nat} (option_list : xmlNode)
    {gs : List group_data} (hb : h.bounded)
    (hh : Holds GroupAt Field.option_groups h ctx gs) :
    ∃ h2, parse_option_list h ctx option_list = some h2 ∧
      Holds GroupAt Field.option_groups h2 ctx (gs ++ option_list_items option_list) ∧
      Ext h h2 (fun g q => g = Field.option_groups ∧ q = ctx) := by
  apply list_loop_spec GroupAt Field.option_groups "group" group_data_of
    (fun hh c node => parse_group hh c node) ctx
    (fun h1 h2 o x E hb1 ho hx => GroupAt.group_ext E hb1 (by simp) ho hx) _
    option_list.children h gs hb hh
  intro h1 node ids hb1 hl
  cases hc : parse_config_item node with
  | none => exact ⟨h1, by simp [parse_group, hc], by simp [group_data_of, hc]⟩
  | some ci =>
    obtain ⟨h2, e1, e2, e3, e4⟩ := parse_group_some hc hb1 hl
    refine ⟨h2, e1, ?_⟩
    simp only [group_data_of, hc, Option.map_some']
    exact ⟨e2, e3, e4⟩

/-! ## The walk of the whole document -/

theorem Sound.sound_lt {h : Heap} {o : Nat} (hs : Sound h o) (hb : h.bounded) : o < h.brk := by
  by_contra hc
  obtain ⟨ob, e1, _⟩ := hs
  rw [hb o (Nat.le_of_not_lt hc)] at e1
  cases e1

theorem ContextOK.context_ext {h h2 : Heap} {T : Field → Nat → Prop} {ctx : Nat}
    (hk : ContextOK h ctx) (E : Ext h h2 T) (hb : h.bounded) : ContextOK h2 ctx := by
  obtain ⟨k1, k2, k3⟩ := hk
  have hlt := k1.sound_lt hb
  refine ⟨k1.sound_congr (E.objs_eq ctx hlt), ?_, ?_⟩
  · simpa [Heap.is_kind, E.objs_eq ctx hlt] using k2
  · rw [E.ctx_link ctx hlt k2]; exact k3

theorem is_node_name {n : xmlNode} {a b : String} (ha : is_node n a = true)
    (hb : is_node n b = true) : a = b := by
  simp only [is_node, Bool.and_eq_true, decide_eq_true_eq] at ha hb
  rw [← ha.2, ← hb.2]

/-- The heap of a context whose collections are well formed: `parse_rules_xml`
succeeds on it and appends to each collection what the document contributes. -/
theorem parse_rules_xml_spec {h : Heap} {ctx : Nat} (root : xmlNode)
    {ms : List config_item} {ls : List layout_data} {gs : List group_data}
    (hr : Registry h ctx ms ls gs) :
    ∃ h2, parse_rules_xml h ctx root = some h2 ∧
      Registry h2 ctx (ms ++ document_models root) (ls ++ document_layouts root)
        (gs ++ document_groups root) ∧
      Ext h h2 (fun _ q => q = ctx) := by
  have key := for_each_child_spec
    (fun hh node =>
      if is_node node "modelList" then parse_model_list hh ctx node
      else if is_node node "layoutList" then parse_layout_list hh ctx node
      else if is_node node "optionList" then parse_option_list hh ctx node
      else some hh)
    (fun (acc : List config_item × List layout_data × List group_data) n =>
      (if is_node n "modelList" then acc.1 ++ model_list_items n else acc.1,
       if is_node n "layoutList" then acc.2.1 ++ layout_list_items n else acc.2.1,
       if is_node n "optionList" then acc.2.2 ++ option_list_items n else acc.2.2))
    (fun hh a => Ext h hh (fun _ q => q = ctx) ∧ Registry hh ctx a.1 a.2.1 a.2.2)
    (by
      intro h1 a node hP
      obtain ⟨E, hb1, hm, hl, hg, hk⟩ := hP
      by_cases h1n : is_node node "modelList" = true
      · have h2n : is_node node "layoutList" = false := by
          cases hx : is_node node "layoutList" with
          | false => rfl
          | true => exact absurd (is_node_name h1n hx) (by decide)
        have h3n : is_node node "optionList" = false := by
          cases hx : is_node node "optionList" with
          | false => rfl
          | true => exact absurd (is_node_name h1n hx) (by decide)
        simp only [h1n, h2n, h3n, if_true]
        obtain ⟨h2, e1, e2, e3⟩ := parse_model_list_spec node hb1 hm
        refine ⟨h2, e1, E.trans (e3.mono (fun _ _ hT => hT.2)), e3.bounded, e2, ?_, ?_,
          hk.context_ext e3 hb1⟩
        · exact hl.holds_ext e3 (by simp) hb1
            (fun o x ho hx => LayoutAt.layout_ext e3 hb1 (by simp) ho hx)
        · exact hg.holds_ext e3 (by simp) hb1
            (fun o x ho hx => GroupAt.group_ext e3 hb1 (by simp) ho hx)
      · by_cases h2n : is_node node "layoutList" = true
        · have h3n : is_node node "optionList" = false := by
            cases hx : is_node node "optionList" with
            | false => rfl
            | true => exact absurd (is_node_name h2n hx) (by decide)
          simp only [h1n, h2n, h3n, if_true]
          obtain ⟨h2, e1, e2, e3⟩ := parse_layout_list_spec node hb1 hl
          refine ⟨h2, e1, E.trans (e3.mono (fun _ _ hT => hT.2)), e3.bounded, ?_, e2, ?_,
            hk.context_ext e3 hb1⟩
          · exact hm.holds_ext e3 (by simp) hb1 (fun o x ho hx => ModelAt.model_ext e3 ho hx)
          · exact hg.holds_ext e3 (by simp) hb1
              (fun o x ho hx => GroupAt.group_ext e3 hb1 (by simp) ho hx)
        · by_cases h3n : is_node node "optionList" = true
          · simp only [h1n, h2n, h3n, if_true]
            obtain ⟨h2, e1, e2, e3⟩ := parse_option_list_spec node hb1 hg
            refine ⟨h2, e1, E.trans (e3.mono (fun _ _ hT => hT.2)), e3.bounded, ?_, ?_, e2,
              hk.context_ext e3 hb1⟩
            · exact hm.holds_ext e3 (by simp) hb1 (fun o x ho hx => ModelAt.model_ext e3 ho hx)
            · exact hl.holds_ext e3 (by simp) hb1
                (fun o x ho hx => LayoutAt.layout_ext e3 hb1 (by simp) ho hx)
          · simp only [h1n, h2n, h3n]
            exact ⟨h1, rfl, E, hb1, hm, hl, hg, hk⟩)
    root.children h (ms, ls, gs) ⟨Ext.refl h hr.1 _, hr⟩
  obtain ⟨h2, e1, E, hr2⟩ := key
  refine ⟨h2, e1, ?_, E⟩
  have hfold : ∀ (nodes : List xmlNode)
      (a : List config_item × List layout_data × List group_data),
      nodes.foldl (fun (acc : List config_item × List layout_data × List group_data) n =>
        (if is_node n "modelList" then acc.1 ++ model_list_items n else acc.1,
         if is_node n "layoutList" then acc.2.1 ++ layout_list_items n else acc.2.1,
         if is_node n "optionList" then acc.2.2 ++ option_list_items n else acc.2.2)) a =
      (nodes.foldl (fun acc n =>
          if is_node n "modelList" then acc ++ model_list_items n else acc) a.1,
       nodes.foldl (fun acc n =>
          if is_node n "layoutList" then acc ++ layout_list_items n else acc) a.2.1,
       nodes.foldl (fun acc n =>
          if is_node n "optionList" then acc ++ option_list_items n else acc) a.2.2) := by
    intro nodes
    induction nodes with
    | nil => intro a; rfl
    | cons n ns ih => intro a; simp only [List.foldl_cons, ih]
  rw [hfold] at hr2
  simp only [foldl_contrib_list] at hr2
  exact hr2

/-! ## A new context -/

theorem Holds.holds_congr {α : Type} {At : Heap → Nat → α → Prop} {f : Field} {h h2 : Heap}
    {p : Nat} {xs : List α} (hh : Holds At f h p xs)
    (hl : ∀ l, ListOf h f p l → ListOf h2 f p l)
    (hAt : ∀ o x, At h o x → At h2 o x) : Holds At f h2 p xs := by
  obtain ⟨ids, h1, h2f⟩ := hh
  exact ⟨ids, hl ids h1, h2f.imp (fun _ _ hx => hAt _ _ hx)⟩

/-- A store to the context struct changes none of the collections. -/
theorem Registry.store_context {h : Heap} {ctx c : Nat} {x y : rxkb_context}
    {ms : List config_item} {ls : List layout_data} {gs : List group_data}
    (hr : Registry h ctx ms ls gs) (hc : h.objs c = some (Obj.context x))
    (hp : y.base = x.base) :
    Registry (h.set_obj c (some (Obj.context y))) ctx ms ls gs := by
  obtain ⟨hb, hm, hl, hg, hk⟩ := hr
  have hlists : ∀ g q l, ListOf h g q l →
      ListOf (h.set_obj c (some (Obj.context y))) g q l :=
    set_obj_ext hc rfl (by show y.base.parent = x.base.parent; rw [hp])
  have hobj : ∀ o, o ≠ c → (h.set_obj c (some (Obj.context y))).objs o = h.objs o := by
    intro o ho; simp [Heap.set_obj, ho]
  have hS : ∀ o, Sound h o → Sound (h.set_obj c (some (Obj.context y))) o := by
    intro o hs
    by_cases ho : o = c
    · subst ho
      obtain ⟨ob, o1, o2, o3, o4⟩ := hs
      rw [hc] at o1
      cases o1
      refine ⟨Obj.context y, by simp [Heap.set_obj], ?_, ?_, ?_⟩
      · show 1 ≤ y.base.refcount
        rw [hp]; exact o2
      · show y.base.refcount < UINT32_MOD
        rw [hp]; exact o3
      · show y.base.destroy = _
        rw [hp]; exact o4
    · exact hs.sound_congr (hobj o ho)
  have hM : ∀ o v, ModelAt h o v → ModelAt (h.set_obj c (some (Obj.context y))) o v := by
    intro o v hv
    by_cases ho : o = c
    · subst ho
      have := hv.1
      simp [model_view, rxkb_model_get_name, hc] at this
    · exact ⟨by rw [model_view_congr (hobj o ho)]; exact hv.1, hS o hv.2⟩
  have hV : ∀ o v, VariantAt h o v → VariantAt (h.set_obj c (some (Obj.context y))) o v := by
    intro o v hv
    by_cases ho : o = c
    · subst ho
      have := hv.1
      simp [variant_view, rxkb_variant_get_name, hc] at this
    · exact ⟨by rw [variant_view_congr (hobj o ho)]; exact hv.1, hS o hv.2⟩
  have hO : ∀ o v, OptionAt h o v → OptionAt (h.set_obj c (some (Obj.context y))) o v := by
    intro o v hv
    by_cases ho : o = c
    · subst ho
      have := hv.1
      simp [option_view, rxkb_option_get_name, hc] at this
    · exact ⟨by rw [option_view_congr (hobj o ho)]; exact hv.1, hS o hv.2⟩
  refine ⟨set_obj_bounded hb hc _, hm.holds_congr (hlists _ _) hM, hl.holds_congr (hlists _ _) ?_,
    hg.holds_congr (hlists _ _) ?_, hS ctx hk.1, ?_, hk.2.2⟩
  · intro o v hv
    obtain ⟨h1, h2, h3⟩ := hv
    by_cases ho : o = c
    · subst ho
      simp [layout_item_view, rxkb_layout_get_name, hc] at h1
    · refine ⟨?_, hS o h2, h3.holds_congr (hlists _ _) hV⟩
      rw [layout_item_view_congr (hobj o ho)]; exact h1
  · intro o v hv
    obtain ⟨h1, h2, h3⟩ := hv
    by_cases ho : o = c
    · subst ho
      simp [group_item_view, rxkb_option_group_get_name, hc] at h1
    · refine ⟨?_, hS o h2, h3.holds_congr (hlists _ _) hO⟩
      rw [group_item_view_congr (hobj o ho)]; exact h1
  · have := hk.2.1
    by_cases ho : ctx = c
    · subst ho
      simp [Heap.is_kind, Heap.set_obj, Obj.kind]
    · simpa [Heap.is_kind, hobj ctx ho] using this

/-- The function `rxkb_context_include_path_append` changes none of the
collections. -/
theorem include_path_append_registry {w : World} {h h2 : Heap} {ctx c : Nat}
    {path : String} {b : Bool}
    {ms : List config_item} {ls : List layout_data} {gs : List group_data}
    (hr : Registry h ctx ms ls gs)
    (he : rxkb_context_include_path_append w h c path = some (h2, b)) :
    Registry h2 ctx ms ls gs := by
  unfold rxkb_context_include_path_append at he
  cases hs : w.stat path with
  | none => rw [hs] at he; simp only at he; cases he; exact hr
  | some isdir =>
    rw [hs] at he
    simp only at he
    split at he
    · cases he; exact hr
    · split at he
      · cases he; exact hr
      · unfold Heap.store_context at he
        split at he
        · rename_i x hx
          simp only [Option.map_some', Option.some.injEq, Prod.mk.injEq] at he
          rw [← he.1]
          exact hr.store_context hx rfl
        · simp at he

/-- The function `rxkb_context_include_path_append_default` changes none of the
collections. -/
theorem include_path_append_default_registry {w : World} {h h2 : Heap} {ctx c : Nat}
    {b : Bool}
    {ms : List config_item} {ls : List layout_data} {gs : List group_data}
    (hr : Registry h ctx ms ls gs)
    (he : rxkb_context_include_path_append_default w h c = some (h2, b)) :
    Registry h2 ctx ms ls gs := by
  unfold rxkb_context_include_path_append_default at he
  simp only [Option.bind_eq_some, Option.map_eq_some'] at he
  obtain ⟨r1, e1, r2, e2, r3, e3, e4⟩ := he
  have hr1 : Registry r1.1 ctx ms ls gs := by
    cases hx : w.secure_getenv "XDG_CONFIG_HOME" with
    | some x =>
      rw [hx] at e1
      exact include_path_append_registry hr (by simpa using e1)
    | none =>
      rw [hx] at e1
      cases hh : w.secure_getenv "HOME" with
      | some hm =>
        rw [hh] at e1
        exact include_path_append_registry hr (by simpa using e1)
      | none =>
        rw [hh] at e1
        simp only [Option.some.injEq] at e1
        rw [← e1]; exact hr
  have hr2 : Registry r2.1 ctx ms ls gs := by
    cases hh : w.secure_getenv "HOME" with
    | some hm =>
      rw [hh] at e2
      simp only [Option.map_eq_some'] at e2
      obtain ⟨r, e5, e6⟩ := e2
      rw [← e6]
      exact include_path_append_registry hr1 (by simpa using e5)
    | none =>
      rw [hh] at e2
      simp only [Option.some.injEq] at e2
      rw [← e2]; exact hr1
  have hr3 : Registry r3.1 ctx ms ls gs := by
    cases hx : w.secure_getenv "XKB_CONFIG_ROOT" with
    | some x =>
      rw [hx] at e3
      exact include_path_append_registry hr2 (by simpa using e3)
    | none =>
      rw [hx] at e3
      exact include_path_append_registry hr2 (by simpa using e3)
  simp only [Prod.mk.injEq] at e4
  rw [← e4.1]; exact hr3

/-- The three empty collections of a context that was just created. -/
theorem context_lists_init (h : Heap) (hb : h.bounded) (c : rxkb_context)
    (hc : c.base = Kind.context.init_base NULL) :
    ∃ h3, (((h.with_new (Obj.context c)).list_init Field.models h.brk).bind fun h1 =>
        (h1.list_init Field.layouts h.brk).bind fun h2 =>
        h2.list_init Field.option_groups h.brk) = some h3 ∧
      Registry h3 h.brk [] [] [] ∧ h3.objs = (h.with_new (Obj.context c)).objs ∧
      h3.brk = h.brk + 1 := by
  have E := with_new_ext h (Obj.context c) hb
  have hok : ∀ f, (Kind.context).has_field f = true →
      ∀ hh : Heap, hh.objs = (h.with_new (Obj.context c)).objs →
      hh.ok (ListRef.head f h.brk) = true := by
    intro f hf hh hobjs
    simp [Heap.ok, hobjs, Heap.with_new, Obj.kind, hf]
  obtain ⟨h1, a1, a2, a3, a4, a5, a6⟩ := heap_list_init_spec (hok Field.models rfl _ rfl)
  obtain ⟨h2, b1, b2, b3, b4, b5, b6⟩ := heap_list_init_spec (hok Field.layouts rfl h1 a3)
  obtain ⟨h3, c1, c2, c3, c4, c5, c6⟩ :=
    heap_list_init_spec (hok Field.option_groups rfl h2 (b3.trans a3))
  have hobj : h3.objs h.brk = some (Obj.context c) := by
    rw [c3, b3, a3]; simp [Heap.with_new]
  refine ⟨h3, by simp [a1, b1, c1], ⟨?_, ?_, ?_, ?_, Sound.of_init NULL hobj hc, ?_, ?_⟩,
    c3.trans (b3.trans a3), c4.trans (b4.trans a4)⟩
  · intro o ho
    rw [c3, b3, a3]
    rw [c4, b4, a4] at ho
    exact E.bounded o ho
  · exact ⟨[], c5 _ _ _ (by simp) (b5 _ _ _ (by simp) a2), List.Forall₂.nil⟩
  · exact ⟨[], c5 _ _ _ (by simp) b2, List.Forall₂.nil⟩
  · exact ⟨[], c2, List.Forall₂.nil⟩
  · simp [Heap.is_kind, hobj, Obj.kind]
  · rw [c6, b6, a6]
    simp [Heap.with_new, Heap.new_links]

/-- A context returned by `rxkb_context_new` sits at the address that was fresh
and has three empty, well-formed collections. -/
theorem rxkb_context_new_spec {w : World} {h h0 : Heap} {flags ctx : Nat}
    (hb : h.bounded) (he : rxkb_context_new w h flags = some (h0, some ctx)) :
    ctx = h.brk ∧ Registry h0 ctx [] [] [] := by
  unfold rxkb_context_new at he
  simp only [rxkb_context_create, T_create_eq, Option.some_bind] at he
  have hz : (Obj.zero Kind.context).set_base (Kind.context.init_base NULL) =
      Obj.context { base := Kind.context.init_base NULL, includes := [],
                    userdata := 0 } := rfl
  rw [hz] at he
  obtain ⟨h3, e1, e2, _, _⟩ := context_lists_init h hb
    { base := Kind.context.init_base NULL, includes := [], userdata := 0 } rfl
  simp only [Option.bind_eq_some] at e1
  obtain ⟨k1, f1, k2, f2, f3⟩ := e1
  rw [f1] at he
  simp only [Option.some_bind] at he
  rw [f2] at he
  simp only [Option.some_bind] at he
  rw [f3] at he
  simp only [Option.some_bind] at he
  split at he
  · simp only [Option.bind_eq_some] at he
    obtain ⟨a, ha, he2⟩ := he
    split at he2
    · simp only [Option.map_eq_some', Prod.mk.injEq] at he2
      obtain ⟨_, _, _, hx⟩ := he2
      cases hx
    · simp only [Option.some.injEq, Prod.mk.injEq] at he2
      obtain ⟨hx, hy⟩ := he2
      cases hy
      rw [← hx]
      exact ⟨rfl, include_path_append_default_registry e2 (by simpa using ha)⟩
  · simp only [Option.some.injEq, Prod.mk.injEq] at he
    obtain ⟨hx, hy⟩ := he
    cases hy
    rw [← hx]
    exact ⟨rfl, e2⟩

theorem Heap.empty_bounded : Heap.empty.bounded := fun _ _ => rfl

/-! ## From elements to entities -/

theorem read_all_map {α β : Type} {At : Heap → Nat → α → Prop}
    {view : Heap → Nat → Option β} (g : α → β) {h : Heap} {ids : List Nat}
    {xs : List α} (hv : ∀ o x, At h o x → view h o = some (g x))
    (hf : List.Forall₂ (At h) ids xs) :
    read_all view h ids = some (xs.map g) := by
  induction hf with
  | nil => rfl
  | cons hx _ ih => simp [read_all, hv _ _ hx, ih]

/-- A well-formed collection reads back through any getter that agrees with
its contents. -/
theorem Holds.view_map {α β : Type} {At : Heap → Nat → α → Prop}
    {view : Heap → Nat → Option β} (g : α → β) {f : Field} {h : Heap} {p : Nat}
    {xs : List α} (hh : Holds At f h p xs) (hb : h.bounded)
    (hv : ∀ o x, At h o x → view h o = some (g x)) :
    collection_view view f.child_kind f h p = some (xs.map g) := by
  obtain ⟨ids, hl, hf⟩ := hh
  simp [collection_view, entries_spec hl hb, read_all_map g hv hf]

theorem parse_config_item_loop_eq (nodes : List xmlNode) :
    parse_config_item_loop nodes =
      (nodes.find? (fun c => is_node c "configItem")).map (fun ci =>
        parse_config_item_fields ci.children
          { name := none, description := none, brief_or_vendor := none }) := by
  induction nodes with
  | nil => rfl
  | cons n ns ih =>
    by_cases hn : is_node n "configItem" = true
    · simp [parse_config_item_loop, hn, List.find?_cons]
    · simp only [parse_config_item_loop, hn, List.find?_cons]
      simpa using ih

/-- The function `parse_config_item` succeeds exactly on the elements with a
`configItem` child, with the strings of the first one. -/
theorem parse_config_item_eq (e : xmlNode) :
    parse_config_item e = if has_config_item e then some (config_item_of e) else none := by
  unfold parse_config_item has_config_item config_item_of
  rw [parse_config_item_loop_eq]
  cases hf : e.children.find? (fun c => is_node c "configItem") with
  | none =>
    have : e.children.any (fun c => is_node c "configItem") = false := by
      rw [List.find?_eq_none] at hf
      rw [List.any_eq_false]
      intro x hx
      simpa using hf x hx
    simp [this]
  | some ci =>
    have : e.children.any (fun c => is_node c "configItem") = true := by
      rw [List.any_eq_true]
      exact ⟨ci, List.mem_of_find?_eq_some hf, by simpa using List.find?_some hf⟩
    simp [this]

theorem filterMap_parse_config_item (nodes : List xmlNode) :
    nodes.filterMap parse_config_item =
      (nodes.filter has_config_item).map config_item_of := by
  induction nodes with
  | nil => rfl
  | cons n ns ih =>
    by_cases hn : has_config_item n = true
    · simp [List.filterMap_cons, parse_config_item_eq, hn, List.filter_cons, ih]
    · simp [List.filterMap_cons, parse_config_item_eq, hn, List.filter_cons, ih]

theorem filter_flatMap {α β : Type} (l : List α) (g : α → List β) (p : β → Bool) :
    (l.flatMap g).filter p = l.flatMap (fun x => (g x).filter p) := by
  induction l with
  | nil => rfl
  | cons a l ih => simp [List.flatMap_cons, List.filter_append, ih]

theorem map_flatMap {α β γ : Type} (l : List α) (g : α → List β) (k : β → γ) :
    (l.flatMap g).map k = l.flatMap (fun x => (g x).map k) := by
  induction l with
  | nil => rfl
  | cons a l ih => simp [List.flatMap_cons, ih]

/-- The models of a document, one per `model` element with a `configItem`. -/
theorem document_models_eq (root : xmlNode) :
    document_models root =
      (entity_elements root "modelList" "model").map config_item_of := by
  unfold document_models entity_elements model_list_items
  rw [filter_flatMap, map_flatMap]
  congr 1
  funext l
  exact filterMap_parse_config_item _

theorem filterMap_layout_item (nodes : List xmlNode) :
    (nodes.filterMap layout_item).map layout_data.item =
      (nodes.filter has_config_item).map config_item_of := by
  induction nodes with
  | nil => rfl
  | cons n ns ih =>
    by_cases hn : has_config_item n = true
    · simp [List.filterMap_cons, layout_item, parse_config_item_eq, hn,
        List.filter_cons, ih]
    · simp [List.filterMap_cons, layout_item, parse_config_item_eq, hn,
        List.filter_cons, ih]

/-- The layouts of a document, one per `layout` element with a `configItem`. -/
theorem document_layouts_items (root : xmlNode) :
    (document_layouts root).map layout_data.item =
      (entity_elements root "layoutList" "layout").map config_item_of := by
  unfold document_layouts entity_elements layout_list_items
  rw [filter_flatMap, map_flatMap, map_flatMap]
  congr 1
  funext l
  exact filterMap_layout_item _

theorem filterMap_group_item (nodes : List xmlNode) :
    (nodes.filterMap group_data_of).map group_data.item =
      (nodes.filter has_config_item).map group_item_of := by
  induction nodes with
  | nil => rfl
  | cons n ns ih =>
    by_cases hn : has_config_item n = true
    · simp [List.filterMap_cons, group_data_of, group_item_of, parse_config_item_eq,
        hn, List.filter_cons, ih]
    · simp [List.filterMap_cons, group_data_of, parse_config_item_eq, hn,
        List.filter_cons, ih]

/-- The option groups of a document, one per `group` element with a
`configItem`. -/
theorem document_groups_items (root : xmlNode) :
    (document_groups root).map group_data.item =
      (entity_elements root "optionList" "group").map group_item_of := by
  unfold document_groups entity_elements option_list_items
  rw [filter_flatMap, map_flatMap, map_flatMap]
  congr 1
  funext l
  exact filterMap_group_item _

theorem model_view_getters {h : Heap} {m : Nat} {ci : config_item}
    (hv : model_view h m = some ci) :
    rxkb_model_get_name h m = some ci.name ∧
    rxkb_model_get_description h m = some ci.description ∧
    rxkb_model_get_vendor h m = some ci.brief_or_vendor := by
  unfold model_view rxkb_model_get_name rxkb_model_get_description
    rxkb_model_get_vendor at *
  cases hm : h.objs m with
  | none => rw [hm] at hv; simp at hv
  | some ob =>
    rw [hm] at hv
    cases ob <;> simp at hv ⊢
    rw [← hv]
    exact ⟨rfl, rfl, rfl⟩

/-! ## The claims -/

/-- C1: parsing the document with the single model `pc104` into a fresh context
succeeds; `rxkb_model_first` then returns a model whose name is "pc104", whose
description is "Generic 104-key PC" and whose vendor is `NULL`, and
`rxkb_model_next` of that model returns `NULL`. -/
theorem C1_pc104_end_to_end (w : World) (h h0 : Heap) (flags ctx : Nat)
    (path : String) (hb : h.bounded)
    (hnew : rxkb_context_new w h flags = some (h0, some ctx))
    (hfile : w.xmlReadFile path = some pc104_document) :
    ∃ h1 m, parse w h0 ctx path = some (h1, true) ∧
      rxkb_model_first h1 ctx = some (some m) ∧
      rxkb_model_get_name h1 m = some (some "pc104") ∧
      rxkb_model_get_description h1 m = some (some "Generic 104-key PC") ∧
      rxkb_model_get_vendor h1 m = some none ∧
      rxkb_model_next h1 m = some NULL := by
  obtain ⟨_, hr⟩ := rxkb_context_new_spec hb hnew
  obtain ⟨h1, e1, ⟨_, hm, _, _, _⟩, _⟩ := parse_rules_xml_spec pc104_document hr
  have hd : document_models pc104_document =
      [{ name := some "pc104", description := some "Generic 104-key PC",
         brief_or_vendor := none }] := by rfl
  rw [hd] at hm
  obtain ⟨ids, hl, hf⟩ := hm
  cases hf with
  | cons hx hrest =>
    cases hrest
    rename_i m
    obtain ⟨g1, g2, g3⟩ := model_view_getters hx.1
    refine ⟨h1, m, by simp [parse, hfile, e1], ?_, g1, g2, g3, ?_⟩
    · exact T_first_spec hl
    · exact T_next_spec (show ListOf h1 Field.models ctx ([] ++ m :: []) from hl)

/-- C1 at the world with the include directory `/d`. -/
theorem C1_pc104_end_to_end_witness :
    Heap.empty.bounded ∧
    rxkb_context_new pc104_world Heap.empty RXKB_CONTEXT_NO_DEFAULT_INCLUDES =
      some (fresh_context.1, some fresh_context.2) ∧
    pc104_world.xmlReadFile "/d/rules/evdev.xml" = some pc104_document ∧
    ∃ h1 m, parse pc104_world fresh_context.1 fresh_context.2 "/d/rules/evdev.xml" =
        some (h1, true) ∧
      rxkb_model_first h1 fresh_context.2 = some (some m) ∧
      rxkb_model_get_name h1 m = some (some "pc104") ∧
      rxkb_model_get_description h1 m = some (some "Generic 104-key PC") ∧
      rxkb_model_get_vendor h1 m = some none ∧
      rxkb_model_next h1 m = some NULL :=
  ⟨Heap.empty_bounded, rfl, rfl,
   C1_pc104_end_to_end pc104_world Heap.empty fresh_context.1
     RXKB_CONTEXT_NO_DEFAULT_INCLUDES fresh_context.2 "/d/rules/evdev.xml"
     Heap.empty_bounded rfl rfl⟩

/-- C2: after a document is parsed into a fresh context, each top-level
collection, walked by first/next, holds one entity per element with a
`configItem` child, in document order: the models are the `model` elements of
the `modelList` children of the root, the layouts the `layout` elements of the
`layoutList` children, the option groups the `group` elements of the
`optionList` children.  Nothing is sorted or merged, so elements of equal name
give one entity each. -/
theorem C2_collections_in_document_order (w : World) (h h0 : Heap)
    (flags ctx : Nat) (path : String) (root : xmlNode) (hb : h.bounded)
    (hnew : rxkb_context_new w h flags = some (h0, some ctx))
    (hfile : w.xmlReadFile path = some root) :
    ∃ h1, parse w h0 ctx path = some (h1, true) ∧
      models_view h1 ctx =
        some ((entity_elements root "modelList" "model").map config_item_of) ∧
      layout_items_view h1 ctx =
        some ((entity_elements root "layoutList" "layout").map config_item_of) ∧
      group_items_view h1 ctx =
        some ((entity_elements root "optionList" "group").map group_item_of) := by
  obtain ⟨_, hr⟩ := rxkb_context_new_spec hb hnew
  obtain ⟨h1, e1, ⟨hb1, hm, hl, hg, _⟩, _⟩ := parse_rules_xml_spec root hr
  refine ⟨h1, by simp [parse, hfile, e1], ?_, ?_, ?_⟩
  · have := hm.view hb1 (fun _ _ hx => hx.1)
    rw [List.nil_append, document_models_eq] at this
    exact this
  · have := hl.view_map layout_data.item hb1 (fun _ _ hx => hx.1)
    rw [List.nil_append, document_layouts_items] at this
    exact this
  · have := hg.view_map group_data.item hb1 (fun _ _ hx => hx.1)
    rw [List.nil_append, document_groups_items] at this
    exact this

/-- C2 at the sample document, whose two models named `pc104` both appear. -/
theorem C2_collections_in_document_order_witness :
    Heap.empty.bounded ∧
    rxkb_context_new sample_world Heap.empty RXKB_CONTEXT_NO_DEFAULT_INCLUDES =
      some (fresh_context.1, some fresh_context.2) ∧
    sample_world.xmlReadFile "/s/rules/evdev.xml" = some sample_document ∧
    ∃ h1, parse sample_world fresh_context.1 fresh_context.2 "/s/rules/evdev.xml" =
        some (h1, true) ∧
      models_view h1 fresh_context.2 =
        some ((entity_elements sample_document "modelList" "model").map
          config_item_of) ∧
      layout_items_view h1 fresh_context.2 =
        some ((entity_elements sample_document "layoutList" "layout").map
          config_item_of) ∧
      group_items_view h1 fresh_context.2 =
        some ((entity_elements sample_document "optionList" "group").map
          group_item_of) :=
  ⟨Heap.empty_bounded, rfl, rfl,
   C2_collections_in_document_order sample_world Heap.empty fresh_context.1
     RXKB_CONTEXT_NO_DEFAULT_INCLUDES fresh_context.2 "/s/rules/evdev.xml"
     sample_document Heap.empty_bounded rfl rfl⟩

theorem append_all_spec (f : Field) (p : Nat) (es : List Nat) :
    ∀ (h : Heap) (ids : List Nat), ListOf h f p ids → es.Nodup →
      (∀ e ∈ es, e ∉ ids) → (∀ e ∈ es, Member h f p e) →
      ∃ h1, append_all f p es h = some h1 ∧ ListOf h1 f p (ids ++ es) ∧
        h1.objs = h.objs ∧ h1.brk = h.brk := by
  induction es with
  | nil =>
    intro h ids hl _ _ _
    exact ⟨h, rfl, by simpa using hl, rfl, rfl⟩
  | cons e es ih =>
    intro h ids hl hnd hni hm
    obtain ⟨h2, a1, a2, a3, a4, _⟩ :=
      heap_list_append_spec hl (hm e (by simp)) (hni e (by simp))
    have hnd2 := List.nodup_cons.mp hnd
    obtain ⟨h1, b1, b2, b3, b4⟩ := ih h2 (ids ++ [e]) a2 hnd2.2
      (by
        intro x hx hx2
        rcases List.mem_append.mp hx2 with hx2 | hx2
        · exact hni x (List.mem_cons_of_mem _ hx) hx2
        · simp only [List.mem_singleton] at hx2
          rw [hx2] at hx
          exact hnd2.1 hx)
      (by
        intro x hx
        obtain ⟨ob, o1, o2, o3⟩ := hm x (List.mem_cons_of_mem _ hx)
        exact ⟨ob, by rw [a3]; exact o1, o2, o3⟩)
    refine ⟨h1, by simp [append_all, a1, b1], by simpa using b2, b3.trans a3,
      b4.trans a4⟩

theorem iterate_next_spec {h : Heap} {f : Field} {p : Nat} (xs ys : List Nat)
    (hl : ListOf h f p (xs ++ ys)) :
    iterate_next (T_next f.child_kind f) h ys.length ys.head? = some NULL := by
  induction ys generalizing xs with
  | nil => rfl
  | cons a ys ih =>
    have hn := T_next_spec hl
    have := ih (xs ++ [a]) (by simpa using hl)
    simp [iterate_next, hn, this]

/-- C3: a collection built by appending the distinct entities `es` to an empty
list is walked by first/next in append order: `first` returns the first entity
(`NULL` for no entity), `next` of the entity at position `i` returns the one at
position `i + 1` (`NULL` after the last), the walk from `first` visits exactly
`es`, `next` never returns its own argument, and as many applications of `next`
as there are entities lead from `first` to `NULL`.  This holds for each of the
five instances of the first/next accessors. -/
theorem C3_first_next_walk (f : Field) (h h0 : Heap) (p : Nat) (es : List Nat)
    (hb : h.bounded) (hinit : h.list_init f p = some h0) (hnd : es.Nodup)
    (hm : ∀ e ∈ es, Member h f p e) :
    ∃ h1, append_all f p es h0 = some h1 ∧
      T_first f h1 p = some es.head? ∧
      (∀ i (hi : i < es.length),
        T_next f.child_kind f h1 (es.get ⟨i, hi⟩) = some (es.get? (i + 1))) ∧
      entries f.child_kind f h1 p = some es ∧
      (∀ e ∈ es, T_next f.child_kind f h1 e ≠ some (some e)) ∧
      (T_first f h1 p).bind (iterate_next (T_next f.child_kind f) h1 es.length) =
        some NULL := by
  have hok : h.ok (ListRef.head f p) = true := by
    unfold Heap.list_init at hinit
    by_contra hc
    simp [hc] at hinit
  obtain ⟨h0b, i1, i2, i3, i4, _⟩ := heap_list_init_spec hok
  rw [hinit] at i1
  cases i1
  obtain ⟨h1, a1, a2, a3, a4⟩ := append_all_spec f p es h0 [] i2 hnd (by simp)
    (by
      intro e he
      obtain ⟨ob, o1, o2, o3⟩ := hm e he
      exact ⟨ob, by rw [i3]; exact o1, o2, o3⟩)
  rw [List.nil_append] at a2
  have hb1 : h1.bounded := by
    intro o ho
    rw [a3, i3]; rw [a4, i4] at ho
    exact hb o ho
  refine ⟨h1, a1, T_first_spec a2, ?_, entries_spec a2 hb1, ?_, ?_⟩
  · intro i hi
    have hsplit : es = es.take i ++ es.get ⟨i, hi⟩ :: es.drop (i + 1) := by
      simp
    have hl : ListOf h1 f p (es.take i ++ es.get ⟨i, hi⟩ :: es.drop (i + 1)) := by
      rw [← hsplit]; exact a2
    rw [T_next_spec hl]
    simp [List.head?_drop]
  · intro e he
    obtain ⟨xs, ys, hsplit⟩ := List.append_of_mem he
    have hl : ListOf h1 f p (xs ++ e :: ys) := by rw [← hsplit]; exact a2
    rw [T_next_spec hl]
    intro hEq
    have hnd2 : (xs ++ e :: ys).Nodup := by rw [← hsplit]; exact hnd
    have := (List.nodup_cons.mp (List.nodup_append.mp hnd2).2.1).1
    cases ys with
    | nil => simp at hEq
    | cons y ys =>
      simp only [List.head?_cons, Option.some.injEq] at hEq
      exact this (by simp [hEq])
  · rw [T_first_spec a2]
    exact iterate_next_spec [] es a2

theorem fresh_context_registry : Registry fresh_context.1 0 [] [] [] := by
  have h := @rxkb_context_new_spec pc104_world Heap.empty fresh_context.1
    RXKB_CONTEXT_NO_DEFAULT_INCLUDES fresh_context.2 Heap.empty_bounded rfl
  exact h.2

theorem sample_heap_registry :
    Registry sample_heap 0 (document_models sample_document)
      (document_layouts sample_document) (document_groups sample_document) := by
  obtain ⟨h2, e1, e2, _⟩ := parse_rules_xml_spec sample_document fresh_context_registry
  have : sample_heap = h2 := by
    unfold sample_heap
    have e3 : parse_rules_xml fresh_context.1 fresh_context.2 sample_document = some h2 := e1
    rw [e3]
  rw [this]
  simpa using e2

/-- C3 at the models of the sample heap, appended afresh in another order. -/
theorem C3_first_next_walk_witness :
    sample_heap.bounded ∧
    sample_heap.list_init Field.models 0 =
      some (sample_heap.set_links
        (Rxkb.list_init sample_heap.links (ListRef.head Field.models 0))) ∧
    [3, 1, 2].Nodup ∧ (∀ e ∈ [3, 1, 2], Member sample_heap Field.models 0 e) ∧
    ∃ h1, append_all Field.models 0 [3, 1, 2] (sample_heap.set_links
        (Rxkb.list_init sample_heap.links (ListRef.head Field.models 0))) = some h1 ∧
      T_first Field.models h1 0 = some [3, 1, 2].head? ∧
      (∀ i (hi : i < [3, 1, 2].length),
        T_next Field.models.child_kind Field.models h1 ([3, 1, 2].get ⟨i, hi⟩) =
          some ([3, 1, 2].get? (i + 1))) ∧
      entries Field.models.child_kind Field.models h1 0 = some [3, 1, 2] ∧
      (∀ e ∈ [3, 1, 2],
        T_next Field.models.child_kind Field.models h1 e ≠ some (some e)) ∧
      (T_first Field.models h1 0).bind
        (iterate_next (T_next Field.models.child_kind Field.models) h1
          [3, 1, 2].length) = some NULL :=
  have hm : ∀ e ∈ [3, 1, 2], Member sample_heap Field.models 0 e := by
    intro e he
    simp only [List.mem_cons, List.mem_singleton, List.not_mem_nil, or_false] at he
    rcases he with rfl | rfl | rfl
    · exact ⟨_, rfl, rfl, rfl⟩
    · exact ⟨_, rfl, rfl, rfl⟩
    · exact ⟨_, rfl, rfl, rfl⟩
  ⟨sample_heap_registry.1, rfl, by decide, hm,
   C3_first_next_walk Field.models sample_heap _ 0 [3, 1, 2] sample_heap_registry.1
     rfl (by decide) hm⟩

/-! ## The fields of a config item -/

theorem is_node_other {c : xmlNode} {a b : String} (ha : is_node c a = true)
    (hab : a ≠ b) : is_node c b = false := by
  cases hx : is_node c b with
  | false => rfl
  | true => exact absurd (is_node_name ha hx) hab

theorem child_name (c : xmlNode) (ci : config_item) :
    (parse_config_item_child c ci).name =
      if is_node c "name" then extract_text c else ci.name := by
  unfold parse_config_item_child
  split
  · rfl
  · split
    · rfl
    · split <;> rfl

theorem child_description (c : xmlNode) (ci : config_item) :
    (parse_config_item_child c ci).description =
      if is_node c "description" then extract_text c else ci.description := by
  unfold parse_config_item_child
  by_cases hd : is_node c "description" = true
  · simp [hd, is_node_other hd (by decide : "description" ≠ "name")]
  · simp only [hd]
    split
    · rfl
    · simp only [Bool.false_eq_true, if_false]
      split <;> rfl

theorem child_brief_or_vendor (c : xmlNode) (ci : config_item) :
    (parse_config_item_child c ci).brief_or_vendor =
      if is_brief_or_vendor c then extract_text c else ci.brief_or_vendor := by
  unfold parse_config_item_child is_brief_or_vendor
  by_cases hs : is_node c "shortDescription" = true
  · simp [hs, is_node_other hs (by decide : "shortDescription" ≠ "name"),
      is_node_other hs (by decide : "shortDescription" ≠ "description")]
  · by_cases hv : is_node c "vendor" = true
    · simp [hv, is_node_other hv (by decide : "vendor" ≠ "name"),
        is_node_other hv (by decide : "vendor" ≠ "description")]
    · simp only [hs, hv]
      split
      · rfl
      · split <;> rfl

theorem last_wins {α : Type} (p : xmlNode → Bool) (get : config_item → α)
    (text : xmlNode → α)
    (hstep : ∀ c ci, get (parse_config_item_child c ci) =
      if p c then text c else get ci)
    (cs : List xmlNode) (ci : config_item) :
    get (parse_config_item_fields cs ci) =
      match (cs.filter p).getLast? with
      | some n => text n
      | none => get ci := by
  induction cs generalizing ci with
  | nil => rfl
  | cons c cs ih =>
    simp only [parse_config_item_fields, ih, hstep]
    by_cases hc : p c = true
    · simp only [hc, if_true, List.filter_cons, List.getLast?_cons]
      cases (cs.filter p).getLast? <;> rfl
    · have hf : p c = false := by simpa using hc
      simp only [hf, List.filter_cons, Bool.false_eq_true, if_false]

/-- The name a config item ends with is the text of its last `name` child. -/
theorem fields_name (cs : List xmlNode) (ci : config_item) :
    (parse_config_item_fields cs ci).name =
      match (cs.filter (fun c => is_node c "name")).getLast? with
      | some n => extract_text n
      | none => ci.name :=
  last_wins (fun c => is_node c "name") config_item.name extract_text child_name cs ci

/-- The description a config item ends with is the text of its last
`description` child. -/
theorem fields_description (cs : List xmlNode) (ci : config_item) :
    (parse_config_item_fields cs ci).description =
      match (cs.filter (fun c => is_node c "description")).getLast? with
      | some n => extract_text n
      | none => ci.description :=
  last_wins (fun c => is_node c "description") config_item.description extract_text
    child_description cs ci

/-- The brief or vendor a config item ends with is the text of its last
`shortDescription` or `vendor` child. -/
theorem fields_brief_or_vendor (cs : List xmlNode) (ci : config_item) :
    (parse_config_item_fields cs ci).brief_or_vendor =
      match (cs.filter is_brief_or_vendor).getLast? with
      | some n => extract_text n
      | none => ci.brief_or_vendor :=
  last_wins is_brief_or_vendor config_item.brief_or_vendor extract_text
    child_brief_or_vendor cs ci

theorem config_item_of_first {e cfg : xmlNode} (h : first_config_item e = some cfg) :
    has_config_item e = true ∧
    config_item_of e = parse_config_item_fields cfg.children
      { name := none, description := none, brief_or_vendor := none } := by
  unfold first_config_item at h
  refine ⟨?_, by simp [config_item_of, h]⟩
  unfold has_config_item
  rw [List.any_eq_true]
  exact ⟨cfg, List.mem_of_find?_eq_some h, by simpa using List.find?_some h⟩

theorem group_item_view_getters {h : Heap} {g : Nat} {gi : group_item}
    (hv : group_item_view h g = some gi) :
    rxkb_option_group_get_name h g = some gi.name ∧
    rxkb_option_group_get_description h g = some gi.description ∧
    rxkb_option_group_allows_multiple h g = some gi.allows_multiple := by
  unfold group_item_view rxkb_option_group_get_name rxkb_option_group_get_description
    rxkb_option_group_allows_multiple at *
  cases hm : h.objs g with
  | none => rw [hm] at hv; simp at hv
  | some ob =>
    rw [hm] at hv
    cases ob <;> simp at hv ⊢
    rw [← hv]
    exact ⟨rfl, rfl, rfl⟩

theorem forall₂_mem_left {α β : Type} {R : α → β → Prop} {l1 : List α} {l2 : List β}
    (hf : List.Forall₂ R l1 l2) {a : α} (ha : a ∈ l1) : ∃ b ∈ l2, R a b := by
  induction hf with
  | nil => cases ha
  | cons hx _ ih =>
    rcases List.mem_cons.mp ha with rfl | ha
    · exact ⟨_, by simp, hx⟩
    · obtain ⟨b, hb, hr⟩ := ih ha
      exact ⟨b, List.mem_cons_of_mem _ hb, hr⟩

theorem for_each_child_append (body : Heap → xmlNode → Option Heap)
    (xs ys : List xmlNode) (h : Heap) :
    for_each_child body (xs ++ ys) h =
      (for_each_child body xs h).bind (for_each_child body ys) := by
  induction xs generalizing h with
  | nil => simp [for_each_child]
  | cons x xs ih =>
    simp only [List.cons_append, for_each_child]
    cases body h x with
    | none => rfl
    | some h1 => simp [ih]

/-- C4, at the failing input: for the `group` element with a `configItem` and
`allowMultipleSelection="true"`, parsed into a fresh context, the option group
the parser creates reports `rxkb_option_group_allows_multiple = false`. -/
theorem C4_true_attribute_reads_false :
    has_config_item true_group = true ∧
    xmlGetProp true_group "allowMultipleSelection" = some "true" ∧
    (parse_group fresh_context.1 fresh_context.2 true_group).bind (fun h =>
      (rxkb_option_group_first h fresh_context.2).bind fun g =>
        match g with
        | some g => rxkb_option_group_allows_multiple h g
        | none => none) = some false :=
  ⟨rfl, rfl, rfl⟩

/-- C5: for a `group` element that has a `configItem` child and no attribute
`allowMultipleSelection`, parsed into a context with well-formed collections,
`parse_group` appends one option group, and that group reports
`rxkb_option_group_allows_multiple = false`. -/
theorem C5_missing_attribute_reads_false (h : Heap) (ctx : Nat) (group : xmlNode)
    (ms : List config_item) (ls : List layout_data) (gs : List group_data)
    (hr : Registry h ctx ms ls gs) (hc : has_config_item group = true)
    (ha : xmlGetProp group "allowMultipleSelection" = none) :
    ∃ h2 ids g, parse_group h ctx group = some h2 ∧
      entries Kind.option_group Field.option_groups h ctx = some ids ∧
      entries Kind.option_group Field.option_groups h2 ctx = some (ids ++ [g]) ∧
      rxkb_option_group_allows_multiple h2 g = some false := by
  obtain ⟨hb, _, _, ⟨ids, hl, _⟩, _⟩ := hr
  have hci : parse_config_item group = some (config_item_of group) := by
    rw [parse_config_item_eq, hc]; rfl
  obtain ⟨h2, e1, e2, e3, e4⟩ := parse_group_some hci hb hl
  have hflag : group_flag group = false := by simp [group_flag, ha]
  refine ⟨h2, ids, h.brk, e1, entries_spec hl hb, entries_spec e2 e3.bounded, ?_⟩
  have := (group_item_view_getters e4.1).2.2
  rw [this, hflag]

/-- C5 at a group without the attribute, parsed into a fresh context. -/
theorem C5_missing_attribute_reads_false_witness :
    Registry fresh_context.1 0 [] [] [] ∧ has_config_item plain_group = true ∧
    xmlGetProp plain_group "allowMultipleSelection" = none ∧
    ∃ h2 ids g, parse_group fresh_context.1 0 plain_group = some h2 ∧
      entries Kind.option_group Field.option_groups fresh_context.1 0 = some ids ∧
      entries Kind.option_group Field.option_groups h2 0 = some (ids ++ [g]) ∧
      rxkb_option_group_allows_multiple h2 g = some false :=
  ⟨fresh_context_registry, rfl, rfl,
   C5_missing_attribute_reads_false fresh_context.1 0 plain_group [] [] []
     fresh_context_registry rfl rfl⟩

/-- C6: a child of a `modelList` without a `configItem` child (a `model`
element in particular) is skipped: `parse_model` leaves the heap as it is, and
for every document holding such an element the parse succeeds with the very
result it has on the document without that element, so the models of the
sibling elements are the same. -/
theorem C6_element_without_config_item_is_skipped (h : Heap) (ctx : Nat)
    (m : xmlNode) (ty : xmlElementType) (nm : String) (c : Option String)
    (ps attrs : List (String × String)) (rpre rpost pre post : List xmlNode)
    (ms : List config_item) (ls : List layout_data) (gs : List group_data)
    (hr : Registry h ctx ms ls gs) (hc : has_config_item m = false) :
    parse_model h ctx m = some h ∧
    ∃ h2,
      parse_rules_xml h ctx (xmlNode.mk ty nm c ps
        (rpre ++ xmlNode.element "modelList" attrs (pre ++ m :: post) :: rpost)) =
        some h2 ∧
      parse_rules_xml h ctx (xmlNode.mk ty nm c ps
        (rpre ++ xmlNode.element "modelList" attrs (pre ++ post) :: rpost)) =
        some h2 := by
  have hnone : parse_config_item m = none := by
    rw [parse_config_item_eq, hc]; rfl
  have hskip : ∀ hh : Heap,
      parse_model_list hh ctx (xmlNode.element "modelList" attrs (pre ++ m :: post)) =
      parse_model_list hh ctx (xmlNode.element "modelList" attrs (pre ++ post)) := by
    intro hh
    simp only [parse_model_list, xmlNode.children, xmlNode.element]
    rw [for_each_child_append, for_each_child_append]
    congr 1
    funext h1
    simp only [for_each_child, parse_model_none hnone, ite_self, Option.some_bind]
  refine ⟨parse_model_none hnone, ?_⟩
  obtain ⟨h2, e1, _, _⟩ := parse_rules_xml_spec (xmlNode.mk ty nm c ps
    (rpre ++ xmlNode.element "modelList" attrs (pre ++ post) :: rpost)) hr
  refine ⟨h2, ?_, e1⟩
  rw [← e1]
  simp only [parse_rules_xml, xmlNode.children]
  rw [for_each_child_append, for_each_child_append]
  congr 1
  funext h1
  have hl : ∀ l, is_node (xmlNode.element "modelList" attrs l) "modelList" = true := by
    intro l; rfl
  simp only [for_each_child, hl, if_true, hskip]

/-- C6 at a `modelList` whose middle `model` element has no `configItem`. -/
theorem C6_element_without_config_item_is_skipped_witness :
    Registry fresh_context.1 0 [] [] [] ∧
    has_config_item (xmlNode.element "model" [] [xmlNode.leaf "name" "stray"]) = false ∧
    parse_model fresh_context.1 0
      (xmlNode.element "model" [] [xmlNode.leaf "name" "stray"]) =
      some fresh_context.1 ∧
    ∃ h2,
      parse_rules_xml fresh_context.1 0
        (xmlNode.mk xmlElementType.XML_ELEMENT_NODE "xkbConfigRegistry" none []
          ([] ++ xmlNode.element "modelList" []
            ([nameless_model] ++
              xmlNode.element "model" [] [xmlNode.leaf "name" "stray"] ::
              [nameless_model]) :: [])) = some h2 ∧
      parse_rules_xml fresh_context.1 0
        (xmlNode.mk xmlElementType.XML_ELEMENT_NODE "xkbConfigRegistry" none []
          ([] ++ xmlNode.element "modelList" []
            ([nameless_model] ++ [nameless_model]) :: [])) = some h2 :=
  ⟨fresh_context_registry, rfl,
   C6_element_without_config_item_is_skipped fresh_context.1 0
     (xmlNode.element "model" [] [xmlNode.leaf "name" "stray"])
     xmlElementType.XML_ELEMENT_NODE "xkbConfigRegistry" none [] [] [] []
     [nameless_model] [nameless_model] [] [] [] fresh_context_registry rfl⟩

/-- C8, counterexample: the document whose only `model` element has a
`configItem` without `name` parses, into a fresh context, to one model, and the
name of that model is `NULL`: the element is not skipped. -/
theorem C8_nameless_model_is_kept :
    (parse_rules_xml fresh_context.1 fresh_context.2 nameless_document).bind (fun h =>
      (entries Kind.model Field.models h fresh_context.2).map fun ids =>
        ids.map (rxkb_model_get_name h)) = some [some none] := by
  rfl

/-- C8, amended: when, in every `model` element with a `configItem` (inside the
`modelList` children of the root), the first `configItem` has a `name` child and
each of its `name` children has a text, every model that parsing into a fresh
context leaves in the context has a non-null name. -/
theorem C8_models_named_when_names_present (w : World) (h h0 : Heap)
    (flags ctx : Nat) (path : String) (root : xmlNode) (hb : h.bounded)
    (hnew : rxkb_context_new w h flags = some (h0, some ctx))
    (hfile : w.xmlReadFile path = some root)
    (hnames : ∀ e ∈ entity_elements root "modelList" "model",
      ∀ cfg, first_config_item e = some cfg →
        (∃ c ∈ cfg.children, is_node c "name" = true) ∧
        ∀ c ∈ cfg.children, is_node c "name" = true → extract_text c ≠ none) :
    ∃ h1 ids, parse w h0 ctx path = some (h1, true) ∧
      entries Kind.model Field.models h1 ctx = some ids ∧
      ∀ m ∈ ids, ∃ s, rxkb_model_get_name h1 m = some (some s) := by
  obtain ⟨_, hr⟩ := rxkb_context_new_spec hb hnew
  obtain ⟨h1, e1, ⟨hb1, ⟨ids, hl, hf⟩, _, _, _⟩, _⟩ := parse_rules_xml_spec root hr
  refine ⟨h1, ids, by simp [parse, hfile, e1], entries_spec hl hb1, ?_⟩
  intro m hm
  obtain ⟨x, hx, hmx⟩ := forall₂_mem_left hf hm
  rw [List.nil_append, document_models_eq] at hx
  obtain ⟨e, he, rfl⟩ := List.mem_map.mp hx
  have hhas : has_config_item e = true := by
    unfold entity_elements at he
    exact (List.mem_filter.mp he).2
  cases hfc : first_config_item e with
  | none =>
    exfalso
    unfold has_config_item at hhas
    unfold first_config_item at hfc
    rw [List.any_eq_true] at hhas
    obtain ⟨c, hc1, hc2⟩ := hhas
    rw [List.find?_eq_none] at hfc
    exact hfc c hc1 hc2
  | some cfg =>
    obtain ⟨⟨c, hc1, hc2⟩, hall⟩ := hnames e he cfg hfc
    have hne : cfg.children.filter (fun c => is_node c "name") ≠ [] := by
      intro hEq
      have : c ∈ cfg.children.filter (fun c => is_node c "name") :=
        List.mem_filter.mpr ⟨hc1, hc2⟩
      rw [hEq] at this
      cases this
    have hname := (model_view_getters hmx.1).1
    rw [(config_item_of_first hfc).2, fields_name] at hname
    cases hlast : (cfg.children.filter (fun c => is_node c "name")).getLast? with
    | none => exact absurd (List.getLast?_eq_none_iff.mp hlast) hne
    | some n =>
      rw [hlast] at hname
      have hn := List.mem_filter.mp (List.mem_of_getLast?_eq_some hlast)
      cases ht : extract_text n with
      | none => exact absurd ht (hall n hn.1 hn.2)
      | some s => exact ⟨s, by rw [hname]; simp [ht]⟩

/-- C8 (amended) at the `pc104` document. -/
theorem C8_models_named_when_names_present_witness :
    Heap.empty.bounded ∧
    rxkb_context_new pc104_world Heap.empty RXKB_CONTEXT_NO_DEFAULT_INCLUDES =
      some (fresh_context.1, some fresh_context.2) ∧
    pc104_world.xmlReadFile "/d/rules/evdev.xml" = some pc104_document ∧
    (∀ e ∈ entity_elements pc104_document "modelList" "model",
      ∀ cfg, first_config_item e = some cfg →
        (∃ c ∈ cfg.children, is_node c "name" = true) ∧
        ∀ c ∈ cfg.children, is_node c "name" = true → extract_text c ≠ none) ∧
    ∃ h1 ids, parse pc104_world fresh_context.1 fresh_context.2 "/d/rules/evdev.xml" =
        some (h1, true) ∧
      entries Kind.model Field.models h1 fresh_context.2 = some ids ∧
      ∀ m ∈ ids, ∃ s, rxkb_model_get_name h1 m = some (some s) :=
  have hn : ∀ e ∈ entity_elements pc104_document "modelList" "model",
      ∀ cfg, first_config_item e = some cfg →
        (∃ c ∈ cfg.children, is_node c "name" = true) ∧
        ∀ c ∈ cfg.children, is_node c "name" = true → extract_text c ≠ none := by
    intro e he cfg hcfg
    have he2 : e ∈ [xmlNode.element "model" []
        [xmlNode.element "configItem" []
          [xmlNode.element "name" [] [xmlNode.text "pc104"],
           xmlNode.element "description" [] [xmlNode.text "Generic 104-key PC"]]]] := he
    simp only [List.mem_singleton] at he2
    subst he2
    have hc2 : some (xmlNode.element "configItem" []
          [xmlNode.element "name" [] [xmlNode.text "pc104"],
           xmlNode.element "description" [] [xmlNode.text "Generic 104-key PC"]]) =
        some cfg := hcfg
    cases hc2
    refine ⟨⟨xmlNode.element "name" [] [xmlNode.text "pc104"], ?_, rfl⟩, ?_⟩
    · simp [xmlNode.children, xmlNode.element]
    · intro c hc hcn
      have hc3 : c ∈ [xmlNode.element "name" [] [xmlNode.text "pc104"],
           xmlNode.element "description" [] [xmlNode.text "Generic 104-key PC"]] := hc
      simp only [List.mem_cons, List.mem_singleton, List.not_mem_nil, or_false] at hc3
      rcases hc3 with rfl | rfl
      · exact (by decide : extract_text (xmlNode.element "name" [] [xmlNode.text "pc104"]) ≠ none)
      · exact absurd hcn (by decide)
  ⟨Heap.empty_bounded, rfl, rfl, hn,
   C8_models_named_when_names_present pc104_world Heap.empty fresh_context.1
     RXKB_CONTEXT_NO_DEFAULT_INCLUDES fresh_context.2 "/d/rules/evdev.xml"
     pc104_document Heap.empty_bounded rfl rfl hn⟩

/-! ## Releasing references -/

theorem ok_set_obj {h : Heap} {c : Nat} {ob ob2 : Obj} (hc : h.objs c = some ob)
    (hk : ob2.kind = ob.kind) : (h.set_obj c (some ob2)).ok = h.ok := by
  funext x
  cases x with
  | link o =>
    by_cases ho : o = c
    · subst ho; simp [Heap.ok, Heap.set_obj, hc]
    · simp [Heap.ok, Heap.set_obj, ho]
  | head f q =>
    by_cases ho : q = c
    · subst ho; simp [Heap.ok, Heap.set_obj, hc, hk]
    · simp [Heap.ok, Heap.set_obj, ho]

theorem set_refcount_kind (ob : Obj) (n : Nat) : (ob.set_refcount n).kind = ob.kind := by
  cases ob <;> rfl

theorem set_refcount_base (ob : Obj) (n : Nat) :
    (ob.set_refcount n).base = { ob.base with refcount := n } := by
  cases ob <;> rfl

theorem first_of_map_cases (head : ListRef) (ids : List Nat) :
    first_of (ids.map ListRef.link) head = head ∨
    ∃ o ∈ ids, first_of (ids.map ListRef.link) head = ListRef.link o := by
  cases ids with
  | nil => left; rfl
  | cons a ids => right; exact ⟨a, by simp, rfl⟩

theorem child_kind_ne_context (f : Field) : f.child_kind ≠ Kind.context := by
  cases f <;> simp [Field.child_kind]

theorem Member.not_context {h : Heap} {f : Field} {p o : Nat} (hm : Member h f p o) :
    h.is_kind Kind.context o = false := by
  obtain ⟨ob, o1, o2, _⟩ := hm
  simp only [Heap.is_kind, o1, beq_eq_false_iff_ne, ne_eq]
  rw [o2]
  exact child_kind_ne_context f

/-- Removing an object from its collection, in the link store. -/
theorem heap_list_remove_spec {h : Heap} {f : Field} {p c : Nat} {pre post : List Nat}
    (hl : ListOf h f p (pre ++ c :: post)) :
    ∃ lk2, list_remove h.ok h.links (ListRef.link c) = some lk2 ∧
      IsList lk2 (ListRef.head f p) ((pre ++ post).map ListRef.link) ∧
      (∀ g q l, (g, q) ≠ (f, p) → ListOf h g q l →
        ∀ x ∈ ListRef.head g q :: l.map ListRef.link, lk2 x = h.links x) ∧
      (∀ x, h.is_kind Kind.context x = true →
        lk2 (ListRef.link x) = h.links (ListRef.link x)) := by
  have hI : IsList h.links (ListRef.head f p)
      (pre.map ListRef.link ++ ListRef.link c :: post.map ListRef.link) := by
    have := hl.1
    rwa [List.map_append, List.map_cons] at this
  have hmem : ∀ a ∈ pre ++ post, Member h f p a := by
    intro a ha
    apply hl.2.2
    rcases List.mem_append.mp ha with ha | ha
    · exact List.mem_append_left _ ha
    · exact List.mem_append_right _ (List.mem_cons_of_mem _ ha)
  obtain ⟨lk2, e1, e2, e3, _⟩ := list_remove_spec h.ok hI hl.2.1
    (hl.2.2 c (by simp)).ok
    (by
      intro x hx
      rw [← List.map_append] at hx
      obtain ⟨a, ha, rfl⟩ := List.mem_map.mp hx
      exact (hmem a ha).ok)
  have hnb : ∀ y, (y = last_of (ListRef.head f p) (pre.map ListRef.link) ∨
      y = first_of (post.map ListRef.link) (ListRef.head f p)) →
      y = ListRef.head f p ∨ ∃ a ∈ pre ++ post, y = ListRef.link a := by
    intro y hy
    rcases hy with hy | hy
    · rcases last_of_map_link (ListRef.head f p) pre with hh | ⟨a, ha, hh⟩
      · left; rw [hy, hh]
      · right; exact ⟨a, List.mem_append_left _ ha, by rw [hy, hh]⟩
    · rcases first_of_map_cases (ListRef.head f p) post with hh | ⟨a, ha, hh⟩
      · left; rw [hy, hh]
      · right; exact ⟨a, List.mem_append_right _ ha, by rw [hy, hh]⟩
  refine ⟨lk2, e1, by simpa using e2, ?_, ?_⟩
  · intro g q l hne hgl x hx
    have hxc : x ≠ ListRef.link c := by
      intro hEq
      rw [hEq] at hx
      rcases List.mem_cons.mp hx with hx | hx
      · cases hx
      · obtain ⟨a, ha, hEq2⟩ := List.mem_map.mp hx
        cases hEq2
        have := (hgl.2.2 c ha).unique (hl.2.2 c (by simp))
        exact hne (by rw [this.1, this.2])
    have hxn : ∀ y, (y = ListRef.head f p ∨ ∃ a ∈ pre ++ post, y = ListRef.link a) →
        x ≠ y := by
      intro y hy hEq
      rw [hEq] at hx
      rcases hy with hy | ⟨a, ha, hy⟩
      · rw [hy] at hx
        rcases List.mem_cons.mp hx with hx | hx
        · cases hx; exact hne rfl
        · obtain ⟨b, _, hb⟩ := List.mem_map.mp hx
          cases hb
      · rw [hy] at hx
        rcases List.mem_cons.mp hx with hx | hx
        · cases hx
        · obtain ⟨b, hb, hb2⟩ := List.mem_map.mp hx
          cases hb2
          have := (hgl.2.2 a hb).unique (hmem a ha)
          exact hne (by rw [this.1, this.2])
    exact e3 x hxc (hxn _ (hnb _ (Or.inl rfl))) (hxn _ (hnb _ (Or.inr rfl)))
  · intro x hk
    have hxm : ∀ a, Member h f p a → ListRef.link x ≠ ListRef.link a := by
      intro a ha hEq
      cases hEq
      rw [ha.not_context] at hk
      cases hk
    have hxn : ∀ y, (y = ListRef.head f p ∨ ∃ a ∈ pre ++ post, y = ListRef.link a) →
        ListRef.link x ≠ y := by
      intro y hy hEq
      rcases hy with hy | ⟨a, ha, hy⟩
      · rw [hy] at hEq; cases hEq
      · rw [hy] at hEq; exact hxm a (hmem a ha) hEq
    exact e3 _ (hxm c (hl.2.2 c (by simp))) (hxn _ (hnb _ (Or.inl rfl)))
      (hxn _ (hnb _ (Or.inr rfl)))

theorem unref_eq (d : Nat) {h : Heap} {c : Nat} {ob : Obj} (hc : h.objs c = some ob)
    (hr : 1 ≤ ob.base.refcount) :
    rxkb_object_unref (d + 1) h c =
      if ob.base.refcount - 1 = 0 then
        (rxkb_object_destroy (unref_at d)
          (h.set_obj c (some (ob.set_refcount (ob.base.refcount - 1)))) c).map
          (fun h2 => (h2, NULL))
      else some (h.set_obj c (some (ob.set_refcount (ob.base.refcount - 1))), NULL) := by
  simp only [rxkb_object_unref, hc, hr, if_true]
  rfl

/-- Unlinking an object from its collection and freeing it. -/
theorem unlink_free_spec {h : Heap} {f : Field} {p c : Nat} {pre post : List Nat}
    (hl : ListOf h f p (pre ++ c :: post)) (hb : h.bounded) (hpc : p ≠ c) :
    ∃ h2, (list_remove h.ok h.links (ListRef.link c)).bind
        (fun lk => some (free (h.set_links lk) c)) = some h2 ∧
      ListOf h2 f p (pre ++ post) ∧ h2.objs c = none ∧
      (∀ o, o ≠ c → h2.objs o = h.objs o) ∧ h2.brk = h.brk ∧ h2.bounded ∧
      (∀ g q l, (g, q) ≠ (f, p) → q ≠ c → ListOf h g q l → ListOf h2 g q l) ∧
      (∀ x, h.is_kind Kind.context x = true →
        h2.links (ListRef.link x) = h.links (ListRef.link x)) := by
  obtain ⟨lk2, e1, e2, e3, e4⟩ := heap_list_remove_spec hl
  have hnd := hl.nodup
  have hcn : c ∉ pre ++ post := by
    intro hc
    have h1 := List.nodup_append.mp hnd
    have h2 := List.nodup_cons.mp h1.2.1
    rcases List.mem_append.mp hc with hc | hc
    · exact h1.2.2 hc (by simp)
    · exact h2.1 hc
  have hobj : ∀ o, o ≠ c → (free (h.set_links lk2) c).objs o = h.objs o := by
    intro o ho
    simp [free, Heap.set_obj, Heap.set_links, ho]
  have hok : ∀ g q, q ≠ c → h.ok (ListRef.head g q) = true →
      (free (h.set_links lk2) c).ok (ListRef.head g q) = true := by
    intro g q hq hk
    simp only [Heap.ok] at hk ⊢
    rw [hobj q hq]; exact hk
  have hmem : ∀ g q a, a ≠ c → Member h g q a → Member (free (h.set_links lk2) c) g q a := by
    intro g q a ha hm
    obtain ⟨ob, o1, o2⟩ := hm
    exact ⟨ob, by rw [hobj a ha]; exact o1, o2⟩
  refine ⟨free (h.set_links lk2) c, by simp [e1], ?_, ?_, hobj, rfl, ?_, ?_, e4⟩
  · refine ⟨e2, hok f p hpc hl.2.1, ?_⟩
    intro a ha
    have hac : a ≠ c := fun hEq => hcn (hEq ▸ ha)
    apply hmem f p a hac
    apply hl.2.2
    rcases List.mem_append.mp ha with ha | ha
    · exact List.mem_append_left _ ha
    · exact List.mem_append_right _ (List.mem_cons_of_mem _ ha)
  · simp [free, Heap.set_obj]
  · intro o ho
    by_cases hoc : o = c
    · rw [hoc]; simp [free, Heap.set_obj]
    · rw [hobj o hoc]; exact hb o ho
  · intro g q l hne hq hgl
    refine ⟨hgl.1.isList_frame (e3 g q l hne hgl), hok g q hq hgl.2.1, ?_⟩
    intro a ha
    apply hmem g q a _ (hgl.2.2 a ha)
    intro hEq
    have := (hgl.2.2 a ha).unique (hEq ▸ hl.2.2 c (by simp))
    exact hne (by rw [this.1, this.2])

/-- An unref that leaves the count above zero only stores the new count. -/
theorem unref_keep_spec (d : Nat) {h : Heap} {f : Field} {p c : Nat} {ob : Obj}
    (hc : h.objs c = some ob) (hr : 2 ≤ ob.base.refcount)
    (hlt : ob.base.refcount < UINT32_MOD)
    (hd : ob.base.destroy = some ob.kind.destroy) (hb : h.bounded) :
    ∃ h2, rxkb_object_unref (d + 1) h c = some (h2, NULL) ∧
      h2 = h.set_obj c (some (ob.set_refcount (ob.base.refcount - 1))) ∧
      FrameU h h2 f p c ∧ Sound h2 c ∧
      (∀ g q l, ListOf h g q l → ListOf h2 g q l) := by
  have hne : ob.base.refcount - 1 ≠ 0 := by omega
  have hl : ∀ g q l, ListOf h g q l →
      ListOf (h.set_obj c (some (ob.set_refcount (ob.base.refcount - 1)))) g q l :=
    set_obj_ext hc (set_refcount_kind _ _) (by rw [set_refcount_base])
  refine ⟨h.set_obj c (some (ob.set_refcount (ob.base.refcount - 1))), ?_, rfl,
    ⟨rfl, set_obj_bounded hb hc _, ?_, fun g q l _ _ hgl => hl g q l hgl, fun _ _ => rfl⟩,
    ⟨ob.set_refcount (ob.base.refcount - 1), ?_, ?_, ?_, ?_⟩, hl⟩
  · rw [unref_eq d hc (by omega)]; simp [hne]
  · intro o ho _
    simp [Heap.set_obj, ho]
  · simp [Heap.set_obj]
  · rw [set_refcount_base]; show 1 ≤ ob.base.refcount - 1; omega
  · rw [set_refcount_base]; show ob.base.refcount - 1 < UINT32_MOD; omega
  · rw [set_refcount_base, set_refcount_kind]; exact hd

/-- An unref that takes the count of a model, variant or option to zero unlinks
it from its collection and frees it. -/
theorem unref_leaf_drop_spec (d : Nat) {h : Heap} {f : Field} {p c : Nat} {ob : Obj}
    {pre post : List Nat} (hc : h.objs c = some ob) (hr : ob.base.refcount = 1)
    (hd : ob.base.destroy = some ob.kind.destroy) (hk : ob.kind.is_leaf = true)
    (hb : h.bounded) (hl : ListOf h f p (pre ++ c :: post)) :
    ∃ h2, rxkb_object_unref (d + 1) h c = some (h2, NULL) ∧
      ListOf h2 f p (pre ++ post) ∧ h2.objs c = none ∧ FrameU h h2 f p c ∧
      ∀ o, o ≠ c → h2.objs o = h.objs o := by
  have hpc : p ≠ c := by
    intro hEq
    have := hl.2.1
    simp only [Heap.ok, hEq, hc] at this
    cases hkk : ob.kind <;> rw [hkk] at hk this <;> cases f <;>
      simp [Kind.is_leaf, Kind.has_field] at hk this
  have hc1 : (h.set_obj c (some (ob.set_refcount 0))).objs c =
      some (ob.set_refcount 0) := by simp [Heap.set_obj]
  have hl1 : ListOf (h.set_obj c (some (ob.set_refcount 0))) f p (pre ++ c :: post) :=
    set_obj_ext hc (set_refcount_kind _ _) (by rw [set_refcount_base]) f p _ hl
  have hb1 := set_obj_bounded hb hc (some (ob.set_refcount 0))
  obtain ⟨h2, e1, e2, e3, e4, e5, e6, e7, e8⟩ := unlink_free_spec hl1 hb1 hpc
  have hcall : call_destroy (unref_at d) ob.kind.destroy
      (h.set_obj c (some (ob.set_refcount 0))) c =
      some (h.set_obj c (some (ob.set_refcount 0))) := by
    cases hkk : ob.kind <;> rw [hkk] at hk <;>
      simp [Kind.is_leaf] at hk <;>
      simp [call_destroy, Kind.destroy, Heap.is_kind, hc1, set_refcount_kind, hkk]
  have hobjs : ∀ o, o ≠ c → h2.objs o = h.objs o := by
    intro o ho
    rw [e4 o ho]
    simp [Heap.set_obj, ho]
  refine ⟨h2, ?_, e2, e3, ⟨e5, e6, fun o ho _ => hobjs o ho, ?_, ?_⟩, hobjs⟩
  · rw [unref_eq d hc (by omega), hr]
    simp only [Nat.sub_self, if_true]
    simp only [rxkb_object_destroy, hc1, set_refcount_base, hd, hcall, Option.some_bind]
    rw [e1]
    rfl
  · intro g q l hne hq hgl
    exact e7 g q l hne hq
      (set_obj_ext hc (set_refcount_kind _ _) (by rw [set_refcount_base]) g q l hgl)
  · intro x hx
    rw [e8 x (by
      by_cases hxc : x = c
      · subst hxc
        simpa [Heap.is_kind, hc1, hc, set_refcount_kind] using hx
      · simpa [Heap.is_kind, Heap.set_obj, hxc] using hx)]
    rfl

/-- The walk `list_for_each_safe` over a well-formed collection: the body runs
on every entry, and may drop the entry it runs on. -/
theorem for_each_safe_loop (f : Field) (p : Nat) (body : Heap → Nat → Option Heap)
    (I : Heap → List Nat → Prop)
    (hI : ∀ h ids, I h ids → ListOf h f p ids)
    (hbody : ∀ h pre c post, I h (pre ++ c :: post) →
      ∃ h2, body h c = some h2 ∧ (I h2 (pre ++ c :: post) ∨ I h2 (pre ++ post))) :
    ∀ (post pre : List Nat) (h : Heap) (fuel : Nat), I h (pre ++ post) →
      post.length < fuel →
      ∃ h2 kept, list_for_each_safe body (ListRef.head f p) fuel h
          (first_of (post.map ListRef.link) (ListRef.head f p)) = some h2 ∧
        I h2 (pre ++ kept) := by
  intro post
  induction post with
  | nil =>
    intro pre h fuel hi hf
    cases fuel with
    | zero => simp at hf
    | succ n => exact ⟨h, [], by simp [list_for_each_safe, first_of], hi⟩
  | cons c post ih =>
    intro pre h fuel hi hf
    cases fuel with
    | zero => simp at hf
    | succ n =>
      have hl := hI _ _ hi
      have hnext : (h.links (ListRef.link c)).next =
          some (first_of (post.map ListRef.link) (ListRef.head f p)) := by
        have := hl.1
        rw [List.map_append, List.map_cons] at this
        exact this.cell_next
      have hok := (hl.2.2 c (by simp)).ok
      obtain ⟨h2, e1, e2⟩ := hbody h pre c post hi
      have hstep : list_for_each_safe body (ListRef.head f p) (n + 1) h
          (first_of ((c :: post).map ListRef.link) (ListRef.head f p)) =
          list_for_each_safe body (ListRef.head f p) n h2
            (first_of (post.map ListRef.link) (ListRef.head f p)) := by
        simp [list_for_each_safe, first_of, hok, container_of, hnext, e1]
      rw [hstep]
      rcases e2 with e2 | e2
      · obtain ⟨h3, kept, e3, e4⟩ := ih (pre ++ [c]) h2 n (by simpa using e2)
          (by simpa using hf)
        exact ⟨h3, c :: kept, e3, by simpa using e4⟩
      · obtain ⟨h3, kept, e3, e4⟩ := ih pre h2 n e2 (by simpa using hf)
        exact ⟨h3, kept, e3, e4⟩

/-- The loop `list_for_each_safe` from its beginning. -/
theorem for_each_entry_safe_spec (f : Field) (p : Nat)
    (body : Heap → Nat → Option Heap) (I : Heap → List Nat → Prop)
    (hI : ∀ h ids, I h ids → ListOf h f p ids)
    (hbody : ∀ h pre c post, I h (pre ++ c :: post) →
      ∃ h2, body h c = some h2 ∧ (I h2 (pre ++ c :: post) ∨ I h2 (pre ++ post)))
    (h : Heap) (ids : List Nat) (hi : I h ids) (hb : h.bounded) :
    ∃ h2 kept, for_each_entry_safe body h f p = some h2 ∧ I h2 kept := by
  have hl := hI _ _ hi
  obtain ⟨h2, kept, e1, e2⟩ := for_each_safe_loop f p body I hI hbody ids [] h
    (h.brk + 1) (by simpa using hi) (Nat.lt_succ_of_le (hl.length_le hb))
  refine ⟨h2, kept, ?_, by simpa using e2⟩
  simp only [for_each_entry_safe, hl.2.1, if_true, hl.1.head_next]
  exact e1

/-- An unref of a model, variant or option of a well-formed collection: it
succeeds; the object stays in place when its count was above 1 and is dropped
when its count was 1. -/
theorem unref_leaf_spec (d : Nat) {h : Heap} {f : Field} {p c : Nat}
    {pre post : List Nat} (hs : Sound h c) (hk : h.is_kind f.child_kind c = true)
    (hleaf : f.child_kind.is_leaf = true)
    (hb : h.bounded) (hl : ListOf h f p (pre ++ c :: post)) :
    ∃ h2, rxkb_object_unref (d + 1) h c = some (h2, NULL) ∧ FrameU h h2 f p c ∧
      (∀ o, o ≠ c → h2.objs o = h.objs o) ∧
      ((ListOf h2 f p (pre ++ c :: post) ∧ Sound h2 c ∧
          ∀ n, refcount_of h c = some n → 2 ≤ n ∧ refcount_of h2 c = some (n - 1)) ∨
       (ListOf h2 f p (pre ++ post) ∧ h2.objs c = none ∧ refcount_of h c = some 1)) := by
  obtain ⟨ob, o1, o2, o3, o4⟩ := hs
  have hkind : ob.kind = f.child_kind := by
    simpa [Heap.is_kind, o1] using hk
  by_cases hr : ob.base.refcount = 1
  · obtain ⟨h2, e1, e2, e3, e4, e5⟩ := unref_leaf_drop_spec d o1 hr o4
      (by rw [hkind]; exact hleaf) hb hl
    exact ⟨h2, e1, e4, e5, Or.inr ⟨e2, e3, by simp [refcount_of, o1, hr]⟩⟩
  · obtain ⟨h2, e1, e2, e3, e4, e5⟩ := @unref_keep_spec d h f p c ob o1 (by omega) o3 o4 hb
    refine ⟨h2, e1, e3, ?_, Or.inl ⟨e5 f p _ hl, e4, ?_⟩⟩
    · intro o ho
      rw [e2]; simp [Heap.set_obj, ho]
    · intro n hn
      simp only [refcount_of, o1, Option.map_some', Option.some.injEq] at hn
      subst hn
      refine ⟨by omega, ?_⟩
      rw [e2]
      simp [refcount_of, Heap.set_obj, set_refcount_base]

theorem leaf_not_owner {h : Heap} {fc g : Field} {c v : Nat} {l : List Nat}
    (hm : Member h fc c v) (hleaf : fc.child_kind.is_leaf = true)
    (hl : ListOf h g v l) : False := by
  obtain ⟨ob, o1, o2, _⟩ := hm
  have := hl.2.1
  simp only [Heap.ok, o1, o2] at this
  cases fc <;> simp [Field.child_kind, Kind.is_leaf] at hleaf <;>
    cases g <;> simp [Field.child_kind, Kind.has_field] at this

/-- An unref that takes the count of a layout or option group to zero unrefs
each of its variants or options, unlinks it from its collection and frees it. -/
theorem unref_mid_drop_spec (d : Nat) {h : Heap} {f : Field} {p c : Nat} {ob : Obj}
    {pre post : List Nat} (fc : Field)
    (hpair : (f = Field.layouts ∧ fc = Field.variants) ∨
      (f = Field.option_groups ∧ fc = Field.options))
    (hc : h.objs c = some ob) (hr : ob.base.refcount = 1)
    (hd : ob.base.destroy = some ob.kind.destroy) (hkind : ob.kind = f.child_kind)
    (hb : h.bounded) (hl : ListOf h f p (pre ++ c :: post))
    (hch : SoundLeaves h fc c) :
    ∃ h2, rxkb_object_unref (d + 2) h c = some (h2, NULL) ∧
      ListOf h2 f p (pre ++ post) ∧ h2.objs c = none ∧ FrameU h h2 f p c := by
  have hleaf : fc.child_kind.is_leaf = true := by
    rcases hpair with ⟨_, rfl⟩ | ⟨_, rfl⟩ <;> rfl
  have hmc : Member h f p c := hl.2.2 c (by simp)
  have hpc : p ≠ c := by
    intro hEq
    have := hl.2.1
    simp only [Heap.ok, hEq, hc, hkind] at this
    rcases hpair with ⟨rfl, _⟩ | ⟨rfl, _⟩ <;> simp [Field.child_kind, Kind.has_field] at this
  have hc1 : (h.set_obj c (some (ob.set_refcount 0))).objs c =
      some (ob.set_refcount 0) := by simp [Heap.set_obj]
  have hobj1 : ∀ o, o ≠ c → (h.set_obj c (some (ob.set_refcount 0))).objs o = h.objs o := by
    intro o ho; simp [Heap.set_obj, ho]
  have hlists1 : ∀ g q l, ListOf h g q l →
      ListOf (h.set_obj c (some (ob.set_refcount 0))) g q l :=
    set_obj_ext hc (set_refcount_kind _ _) (by rw [set_refcount_base])
  have hb1 := set_obj_bounded hb hc (some (ob.set_refcount 0))
  obtain ⟨ids0, hl0, hs0⟩ := hch
  have hvc : ∀ v, Member h fc c v → v ≠ c := by
    intro v hv hEq
    rw [hEq] at hv
    exact hpc (hv.unique hmc).2.symm
  have hnm : ∀ g, ¬ Member (h.set_obj c (some (ob.set_refcount 0))) g c c := by
    rintro g ⟨ob2, b1, _, b3⟩
    rw [hc1] at b1
    cases b1
    obtain ⟨ob3, c1, _, c3⟩ := hmc
    rw [hc] at c1
    cases c1
    rw [set_refcount_base] at b3
    have : ob.base.parent = some c := b3
    rw [c3] at this
    exact hpc (Option.some.inj this)
  -- the loop over the children
  have hloop := for_each_entry_safe_spec fc c (unref_at (d + 1) fc.child_kind)
    (fun hh ids => ListOf hh fc c ids ∧ (∀ v ∈ ids, Sound hh v) ∧ hh.bounded ∧
      hh.brk = h.brk ∧
      (∀ o, (∀ g, ¬ Member (h.set_obj c (some (ob.set_refcount 0))) g c o) →
        hh.objs o = (h.set_obj c (some (ob.set_refcount 0))).objs o) ∧
      (∀ g q l, q ≠ c → ListOf (h.set_obj c (some (ob.set_refcount 0))) g q l →
        ListOf hh g q l) ∧
      (∀ x, h.is_kind Kind.context x = true →
        hh.links (ListRef.link x) = h.links (ListRef.link x)) ∧
      (∀ v ∈ ids, Member (h.set_obj c (some (ob.set_refcount 0))) fc c v))
    (fun _ _ hi => hi.1)
    (by
      intro hh pre2 v post2 hi
      obtain ⟨i1, i2, i3, i4, i5, i6, i7, i8⟩ := hi
      have hmv := i1.2.2 v (by simp)
      have hkv : hh.is_kind fc.child_kind v = true := by
        obtain ⟨ob2, b1, b2, _⟩ := hmv
        simp [Heap.is_kind, b1, b2]
      obtain ⟨h2, e1, e2, e3, e4⟩ := unref_leaf_spec d (i2 v (by simp)) hkv hleaf i3 i1
      have hmv1 := i8 v (by simp)
      have hcommon : h2.bounded ∧ h2.brk = h.brk ∧
          (∀ o, (∀ g, ¬ Member (h.set_obj c (some (ob.set_refcount 0))) g c o) →
            h2.objs o = (h.set_obj c (some (ob.set_refcount 0))).objs o) ∧
          (∀ g q l, q ≠ c → ListOf (h.set_obj c (some (ob.set_refcount 0))) g q l →
            ListOf h2 g q l) ∧
          (∀ x, h.is_kind Kind.context x = true →
            h2.links (ListRef.link x) = h.links (ListRef.link x)) := by
        refine ⟨e2.bounded, e2.brk_eq.trans i4, ?_, ?_, ?_⟩
        · intro o ho
          have hov : o ≠ v := by
            intro hEq
            rw [hEq] at ho
            exact ho fc hmv1
          rw [e3 o hov]; exact i5 o ho
        · intro g q l hq hgl
          have hgl2 := i6 g q l hq hgl
          apply e2.lists g q l _ _ hgl2
          · intro hEq
            cases hEq
            exact hq rfl
          · intro hEq
            rw [hEq] at hgl2
            exact leaf_not_owner hmv hleaf hgl2
        · intro x hx
          have hx1 : hh.is_kind Kind.context x = true := by
            have hxo : hh.objs x = (h.set_obj c (some (ob.set_refcount 0))).objs x := by
              apply i5
              intro g hm
              have := hm.not_context
              by_cases hxc : x = c
              · subst hxc
                exact hnm g hm
              · simp only [Heap.is_kind, hobj1 x hxc] at this
                simp only [Heap.is_kind] at hx
                rw [hx] at this
                cases this
            by_cases hxc : x = c
            · subst hxc
              simp only [Heap.is_kind, hxo, hc1, set_refcount_kind]
              simpa [Heap.is_kind, hc] using hx
            · simp only [Heap.is_kind, hxo, hobj1 x hxc]
              simpa [Heap.is_kind] using hx
          rw [e2.ctx_link x hx1]; exact i7 x hx
      obtain ⟨c1, c2, c3, c4, c5⟩ := hcommon
      refine ⟨h2, by simp [unref_at, hkv, e1], ?_⟩
      rcases e4 with ⟨k1, k2, _⟩ | ⟨k1, k2, _⟩
      · left
        refine ⟨k1, ?_, c1, c2, c3, c4, c5, i8⟩
        intro w hw
        by_cases hwv : w = v
        · rw [hwv]; exact k2
        · exact (i2 w hw).sound_congr (e3 w hwv)
      · right
        have hnd := i1.nodup
        refine ⟨k1, ?_, c1, c2, c3, c4, c5, ?_⟩
        · intro w hw
          have hwv : w ≠ v := by
            intro hEq
            rw [hEq] at hw
            have h1 := List.nodup_append.mp hnd
            have h2' := List.nodup_cons.mp h1.2.1
            rcases List.mem_append.mp hw with hw | hw
            · exact h1.2.2 hw (by simp)
            · exact h2'.1 hw
          apply (i2 w _).sound_congr (e3 w hwv)
          rcases List.mem_append.mp hw with hw | hw
          · exact List.mem_append_left _ hw
          · exact List.mem_append_right _ (List.mem_cons_of_mem _ hw)
        · intro w hw
          apply i8
          rcases List.mem_append.mp hw with hw | hw
          · exact List.mem_append_left _ hw
          · exact List.mem_append_right _ (List.mem_cons_of_mem _ hw))
    (h.set_obj c (some (ob.set_refcount 0))) ids0
    ⟨hlists1 _ _ _ hl0,
     fun v hv => (hs0 v hv).sound_congr (hobj1 v (hvc v (hl0.2.2 v hv))),
     hb1, rfl, fun _ _ => rfl, fun _ _ _ _ hgl => hgl, fun _ _ => rfl,
     fun v hv => (hlists1 _ _ _ hl0).2.2 v hv⟩ hb1
  obtain ⟨hh, kept, e1, _, _, j3, j4, j5, j6, j7, _⟩ := hloop
  have hlh : ListOf hh f p (pre ++ c :: post) := j6 f p _ hpc (hlists1 _ _ _ hl)
  obtain ⟨h2, u1, u2, u3, u4, u5, u6, u7, u8⟩ := unlink_free_spec hlh j3 hpc
  have hcall : call_destroy (unref_at (d + 1)) ob.kind.destroy
      (h.set_obj c (some (ob.set_refcount 0))) c = some hh := by
    rcases hpair with ⟨rfl, rfl⟩ | ⟨rfl, rfl⟩
    · rw [hkind]
      simp only [Field.child_kind, Kind.destroy, call_destroy, Heap.is_kind, hc1,
        set_refcount_kind, hkind, beq_self_eq_true, if_true]
      exact e1
    · rw [hkind]
      simp only [Field.child_kind, Kind.destroy, call_destroy, Heap.is_kind, hc1,
        set_refcount_kind, hkind, beq_self_eq_true, if_true]
      exact e1
  have hhc : hh.objs c = some (ob.set_refcount 0) := by
    rw [j5 c hnm, hc1]
  refine ⟨h2, ?_, u2, u3, ⟨u5.trans j4, u6, ?_, ?_, ?_⟩⟩
  · rw [unref_eq (d + 1) hc (by omega), hr]
    simp only [Nat.sub_self, if_true]
    simp only [rxkb_object_destroy, hc1, set_refcount_base, hd, hcall, Option.some_bind]
    rw [u1]
    rfl
  · intro o ho hnm2
    rw [u4 o ho, j5 o, hobj1 o ho]
    rintro g ⟨ob2, b1, b2⟩
    rw [hobj1 o ho] at b1
    exact hnm2 g ⟨ob2, b1, b2⟩
  · intro g q l hne hq hgl
    exact u7 g q l hne hq (j6 g q l hq (hlists1 g q l hgl))
  · intro x hx
    have hx1 : hh.is_kind Kind.context x = true := by
      have hxc : x ≠ c := by
        intro hEq
        rw [hEq, hmc.not_context] at hx
        cases hx
      have hxo : hh.objs x = h.objs x := by
        rw [j5 x, hobj1 x hxc]
        intro g hm
        have := hm.not_context
        simp only [Heap.is_kind, hobj1 x hxc] at this
        simp only [Heap.is_kind] at hx
        rw [hx] at this
        cases this
      simpa [Heap.is_kind, hxo] using hx
    rw [u8 x hx1]; exact j7 x hx

theorem SoundLeaves.leaves_frame {h h2 : Heap} {f fc : Field} {p q c : Nat}
    (hs : SoundLeaves h fc q) (F : FrameU h h2 f p c) (hm : Member h f p c)
    (hne : (fc, q) ≠ (f, p)) (hq : q ≠ c) : SoundLeaves h2 fc q := by
  obtain ⟨ids, hl, hv⟩ := hs
  refine ⟨ids, F.lists fc q ids hne hq hl, ?_⟩
  intro v hvm
  apply (hv v hvm).sound_congr
  apply F.objs_eq
  · intro hEq
    have := (hl.2.2 v hvm).unique (hEq ▸ hm)
    exact hne (by rw [this.1, this.2])
  · intro g hg
    exact hq (hg.unique (hl.2.2 v hvm)).2.symm

theorem SoundMids.mids_frame {h h2 : Heap} {f f2 fc : Field} {ctx c : Nat}
    (hs : SoundMids h f2 ctx fc) (F : FrameU h h2 f ctx c) (hm : Member h f ctx c)
    (hne : f2 ≠ f) (hk : h.is_kind Kind.context ctx = true) : SoundMids h2 f2 ctx fc := by
  obtain ⟨ids, hl, hv⟩ := hs
  have hcc : ctx ≠ c := by
    intro hEq
    rw [hEq, hm.not_context] at hk
    cases hk
  refine ⟨ids, F.lists f2 ctx ids (fun hEq => hne (Prod.mk.inj hEq).1) hcc hl, ?_⟩
  intro l hlm
  have hml := hl.2.2 l hlm
  have hlc : l ≠ c := fun hEq => hne ((hml.unique (hEq ▸ hm)).1)
  have hlctx : l ≠ ctx := by
    intro hEq
    rw [← hEq, hml.not_context] at hk
    cases hk
  refine ⟨(hv l hlm).1.sound_congr (F.objs_eq l hlc ?_), ?_⟩
  · intro g hg
    exact hcc (hg.unique hml).2.symm
  · exact (hv l hlm).2.leaves_frame F hm (fun hEq => hlctx (Prod.mk.inj hEq).2) hlc

/-- An unref of a layout or option group of a well-formed collection: it
succeeds; the object stays in place when its count was above 1, and is dropped,
after one unref of each of its variants or options, when its count was 1. -/
theorem unref_mid_spec (d : Nat) {h : Heap} {f : Field} {p c : Nat}
    {pre post : List Nat} (fc : Field)
    (hpair : (f = Field.layouts ∧ fc = Field.variants) ∨
      (f = Field.option_groups ∧ fc = Field.options))
    (hs : Sound h c) (hb : h.bounded) (hl : ListOf h f p (pre ++ c :: post))
    (hch : SoundLeaves h fc c) :
    ∃ h2, rxkb_object_unref (d + 2) h c = some (h2, NULL) ∧ FrameU h h2 f p c ∧
      ((ListOf h2 f p (pre ++ c :: post) ∧ Sound h2 c ∧ SoundLeaves h2 fc c ∧
          ∀ n, refcount_of h c = some n → 2 ≤ n ∧ refcount_of h2 c = some (n - 1)) ∨
       (ListOf h2 f p (pre ++ post) ∧ h2.objs c = none ∧ refcount_of h c = some 1)) := by
  obtain ⟨ob, o1, o2, o3, o4⟩ := hs
  have hmc : Member h f p c := hl.2.2 c (by simp)
  have hkind : ob.kind = f.child_kind := by
    obtain ⟨ob2, b1, b2, _⟩ := hmc
    rw [o1] at b1; cases b1; exact b2
  by_cases hr : ob.base.refcount = 1
  · obtain ⟨h2, e1, e2, e3, e4⟩ := unref_mid_drop_spec d fc hpair o1 hr o4 hkind hb hl hch
    exact ⟨h2, e1, e4, Or.inr ⟨e2, e3, by simp [refcount_of, o1, hr]⟩⟩
  · obtain ⟨h2, e1, e2, e3, e4, e5⟩ :=
      @unref_keep_spec (d + 1) h f p c ob o1 (by omega) o3 o4 hb
    refine ⟨h2, e1, e3, Or.inl ⟨e5 f p _ hl, e4, ?_, ?_⟩⟩
    · obtain ⟨ids, hl0, hv⟩ := hch
      refine ⟨ids, e5 _ _ _ hl0, ?_⟩
      intro v hvm
      apply (hv v hvm).sound_congr
      have hvc : v ≠ c := by
        intro hEq
        have := (hl0.2.2 v hvm).unique (hEq ▸ hmc)
        have hpc : p ≠ c := by
          intro hEq2
          have hok := hl.2.1
          simp only [Heap.ok, hEq2, o1, hkind] at hok
          rcases hpair with ⟨rfl, _⟩ | ⟨rfl, _⟩ <;>
            simp [Field.child_kind, Kind.has_field] at hok
        exact hpc this.2.symm
      rw [e2]; simp [Heap.set_obj, hvc]
    · intro n hn
      simp only [refcount_of, o1, Option.map_some', Option.some.injEq] at hn
      subst hn
      refine ⟨by omega, ?_⟩
      rw [e2]
      simp [refcount_of, Heap.set_obj, set_refcount_base]

theorem holds_sound {α : Type} {At : Heap → Nat → α → Prop} {P : Heap → Nat → Prop}
    {f : Field} {h : Heap} {p : Nat} {xs : List α} (hh : Holds At f h p xs)
    (hP : ∀ o x, At h o x → P h o) : ∃ ids, ListOf h f p ids ∧ ∀ o ∈ ids, P h o := by
  obtain ⟨ids, hl, hf⟩ := hh
  refine ⟨ids, hl, ?_⟩
  intro o ho
  obtain ⟨x, _, hx⟩ := forall₂_mem_left hf ho
  exact hP o x hx

/-- The object graph of a context whose collections read as a registry is sound
at every level. -/
theorem Registry.sound_tree {h : Heap} {ctx : Nat} {ms : List config_item}
    {ls : List layout_data} {gs : List group_data} (hr : Registry h ctx ms ls gs) :
    SoundLeaves h Field.models ctx ∧ SoundMids h Field.layouts ctx Field.variants ∧
    SoundMids h Field.option_groups ctx Field.options := by
  obtain ⟨_, hm, hl, hg, _⟩ := hr
  refine ⟨holds_sound hm (fun _ _ hx => hx.2), ?_, ?_⟩
  · exact @holds_sound _ LayoutAt
      (fun hh o => Sound hh o ∧ SoundLeaves hh Field.variants o) _ _ _ _ hl
      (fun o x hx => ⟨hx.2.1, holds_sound hx.2.2 (fun _ _ hy => hy.2)⟩)
  · exact @holds_sound _ GroupAt
      (fun hh o => Sound hh o ∧ SoundLeaves hh Field.options o) _ _ _ _ hg
      (fun o x hx => ⟨hx.2.1, holds_sound hx.2.2 (fun _ _ hy => hy.2)⟩)

theorem CtxAlive.is_ctx {h : Heap} {ctx : Nat} {ob : Obj} (ha : CtxAlive h ctx ob) :
    h.is_kind Kind.context ctx = true := by
  simp [Heap.is_kind, ha.2.1, ha.2.2.1]

theorem CtxAlive.alive_frame {h h2 : Heap} {f : Field} {ctx c : Nat} {ob : Obj}
    (ha : CtxAlive h ctx ob) (F : FrameU h h2 f ctx c) (hm : Member h f ctx c) :
    CtxAlive h2 ctx ob := by
  have hk := ha.is_ctx
  have hcc : ctx ≠ c := by
    intro hEq
    rw [hEq, hm.not_context] at hk
    cases hk
  refine ⟨F.bounded, ?_, ha.2.2.1, ?_⟩
  · rw [F.objs_eq ctx hcc]
    · exact ha.2.1
    · intro g hg
      rw [hg.not_context] at hk
      cases hk
  · rw [F.ctx_link ctx hk]; exact ha.2.2.2

/-- The loop of a destroy callback over a collection of models, variants or
options: one unref each. -/
theorem leaves_loop (d : Nat) (f : Field) (hleaf : f.child_kind.is_leaf = true)
    (p : Nat) (Extra : Heap → Prop)
    (hExtra : ∀ hh h2 c, Extra hh → FrameU hh h2 f p c → Member hh f p c →
      (∀ o, o ≠ c → h2.objs o = hh.objs o) → Extra h2)
    (h : Heap) (hb : h.bounded) (hs : SoundLeaves h f p) (he : Extra h) :
    ∃ h2, for_each_entry_safe (unref_at (d + 1) f.child_kind) h f p = some h2 ∧
      Extra h2 := by
  obtain ⟨ids, hl, hv⟩ := hs
  obtain ⟨h2, _, e1, e2⟩ := for_each_entry_safe_spec f p (unref_at (d + 1) f.child_kind)
    (fun hh l => ListOf hh f p l ∧ (∀ v ∈ l, Sound hh v) ∧ hh.bounded ∧ Extra hh)
    (fun _ _ hi => hi.1)
    (by
      intro hh pre v post hi
      obtain ⟨i1, i2, i3, i4⟩ := hi
      have hmv := i1.2.2 v (by simp)
      have hkv : hh.is_kind f.child_kind v = true := by
        obtain ⟨ob2, b1, b2, _⟩ := hmv
        simp [Heap.is_kind, b1, b2]
      obtain ⟨h2, e1, e2, e3, e4⟩ := unref_leaf_spec d (i2 v (by simp)) hkv hleaf i3 i1
      refine ⟨h2, by simp [unref_at, hkv, e1], ?_⟩
      have hx := hExtra hh h2 v i4 e2 hmv e3
      rcases e4 with ⟨k1, k2, _⟩ | ⟨k1, k2, _⟩
      · left
        refine ⟨k1, ?_, e2.bounded, hx⟩
        intro w hw
        by_cases hwv : w = v
        · rw [hwv]; exact k2
        · exact (i2 w hw).sound_congr (e3 w hwv)
      · right
        have hnd := i1.nodup
        refine ⟨k1, ?_, e2.bounded, hx⟩
        intro w hw
        have hwv : w ≠ v := by
          intro hEq
          rw [hEq] at hw
          have h1 := List.nodup_append.mp hnd
          have h2' := List.nodup_cons.mp h1.2.1
          rcases List.mem_append.mp hw with hw | hw
          · exact h1.2.2 hw (by simp)
          · exact h2'.1 hw
        apply (i2 w _).sound_congr (e3 w hwv)
        rcases List.mem_append.mp hw with hw | hw
        · exact List.mem_append_left _ hw
        · exact List.mem_append_right _ (List.mem_cons_of_mem _ hw))
    h ids ⟨hl, hv, hb, he⟩ hb
  exact ⟨h2, e1, e2.2.2.2⟩

/-- The loop of `rxkb_context_destroy` over the layouts or the option groups:
one unref each. -/
theorem mids_loop (d : Nat) (f fc : Field)
    (hpair : (f = Field.layouts ∧ fc = Field.variants) ∨
      (f = Field.option_groups ∧ fc = Field.options))
    (ctx : Nat) (Extra : Heap → Prop)
    (hExtra : ∀ hh h2 c, Extra hh → FrameU hh h2 f ctx c → Member hh f ctx c → Extra h2)
    (hctx : ∀ hh, Extra hh → hh.is_kind Kind.context ctx = true)
    (h : Heap) (hb : h.bounded) (hs : SoundMids h f ctx fc) (he : Extra h) :
    ∃ h2, for_each_entry_safe (unref_at (d + 2) f.child_kind) h f ctx = some h2 ∧
      h2.bounded ∧ Extra h2 := by
  obtain ⟨ids, hl, hv⟩ := hs
  obtain ⟨h2, _, e1, e2⟩ := for_each_entry_safe_spec f ctx
    (unref_at (d + 2) f.child_kind)
    (fun hh l => ListOf hh f ctx l ∧ (∀ v ∈ l, Sound hh v ∧ SoundLeaves hh fc v) ∧
      hh.bounded ∧ Extra hh)
    (fun _ _ hi => hi.1)
    (by
      intro hh pre v post hi
      obtain ⟨i1, i2, i3, i4⟩ := hi
      have hmv := i1.2.2 v (by simp)
      have hkv : hh.is_kind f.child_kind v = true := by
        obtain ⟨ob2, b1, b2, _⟩ := hmv
        simp [Heap.is_kind, b1, b2]
      have hk := hctx hh i4
      have hvctx : v ≠ ctx := by
        intro hEq
        rw [← hEq, hmv.not_context] at hk
        cases hk
      obtain ⟨h2, e1, e2, e4⟩ := unref_mid_spec d fc hpair (i2 v (by simp)).1 i3 i1
        (i2 v (by simp)).2
      refine ⟨h2, by simp [unref_at, hkv, e1], ?_⟩
      have hx := hExtra hh h2 v i4 e2 hmv
      have hother : ∀ w, w ≠ v → Member hh f ctx w → Sound hh w ∧ SoundLeaves hh fc w →
          Sound h2 w ∧ SoundLeaves h2 fc w := by
        intro w hwv hmw hw
        have hwctx : w ≠ ctx := by
          intro hEq
          rw [← hEq, hmw.not_context] at hk
          cases hk
        refine ⟨hw.1.sound_congr (e2.objs_eq w hwv ?_), ?_⟩
        · intro g hg
          exact hvctx (hg.unique hmw).2
        · exact hw.2.leaves_frame e2 hmv (fun hEq => hwctx (Prod.mk.inj hEq).2) hwv
      rcases e4 with ⟨k1, k2, k3, _⟩ | ⟨k1, k2, _⟩
      · left
        refine ⟨k1, ?_, e2.bounded, hx⟩
        intro w hw
        by_cases hwv : w = v
        · rw [hwv]; exact ⟨k2, k3⟩
        · exact hother w hwv (i1.2.2 w hw) (i2 w hw)
      · right
        have hnd := i1.nodup
        refine ⟨k1, ?_, e2.bounded, hx⟩
        intro w hw
        have hwv : w ≠ v := by
          intro hEq
          rw [hEq] at hw
          have h1 := List.nodup_append.mp hnd
          have h2' := List.nodup_cons.mp h1.2.1
          rcases List.mem_append.mp hw with hw | hw
          · exact h1.2.2 hw (by simp)
          · exact h2'.1 hw
        have hw2 : w ∈ pre ++ v :: post := by
          rcases List.mem_append.mp hw with hw | hw
          · exact List.mem_append_left _ hw
          · exact List.mem_append_right _ (List.mem_cons_of_mem _ hw)
        exact hother w hwv (i1.2.2 w hw2) (i2 w hw2))
    h ids ⟨hl, hv, hb, he⟩ hb
  exact ⟨h2, e1, e2.2.2.1, e2.2.2.2⟩

theorem SoundLeaves.leaves_store {h : Heap} {fc : Field} {q x : Nat} {ob ob2 : Obj}
    (hs : SoundLeaves h fc q) (hx : h.objs x = some ob) (hk : ob.kind = Kind.context)
    (hk2 : ob2.kind = ob.kind) (hp : ob2.base.parent = ob.base.parent) :
    SoundLeaves (h.set_obj x (some ob2)) fc q := by
  obtain ⟨ids, hl, hv⟩ := hs
  refine ⟨ids, set_obj_ext hx hk2 hp fc q ids hl, ?_⟩
  intro v hvm
  apply (hv v hvm).sound_congr
  have hvx : v ≠ x := by
    intro hEq
    have := (hl.2.2 v hvm).not_context
    simp [Heap.is_kind, hEq, hx, hk] at this
  simp [Heap.set_obj, hvx]

theorem SoundMids.mids_store {h : Heap} {f fc : Field} {q x : Nat} {ob ob2 : Obj}
    (hs : SoundMids h f q fc) (hx : h.objs x = some ob) (hk : ob.kind = Kind.context)
    (hk2 : ob2.kind = ob.kind) (hp : ob2.base.parent = ob.base.parent) :
    SoundMids (h.set_obj x (some ob2)) f q fc := by
  obtain ⟨ids, hl, hv⟩ := hs
  refine ⟨ids, set_obj_ext hx hk2 hp f q ids hl, ?_⟩
  intro v hvm
  refine ⟨(hv v hvm).1.sound_congr ?_, (hv v hvm).2.leaves_store hx hk hk2 hp⟩
  have hvx : v ≠ x := by
    intro hEq
    have := (hl.2.2 v hvm).not_context
    simp [Heap.is_kind, hEq, hx, hk] at this
  simp [Heap.set_obj, hvx]

/-- An unref that takes the count of a context to zero unrefs each of its
models, layouts and option groups, and frees the context. -/
theorem unref_context_drop_spec {h : Heap} {ctx : Nat} {ob : Obj}
    (hc : h.objs ctx = some ob) (hr : ob.base.refcount = 1)
    (hd : ob.base.destroy = some ob.kind.destroy) (hkc : ob.kind = Kind.context)
    (hlink : h.links (ListRef.link ctx) =
      { prev := some (ListRef.link ctx), next := some (ListRef.link ctx) })
    (hb : h.bounded) (hm : SoundLeaves h Field.models ctx)
    (hL : SoundMids h Field.layouts ctx Field.variants)
    (hG : SoundMids h Field.option_groups ctx Field.options) :
    ∃ h2, rxkb_object_unref 3 h ctx = some (h2, NULL) ∧ h2.objs ctx = none := by
  have hc1 : (h.set_obj ctx (some (ob.set_refcount 0))).objs ctx =
      some (ob.set_refcount 0) := by simp [Heap.set_obj]
  have hb1 := set_obj_bounded hb hc (some (ob.set_refcount 0))
  have hk0 : (ob.set_refcount 0).kind = Kind.context := by
    rw [set_refcount_kind]; exact hkc
  have hp0 : (ob.set_refcount 0).base.parent = ob.base.parent := by
    rw [set_refcount_base]
  have ha1 : CtxAlive (h.set_obj ctx (some (ob.set_refcount 0))) ctx
      (ob.set_refcount 0) := ⟨hb1, hc1, hk0, hlink⟩
  obtain ⟨h2, e2, a2, l2, g2⟩ := leaves_loop 1 Field.models rfl ctx
    (fun hh => CtxAlive hh ctx (ob.set_refcount 0) ∧
      SoundMids hh Field.layouts ctx Field.variants ∧
      SoundMids hh Field.option_groups ctx Field.options)
    (fun hh h2 c hx F hmc _ =>
      ⟨hx.1.alive_frame F hmc, hx.2.1.mids_frame F hmc (by decide) hx.1.is_ctx,
       hx.2.2.mids_frame F hmc (by decide) hx.1.is_ctx⟩)
    _ hb1 (hm.leaves_store hc hkc (set_refcount_kind _ _) hp0)
    ⟨ha1, hL.mids_store hc hkc (set_refcount_kind _ _) hp0,
     hG.mids_store hc hkc (set_refcount_kind _ _) hp0⟩
  obtain ⟨h3, e3, _, a3, g3⟩ := mids_loop 0 Field.layouts Field.variants
    (Or.inl ⟨rfl, rfl⟩) ctx
    (fun hh => CtxAlive hh ctx (ob.set_refcount 0) ∧
      SoundMids hh Field.option_groups ctx Field.options)
    (fun hh h2 c hx F hmc =>
      ⟨hx.1.alive_frame F hmc, hx.2.mids_frame F hmc (by decide) hx.1.is_ctx⟩)
    (fun hh hx => hx.1.is_ctx) h2 a2.1 l2 ⟨a2, g2⟩
  obtain ⟨h4, e4, _, a4⟩ := mids_loop 0 Field.option_groups Field.options
    (Or.inr ⟨rfl, rfl⟩) ctx
    (fun hh => CtxAlive hh ctx (ob.set_refcount 0))
    (fun hh h2 c hx F hmc => hx.alive_frame F hmc)
    (fun hh hx => hx.is_ctx) h3 a3.1 g3 a3
  have hcall : call_destroy (unref_at 2) ob.kind.destroy
      (h.set_obj ctx (some (ob.set_refcount 0))) ctx = some h4 := by
    rw [hkc]
    simp only [Kind.destroy, call_destroy, ha1.is_ctx, if_true]
    have e2' : for_each_entry_safe (unref_at 2 Kind.model)
        (h.set_obj ctx (some (ob.set_refcount 0))) Field.models ctx = some h2 := e2
    have e3' : for_each_entry_safe (unref_at 2 Kind.layout) h2 Field.layouts ctx =
        some h3 := e3
    have e4' : for_each_entry_safe (unref_at 2 Kind.option_group) h3
        Field.option_groups ctx = some h4 := e4
    simp [e2', e3', e4']
  have hok : h4.ok (ListRef.link ctx) = true := by
    simp [Heap.ok, a4.2.1]
  have hrem : ∃ lk, list_remove h4.ok h4.links (ListRef.link ctx) = some lk := by
    simp [list_remove, hok, a4.2.2.2]
  obtain ⟨lk, hlk⟩ := hrem
  refine ⟨free (h4.set_links lk) ctx, ?_, by simp [free, Heap.set_obj]⟩
  rw [show (3 : Nat) = 2 + 1 from rfl, unref_eq 2 hc (by omega), hr]
  simp only [Nat.sub_self, if_true]
  simp only [rxkb_object_destroy, hc1, set_refcount_base, hd, hcall, Option.some_bind, hlk]
  rfl

theorem set_refcount_twice (ob : Obj) (n : Nat) :
    (ob.set_refcount n).set_refcount ob.base.refcount = ob := by
  cases ob <;> rfl

/-- C9, counterexample: a context whose count is 4294967295, the largest
`uint32_t`.  `rxkb_context_ref` returns the context with its count wrapped to
0, and the following `rxkb_context_unref` fails its assertion, so the count is
not back at 4294967295. -/
theorem C9_saturated_count_wraps :
    refcount_of saturated_heap 0 = some 4294967295 ∧
    (rxkb_context_ref saturated_heap (some 0)).map
      (fun r => (r.2, refcount_of r.1 0)) = some (some 0, some 0) ∧
    (rxkb_context_ref saturated_heap (some 0)).bind
      (fun r => rxkb_context_unref r.1 (some 0)) = none := by
  refine ⟨rfl, rfl, rfl⟩

/-- C9, amended: every entity has count 1 right after `type_##_create`, and for
every entity whose count `n` satisfies `1 ≤ n < 2^32 - 1`, `type_##_ref`
followed by `type_##_unref` gives back the heap it started from: the count is
`n` again, the entity is allocated, its destructor has not run and every
collection is as before. -/
theorem C9_refcount_round_trip (k : Kind) (h : Heap) (parent : Ptr) (o : Nat)
    (ob : Obj) (ho : h.objs o = some ob) (hk : ob.kind = k)
    (hn1 : 1 ≤ ob.base.refcount) (hn2 : ob.base.refcount + 1 < UINT32_MOD) :
    (∃ h1 p, T_create k h parent = some (h1, p) ∧ refcount_of h1 p = some 1) ∧
    ∃ h1, T_ref k h (some o) = some (h1, some o) ∧
      refcount_of h1 o = some (ob.base.refcount + 1) ∧
      T_unref k h1 (some o) = some (h, NULL) := by
  refine ⟨⟨_, _, T_create_eq k h parent, ?_⟩, ?_⟩
  · simp only [refcount_of, Heap.with_new, if_true, Option.map_some']
    cases k <;> rfl
  · have hmod : (ob.base.refcount + 1) % UINT32_MOD = ob.base.refcount + 1 :=
      Nat.mod_eq_of_lt hn2
    have hkind : h.is_kind k o = true := by simp [Heap.is_kind, ho, hk]
    refine ⟨h.set_obj o (some (ob.set_refcount (ob.base.refcount + 1))), ?_, ?_, ?_⟩
    · simp [T_ref, hkind, rxkb_object_ref, ho, hn1, hmod]
    · simp [refcount_of, Heap.set_obj, set_refcount_base]
    · have ho1 : (h.set_obj o (some (ob.set_refcount (ob.base.refcount + 1)))).objs o =
          some (ob.set_refcount (ob.base.refcount + 1)) := by simp [Heap.set_obj]
      have hkind1 : (h.set_obj o (some (ob.set_refcount (ob.base.refcount + 1)))).is_kind
          k o = true := by
        simp [Heap.is_kind, ho1, set_refcount_kind, hk]
      have hrc : (ob.set_refcount (ob.base.refcount + 1)).base.refcount =
          ob.base.refcount + 1 := by rw [set_refcount_base]
      simp only [T_unref, hkind1, if_true, destroy_depth]
      rw [show (3 : Nat) = 2 + 1 from rfl, unref_eq 2 ho1 (by rw [hrc]; omega), hrc]
      have hne : ob.base.refcount ≠ 0 := by omega
      simp only [Nat.add_sub_cancel, hne, if_false, Option.some.injEq, Prod.mk.injEq,
        and_true]
      apply Heap.ext_iff3
      · funext x
        by_cases hx : x = o
        · subst hx
          simp only [Heap.set_obj, if_true]
          rw [ho]
          have := set_refcount_twice ob (ob.base.refcount + 1)
          exact congrArg some this
        · simp [Heap.set_obj, hx]
      · rfl
      · rfl

/-- C9 (amended) at the context of the sample heap, whose count is 1. -/
theorem C9_refcount_round_trip_witness :
    (∃ h1 p, T_create Kind.context sample_heap NULL = some (h1, p) ∧
      refcount_of h1 p = some 1) ∧
    ∃ h1, T_ref Kind.context sample_heap (some 0) = some (h1, some 0) ∧
      refcount_of h1 0 = some (1 + 1) ∧
      T_unref Kind.context h1 (some 0) = some (sample_heap, NULL) :=
  C9_refcount_round_trip Kind.context sample_heap NULL 0
    (Obj.context { base := Kind.context.init_base NULL, includes := [], userdata := 0 })
    rfl rfl (by decide) (by decide)

/-- Dropping the last reference of an entry of a collection of leaves. -/
theorem drop_leaf_entry {h : Heap} {f : Field} {p o : Nat} {ob : Obj} {ids : List Nat}
    (hsl : SoundLeaves h f p) (hleaf : f.child_kind.is_leaf = true) (hb : h.bounded)
    (he : entries f.child_kind f h p = some ids) (hm : o ∈ ids)
    (ho : h.objs o = some ob) (hr : ob.base.refcount = 1) :
    ob.kind = f.child_kind ∧
    ∃ h1, rxkb_object_unref 3 h o = some (h1, NULL) ∧ h1.objs o = none := by
  obtain ⟨ids0, hl, hs⟩ := hsl
  have e0 := entries_spec hl hb
  rw [he] at e0
  cases e0
  obtain ⟨pre, post, hpp⟩ := List.append_of_mem hm
  subst hpp
  obtain ⟨ob2, b1, b2, _⟩ := hl.2.2 o (by simp)
  rw [ho] at b1
  cases b1
  have hk : h.is_kind f.child_kind o = true := by simp [Heap.is_kind, ho, b2]
  obtain ⟨h2, e1, _, _, e4⟩ := unref_leaf_spec 2 (hs o (by simp)) hk hleaf hb hl
  rcases e4 with ⟨_, _, e⟩ | ⟨_, e, _⟩
  · have := (e 1 (by simp [refcount_of, ho, hr])).1
    omega
  · exact ⟨b2, h2, e1, e⟩

/-- Dropping the last reference of a layout or an option group. -/
theorem drop_mid_entry {h : Heap} {f : Field} {p o : Nat} {ob : Obj} {ids : List Nat}
    (fc : Field)
    (hpair : (f = Field.layouts ∧ fc = Field.variants) ∨
      (f = Field.option_groups ∧ fc = Field.options))
    (hsm : SoundMids h f p fc) (hb : h.bounded)
    (he : entries f.child_kind f h p = some ids) (hm : o ∈ ids)
    (ho : h.objs o = some ob) (hr : ob.base.refcount = 1) :
    ob.kind = f.child_kind ∧
    ∃ h1, rxkb_object_unref 3 h o = some (h1, NULL) ∧ h1.objs o = none := by
  obtain ⟨ids0, hl, hs⟩ := hsm
  have e0 := entries_spec hl hb
  rw [he] at e0
  cases e0
  obtain ⟨pre, post, hpp⟩ := List.append_of_mem hm
  subst hpp
  obtain ⟨ob2, b1, b2, _⟩ := hl.2.2 o (by simp)
  rw [ho] at b1
  cases b1
  obtain ⟨h2, e1, _, e4⟩ := unref_mid_spec 1 fc hpair (hs o (by simp)).1 hb hl
    (hs o (by simp)).2
  rcases e4 with ⟨_, _, _, e⟩ | ⟨_, e, _⟩
  · have := (e 1 (by simp [refcount_of, ho, hr])).1
    omega
  · exact ⟨b2, h2, e1, e⟩

/-- The leaves of an entry of a collection of layouts or option groups. -/
theorem SoundMids.leaves_of {h : Heap} {f fc : Field} {p l : Nat} {ids : List Nat}
    (hsm : SoundMids h f p fc) (hb : h.bounded)
    (he : entries f.child_kind f h p = some ids) (hm : l ∈ ids) :
    SoundLeaves h fc l := by
  obtain ⟨ids0, hl, hs⟩ := hsm
  have e0 := entries_spec hl hb
  rw [he] at e0
  cases e0
  exact (hs l hm).2

/-- C10: `type_##_unref` of `NULL` returns `NULL` and leaves the heap alone;
`type_##_ref` of an allocated object of its type with a count of at least 1
returns that very object; `type_##_unref` of an object whose count is at least
2 returns `NULL` and the object stays allocated; and `type_##_unref` of an
object with count 1 that is the context of a well-formed registry or one of
its models, layouts, option groups, variants or options runs the destroy
cascade to its end, returns `NULL`, and the object is freed. -/
theorem C10_ref_unref_results (k : Kind) (h : Heap) :
    T_unref k h NULL = some (h, NULL) ∧
    (∀ o ob, h.objs o = some ob → ob.kind = k → 1 ≤ ob.base.refcount →
      ∃ h1, T_ref k h (some o) = some (h1, some o)) ∧
    (∀ o ob, h.objs o = some ob → ob.kind = k → 2 ≤ ob.base.refcount →
      ∃ h1, T_unref k h (some o) = some (h1, NULL) ∧ h1.objs o ≠ none) ∧
    (∀ ctx ms ls gs o ob, Registry h ctx ms ls gs → InRegistry h ctx o →
      h.objs o = some ob → ob.kind = k → ob.base.refcount = 1 →
      ∃ h1, T_unref k h (some o) = some (h1, NULL) ∧ h1.objs o = none) := by
  refine ⟨rfl, ?_, ?_, ?_⟩
  · intro o ob ho hk hn
    have hkind : h.is_kind k o = true := by simp [Heap.is_kind, ho, hk]
    exact ⟨h.set_obj o (some (ob.set_refcount ((ob.base.refcount + 1) % UINT32_MOD))),
      by simp [T_ref, hkind, rxkb_object_ref, ho, hn]⟩
  · intro o ob ho hk hn
    have hkind : h.is_kind k o = true := by simp [Heap.is_kind, ho, hk]
    have hne : ob.base.refcount - 1 ≠ 0 := by omega
    refine ⟨h.set_obj o (some (ob.set_refcount (ob.base.refcount - 1))), ?_, ?_⟩
    · simp only [T_unref, hkind, if_true, destroy_depth]
      rw [show (3 : Nat) = 2 + 1 from rfl, unref_eq 2 ho (by omega)]
      simp only [hne, if_false]
    · simp [Heap.set_obj]
  · intro ctx ms ls gs o ob hr hin ho hk hn
    have hb : h.bounded := hr.1
    obtain ⟨hm, hL, hG⟩ := hr.sound_tree
    have key : ob.kind = k → (∃ h1, rxkb_object_unref 3 h o = some (h1, NULL) ∧
        h1.objs o = none) → ∃ h1, T_unref k h (some o) = some (h1, NULL) ∧
        h1.objs o = none := by
      intro hk2 hex
      have hkind : h.is_kind k o = true := by simp [Heap.is_kind, ho, hk2]
      simpa only [T_unref, hkind, if_true, destroy_depth] using hex
    apply key hk
    rcases hin with rfl | ⟨ids, he, hmem⟩ | ⟨ids, he, hmem⟩ | ⟨ids, he, hmem⟩ |
      ⟨ids, l, vs, he, hl, hv, hmem⟩ | ⟨ids, g, os, he, hg, hv, hmem⟩
    · obtain ⟨⟨ob2, c1, _, _, c4⟩, ck, clink⟩ := hr.2.2.2.2
      rw [ho] at c1
      cases c1
      have hkc : ob.kind = Kind.context := by
        simpa [Heap.is_kind, ho] using ck
      exact unref_context_drop_spec ho hn c4 hkc clink hb hm hL hG
    · exact (drop_leaf_entry hm rfl hb he hmem ho hn).2
    · exact (drop_mid_entry Field.variants (Or.inl ⟨rfl, rfl⟩) hL hb he hmem ho hn).2
    · exact (drop_mid_entry Field.options (Or.inr ⟨rfl, rfl⟩) hG hb he hmem ho hn).2
    · exact (drop_leaf_entry (hL.leaves_of hb he hl) rfl hb hv hmem ho hn).2
    · exact (drop_leaf_entry (hG.leaves_of hb he hg) rfl hb hv hmem ho hn).2

/-- C10 at the first model of the sample heap: with count 1 in `sample_heap`,
with count 2 in `shared_heap`. -/
theorem C10_ref_unref_results_witness :
    T_unref Kind.model sample_heap NULL = some (sample_heap, NULL) ∧
    (∃ h1, T_ref Kind.model sample_heap (some 1) = some (h1, some 1)) ∧
    (∃ h1, T_unref Kind.model shared_heap (some 1) = some (h1, NULL) ∧
      h1.objs 1 ≠ none) ∧
    (∃ h1, T_unref Kind.model sample_heap (some 1) = some (h1, NULL) ∧
      h1.objs 1 = none) :=
  ⟨(C10_ref_unref_results Kind.model sample_heap).1,
   (C10_ref_unref_results Kind.model sample_heap).2.1 1 _ rfl rfl (by decide),
   (C10_ref_unref_results Kind.model shared_heap).2.2.1 1 _ rfl rfl (by decide),
   (C10_ref_unref_results Kind.model sample_heap).2.2.2 0 _ _ _ 1 _ sample_heap_registry
     (Or.inr (Or.inl ⟨[1, 2, 3], rfl, by decide⟩)) rfl rfl rfl⟩

theorem option_view_getters {h : Heap} {o : Nat} {ci : config_item}
    (hv : option_view h o = some ci) :
    rxkb_option_get_name h o = some ci.name ∧
    rxkb_option_get_description h o = some ci.description ∧
    rxkb_option_get_brief h o = some ci.brief_or_vendor := by
  simp only [option_view, rxkb_option_get_name, rxkb_option_get_description,
    rxkb_option_get_brief] at hv ⊢
  cases hobj : h.objs o with
  | none => simp [hobj] at hv
  | some ob =>
    rw [hobj] at hv
    cases ob <;> simp at hv ⊢
    rw [← hv]
    exact ⟨rfl, rfl, rfl⟩

theorem filterMap_option_item (nodes : List xmlNode) :
    nodes.filterMap option_item =
      (nodes.filter has_config_item).map (fun e =>
        { name := (config_item_of e).name, description := (config_item_of e).description,
          brief_or_vendor := none }) := by
  induction nodes with
  | nil => rfl
  | cons n ns ih =>
    by_cases hn : has_config_item n = true
    · simp [List.filterMap_cons, option_item, parse_config_item_eq, hn, ih]
    · simp [List.filterMap_cons, option_item, parse_config_item_eq, hn, ih]

/-- C11, what the code does: for every `group` element with a `configItem`,
parsed into a context with well-formed collections, the options of the created
group are those of the `option` children with a `configItem`, with the name and
the description of the element, and `rxkb_option_get_brief` returns `NULL` for
each of them, whatever `shortDescription` the element has. -/
theorem C11_option_brief_is_dropped (h : Heap) (ctx : Nat) (group : xmlNode)
    (ms : List config_item) (ls : List layout_data) (gs : List group_data)
    (hr : Registry h ctx ms ls gs) (hc : has_config_item group = true) :
    ∃ h2 ids g os, parse_group h ctx group = some h2 ∧
      entries Kind.option_group Field.option_groups h2 ctx = some (ids ++ [g]) ∧
      entries Kind.option Field.options h2 g = some os ∧
      read_all rxkb_option_get_name h2 os =
        some ((option_elements group).map (fun e => (config_item_of e).name)) ∧
      read_all rxkb_option_get_description h2 os =
        some ((option_elements group).map (fun e => (config_item_of e).description)) ∧
      ∀ o ∈ os, rxkb_option_get_brief h2 o = some none := by
  obtain ⟨hb, _, _, ⟨ids, hl, _⟩, _⟩ := hr
  have hci : parse_config_item group = some (config_item_of group) := by
    rw [parse_config_item_eq, hc]; rfl
  obtain ⟨h2, e1, e2, e3, _, _, os, ho, hf⟩ := parse_group_some hci hb hl
  rw [filterMap_option_item] at hf
  refine ⟨h2, ids, h.brk, os, e1, entries_spec e2 e3.bounded, entries_spec ho e3.bounded,
    ?_, ?_, ?_⟩
  · have := @read_all_map _ _ OptionAt rxkb_option_get_name
      (fun ci => ci.name) h2 os _
      (fun o x hx => (option_view_getters hx.1).1) hf
    simpa [option_elements, List.map_map, Function.comp_def] using this
  · have := @read_all_map _ _ OptionAt rxkb_option_get_description
      (fun ci => ci.description) h2 os _
      (fun o x hx => (option_view_getters hx.1).2.1) hf
    simpa [option_elements, List.map_map, Function.comp_def] using this
  · intro o hmem
    obtain ⟨x, hx, hat⟩ := forall₂_mem_left hf hmem
    have hb2 := (option_view_getters hat.1).2.2
    obtain ⟨e, _, rfl⟩ := List.mem_map.1 hx
    exact hb2

/-- C11 at the failing input: a group whose option has the `shortDescription`
"tg", parsed into a fresh context. -/
theorem C11_option_brief_is_dropped_witness :
    Registry fresh_context.1 0 [] [] [] ∧ has_config_item brief_group = true ∧
    (option_elements brief_group).map (fun e => (config_item_of e).brief_or_vendor) =
      [some "tg"] ∧
    ∃ h2 ids g os, parse_group fresh_context.1 0 brief_group = some h2 ∧
      entries Kind.option_group Field.option_groups h2 0 = some (ids ++ [g]) ∧
      entries Kind.option Field.options h2 g = some os ∧
      read_all rxkb_option_get_name h2 os =
        some ((option_elements brief_group).map (fun e => (config_item_of e).name)) ∧
      read_all rxkb_option_get_description h2 os =
        some ((option_elements brief_group).map
          (fun e => (config_item_of e).description)) ∧
      ∀ o ∈ os, rxkb_option_get_brief h2 o = some none :=
  ⟨fresh_context_registry, rfl, rfl,
   C11_option_brief_is_dropped fresh_context.1 0 brief_group [] [] []
     fresh_context_registry rfl⟩

theorem extract_text_loop_eq (cs : List xmlNode) :
    extract_text_loop cs =
      (cs.find? (fun t => decide (t.type = xmlElementType.XML_TEXT_NODE))).bind
        xmlNode.content := by
  induction cs with
  | nil => rfl
  | cons c cs ih =>
    by_cases hc : c.type = xmlElementType.XML_TEXT_NODE
    · simp [extract_text_loop, hc, List.find?_cons]
    · simp [extract_text_loop, hc, List.find?_cons, ih]

theorem extract_text_eq (n : xmlNode) :
    extract_text n = (first_text n).bind xmlNode.content :=
  extract_text_loop_eq n.children

theorem config_item_eq {a b : config_item} (h1 : a.name = b.name)
    (h2 : a.description = b.description) (h3 : a.brief_or_vendor = b.brief_or_vendor) :
    a = b := by
  cases a; cases b; simp_all

/-- The strings `parse_config_item` hands out are those of the last child of
each name. -/
theorem config_item_of_eq (e : xmlNode) : config_item_of e = strings_of e := by
  cases hf : first_config_item e with
  | none =>
    have hf2 : e.children.find? (fun c => is_node c "configItem") = none := hf
    simp [config_item_of, strings_of, hf, hf2]
  | some cfg =>
    rw [(config_item_of_first hf).2]
    simp only [strings_of, hf]
    apply config_item_eq
    · rw [fields_name]
      simp only [field_text, last_child]
      cases (cfg.children.filter (fun c => is_node c "name")).getLast? with
      | none => rfl
      | some n => exact extract_text_eq n
    · rw [fields_description]
      simp only [field_text, last_child]
      cases (cfg.children.filter (fun c => is_node c "description")).getLast? with
      | none => rfl
      | some n => exact extract_text_eq n
    · rw [fields_brief_or_vendor]
      simp only [field_text, last_child]
      cases (cfg.children.filter is_brief_or_vendor).getLast? with
      | none => rfl
      | some n => exact extract_text_eq n

theorem layout_variants_eq (e : xmlNode) :
    layout_variants e = (variant_elements e).map strings_of := by
  simp only [layout_variants, variant_elements]
  cases e.children.find? (fun n => is_node n "variantList") with
  | none => rfl
  | some vl =>
    simp only [variant_list_items, filterMap_parse_config_item]
    exact List.map_congr_left (fun x _ => config_item_of_eq x)

theorem filterMap_layout_data (nodes : List xmlNode) :
    nodes.filterMap layout_item = (nodes.filter has_config_item).map layout_data_of := by
  induction nodes with
  | nil => rfl
  | cons n ns ih =>
    by_cases hn : has_config_item n = true
    · simp [List.filterMap_cons, layout_item, parse_config_item_eq, hn,
        List.filter_cons, ih, layout_data_of, layout_variants_eq, config_item_of_eq]
    · simp [List.filterMap_cons, layout_item, parse_config_item_eq, hn,
        List.filter_cons, ih]

/-- The layouts of a document with their variants, one per `layout` element
with a `configItem`. -/
theorem document_layouts_eq (root : xmlNode) :
    document_layouts root =
      (entity_elements root "layoutList" "layout").map layout_data_of := by
  unfold document_layouts entity_elements layout_list_items
  rw [filter_flatMap, map_flatMap]
  congr 1
  funext l
  exact filterMap_layout_data _

/-- The models of a document, by the last child of each name. -/
theorem document_models_strings (root : xmlNode) :
    document_models root =
      (entity_elements root "modelList" "model").map strings_of := by
  rw [document_models_eq]
  exact List.map_congr_left (fun x _ => config_item_of_eq x)

theorem LayoutAt.layout_view_eq {h : Heap} {l : Nat} {d : layout_data}
    (hx : LayoutAt h l d) (hb : h.bounded) : layout_view h l = some d := by
  have hv := hx.2.2.view hb (fun _ _ hy => hy.1)
  have hv2 : collection_view variant_view Kind.variant Field.variants h l =
      some d.variants := hv
  simp [layout_view, hx.1, hv2]

/-- C12, counterexample: the document whose only model has a `configItem` with
a `name` child of empty content.  The `name` sub-element is present, and the
model that parsing leaves in a fresh context has the name `NULL`. -/
theorem C12_empty_name_reads_null :
    (first_config_item empty_name_model).map
      (fun cfg => cfg.children.map (fun c => is_node c "name")) = some [true, false] ∧
    (parse_rules_xml fresh_context.1 fresh_context.2 empty_name_document).bind (fun h =>
      (entries Kind.model Field.models h fresh_context.2).map fun ids =>
        ids.map (rxkb_model_get_name h)) = some [some none] := by
  exact ⟨rfl, rfl⟩

/-- C12, amended: after a document is parsed into a fresh context, the string
getters of every model, layout and variant return, for the element the entity
was made from, the strings `strings_of`: per field (`name`; `description`;
`shortDescription` or `vendor`) the content of the first text node of the last
such child of the first `configItem`.  A getter therefore returns `NULL`
exactly when the `configItem` has no child for the field, or the last such
child has no text node (as a child with empty content), or that text node has
no content. -/
theorem C12_getters_null_iff_no_text (w : World) (h h0 : Heap)
    (flags ctx : Nat) (path : String) (root : xmlNode) (hb : h.bounded)
    (hnew : rxkb_context_new w h flags = some (h0, some ctx))
    (hfile : w.xmlReadFile path = some root) :
    ∃ h1, parse w h0 ctx path = some (h1, true) ∧
      models_view h1 ctx =
        some ((entity_elements root "modelList" "model").map strings_of) ∧
      layouts_view h1 ctx =
        some ((entity_elements root "layoutList" "layout").map layout_data_of) ∧
      ∀ p cfg, field_text p cfg = none ↔
        (last_child p cfg = none ∨
         ∃ n, last_child p cfg = some n ∧
           (first_text n = none ∨ ∃ t, first_text n = some t ∧ t.content = none)) := by
  obtain ⟨_, hr⟩ := rxkb_context_new_spec hb hnew
  obtain ⟨h1, e1, ⟨hb1, hm, hl, _, _⟩, _⟩ := parse_rules_xml_spec root hr
  refine ⟨h1, by simp [parse, hfile, e1], ?_, ?_, ?_⟩
  · have := hm.view hb1 (fun _ _ hx => hx.1)
    rw [List.nil_append, document_models_strings] at this
    exact this
  · have := hl.view hb1 (fun _ _ hx => hx.layout_view_eq hb1)
    rw [List.nil_append, document_layouts_eq] at this
    exact this
  · intro p cfg
    simp only [field_text]
    cases hl : last_child p cfg with
    | none => simp
    | some n =>
      cases ht : first_text n with
      | none => simp [ht]
      | some t => simp [ht]

/-- C12 (amended) at the sample document. -/
theorem C12_getters_null_iff_no_text_witness :
    Heap.empty.bounded ∧
    rxkb_context_new sample_world Heap.empty RXKB_CONTEXT_NO_DEFAULT_INCLUDES =
      some (fresh_context.1, some fresh_context.2) ∧
    sample_world.xmlReadFile "/s/rules/evdev.xml" = some sample_document ∧
    ∃ h1, parse sample_world fresh_context.1 fresh_context.2 "/s/rules/evdev.xml" =
        some (h1, true) ∧
      models_view h1 fresh_context.2 =
        some ((entity_elements sample_document "modelList" "model").map strings_of) ∧
      layouts_view h1 fresh_context.2 =
        some ((entity_elements sample_document "layoutList" "layout").map
          layout_data_of) ∧
      ∀ p cfg, field_text p cfg = none ↔
        (last_child p cfg = none ∨
         ∃ n, last_child p cfg = some n ∧
           (first_text n = none ∨ ∃ t, first_text n = some t ∧ t.content = none)) :=
  ⟨Heap.empty_bounded, rfl, rfl,
   C12_getters_null_iff_no_text sample_world Heap.empty fresh_context.1
     RXKB_CONTEXT_NO_DEFAULT_INCLUDES fresh_context.2 "/s/rules/evdev.xml"
     sample_document Heap.empty_bounded rfl rfl⟩

theorem length_flatten_replicate {α : Type} (n : Nat) (l : List α) :
    (List.replicate n l).flatten.length = n * l.length := by
  induction n with
  | zero => simp
  | succ k ih =>
    rw [List.replicate_succ, List.flatten_cons, List.length_append, ih, Nat.succ_mul,
      Nat.add_comm]

theorem long_dir_length : long_dir.data.length = 4086 := by
  show (List.replicate 18 ('/' :: List.replicate 226 'd')).flatten.length = 4086
  rw [length_flatten_replicate, List.length_cons, List.length_replicate]

theorem rules_path_long :
    rules_path long_world long_dir "evdev" = long_dir ++ "/rules/ev" := by
  have h1 : (long_dir ++ "/rules/" ++ "evdev" ++ ".xml").data =
      (long_dir.data ++ "/rules/ev".data) ++ "dev.xml".data := by
    rw [String.data_append, String.data_append, String.data_append, List.append_assoc,
      List.append_assoc, List.append_assoc]
    rfl
  have h2 : (long_dir ++ "/rules/ev").data = long_dir.data ++ "/rules/ev".data :=
    String.data_append _ _
  have h3 : (long_dir.data ++ "/rules/ev".data).length = 4095 := by
    rw [List.length_append, long_dir_length]
    rfl
  apply String.ext
  rw [h2]
  show List.take (4096 - 1) (long_dir ++ "/rules/" ++ "evdev" ++ ".xml").data = _
  rw [h1, List.take_append_eq_append_take, h3, List.take_of_length_le (le_of_eq h3)]
  exact List.append_nil _

/-- A usable directory is appended to the include paths. -/
theorem include_path_append_usable {w : World} {h : Heap} {ctx : Nat} {c : rxkb_context}
    {path : String} (hc : h.objs ctx = some (Obj.context c))
    (hs : w.stat path = some true)
    (ha : w.HAVE_ACCESS_CHECK = true → w.eaccess path = true) :
    rxkb_context_include_path_append w h ctx path =
      some (h.set_obj ctx (some (Obj.context
        { c with includes := c.includes ++ [path] })), true) := by
  unfold rxkb_context_include_path_append
  rw [hs]
  have hcheck : (w.HAVE_ACCESS_CHECK && !w.eaccess path) = false := by
    cases hh : w.HAVE_ACCESS_CHECK with
    | false => rfl
    | true => simp [ha hh]
  simp [hcheck, Heap.store_context, hc]

/-- A path that fails one of the tests is rejected, and nothing is stored. -/
theorem include_path_append_rejected {w : World} {h : Heap} {ctx : Nat} {path : String}
    (hs : w.stat path = none ∨ w.stat path = some false ∨
      (w.HAVE_ACCESS_CHECK = true ∧ w.eaccess path = false)) :
    rxkb_context_include_path_append w h ctx path = some (h, false) := by
  unfold rxkb_context_include_path_append
  rcases hs with hs | hs | ⟨h1, h2⟩
  · rw [hs]
  · rw [hs]
    rfl
  · cases hst : w.stat path with
    | none => rfl
    | some isdir =>
      cases isdir with
      | false => rfl
      | true => simp [h1, h2]

/-- C15, counterexample: in a build without `HAVE_EACCESS` and
`HAVE_EUIDACCESS` the directory `/locked`, which lacks read and execute
permission, is accepted: the call returns true and the path is in the include
list. -/
theorem C15_unchecked_build_accepts :
    unchecked_world.stat "/locked" = some true ∧
    unchecked_world.eaccess "/locked" = false ∧
    includes_of fresh_context.1 0 = some [] ∧
    (rxkb_context_include_path_append unchecked_world fresh_context.1 0 "/locked").map
      (fun r => (r.2, includes_of r.1 0)) = some (true, some ["/locked"]) := by
  exact ⟨rfl, rfl, rfl, rfl⟩

/-- C15, amended: `rxkb_context_include_path_append` returns false and stores
nothing for every path for which `stat` fails, which is not a directory, or
which, in a build with `HAVE_EACCESS` or `HAVE_EUIDACCESS`, fails the
read-and-execute access test.  For every other path, a directory that passes
the access test if the build has one, it returns true and the include list is
the old list followed by that path, whether or not the path is in the old
list; nothing else in the heap changes. -/
theorem C15_include_path_append (w : World) (h : Heap) (ctx : Nat) (c : rxkb_context)
    (path : String) (hc : h.objs ctx = some (Obj.context c)) :
    (w.stat path = none ∨ w.stat path = some false ∨
        (w.HAVE_ACCESS_CHECK = true ∧ w.eaccess path = false) →
      rxkb_context_include_path_append w h ctx path = some (h, false)) ∧
    (w.stat path = some true → (w.HAVE_ACCESS_CHECK = true → w.eaccess path = true) →
      ∃ h1, rxkb_context_include_path_append w h ctx path = some (h1, true) ∧
        includes_of h1 ctx = some (c.includes ++ [path]) ∧
        h1 = h.set_obj ctx (some (Obj.context
          { c with includes := c.includes ++ [path] }))) := by
  refine ⟨include_path_append_rejected, fun hs ha => ⟨_, include_path_append_usable hc hs ha,
    ?_, rfl⟩⟩
  simp [includes_of, Heap.set_obj]

/-- C15 (amended) at a context whose include list is `["/d"]`: `/nowhere` is
rejected, `/d` is appended a second time. -/
theorem C15_include_path_append_witness :
    includes_of included_heap 0 = some ["/d"] ∧
    rxkb_context_include_path_append pc104_world included_heap 0 "/nowhere" =
      some (included_heap, false) ∧
    ∃ h1, rxkb_context_include_path_append pc104_world included_heap 0 "/d" =
        some (h1, true) ∧
      includes_of h1 0 = some (["/d"] ++ ["/d"]) ∧
      h1 = included_heap.set_obj 0 (some (Obj.context
        { base := Kind.context.init_base NULL, includes := ["/d"] ++ ["/d"],
          userdata := 0 })) :=
  ⟨rfl,
   (C15_include_path_append pc104_world included_heap 0
     { base := Kind.context.init_base NULL, includes := ["/d"], userdata := 0 }
     "/nowhere" rfl).1 (Or.inl rfl),
   (C15_include_path_append pc104_world included_heap 0
     { base := Kind.context.init_base NULL, includes := ["/d"], userdata := 0 }
     "/d" rfl).2 rfl (fun _ => rfl)⟩

/-- A name that fits the buffer is not cut. -/
theorem rules_path_fits (w : World) (path ruleset : String)
    (hfit : (path ++ "/rules/" ++ ruleset ++ ".xml").length < w.PATH_MAX) :
    rules_path w path ruleset = path ++ "/rules/" ++ ruleset ++ ".xml" := by
  unfold rules_path
  apply String.ext
  have hl : (path ++ "/rules/" ++ ruleset ++ ".xml").data.length ≤ w.PATH_MAX - 1 := by
    have : (path ++ "/rules/" ++ ruleset ++ ".xml").data.length < w.PATH_MAX := hfit
    omega
  exact List.take_of_length_le hl

theorem parse_unreadable {w : World} {h : Heap} {ctx : Nat} {path : String}
    (hx : w.xmlReadFile path = none) : parse w h ctx path = some (h, false) := by
  simp [parse, hx]

/-- The loop of `rxkb_context_parse` when no file reads as a document. -/
theorem parse_loop_none (w : World) (ctx : Nat) (ruleset : String) (h : Heap)
    (ds : List String)
    (hnone : ∀ d ∈ ds, w.xmlReadFile (rules_path w d ruleset) = none) :
    rxkb_context_parse_loop w ctx ruleset ds h false = some (h, false) := by
  induction ds with
  | nil => rfl
  | cons d ds ih =>
    simp only [rxkb_context_parse_loop, parse_unreadable (hnone d (by simp)),
      Option.some_bind, Bool.false_eq_true, if_false]
    exact ih (fun x hx => hnone x (List.mem_cons_of_mem _ hx))

/-- The loop of `rxkb_context_parse` up to the first file that reads as a
document: that document is walked and the loop is left. -/
theorem parse_loop_first (w : World) (ctx : Nat) (ruleset : String) (h : Heap)
    (pre : List String) (d : String) (post : List String) (root : xmlNode)
    (hpre : ∀ p ∈ pre, w.xmlReadFile (rules_path w p ruleset) = none)
    (hd : w.xmlReadFile (rules_path w d ruleset) = some root) (b : Bool) :
    rxkb_context_parse_loop w ctx ruleset (pre ++ d :: post) h b =
      (parse_rules_xml h ctx root).map (fun h1 => (h1, true)) := by
  induction pre generalizing b with
  | nil =>
    simp only [List.nil_append, rxkb_context_parse_loop, parse, hd]
    cases parse_rules_xml h ctx root with
    | none => rfl
    | some h1 => simp
  | cons p pre ih =>
    simp only [List.cons_append, rxkb_context_parse_loop,
      parse_unreadable (hpre p (by simp)), Option.some_bind, Bool.false_eq_true, if_false]
    exact ih (fun x hx => hpre x (List.mem_cons_of_mem _ hx)) false

theorem rxkb_context_parse_eq {w : World} {h : Heap} {ctx : Nat} {c : rxkb_context}
    (ruleset : String) (hc : h.objs ctx = some (Obj.context c)) :
    rxkb_context_parse w h ctx ruleset =
      rxkb_context_parse_loop w ctx ruleset c.includes h false := by
  simp only [rxkb_context_parse, hc]

theorem long_stat : long_world.stat long_dir = some true := by
  simp only [long_world, if_true]

theorem long_append :
    rxkb_context_include_path_append long_world fresh_context.1 0 long_dir =
      some (fresh_context.1.set_obj 0 (some (Obj.context
        { base := Kind.context.init_base NULL, includes := [long_dir], userdata := 0 })),
        true) := by
  have ho : fresh_context.1.objs 0 = some (Obj.context
      { base := Kind.context.init_base NULL, includes := [], userdata := 0 }) := rfl
  rw [include_path_append_usable ho long_stat (fun _ => rfl)]
  rfl

theorem long_heap_eq :
    long_heap = fresh_context.1.set_obj 0 (some (Obj.context
      { base := Kind.context.init_base NULL, includes := [long_dir], userdata := 0 })) := by
  unfold long_heap
  rw [long_append]

theorem long_file_missing :
    long_world.xmlReadFile (long_dir ++ "/rules/evdev.xml") = none := by
  have hne : long_dir ++ "/rules/evdev.xml" ≠ long_dir ++ "/rules/ev" := by
    intro he
    have hd := congrArg String.data he
    rw [String.data_append, String.data_append] at hd
    have := List.append_cancel_left hd
    exact absurd this (by decide)
  simp only [long_world, hne, if_false]

/-- C13, counterexample: `PATH_MAX` is 4096 and the only include directory is
the usable directory `long_dir` of 4086 characters.  The file
`long_dir/rules/evdev.xml` does not read as a document, yet
`rxkb_context_parse` returns true and the context holds the model `pc104`: the
name built in the buffer is cut after 4095 characters, and the file of that
name, `long_dir/rules/ev`, is a document. -/
theorem C13_long_path_is_cut :
    long_world.PATH_MAX = 4096 ∧ long_dir.length = 4086 ∧
    (rxkb_context_include_path_append long_world fresh_context.1 0 long_dir).map
      Prod.snd = some true ∧
    includes_of long_heap 0 = some [long_dir] ∧
    long_world.xmlReadFile (long_dir ++ "/rules/evdev.xml") = none ∧
    (rxkb_context_parse long_world long_heap 0 "evdev").bind
      (fun r => (models_view r.1 0).map (fun ms => (r.2, ms))) =
      some (true, [{ name := some "pc104", description := some "Generic 104-key PC",
                     brief_or_vendor := none }]) := by
  refine ⟨rfl, long_dir_length, ?_, ?_, long_file_missing, ?_⟩
  · rw [long_append]
    rfl
  · rw [long_heap_eq]
    rfl
  · have hx : long_world.xmlReadFile (rules_path long_world long_dir "evdev") =
        some pc104_document := by
      rw [rules_path_long]
      simp only [long_world, if_true]
    have hl := parse_loop_first long_world 0 "evdev"
      (fresh_context.1.set_obj 0 (some (Obj.context
        { base := Kind.context.init_base NULL, includes := [long_dir], userdata := 0 })))
      [] long_dir [] pc104_document (fun _ hp => absurd hp (List.not_mem_nil _)) hx false
    have hc : (fresh_context.1.set_obj 0 (some (Obj.context
        { base := Kind.context.init_base NULL, includes := [long_dir],
          userdata := 0 }))).objs 0 = some (Obj.context
        { base := Kind.context.init_base NULL, includes := [long_dir], userdata := 0 }) := by
      simp only [Heap.set_obj, if_true]
    rw [long_heap_eq, rxkb_context_parse_eq "evdev" hc]
    simp only [List.nil_append] at hl
    rw [hl]
    rfl

theorem GroupAt.group_view_eq {h : Heap} {g : Nat} {d : group_data}
    (hx : GroupAt h g d) (hb : h.bounded) : group_view h g = some d := by
  have hv := hx.2.2.view hb (fun _ _ hy => hy.1)
  have hv2 : collection_view option_view Kind.option Field.options h g =
      some d.options := hv
  simp [group_view, hx.1, hv2]

theorem filterMap_group_data (nodes : List xmlNode) :
    nodes.filterMap group_data_of = (nodes.filter has_config_item).map group_of := by
  induction nodes with
  | nil => rfl
  | cons n ns ih =>
    by_cases hn : has_config_item n = true
    · simp [List.filterMap_cons, group_data_of, parse_config_item_eq, hn,
        List.filter_cons, ih, group_of, option_elements, filterMap_option_item,
        option_strings_of, config_item_of_eq]
    · simp [List.filterMap_cons, group_data_of, parse_config_item_eq, hn,
        List.filter_cons, ih]

/-- The option groups of a document with their options, one per `group`
element with a `configItem`. -/
theorem document_groups_eq (root : xmlNode) :
    document_groups root = (entity_elements root "optionList" "group").map group_of := by
  unfold document_groups entity_elements option_list_items
  rw [filter_flatMap, map_flatMap]
  congr 1
  funext l
  exact filterMap_group_data _

/-- What a caller reads from a registry. -/
theorem Registry.views {h : Heap} {ctx : Nat} {ms : List config_item}
    {ls : List layout_data} {gs : List group_data} (hr : Registry h ctx ms ls gs) :
    models_view h ctx = some ms ∧ layouts_view h ctx = some ls ∧
    groups_view h ctx = some gs := by
  obtain ⟨hb, hm, hl, hg, _⟩ := hr
  exact ⟨hm.view hb (fun _ _ hx => hx.1), hl.view hb (fun _ _ hx => hx.layout_view_eq hb),
    hg.view hb (fun _ _ hx => hx.group_view_eq hb)⟩

theorem three_dirs_registry : Registry three_dirs_heap 0 [] [] [] := by
  have e : (rxkb_context_include_path_append three_dirs_world fresh_context.1 0 "/a").bind
      (fun r1 =>
        (rxkb_context_include_path_append three_dirs_world r1.1 0 "/d").bind fun r2 =>
          rxkb_context_include_path_append three_dirs_world r2.1 0 "/s") =
      some (three_dirs_heap, true) := rfl
  obtain ⟨⟨h1, b1⟩, e1, e'⟩ := Option.bind_eq_some.1 e
  obtain ⟨⟨h2, b2⟩, e2, e3⟩ := Option.bind_eq_some.1 e'
  exact include_path_append_registry (include_path_append_registry
    (include_path_append_registry fresh_context_registry e1) e2) e3

/-- C13, amended: let the collections of a context read as `ms`, `ls`, `gs`.
If for every include path `p` the name `p/rules/r.xml` is shorter than
`PATH_MAX` and the file does not read as a document, `rxkb_context_parse`
returns false and the heap is unchanged.  If `d` is the first include path
whose file reads as a document `root`, and the names built from `d` and from
the paths before it are shorter than `PATH_MAX`, the call returns true and has
walked `root` and nothing else: the collections read as `ms`, `ls`, `gs`
followed by the entities of `root` in document order (none, if `root` has
none), whatever the later paths and their files are, and the include paths are
unchanged. -/
theorem C13_first_readable_directory (w : World) (h : Heap) (ctx : Nat)
    (c : rxkb_context) (ruleset : String) (ms : List config_item)
    (ls : List layout_data) (gs : List group_data)
    (hr : Registry h ctx ms ls gs) (hc : h.objs ctx = some (Obj.context c)) :
    ((∀ p ∈ c.includes, (p ++ "/rules/" ++ ruleset ++ ".xml").length < w.PATH_MAX ∧
        w.xmlReadFile (p ++ "/rules/" ++ ruleset ++ ".xml") = none) →
      rxkb_context_parse w h ctx ruleset = some (h, false)) ∧
    (∀ pre d post root, c.includes = pre ++ d :: post →
      (∀ p ∈ pre, (p ++ "/rules/" ++ ruleset ++ ".xml").length < w.PATH_MAX ∧
        w.xmlReadFile (p ++ "/rules/" ++ ruleset ++ ".xml") = none) →
      (d ++ "/rules/" ++ ruleset ++ ".xml").length < w.PATH_MAX →
      w.xmlReadFile (d ++ "/rules/" ++ ruleset ++ ".xml") = some root →
      ∃ h1, rxkb_context_parse w h ctx ruleset = some (h1, true) ∧
        parse_rules_xml h ctx root = some h1 ∧
        models_view h1 ctx =
          some (ms ++ (entity_elements root "modelList" "model").map strings_of) ∧
        layouts_view h1 ctx =
          some (ls ++ (entity_elements root "layoutList" "layout").map layout_data_of) ∧
        groups_view h1 ctx =
          some (gs ++ (entity_elements root "optionList" "group").map group_of) ∧
        includes_of h1 ctx = some c.includes) := by
  refine ⟨fun hnone => ?_, fun pre d post root hinc hpre hfit hd => ?_⟩
  · rw [rxkb_context_parse_eq ruleset hc]
    exact parse_loop_none w ctx ruleset h c.includes
      (fun p hp => by
        rw [rules_path_fits w p ruleset (hnone p hp).1]
        exact (hnone p hp).2)
  · obtain ⟨h1, e1, hr1, hext⟩ := parse_rules_xml_spec root hr
    have hlt : ctx < h.brk := hr.2.2.2.2.1.sound_lt hr.1
    obtain ⟨v1, v2, v3⟩ := hr1.views
    rw [document_models_strings] at v1
    rw [document_layouts_eq] at v2
    rw [document_groups_eq] at v3
    refine ⟨h1, ?_, e1, v1, v2, v3, ?_⟩
    · rw [rxkb_context_parse_eq ruleset hc, hinc,
        parse_loop_first w ctx ruleset h pre d post root
          (fun p hp => by
            rw [rules_path_fits w p ruleset (hpre p hp).1]
            exact (hpre p hp).2)
          (by rw [rules_path_fits w d ruleset hfit]; exact hd) false, e1]
      rfl
    · simp only [includes_of, hext.objs_eq ctx hlt, hc]

/-- C13 (amended) at the include paths `/a`, `/d`, `/s`: `/a` has no rules
file, `/d` has the `pc104` document, and the sample document of `/s` is not
read. -/
theorem C13_first_readable_directory_witness :
    Registry three_dirs_heap 0 [] [] [] ∧
    includes_of three_dirs_heap 0 = some (["/a"] ++ "/d" :: ["/s"]) ∧
    three_dirs_world.xmlReadFile ("/s" ++ "/rules/" ++ "evdev" ++ ".xml") =
      some sample_document ∧
    ∃ h1, rxkb_context_parse three_dirs_world three_dirs_heap 0 "evdev" =
        some (h1, true) ∧
      parse_rules_xml three_dirs_heap 0 pc104_document = some h1 ∧
      models_view h1 0 =
        some ([] ++ (entity_elements pc104_document "modelList" "model").map
          strings_of) ∧
      layouts_view h1 0 =
        some ([] ++ (entity_elements pc104_document "layoutList" "layout").map
          layout_data_of) ∧
      groups_view h1 0 =
        some ([] ++ (entity_elements pc104_document "optionList" "group").map
          group_of) ∧
      includes_of h1 0 = some ["/a", "/d", "/s"] :=
  ⟨three_dirs_registry, rfl, rfl,
   (C13_first_readable_directory three_dirs_world three_dirs_heap 0
     { base := Kind.context.init_base NULL, includes := ["/a", "/d", "/s"],
       userdata := 0 }
     "evdev" [] [] [] three_dirs_registry rfl).2
     ["/a"] "/d" ["/s"] pc104_document rfl
     (fun p hp => by rw [List.mem_singleton.1 hp]; exact ⟨by decide, rfl⟩)
     (by decide) rfl⟩

/-- C14: if for no include path of the context the file that
`rxkb_context_parse` builds from it reads as a document (as when the include
list is empty), the call returns false and the heap after it is the heap before
it: the three collections, the include paths and everything else are
unchanged. -/
theorem C14_no_parseable_file (w : World) (h : Heap) (ctx : Nat) (c : rxkb_context)
    (ruleset : String) (hc : h.objs ctx = some (Obj.context c))
    (hnone : ∀ d ∈ c.includes, w.xmlReadFile (rules_path w d ruleset) = none) :
    rxkb_context_parse w h ctx ruleset = some (h, false) := by
  rw [rxkb_context_parse_eq ruleset hc]
  exact parse_loop_none w ctx ruleset h c.includes hnone

/-- C14 at the include paths `/a`, `/d`, `/s`, none of which has a file
`rules/base.xml`, and at a fresh context with an empty include list. -/
theorem C14_no_parseable_file_witness :
    includes_of three_dirs_heap 0 = some ["/a", "/d", "/s"] ∧
    rxkb_context_parse three_dirs_world three_dirs_heap 0 "base" =
      some (three_dirs_heap, false) ∧
    includes_of fresh_context.1 0 = some [] ∧
    rxkb_context_parse pc104_world fresh_context.1 0 "evdev" =
      some (fresh_context.1, false) :=
  ⟨rfl,
   C14_no_parseable_file three_dirs_world three_dirs_heap 0
     { base := Kind.context.init_base NULL, includes := ["/a", "/d", "/s"],
       userdata := 0 }
     "base" rfl
     (fun d hd => by
       simp only [List.mem_cons, List.mem_singleton, List.not_mem_nil, or_false] at hd
       rcases hd with rfl | rfl | rfl <;> rfl),
   rfl,
   C14_no_parseable_file pc104_world fresh_context.1 0
     { base := Kind.context.init_base NULL, includes := [], userdata := 0 }
     "evdev" rfl (fun d hd => absurd hd (List.not_mem_nil d))⟩

/-- The function `rxkb_context_include_path_append` by its test. -/
theorem include_path_append_eq (w : World) (h : Heap) (ctx : Nat) (path : String) :
    rxkb_context_include_path_append w h ctx path =
      if usable w path then
        (h.store_context ctx (fun c =>
          { c with includes := c.includes ++ [path] })).map (fun h1 => (h1, true))
      else some (h, false) := by
  unfold rxkb_context_include_path_append usable
  cases w.stat path with
  | none => rfl
  | some isdir =>
    cases isdir with
    | false => rfl
    | true =>
      cases w.HAVE_ACCESS_CHECK <;> cases w.eaccess path <;> rfl

theorem includes_added_step {w : World} {h h1 : Heap} {ctx : Nat} {c : rxkb_context}
    {l : List String} (p : String) (ha : IncludesAdded h h1 ctx c l) :
    ∃ h2, rxkb_context_include_path_append w h1 ctx p = some (h2, usable w p) ∧
      IncludesAdded h h2 ctx c (l ++ [p].filter (usable w)) := by
  obtain ⟨a1, a2, a3, a4⟩ := ha
  rw [include_path_append_eq]
  by_cases hu : usable w p = true
  · refine ⟨h1.set_obj ctx (some (Obj.context
      { c with includes := c.includes ++ l ++ [p] })), ?_, ?_, ?_, a3, a4⟩
    · simp [hu, Heap.store_context, a1]
    · simp [Heap.set_obj, hu, List.append_assoc]
    · intro o ho
      simp [Heap.set_obj, ho, a2 o ho]
  · have hf : usable w p = false := by simpa using hu
    refine ⟨h1, by simp [hf], ?_, a2, a3, a4⟩
    simp [hf, a1]

theorem append_each_spec {w : World} {h : Heap} {ctx : Nat} {c : rxkb_context}
    (ps : List String) :
    ∀ (h1 : Heap) (l : List String) (ret : Bool), IncludesAdded h h1 ctx c l →
      ∃ h2, append_each w ctx ps h1 ret = some (h2, ret || ps.any (usable w)) ∧
        IncludesAdded h h2 ctx c (l ++ ps.filter (usable w)) := by
  induction ps with
  | nil =>
    intro h1 l ret ha
    exact ⟨h1, by simp [append_each], by simpa using ha⟩
  | cons p ps ih =>
    intro h1 l ret ha
    obtain ⟨h2, e1, e2⟩ := includes_added_step (w := w) p ha
    obtain ⟨h3, e3, e4⟩ := ih h2 _ (ret || usable w p) e2
    refine ⟨h3, ?_, ?_⟩
    · simp [append_each, e1, e3, Bool.or_assoc]
    · have : l ++ [p].filter (usable w) ++ ps.filter (usable w) =
          l ++ (p :: ps).filter (usable w) := by
        by_cases hu : usable w p = true <;> simp [List.filter_cons, hu]
      rw [← this]
      exact e4

theorem map_as_bind {α β : Type} (f : α → β) (x : Option α) :
    x.map f = x.bind (fun a => some (f a)) := by
  cases x <;> rfl

/-- The function `rxkb_context_include_path_append_default` tries the default
candidates in their order. -/
theorem include_path_append_default_eq (w : World) (h : Heap) (ctx : Nat) :
    rxkb_context_include_path_append_default w h ctx =
      append_each w ctx (default_candidates w) h false := by
  unfold rxkb_context_include_path_append_default default_candidates
  cases w.secure_getenv "XDG_CONFIG_HOME" <;> cases w.secure_getenv "HOME" <;>
    cases w.secure_getenv "XKB_CONFIG_ROOT" <;>
    simp only [append_each, List.nil_append, List.cons_append, Option.some_bind,
      Bool.false_or, List.singleton_append, map_as_bind, Option.bind_assoc]

/-- C16: for every environment and every outcome of the directory tests,
`rxkb_context_include_path_append_default` appends to the include list the
usable ones of the default candidates, in their order: (1) `$XDG_CONFIG_HOME/xkb`
if `XDG_CONFIG_HOME` is set, else `$HOME/.config/xkb` if `HOME` is set, (2)
`$HOME/.xkb` if `HOME` is set, (3) `$XKB_CONFIG_ROOT` if set, else the
compiled-in root.  It returns true exactly when one of them is usable, and
changes nothing but the include list.  `usable` is the test
`rxkb_context_include_path_append` applies. -/
theorem C16_default_include_paths (w : World) (h : Heap) (ctx : Nat) (c : rxkb_context)
    (hc : h.objs ctx = some (Obj.context c)) :
    (∀ p, (rxkb_context_include_path_append w h ctx p).map Prod.snd =
      some (usable w p)) ∧
    ∃ h1, rxkb_context_include_path_append_default w h ctx =
        some (h1, (default_candidates w).any (usable w)) ∧
      includes_of h1 ctx =
        some (c.includes ++ (default_candidates w).filter (usable w)) ∧
      h1.objs ctx = some (Obj.context
        { c with includes := c.includes ++ (default_candidates w).filter (usable w) }) ∧
      (∀ o, o ≠ ctx → h1.objs o = h.objs o) ∧ h1.links = h.links ∧ h1.brk = h.brk := by
  have h0 : IncludesAdded h h ctx c [] := by
    refine ⟨?_, fun _ _ => rfl, rfl, rfl⟩
    rw [hc, List.append_nil]
  refine ⟨fun p => ?_, ?_⟩
  · obtain ⟨h2, e, _⟩ := includes_added_step (w := w) p h0
    rw [e]
    rfl
  · obtain ⟨h1, e1, a1, a2, a3, a4⟩ :=
      append_each_spec (w := w) (default_candidates w) h [] false h0
    rw [Bool.false_or] at e1
    rw [List.nil_append] at a1
    refine ⟨h1, by rw [include_path_append_default_eq, e1], ?_, a1, a2, a3, a4⟩
    simp only [includes_of, a1]

/-- C16 at a fresh context in a world where only `HOME` is set and
`$HOME/.xkb` does not exist. -/
theorem C16_default_include_paths_witness :
    default_candidates home_world =
      ["/home/u/.config/xkb", "/home/u/.xkb", "/usr/share/X11/xkb"] ∧
    (default_candidates home_world).map (usable home_world) = [true, false, true] ∧
    (∀ p, (rxkb_context_include_path_append home_world fresh_context.1 0 p).map
      Prod.snd = some (usable home_world p)) ∧
    ∃ h1, rxkb_context_include_path_append_default home_world fresh_context.1 0 =
        some (h1, (default_candidates home_world).any (usable home_world)) ∧
      includes_of h1 0 =
        some ([] ++ (default_candidates home_world).filter (usable home_world)) ∧
      h1.objs 0 = some (Obj.context
        { base := Kind.context.init_base NULL,
          includes := [] ++ (default_candidates home_world).filter (usable home_world),
          userdata := 0 }) ∧
      (∀ o, o ≠ 0 → h1.objs o = fresh_context.1.objs o) ∧
      h1.links = fresh_context.1.links ∧ h1.brk = fresh_context.1.brk :=
  ⟨by decide, by decide,
   C16_default_include_paths home_world fresh_context.1 0
     { base := Kind.context.init_base NULL, includes := [], userdata := 0 } rfl⟩

/-- C17: for every context and value `v`, `rxkb_context_set_user_data` stores
`v`: `rxkb_context_get_user_data` then returns `v`.  The heap after the call is
the heap before it with only the member `userdata` of the context changed: the
reference count and the include paths are the same, and the three collections
read as before. -/
theorem C17_user_data_round_trip (h : Heap) (ctx : Nat) (c : rxkb_context) (v : Nat)
    (ms : List config_item) (ls : List layout_data) (gs : List group_data)
    (hc : h.objs ctx = some (Obj.context c)) (hr : Registry h ctx ms ls gs) :
    ∃ h1, rxkb_context_set_user_data h ctx v = some h1 ∧
      rxkb_context_get_user_data h1 ctx = some v ∧
      h1 = h.set_obj ctx (some (Obj.context { c with userdata := v })) ∧
      refcount_of h1 ctx = refcount_of h ctx ∧
      includes_of h1 ctx = includes_of h ctx ∧
      models_view h1 ctx = models_view h ctx ∧
      layouts_view h1 ctx = layouts_view h ctx ∧
      groups_view h1 ctx = groups_view h ctx := by
  have hr1 : Registry (h.set_obj ctx (some (Obj.context { c with userdata := v })))
      ctx ms ls gs := Registry.store_context hr hc rfl
  obtain ⟨v1, v2, v3⟩ := hr.views
  obtain ⟨u1, u2, u3⟩ := hr1.views
  refine ⟨_, by simp [rxkb_context_set_user_data, Heap.store_context, hc], ?_, rfl, ?_, ?_,
    by rw [u1, v1], by rw [u2, v2], by rw [u3, v3]⟩
  · simp [rxkb_context_get_user_data, Heap.set_obj]
  · simp [refcount_of, Heap.set_obj, hc, Obj.base]
  · simp [includes_of, Heap.set_obj, hc]

/-- C17 at the context of the sample heap and the value 42. -/
theorem C17_user_data_round_trip_witness :
    sample_heap.objs 0 = some (Obj.context
      { base := Kind.context.init_base NULL, includes := [], userdata := 0 }) ∧
    ∃ h1, rxkb_context_set_user_data sample_heap 0 42 = some h1 ∧
      rxkb_context_get_user_data h1 0 = some 42 ∧
      h1 = sample_heap.set_obj 0 (some (Obj.context
        { base := Kind.context.init_base NULL, includes := [], userdata := 42 })) ∧
      refcount_of h1 0 = refcount_of sample_heap 0 ∧
      includes_of h1 0 = includes_of sample_heap 0 ∧
      models_view h1 0 = models_view sample_heap 0 ∧
      layouts_view h1 0 = layouts_view sample_heap 0 ∧
      groups_view h1 0 = groups_view sample_heap 0 :=
  ⟨rfl,
   C17_user_data_round_trip sample_heap 0
     { base := Kind.context.init_base NULL, includes := [], userdata := 0 } 42
     (document_models sample_document) (document_layouts sample_document)
     (document_groups sample_document) rfl sample_heap_registry⟩

theorem find_eq_head_filter (p : xmlNode → Bool) (l : List xmlNode) :
    l.find? p = (l.filter p).head? := by
  induction l with
  | nil => rfl
  | cons a l ih =>
    by_cases ha : p a = true
    · simp only [List.find?_cons, List.filter_cons, ha, if_true, List.head?_cons]
    · have hf : p a = false := by simpa using ha
      simp only [List.find?_cons, List.filter_cons, hf, Bool.false_eq_true, if_false, ih]

/-- C18, counterexample: in a `configItem` with the children `name` "first",
`description` "one", `vendor` "v1", `name` "second", `description` "two",
`shortDescription` "v2", config-item extraction returns "second", "two" and
"v2": the later children replace what the first ones gave. -/
theorem C18_later_children_replace :
    first_config_item twice_named = some twice_config_item ∧
    (twice_config_item.children.find? (fun c => is_node c "name")).bind extract_text =
      some "first" ∧
    parse_config_item twice_named =
      some { name := some "second", description := some "two",
             brief_or_vendor := some "v2" } := by
  exact ⟨rfl, rfl, rfl⟩

/-- C18, amended: within the first `configItem` child `cfg` of a container,
config-item extraction returns as name the text of the last child named `name`,
as description the text of the last child named `description`, and as
brief/vendor the text of the last child named `shortDescription` or `vendor`
(`NULL` where there is no such child).  Earlier children of the same name do
not count; the last child is the first one when the `configItem` has at most
one child for the field. -/
theorem C18_last_child_decides (e cfg : xmlNode)
    (hcfg : first_config_item e = some cfg) :
    parse_config_item e =
      some { name := field_text (fun c => is_node c "name") cfg,
             description := field_text (fun c => is_node c "description") cfg,
             brief_or_vendor := field_text is_brief_or_vendor cfg } ∧
    (∀ p : xmlNode → Bool, field_text p cfg =
      ((cfg.children.filter p).getLast?).bind extract_text) ∧
    (∀ p : xmlNode → Bool, (cfg.children.filter p).length ≤ 1 →
      last_child p cfg = cfg.children.find? p) := by
  refine ⟨?_, fun p => ?_, fun p hp => ?_⟩
  · rw [parse_config_item_eq, (config_item_of_first hcfg).1, if_pos rfl, config_item_of_eq]
    simp only [strings_of, hcfg]
  · simp only [field_text, last_child]
    cases (cfg.children.filter p).getLast? with
    | none => rfl
    | some n => exact (extract_text_eq n).symm
  · rw [find_eq_head_filter, last_child]
    cases hf : cfg.children.filter p with
    | nil => rfl
    | cons a l =>
      cases l with
      | nil => rfl
      | cons b l =>
        rw [hf] at hp
        simp at hp

/-- C18 (amended) at the `model` element with two children for every field. -/
theorem C18_last_child_decides_witness :
    first_config_item twice_named = some twice_config_item ∧
    (parse_config_item twice_named =
      some { name := field_text (fun c => is_node c "name") twice_config_item,
             description := field_text (fun c => is_node c "description")
               twice_config_item,
             brief_or_vendor := field_text is_brief_or_vendor twice_config_item } ∧
    (∀ p : xmlNode → Bool, field_text p twice_config_item =
      ((twice_config_item.children.filter p).getLast?).bind extract_text) ∧
    (∀ p : xmlNode → Bool, (twice_config_item.children.filter p).length ≤ 1 →
      last_child p twice_config_item = twice_config_item.children.find? p)) :=
  ⟨rfl, C18_last_child_decides twice_named twice_config_item rfl⟩

theorem find_first {p : xmlNode → Bool} {pre post : List xmlNode} {x : xmlNode}
    (hpre : ∀ n ∈ pre, p n = false) (hx : p x = true) :
    (pre ++ x :: post).find? p = some x := by
  induction pre with
  | nil => simp [List.find?_cons, hx]
  | cons a pre ih =>
    have ha : p a = false := hpre a (by simp)
    simp only [List.cons_append, List.find?_cons, ha]
    exact ih (fun n hn => hpre n (List.mem_cons_of_mem _ hn))

/-- C19: for every `layout` element with a `configItem` child, parsed into a
context with well-formed collections, `parse_layout` appends one layout whose
variants, walked by first/next and read by the getters, are in document order
those of the `variant` children with a `configItem` of the first `variantList`
child; the children after that `variantList`, further `variantList` elements
among them, play no part.  The `rxkb_variant_first` of a layout made from an
element without `variantList` is `NULL`. -/
theorem C19_variants_of_first_variant_list (h : Heap) (ctx : Nat) (layout : xmlNode)
    (ms : List config_item) (ls : List layout_data) (gs : List group_data)
    (hr : Registry h ctx ms ls gs) (hc : has_config_item layout = true) :
    ∃ h2 ids l, parse_layout h ctx layout = some h2 ∧
      entries Kind.layout Field.layouts h ctx = some ids ∧
      entries Kind.layout Field.layouts h2 ctx = some (ids ++ [l]) ∧
      collection_view variant_view Kind.variant Field.variants h2 l =
        some ((variant_elements layout).map strings_of) ∧
      (∀ pre vl post, layout.children = pre ++ vl :: post →
        (∀ n ∈ pre, is_node n "variantList" = false) → is_node vl "variantList" = true →
        variant_elements layout =
          (vl.children.filter (fun n => is_node n "variant")).filter has_config_item) ∧
      ((∀ n ∈ layout.children, is_node n "variantList" = false) →
        variant_elements layout = [] ∧ rxkb_variant_first h2 l = some NULL) := by
  obtain ⟨hb, _, ⟨ids, hl, _⟩, _, _⟩ := hr
  have hci : parse_config_item layout = some (config_item_of layout) := by
    rw [parse_config_item_eq, hc]; rfl
  obtain ⟨h2, e1, e2, e3, _, _, hv⟩ := parse_layout_some hci hb hl
  have hview := hv.view e3.bounded (fun _ _ hy => hy.1)
  simp only [layout_variants_eq] at hview hv
  refine ⟨h2, ids, h.brk, e1, entries_spec hl hb, entries_spec e2 e3.bounded, hview, ?_, ?_⟩
  · intro pre vl post hch hpre hvl
    simp only [variant_elements, hch, find_first hpre hvl]
  · intro hno
    have hnone : layout.children.find? (fun n => is_node n "variantList") = none := by
      rw [List.find?_eq_none]
      intro n hn
      simp [hno n hn]
    have hve : variant_elements layout = [] := by
      simp only [variant_elements, hnone]
    refine ⟨hve, ?_⟩
    rw [hve] at hv
    obtain ⟨vids, hvl, hvf⟩ := hv
    cases hvf
    exact T_first_spec hvl

/-- C19 at the layout with two `variantList` children and at a layout without
`variantList`, each parsed into a fresh context. -/
theorem C19_variants_of_first_variant_list_witness :
    (∃ h2 l, parse_layout fresh_context.1 0 bare_layout = some h2 ∧
      entries Kind.layout Field.layouts h2 0 = some [l] ∧
      rxkb_variant_first h2 l = some NULL) ∧
    Registry fresh_context.1 0 [] [] [] ∧ has_config_item two_lists_layout = true ∧
    (variant_elements two_lists_layout).map strings_of =
      [{ name := some "intl", description := none, brief_or_vendor := none },
       { name := some "dvorak", description := none, brief_or_vendor := none }] ∧
    ∃ h2 ids l, parse_layout fresh_context.1 0 two_lists_layout = some h2 ∧
      entries Kind.layout Field.layouts fresh_context.1 0 = some ids ∧
      entries Kind.layout Field.layouts h2 0 = some (ids ++ [l]) ∧
      collection_view variant_view Kind.variant Field.variants h2 l =
        some ((variant_elements two_lists_layout).map strings_of) ∧
      (∀ pre vl post, two_lists_layout.children = pre ++ vl :: post →
        (∀ n ∈ pre, is_node n "variantList" = false) → is_node vl "variantList" = true →
        variant_elements two_lists_layout =
          (vl.children.filter (fun n => is_node n "variant")).filter has_config_item) ∧
      ((∀ n ∈ two_lists_layout.children, is_node n "variantList" = false) →
        variant_elements two_lists_layout = [] ∧
        rxkb_variant_first h2 l = some NULL) :=
  ⟨(let ⟨h2, ids, l, e1, e2, e3, _, _, e6⟩ :=
      C19_variants_of_first_variant_list fresh_context.1 0 bare_layout [] [] []
        fresh_context_registry rfl
    have hids : ids = [] := Option.some.inj (e2.symm.trans rfl)
    ⟨h2, l, e1, by rw [e3, hids]; rfl, (e6 (by decide)).2⟩),
   fresh_context_registry, rfl, by decide,
   C19_variants_of_first_variant_list fresh_context.1 0 two_lists_layout [] [] []
     fresh_context_registry rfl⟩

theorem flatMap_filter_alone {α : Type} (p : xmlNode → Bool) (f : xmlNode → List α)
    (l : List xmlNode) :
    (l.filter p).flatMap f = l.flatMap (fun x => ([x].filter p).flatMap f) := by
  induction l with
  | nil => rfl
  | cons a l ih =>
    by_cases ha : p a = true
    · simp [List.filter_cons, ha, List.flatMap_cons, ih]
    · simp [List.filter_cons, ha, List.flatMap_cons, ih]

theorem unrecognised_parts {n : xmlNode} (hn : is_recognised n = false) :
    is_node n "modelList" = false ∧ is_node n "layoutList" = false ∧
    is_node n "optionList" = false := by
  simp only [is_recognised, Bool.or_eq_false_iff] at hn
  exact ⟨hn.1.1, hn.1.2, hn.2⟩

/-- C20: parsing a document into a context with empty collections gives, for
each of the three collections, the concatenation over the children of the root,
in document order, of what parsing the document cut down to that one child
gives; so each of several `modelList` (`layoutList`, `optionList`) children
contributes in full.  A child that is none of the three lists contributes
nothing: parsing the document cut down to it leaves the heap as it is. -/
theorem C20_top_level_walk (h : Heap) (ctx : Nat) (root : xmlNode)
    (hr : Registry h ctx [] [] []) :
    ∃ (cm : xmlNode → List config_item) (cl : xmlNode → List layout_data)
      (cg : xmlNode → List group_data),
      (∀ l, ∃ h1, parse_rules_xml h ctx (alone root l) = some h1 ∧
        models_view h1 ctx = some (cm l) ∧ layouts_view h1 ctx = some (cl l) ∧
        groups_view h1 ctx = some (cg l)) ∧
      (∃ h1, parse_rules_xml h ctx root = some h1 ∧
        models_view h1 ctx = some (root.children.flatMap cm) ∧
        layouts_view h1 ctx = some (root.children.flatMap cl) ∧
        groups_view h1 ctx = some (root.children.flatMap cg)) ∧
      (∀ l, is_recognised l = false →
        parse_rules_xml h ctx (alone root l) = some h ∧
        cm l = [] ∧ cl l = [] ∧ cg l = []) := by
  refine ⟨fun l => document_models (alone root l), fun l => document_layouts (alone root l),
    fun l => document_groups (alone root l), fun l => ?_, ?_, fun l hl => ?_⟩
  · obtain ⟨h1, e1, hr1, _⟩ := parse_rules_xml_spec (alone root l) hr
    obtain ⟨v1, v2, v3⟩ := hr1.views
    exact ⟨h1, e1, v1, v2, v3⟩
  · obtain ⟨h1, e1, hr1, _⟩ := parse_rules_xml_spec root hr
    obtain ⟨v1, v2, v3⟩ := hr1.views
    refine ⟨h1, e1, ?_, ?_, ?_⟩
    · rw [v1, List.nil_append]
      exact congrArg some (flatMap_filter_alone _ _ _)
    · rw [v2, List.nil_append]
      exact congrArg some (flatMap_filter_alone _ _ _)
    · rw [v3, List.nil_append]
      exact congrArg some (flatMap_filter_alone _ _ _)
  · obtain ⟨n1, n2, n3⟩ := unrecognised_parts hl
    refine ⟨?_, ?_, ?_, ?_⟩
    · simp [parse_rules_xml, alone, xmlNode.children, for_each_child, n1, n2, n3]
    · simp [document_models, alone, xmlNode.children, List.filter_cons, n1]
    · simp [document_layouts, alone, xmlNode.children, List.filter_cons, n2]
    · simp [document_groups, alone, xmlNode.children, List.filter_cons, n3]

/-- C20 at the document with two `modelList` children, parsed into a fresh
context: the models of both lists, in document order, and nothing from the
other children. -/
theorem C20_top_level_walk_witness :
    Registry fresh_context.1 0 [] [] [] ∧
    (parse_rules_xml fresh_context.1 0 two_model_lists_document).bind
      (fun h1 => (models_view h1 0).map (fun ms => ms.map config_item.name)) =
      some [some "pc101", some "pc102", some "pc104"] ∧
    ∃ (cm : xmlNode → List config_item) (cl : xmlNode → List layout_data)
      (cg : xmlNode → List group_data),
      (∀ l, ∃ h1, parse_rules_xml fresh_context.1 0 (alone two_model_lists_document l) =
          some h1 ∧
        models_view h1 0 = some (cm l) ∧ layouts_view h1 0 = some (cl l) ∧
        groups_view h1 0 = some (cg l)) ∧
      (∃ h1, parse_rules_xml fresh_context.1 0 two_model_lists_document = some h1 ∧
        models_view h1 0 = some (two_model_lists_document.children.flatMap cm) ∧
        layouts_view h1 0 = some (two_model_lists_document.children.flatMap cl) ∧
        groups_view h1 0 = some (two_model_lists_document.children.flatMap cg)) ∧
      (∀ l, is_recognised l = false →
        parse_rules_xml fresh_context.1 0 (alone two_model_lists_document l) =
          some fresh_context.1 ∧
        cm l = [] ∧ cl l = [] ∧ cg l = []) :=
  ⟨fresh_context_registry, rfl,
   C20_top_level_walk fresh_context.1 0 two_model_lists_document fresh_context_registry⟩

/-- A loop that is a right fold passes over an item whose step does nothing. -/
theorem loop_skip {β : Type} (L : List xmlNode → β) (S : xmlNode → β → β)
    (hL : ∀ a l, L (a :: l) = S a (L l)) (e : xmlNode) (hS : ∀ r, S e r = r)
    (pre post : List xmlNode) : L (pre ++ e :: post) = L (pre ++ post) := by
  induction pre with
  | nil => rw [List.nil_append, List.nil_append, hL, hS]
  | cons a pre ih => rw [List.cons_append, List.cons_append, hL, hL, ih]

/-- A loop that is a right fold gives the same result when one item is replaced
by an item with the same step. -/
theorem loop_congr {β : Type} (L : List xmlNode → β) (S : xmlNode → β → β)
    (hL : ∀ a l, L (a :: l) = S a (L l)) (x y : xmlNode) (hS : ∀ r, S x r = S y r)
    (pre post : List xmlNode) : L (pre ++ x :: post) = L (pre ++ y :: post) := by
  induction pre with
  | nil => rw [List.nil_append, List.nil_append, hL, hL, hS]
  | cons a pre ih => rw [List.cons_append, List.cons_append, hL, hL, ih]

theorem for_each_child_fold (body : Heap → xmlNode → Option Heap) (a : xmlNode)
    (l : List xmlNode) :
    (fun h => for_each_child body (a :: l) h) =
      (fun h => (body h a).bind (fun h1 => for_each_child body l h1)) := by
  funext h
  rfl

/-- An unknown element is no element of any name the parser knows, and no text
node. -/
theorem unknown_element_facts {e : xmlNode} (he : is_unknown_element e = true) :
    e.type ≠ xmlElementType.XML_TEXT_NODE ∧ ∀ n ∈ known_names, is_node e n = false := by
  simp only [is_unknown_element, Bool.and_eq_true, decide_eq_true_eq,
    Bool.not_eq_true', List.contains_eq_any_beq, List.any_eq_false] at he
  refine ⟨by rw [he.1]; decide, fun n hn => ?_⟩
  have := he.2 n hn
  simp only [is_node, Bool.and_eq_false_iff, decide_eq_false_iff_not]
  right
  intro hEq
  simp [hEq] at this

/-- Nodes that differ only in children on which every loop agrees cannot be
told apart. -/
theorem agree_of_loops (ty : xmlElementType) (nm : String) (c : Option String)
    (ps : List (String × String)) {cs ds : List xmlNode} (hl : LoopEq cs ds) :
    Agree (xmlNode.mk ty nm c ps cs) (xmlNode.mk ty nm c ps ds) := by
  have hitem : parse_config_item (xmlNode.mk ty nm c ps cs) =
      parse_config_item (xmlNode.mk ty nm c ps ds) := hl.item
  have hprop : ∀ a, xmlGetProp (xmlNode.mk ty nm c ps cs) a =
      xmlGetProp (xmlNode.mk ty nm c ps ds) a := fun _ => rfl
  refine ⟨rfl, rfl, rfl, rfl, hl.text, hl.fields, hitem, ?_, fun h ctx => hl.models ctx h,
    ?_, fun h l => hl.variants l h, ?_, fun h ctx => hl.layouts ctx h, ?_, ?_,
    fun h ctx => hl.groups ctx h, fun h ctx => hl.top ctx h⟩
  · intro h ctx
    simp only [parse_model, hitem]
  · intro h l
    simp only [parse_variant, hitem]
  · intro h ctx
    simp only [parse_layout, hitem, xmlNode.children, hl.first_list]
  · intro h g
    simp only [parse_option, hitem]
  · intro h ctx
    simp only [parse_group, hitem, hprop, xmlNode.children, hl.options]

/-- Every loop of the parser passes over an unknown element. -/
theorem loops_skip_unknown {e : xmlNode} (he : is_unknown_element e = true)
    (pre post : List xmlNode) : LoopEq (pre ++ post) (pre ++ e :: post) := by
  obtain ⟨hty, hn⟩ := unknown_element_facts he
  have k : ∀ n, n ∈ known_names → is_node e n = false := hn
  have each : ∀ (body : Heap → xmlNode → Option Heap), (∀ h, body h e = some h) →
      ∀ h, for_each_child body (pre ++ post) h = for_each_child body (pre ++ e :: post) h := by
    intro body hb h
    have := loop_skip (fun l => fun h => for_each_child body l h)
      (fun a r => fun h => (body h a).bind r) (fun a l => for_each_child_fold body a l) e
      (fun r => by funext h; simp [hb]) pre post
    exact (congrFun this h).symm
  refine ⟨?_, ?_, ?_, ?_, ?_, ?_, ?_, ?_, ?_, ?_⟩
  · exact (loop_skip extract_text_loop
      (fun a r => if a.type = xmlElementType.XML_TEXT_NODE then a.content else r)
      (fun _ _ => rfl) e (fun r => by simp [hty]) pre post).symm
  · intro ci
    have := loop_skip (fun l => fun ci => parse_config_item_fields l ci)
      (fun a r => fun ci => r (parse_config_item_child a ci)) (fun _ _ => rfl) e
      (fun r => by
        funext ci
        simp [parse_config_item_child, k "name" (by decide), k "description" (by decide),
          k "shortDescription" (by decide), k "vendor" (by decide)]) pre post
    exact (congrFun this ci).symm
  · exact (loop_skip parse_config_item_loop
      (fun a r => if is_node a "configItem" then
        some (parse_config_item_fields a.children
          { name := none, description := none, brief_or_vendor := none }) else r)
      (fun _ _ => rfl) e (fun r => by simp [k "configItem" (by decide)]) pre post).symm
  · intro l h
    have := loop_skip (fun cs => fun h => parse_layout_loop l cs h)
      (fun a r => fun h => if is_node a "variantList" then parse_variant_list h l a else r h)
      (fun _ _ => rfl) e
      (fun r => by funext h; simp [k "variantList" (by decide)]) pre post
    exact (congrFun this h).symm
  · exact fun ctx h => each _ (fun h => by simp [k "model" (by decide)]) h
  · exact fun l h => each _ (fun h => by simp [k "variant" (by decide)]) h
  · exact fun ctx h => each _ (fun h => by simp [k "layout" (by decide)]) h
  · exact fun g h => each _ (fun h => by simp [k "option" (by decide)]) h
  · exact fun ctx h => each _ (fun h => by simp [k "group" (by decide)]) h
  · exact fun ctx h => each _ (fun h => by
      simp [k "modelList" (by decide), k "layoutList" (by decide),
        k "optionList" (by decide)]) h

/-- Every loop of the parser gives the same result when one item is replaced by
one the parser cannot tell from it. -/
theorem loops_congr {x y : xmlNode} (ha : Agree x y) (pre post : List xmlNode) :
    LoopEq (pre ++ x :: post) (pre ++ y :: post) := by
  have hnode : ∀ n, is_node x n = is_node y n := by
    intro n
    simp only [is_node, ha.type_eq, ha.name_eq]
  have each : ∀ (body : Heap → xmlNode → Option Heap), (∀ h, body h x = body h y) →
      ∀ h, for_each_child body (pre ++ x :: post) h =
        for_each_child body (pre ++ y :: post) h := by
    intro body hb h
    have := loop_congr (fun l => fun h => for_each_child body l h)
      (fun a r => fun h => (body h a).bind r) (fun a l => for_each_child_fold body a l) x y
      (fun r => by funext h; simp [hb]) pre post
    exact congrFun this h
  refine ⟨?_, ?_, ?_, ?_, ?_, ?_, ?_, ?_, ?_, ?_⟩
  · exact loop_congr extract_text_loop
      (fun a r => if a.type = xmlElementType.XML_TEXT_NODE then a.content else r)
      (fun _ _ => rfl) x y (fun r => by simp [ha.type_eq, ha.content_eq]) pre post
  · intro ci
    have := loop_congr (fun l => fun ci => parse_config_item_fields l ci)
      (fun a r => fun ci => r (parse_config_item_child a ci)) (fun _ _ => rfl) x y
      (fun r => by
        funext ci
        simp only [parse_config_item_child, hnode, ha.text]) pre post
    exact congrFun this ci
  · exact loop_congr parse_config_item_loop
      (fun a r => if is_node a "configItem" then
        some (parse_config_item_fields a.children
          { name := none, description := none, brief_or_vendor := none }) else r)
      (fun _ _ => rfl) x y (fun r => by simp only [hnode, ha.fields]) pre post
  · intro l h
    have := loop_congr (fun cs => fun h => parse_layout_loop l cs h)
      (fun a r => fun h => if is_node a "variantList" then parse_variant_list h l a else r h)
      (fun _ _ => rfl) x y
      (fun r => by funext h; simp only [hnode, ha.variant_list]) pre post
    exact congrFun this h
  · exact fun ctx h => each _ (fun h => by simp only [hnode, ha.model]) h
  · exact fun l h => each _ (fun h => by simp only [hnode, ha.variant]) h
  · exact fun ctx h => each _ (fun h => by simp only [hnode, ha.layout]) h
  · exact fun g h => each _ (fun h => by simp only [hnode, ha.option]) h
  · exact fun ctx h => each _ (fun h => by simp only [hnode, ha.group]) h
  · exact fun ctx h => each _ (fun h => by
      simp only [hnode, ha.model_list, ha.layout_list, ha.option_list]) h

/-- The parser cannot tell a tree from the tree with an unknown element
inserted. -/
theorem inserted_agree {e x y : xmlNode} (he : is_unknown_element e = true)
    (hi : Inserted e x y) : Agree x y := by
  induction hi with
  | here ty nm c ps pre post => exact agree_of_loops ty nm c ps (loops_skip_unknown he pre post)
  | inside ty nm c ps pre post x y _ ih => exact agree_of_loops ty nm c ps (loops_congr ih pre post)

/-- C21: for every tree `root`, every element `e` whose name is none of the
names the parser knows, with any subtree, and every tree `root2` that is `root`
with `e` inserted as an additional child at any position under any node,
`parse_rules_xml` gives on `root2` the very heap it gives on `root`, from every
heap and for every context; so does `parse` on a file that reads as `root2`
instead of `root`.  The registry is therefore the same, entity for entity and
field for field. -/
theorem C21_unknown_elements_ignored (e root root2 : xmlNode)
    (he : is_unknown_element e = true) (hi : Inserted e root root2) :
    (∀ h ctx, parse_rules_xml h ctx root2 = parse_rules_xml h ctx root) ∧
    (∀ (w w2 : World) (h : Heap) (ctx : Nat) (path : String),
      w.xmlReadFile path = some root → w2.xmlReadFile path = some root2 →
      parse w2 h ctx path = parse w h ctx path) := by
  have ha := inserted_agree he hi
  refine ⟨fun h ctx => (ha.rules h ctx).symm, fun w w2 h ctx path h1 h2 => ?_⟩
  simp only [parse, h1, h2, ha.rules h ctx]

/-- C21 at the `pc104` document with an unknown element inserted into the
`configItem`. -/
theorem C21_unknown_elements_ignored_witness :
    is_unknown_element unknown_extension = true ∧
    Inserted unknown_extension pc104_document pc104_extended ∧
    (∀ h ctx, parse_rules_xml h ctx pc104_extended = parse_rules_xml h ctx pc104_document) ∧
    (∀ (w w2 : World) (h : Heap) (ctx : Nat) (path : String),
      w.xmlReadFile path = some pc104_document →
      w2.xmlReadFile path = some pc104_extended →
      parse w2 h ctx path = parse w h ctx path) :=
  have hi : Inserted unknown_extension pc104_document pc104_extended :=
    Inserted.inside _ _ _ _ [] [] _ _
      (Inserted.inside _ _ _ _ [] [] _ _
        (Inserted.inside _ _ _ _ [] [] _ _
          (Inserted.here _ _ _ _ [xmlNode.element "name" [] [xmlNode.text "pc104"]]
            [xmlNode.element "description" [] [xmlNode.text "Generic 104-key PC"]])))
  ⟨by decide, hi,
   C21_unknown_elements_ignored unknown_extension pc104_document pc104_extended
     (by decide) hi⟩

/-- C22: for every `group` element with a `configItem` child, parsed into a
context with well-formed collections, `parse_group` appends one option group,
and `rxkb_option_group_allows_multiple` of that group is true if and only if
the attribute `allowMultipleSelection` is present with a value other than
"true". -/
theorem C22_flag_set_unless_true (h : Heap) (ctx : Nat) (group : xmlNode)
    (ms : List config_item) (ls : List layout_data) (gs : List group_data)
    (hr : Registry h ctx ms ls gs) (hc : has_config_item group = true) :
    ∃ h2 ids g b, parse_group h ctx group = some h2 ∧
      entries Kind.option_group Field.option_groups h ctx = some ids ∧
      entries Kind.option_group Field.option_groups h2 ctx = some (ids ++ [g]) ∧
      rxkb_option_group_allows_multiple h2 g = some b ∧
      (b = true ↔
        ∃ v, xmlGetProp group "allowMultipleSelection" = some v ∧ v ≠ "true") := by
  obtain ⟨hb, _, _, ⟨ids, hl, _⟩, _⟩ := hr
  have hci : parse_config_item group = some (config_item_of group) := by
    rw [parse_config_item_eq, hc]; rfl
  obtain ⟨h2, e1, e2, e3, e4⟩ := parse_group_some hci hb hl
  refine ⟨h2, ids, h.brk, group_flag group, e1, entries_spec hl hb,
    entries_spec e2 e3.bounded, (group_item_view_getters e4.1).2.2, ?_⟩
  simp only [group_flag]
  cases xmlGetProp group "allowMultipleSelection" with
  | none => simp
  | some v => simp [xmlStrcmp]

/-- C22 at a group whose attribute has the empty string as its value, parsed
into a fresh context: the flag is true. -/
theorem C22_flag_set_unless_true_witness :
    Registry fresh_context.1 0 [] [] [] ∧ has_config_item empty_attribute_group = true ∧
    xmlGetProp empty_attribute_group "allowMultipleSelection" = some "" ∧
    (parse_group fresh_context.1 0 empty_attribute_group).bind (fun h =>
      (rxkb_option_group_first h 0).bind fun g =>
        match g with
        | some g => rxkb_option_group_allows_multiple h g
        | none => none) = some true ∧
    ∃ h2 ids g b, parse_group fresh_context.1 0 empty_attribute_group = some h2 ∧
      entries Kind.option_group Field.option_groups fresh_context.1 0 = some ids ∧
      entries Kind.option_group Field.option_groups h2 0 = some (ids ++ [g]) ∧
      rxkb_option_group_allows_multiple h2 g = some b ∧
      (b = true ↔
        ∃ v, xmlGetProp empty_attribute_group "allowMultipleSelection" = some v ∧
          v ≠ "true") :=
  ⟨fresh_context_registry, rfl, rfl, rfl,
   C22_flag_set_unless_true fresh_context.1 0 empty_attribute_group [] [] []
     fresh_context_registry rfl⟩

/-- The first item of a list that passes a test. -/
theorem first_passing (P : String → Bool) (l : List String) (hex : ∃ d ∈ l, P d = true) :
    ∃ pre d post, l = pre ++ d :: post ∧ (∀ p ∈ pre, P p = false) ∧ P d = true := by
  induction l with
  | nil =>
    obtain ⟨d, hd, _⟩ := hex
    cases hd
  | cons a l ih =>
    by_cases ha : P a = true
    · exact ⟨[], a, l, rfl, fun _ hp => absurd hp (List.not_mem_nil _), ha⟩
    · have hf : P a = false := by simpa using ha
      obtain ⟨d, hd, hpd⟩ := hex
      have hd2 : d ∈ l := by
        rcases List.mem_cons.1 hd with rfl | hm
        · rw [hf] at hpd
          cases hpd
        · exact hm
      obtain ⟨pre, d2, post, e1, e2, e3⟩ := ih ⟨d, hd2, hpd⟩
      refine ⟨a :: pre, d2, post, by rw [e1]; rfl, ?_, e3⟩
      intro p hp
      rcases List.mem_cons.1 hp with rfl | hm
      · exact hf
      · exact e2 p hm

/-- C23, counterexample: a context that holds the model `base101` from an
earlier parse of the ruleset `base`.  Two calls of `rxkb_context_parse` with the
ruleset `evdev` both return true; the models read `base101`, `pc104` after the
first and `base101`, `pc104`, `pc104` after the second, which is not the
collection after one parse followed by a copy of it. -/
theorem C23_earlier_entities_not_copied :
    (rxkb_context_parse two_rules_world included_heap 0 "base").bind (fun r0 =>
      (rxkb_context_parse two_rules_world r0.1 0 "evdev").bind fun r1 =>
      (rxkb_context_parse two_rules_world r1.1 0 "evdev").bind fun r2 =>
      (models_view r1.1 0).bind fun m1 =>
      (models_view r2.1 0).map fun m2 =>
        (r1.2, r2.2, m1.map config_item.name, m2.map config_item.name)) =
      some (true, true, [some "base101", some "pc104"],
        [some "base101", some "pc104", some "pc104"]) := by
  rfl

/-- C23, amended: let the collections of a context read as `ms`, `ls`, `gs`,
and let the file built for one of the include paths read as a document.  Then
`root`, the document of the first such path `d`, is the one both calls walk:
two calls of `rxkb_context_parse` with the same ruleset both return true, each
being `parse_rules_xml` on `root`.  The first appends to each top-level
collection the entities of `root` in document order, the second appends a
field-equal copy of them: the models read `ms` followed by the models of `root`
after the first call and `ms` followed by the models of `root` twice after the
second, and so for the layouts with their variants and the option groups with
their options.  When the collections were empty before the first call, each is
the collection after one parse followed by a copy of it. -/
theorem C23_second_parse_appends_again (w : World) (h : Heap) (ctx : Nat)
    (c : rxkb_context) (ruleset : String) (ms : List config_item)
    (ls : List layout_data) (gs : List group_data)
    (hr : Registry h ctx ms ls gs) (hc : h.objs ctx = some (Obj.context c))
    (hread : ∃ d ∈ c.includes, (w.xmlReadFile (rules_path w d ruleset)).isSome = true) :
    ∃ pre d post root h1 h2,
      c.includes = pre ++ d :: post ∧
      (∀ p ∈ pre, w.xmlReadFile (rules_path w p ruleset) = none) ∧
      w.xmlReadFile (rules_path w d ruleset) = some root ∧
      rxkb_context_parse w h ctx ruleset = some (h1, true) ∧
      rxkb_context_parse w h1 ctx ruleset = some (h2, true) ∧
      parse_rules_xml h ctx root = some h1 ∧ parse_rules_xml h1 ctx root = some h2 ∧
      models_view h1 ctx =
        some (ms ++ (entity_elements root "modelList" "model").map strings_of) ∧
      models_view h2 ctx =
        some (ms ++ (entity_elements root "modelList" "model").map strings_of ++
          (entity_elements root "modelList" "model").map strings_of) ∧
      layouts_view h1 ctx =
        some (ls ++ (entity_elements root "layoutList" "layout").map layout_data_of) ∧
      layouts_view h2 ctx =
        some (ls ++ (entity_elements root "layoutList" "layout").map layout_data_of ++
          (entity_elements root "layoutList" "layout").map layout_data_of) ∧
      groups_view h1 ctx =
        some (gs ++ (entity_elements root "optionList" "group").map group_of) ∧
      groups_view h2 ctx =
        some (gs ++ (entity_elements root "optionList" "group").map group_of ++
          (entity_elements root "optionList" "group").map group_of) ∧
      includes_of h2 ctx = some c.includes := by
  obtain ⟨pre, d, post, hinc, hpre, hd⟩ :=
    first_passing (fun d => (w.xmlReadFile (rules_path w d ruleset)).isSome) c.includes hread
  have hpre2 : ∀ p ∈ pre, w.xmlReadFile (rules_path w p ruleset) = none := by
    intro p hp
    have := hpre p hp
    simpa using this
  obtain ⟨root, hroot⟩ := Option.isSome_iff_exists.1 hd
  obtain ⟨h1, e1, hr1, hext1⟩ := parse_rules_xml_spec root hr
  obtain ⟨h2, e2, hr2, hext2⟩ := parse_rules_xml_spec root hr1
  have hlt : ctx < h.brk := hr.2.2.2.2.1.sound_lt hr.1
  have hlt1 : ctx < h1.brk := hr1.2.2.2.2.1.sound_lt hr1.1
  have hc1 : h1.objs ctx = some (Obj.context c) := by rw [hext1.objs_eq ctx hlt, hc]
  have hc2 : h2.objs ctx = some (Obj.context c) := by rw [hext2.objs_eq ctx hlt1, hc1]
  obtain ⟨v1, v2, v3⟩ := hr1.views
  obtain ⟨u1, u2, u3⟩ := hr2.views
  rw [document_models_strings] at v1 u1
  rw [document_layouts_eq] at v2 u2
  rw [document_groups_eq] at v3 u3
  refine ⟨pre, d, post, root, h1, h2, hinc, hpre2, hroot, ?_, ?_, e1, e2,
    v1, u1, v2, u2, v3, u3, ?_⟩
  · rw [rxkb_context_parse_eq ruleset hc, hinc,
      parse_loop_first w ctx ruleset h pre d post root hpre2 hroot false, e1]
    rfl
  · rw [rxkb_context_parse_eq ruleset hc1, hinc,
      parse_loop_first w ctx ruleset h1 pre d post root hpre2 hroot false, e2]
    rfl
  · simp only [includes_of, hc2]

/-- C23 (amended) at a fresh context with the include path `/d`, parsed twice
with the ruleset `evdev`: the models read `pc104` after the first call and
`pc104`, `pc104` after the second. -/
theorem C23_second_parse_appends_again_witness :
    included_heap.objs 0 = some (Obj.context
      { base := Kind.context.init_base NULL, includes := ["/d"], userdata := 0 }) ∧
    (rxkb_context_parse pc104_world included_heap 0 "evdev").bind (fun r1 =>
      (rxkb_context_parse pc104_world r1.1 0 "evdev").bind fun r2 =>
      (models_view r1.1 0).bind fun m1 =>
      (models_view r2.1 0).map fun m2 =>
        (r1.2, r2.2, m1.map config_item.name, m2.map config_item.name)) =
      some (true, true, [some "pc104"], [some "pc104", some "pc104"]) ∧
    ∃ pre d post root h1 h2,
      ["/d"] = pre ++ d :: post ∧
      (∀ p ∈ pre, pc104_world.xmlReadFile (rules_path pc104_world p "evdev") = none) ∧
      pc104_world.xmlReadFile (rules_path pc104_world d "evdev") = some root ∧
      rxkb_context_parse pc104_world included_heap 0 "evdev" = some (h1, true) ∧
      rxkb_context_parse pc104_world h1 0 "evdev" = some (h2, true) ∧
      parse_rules_xml included_heap 0 root = some h1 ∧
      parse_rules_xml h1 0 root = some h2 ∧
      models_view h1 0 =
        some ([] ++ (entity_elements root "modelList" "model").map strings_of) ∧
      models_view h2 0 =
        some ([] ++ (entity_elements root "modelList" "model").map strings_of ++
          (entity_elements root "modelList" "model").map strings_of) ∧
      layouts_view h1 0 =
        some ([] ++ (entity_elements root "layoutList" "layout").map layout_data_of) ∧
      layouts_view h2 0 =
        some ([] ++ (entity_elements root "layoutList" "layout").map layout_data_of ++
          (entity_elements root "layoutList" "layout").map layout_data_of) ∧
      groups_view h1 0 =
        some ([] ++ (entity_elements root "optionList" "group").map group_of) ∧
      groups_view h2 0 =
        some ([] ++ (entity_elements root "optionList" "group").map group_of ++
          (entity_elements root "optionList" "group").map group_of) ∧
      includes_of h2 0 = some ["/d"] :=
  ⟨rfl, rfl,
   C23_second_parse_appends_again pc104_world included_heap 0
     { base := Kind.context.init_base NULL, includes := ["/d"], userdata := 0 }
     "evdev" [] [] []
     (include_path_append_registry fresh_context_registry
       (show rxkb_context_include_path_append pc104_world fresh_context.1 0 "/d" =
         some (included_heap, true) from rfl))
     rfl ⟨"/d", by decide, rfl⟩⟩

/-- The function `rxkb_object_destroy` frees its object. -/
theorem destroy_frees {u : Kind → Heap → Nat → Option Heap} {h h2 : Heap} {c : Nat}
    (e : rxkb_object_destroy u h c = some h2) : h2.objs c = none := by
  unfold rxkb_object_destroy at e
  cases hc : h.objs c with
  | none => simp [hc] at e
  | some ob =>
    simp only [hc, Option.bind_eq_some] at e
    obtain ⟨h1, _, lk, _, e3⟩ := e
    cases e3
    simp [free, Heap.set_obj, Heap.set_links]

/-- What a successful `rxkb_object_unref` does to its object. -/
theorem unref_released {d : Nat} {h h2 : Heap} {c : Nat} {p : Ptr}
    (e : rxkb_object_unref (d + 1) h c = some (h2, p)) : Released h h2 c := by
  cases hc : h.objs c with
  | none => simp [rxkb_object_unref, hc] at e
  | some ob =>
    have hr : 1 ≤ ob.base.refcount := by
      by_contra hn
      simp [rxkb_object_unref, hc, hn] at e
    rw [unref_eq d hc hr] at e
    refine ⟨ob, hc, ?_⟩
    by_cases h0 : ob.base.refcount - 1 = 0
    · left
      simp only [h0, if_true, Option.map_eq_some'] at e
      obtain ⟨h3, e1, e2⟩ := e
      cases e2
      exact ⟨by omega, destroy_frees e1⟩
    · right
      simp only [h0, if_false, Option.some.injEq, Prod.mk.injEq] at e
      refine ⟨by omega, ?_⟩
      rw [← e.1]
      simp [Heap.set_obj]

theorem Released.congr {h h2 h3 h4 : Heap} {o : Nat} (hr : Released h h2 o)
    (e1 : h3.objs o = h.objs o) (e2 : h4.objs o = h2.objs o) : Released h3 h4 o := by
  obtain ⟨ob, o1, o2⟩ := hr
  exact ⟨ob, by rw [e1]; exact o1, by rw [e2]; exact o2⟩

/-- The walk `list_for_each_safe` over a well-formed collection, with an
invariant that tells the entries the body has run on and kept (`pre`) from
those still to come (`post`). -/
theorem for_each_safe_track (f : Field) (p : Nat) (body : Heap → Nat → Option Heap)
    (J : Heap → List Nat → List Nat → Prop)
    (hJ : ∀ h pre post, J h pre post → ListOf h f p (pre ++ post))
    (hbody : ∀ h pre c post, J h pre (c :: post) →
      ∃ h2, body h c = some h2 ∧ (J h2 (pre ++ [c]) post ∨ J h2 pre post)) :
    ∀ (post pre : List Nat) (h : Heap) (fuel : Nat), J h pre post →
      post.length < fuel →
      ∃ h2 kept, list_for_each_safe body (ListRef.head f p) fuel h
          (first_of (post.map ListRef.link) (ListRef.head f p)) = some h2 ∧
        J h2 kept [] := by
  intro post
  induction post with
  | nil =>
    intro pre h fuel hi hf
    cases fuel with
    | zero => simp at hf
    | succ n => exact ⟨h, pre, by simp [list_for_each_safe, first_of], hi⟩
  | cons c post ih =>
    intro pre h fuel hi hf
    cases fuel with
    | zero => simp at hf
    | succ n =>
      have hl := hJ _ _ _ hi
      have hnext : (h.links (ListRef.link c)).next =
          some (first_of (post.map ListRef.link) (ListRef.head f p)) := by
        have := hl.1
        rw [List.map_append, List.map_cons] at this
        exact this.cell_next
      have hok := (hl.2.2 c (by simp)).ok
      obtain ⟨h2, e1, e2⟩ := hbody h pre c post hi
      have hstep : list_for_each_safe body (ListRef.head f p) (n + 1) h
          (first_of ((c :: post).map ListRef.link) (ListRef.head f p)) =
          list_for_each_safe body (ListRef.head f p) n h2
            (first_of (post.map ListRef.link) (ListRef.head f p)) := by
        simp [list_for_each_safe, first_of, hok, container_of, hnext, e1]
      rw [hstep]
      rcases e2 with e2 | e2
      · exact ih (pre ++ [c]) h2 n e2 (by simpa using hf)
      · exact ih pre h2 n e2 (by simpa using hf)

/-- The loop `list_for_each_safe` from its beginning, with a tracking
invariant. -/
theorem for_each_entry_track (f : Field) (p : Nat)
    (body : Heap → Nat → Option Heap) (J : Heap → List Nat → List Nat → Prop)
    (hJ : ∀ h pre post, J h pre post → ListOf h f p (pre ++ post))
    (hbody : ∀ h pre c post, J h pre (c :: post) →
      ∃ h2, body h c = some h2 ∧ (J h2 (pre ++ [c]) post ∨ J h2 pre post))
    (h : Heap) (ids : List Nat) (hi : J h [] ids) (hb : h.bounded) :
    ∃ h2 kept, for_each_entry_safe body h f p = some h2 ∧ J h2 kept [] := by
  have hl : ListOf h f p ids := by simpa using hJ _ _ _ hi
  obtain ⟨h2, kept, e1, e2⟩ := for_each_safe_track f p body J hJ hbody ids [] h
    (h.brk + 1) hi (Nat.lt_succ_of_le (hl.length_le hb))
  refine ⟨h2, kept, ?_, e2⟩
  simp only [for_each_entry_safe, hl.2.1, if_true, hl.1.head_next]
  exact e1

/-- The loop of a destroy callback over a collection of models, variants or
options: one unref is applied to each entry, and nothing else changes. -/
theorem leaves_track (d : Nat) (f : Field) (hleaf : f.child_kind.is_leaf = true)
    (p : Nat) (h : Heap) (hb : h.bounded) (ids : List Nat) (hl : ListOf h f p ids)
    (hs : ∀ v ∈ ids, Sound h v) :
    ∃ h2, for_each_entry_safe (unref_at (d + 1) f.child_kind) h f p = some h2 ∧
      (∀ x ∈ ids, Released h h2 x) ∧ (∀ o, o ∉ ids → h2.objs o = h.objs o) := by
  obtain ⟨h2, kept, e1, e2⟩ := for_each_entry_track f p (unref_at (d + 1) f.child_kind)
    (fun hh pre post => ListOf hh f p (pre ++ post) ∧ hh.bounded ∧
      (∀ x ∈ post, x ∈ ids ∧ hh.objs x = h.objs x) ∧
      (∀ x ∈ ids, x ∉ post → Released h hh x) ∧
      (∀ o, o ∉ ids → hh.objs o = h.objs o))
    (fun _ _ _ hi => hi.1)
    (by
      intro hh pre c post hi
      obtain ⟨i1, i2, i3, i4, i5⟩ := hi
      obtain ⟨hcin, hceq⟩ := i3 c (by simp)
      have hmv := i1.2.2 c (by simp)
      have hkv : hh.is_kind f.child_kind c = true := by
        obtain ⟨ob2, b1, b2, _⟩ := hmv
        simp [Heap.is_kind, b1, b2]
      obtain ⟨h2, e1, e2, e3, e4⟩ := unref_leaf_spec d ((hs c hcin).sound_congr hceq) hkv
        hleaf i2 i1
      have hrel : Released h h2 c := (unref_released e1).congr hceq.symm rfl
      have hnd := i1.nodup
      have hcpost : c ∉ post := by
        have h1 := List.nodup_append.mp hnd
        exact (List.nodup_cons.mp h1.2.1).1
      have hpend : ∀ x ∈ post, x ∈ ids ∧ h2.objs x = h.objs x := by
        intro x hx
        have hxc : x ≠ c := fun hEq => hcpost (hEq ▸ hx)
        obtain ⟨a1, a2⟩ := i3 x (List.mem_cons_of_mem _ hx)
        exact ⟨a1, by rw [e3 x hxc]; exact a2⟩
      have hdone : ∀ x ∈ ids, x ∉ post → Released h h2 x := by
        intro x hx hxp
        by_cases hxc : x = c
        · rw [hxc]; exact hrel
        · have : x ∉ c :: post := by
            intro hm
            rcases List.mem_cons.1 hm with hm | hm
            · exact hxc hm
            · exact hxp hm
          exact (i4 x hx this).congr rfl (e3 x hxc)
      have hothers : ∀ o, o ∉ ids → h2.objs o = h.objs o := by
        intro o ho
        have hoc : o ≠ c := fun hEq => ho (hEq ▸ hcin)
        rw [e3 o hoc]
        exact i5 o ho
      refine ⟨h2, by simp [unref_at, hkv, e1], ?_⟩
      rcases e4 with ⟨k1, _, _⟩ | ⟨k1, _, _⟩
      · left
        exact ⟨by simpa using k1, e2.bounded, hpend, hdone, hothers⟩
      · right
        exact ⟨k1, e2.bounded, hpend, hdone, hothers⟩)
    h ids ⟨by simpa using hl, hb, fun x hx => ⟨hx, rfl⟩,
      fun x hx hxn => absurd hx hxn, fun _ _ => rfl⟩ hb
  exact ⟨h2, e1, fun x hx => e2.2.2.2.1 x hx (List.not_mem_nil x), e2.2.2.2.2⟩

/-- The destruction of a layout or option group, entry by entry: an unref that
takes its count to zero applies one unref to each of its variants or options,
frees it, and changes no other object. -/
theorem unref_mid_drop_track (d : Nat) {h : Heap} {f : Field} {p c : Nat} {ob : Obj}
    {pre post : List Nat} (fc : Field)
    (hpair : (f = Field.layouts ∧ fc = Field.variants) ∨
      (f = Field.option_groups ∧ fc = Field.options))
    (hc : h.objs c = some ob) (hr : ob.base.refcount = 1)
    (hd : ob.base.destroy = some ob.kind.destroy) (hkind : ob.kind = f.child_kind)
    (hb : h.bounded) (hl : ListOf h f p (pre ++ c :: post))
    (vids : List Nat) (hvl : ListOf h fc c vids) (hvs : ∀ v ∈ vids, Sound h v) :
    ∃ h2, rxkb_object_unref (d + 2) h c = some (h2, NULL) ∧ h2.objs c = none ∧
      (∀ v ∈ vids, Released h h2 v) ∧
      (∀ o, o ≠ c → o ∉ vids → h2.objs o = h.objs o) ∧
      ListOf h2 f p (pre ++ post) := by
  have hleaf : fc.child_kind.is_leaf = true := by
    rcases hpair with ⟨_, rfl⟩ | ⟨_, rfl⟩ <;> rfl
  have hmc : Member h f p c := hl.2.2 c (by simp)
  have hpc : p ≠ c := by
    intro hEq
    have := hl.2.1
    simp only [Heap.ok, hEq, hc, hkind] at this
    rcases hpair with ⟨rfl, _⟩ | ⟨rfl, _⟩ <;> simp [Field.child_kind, Kind.has_field] at this
  have hvc : ∀ v ∈ vids, v ≠ c := by
    intro v hv hEq
    have hm := hvl.2.2 v hv
    rw [hEq] at hm
    exact hpc (hm.unique hmc).2.symm
  have hc1 : (h.set_obj c (some (ob.set_refcount 0))).objs c =
      some (ob.set_refcount 0) := by simp [Heap.set_obj]
  have hobj1 : ∀ o, o ≠ c → (h.set_obj c (some (ob.set_refcount 0))).objs o = h.objs o := by
    intro o ho; simp [Heap.set_obj, ho]
  have hlists1 : ∀ g q l, ListOf h g q l →
      ListOf (h.set_obj c (some (ob.set_refcount 0))) g q l :=
    set_obj_ext hc (set_refcount_kind _ _) (by rw [set_refcount_base])
  have hb1 := set_obj_bounded hb hc (some (ob.set_refcount 0))
  obtain ⟨h2, e1, e2, e3, _⟩ := unref_mid_drop_spec d fc hpair hc hr hd hkind hb hl
    ⟨vids, hvl, hvs⟩
  obtain ⟨hA, a1, a2, a3⟩ := leaves_track d fc hleaf c
    (h.set_obj c (some (ob.set_refcount 0))) hb1 vids (hlists1 _ _ _ hvl)
    (fun v hv => (hvs v hv).sound_congr (hobj1 v (hvc v hv)))
  have hcall : call_destroy (unref_at (d + 1)) ob.kind.destroy
      (h.set_obj c (some (ob.set_refcount 0))) c = some hA := by
    rcases hpair with ⟨rfl, rfl⟩ | ⟨rfl, rfl⟩
    · rw [hkind]
      simp only [Field.child_kind, Kind.destroy, call_destroy, Heap.is_kind, hc1,
        set_refcount_kind, hkind, beq_self_eq_true, if_true]
      exact a1
    · rw [hkind]
      simp only [Field.child_kind, Kind.destroy, call_destroy, Heap.is_kind, hc1,
        set_refcount_kind, hkind, beq_self_eq_true, if_true]
      exact a1
  have e1' := e1
  rw [unref_eq (d + 1) hc (by omega), hr] at e1'
  simp only [Nat.sub_self, if_true, rxkb_object_destroy, hc1, set_refcount_base, hd,
    hcall, Option.some_bind] at e1'
  have hobjs : ∀ o, o ≠ c → h2.objs o = hA.objs o := by
    intro o ho
    cases hlr : list_remove hA.ok hA.links (ListRef.link c) with
    | none => simp [hlr] at e1'
    | some lk =>
      simp only [hlr, Option.some_bind, Option.map_some', Option.some.injEq,
        Prod.mk.injEq, and_true] at e1'
      rw [← e1']
      simp [free, Heap.set_obj, Heap.set_links, ho]
  refine ⟨h2, e1, e3, ?_, ?_, e2⟩
  · intro v hv
    exact (a2 v hv).congr (hobj1 v (hvc v hv)).symm (hobjs v (hvc v hv))
  · intro o ho hov
    rw [hobjs o ho, a3 o hov, hobj1 o ho]

/-- The loop of `rxkb_context_destroy` over the layouts or the option groups:
one unref is applied to each entry, and no object changes but the entries and
their variants or options. -/
theorem mids_track (d : Nat) (f fc : Field)
    (hpair : (f = Field.layouts ∧ fc = Field.variants) ∨
      (f = Field.option_groups ∧ fc = Field.options))
    (ctx : Nat) (h : Heap) (hb : h.bounded) (hk : h.is_kind Kind.context ctx = true)
    (ids : List Nat) (hl : ListOf h f ctx ids)
    (hs : ∀ l ∈ ids, Sound h l ∧ SoundLeaves h fc l) :
    ∃ h2, for_each_entry_safe (unref_at (d + 2) f.child_kind) h f ctx = some h2 ∧
      (∀ x ∈ ids, Released h h2 x) ∧
      (∀ o, o ∉ ids → (∀ l ∈ ids, ∀ g, ¬ Member h g l o) → h2.objs o = h.objs o) := by
  obtain ⟨h2, kept, e1, e2⟩ := for_each_entry_track f ctx (unref_at (d + 2) f.child_kind)
    (fun hh pre post => ListOf hh f ctx (pre ++ post) ∧ hh.bounded ∧
      hh.is_kind Kind.context ctx = true ∧
      (∀ x ∈ post, x ∈ ids ∧ hh.objs x = h.objs x ∧ SoundLeaves hh fc x) ∧
      (∀ x ∈ ids, x ∉ post → Released h hh x) ∧
      (∀ o, o ∉ ids → (∀ l ∈ ids, ∀ g, ¬ Member h g l o) → hh.objs o = h.objs o))
    (fun _ _ _ hi => hi.1)
    (by
      intro hh pre c post hi
      obtain ⟨i1, i2, ik, i3, i4, i5⟩ := hi
      obtain ⟨hcin, hceq, hcl⟩ := i3 c (by simp)
      have hmv := i1.2.2 c (by simp)
      have hkv : hh.is_kind f.child_kind c = true := by
        obtain ⟨ob2, b1, b2, _⟩ := hmv
        simp [Heap.is_kind, b1, b2]
      have hcctx : c ≠ ctx := by
        intro hEq
        rw [← hEq, hmv.not_context] at ik
        cases ik
      obtain ⟨h2, e1, e2, e4⟩ := unref_mid_spec d fc hpair
        ((hs c hcin).1.sound_congr hceq) i2 i1 hcl
      have hrel : Released h h2 c := (unref_released e1).congr hceq.symm rfl
      have hnd := i1.nodup
      have hcpost : c ∉ post := by
        have h1 := List.nodup_append.mp hnd
        exact (List.nodup_cons.mp h1.2.1).1
      have hsib : ∀ x, Member hh f ctx x → x ≠ c → h2.objs x = hh.objs x := by
        intro x hmx hxc
        apply e2.objs_eq x hxc
        intro g hg
        exact hcctx (hg.unique hmx).2
      have hk2 : h2.is_kind Kind.context ctx = true := by
        have : h2.objs ctx = hh.objs ctx := by
          apply e2.objs_eq ctx (Ne.symm hcctx)
          intro g hg
          rw [hg.not_context] at ik
          cases ik
        simpa [Heap.is_kind, this] using ik
      have hpend : ∀ x ∈ post, x ∈ ids ∧ h2.objs x = h.objs x ∧ SoundLeaves h2 fc x := by
        intro x hx
        have hxc : x ≠ c := fun hEq => hcpost (hEq ▸ hx)
        obtain ⟨a1, a2, a3⟩ := i3 x (List.mem_cons_of_mem _ hx)
        have hmx : Member hh f ctx x := i1.2.2 x (by simp [hx])
        have hxctx : x ≠ ctx := by
          intro hEq
          rw [← hEq, hmx.not_context] at ik
          cases ik
        refine ⟨a1, by rw [hsib x hmx hxc]; exact a2, ?_⟩
        exact a3.leaves_frame e2 hmv (fun hEq => hxctx (Prod.mk.inj hEq).2) hxc
      have hdone : ∀ x ∈ ids, x ∉ post → Released h h2 x := by
        intro x hx hxp
        by_cases hxc : x = c
        · rw [hxc]; exact hrel
        · have hnot : x ∉ c :: post := by
            intro hm
            rcases List.mem_cons.1 hm with hm | hm
            · exact hxc hm
            · exact hxp hm
          have hrx := i4 x hx hnot
          refine hrx.congr rfl ?_
          apply e2.objs_eq x hxc
          rintro g ⟨ob2, b1, _, b3⟩
          obtain ⟨ob, o1, o2⟩ := hrx
          obtain ⟨ob3, c1, _, c3⟩ := hl.2.2 x hx
          rw [o1] at c1
          cases c1
          rcases o2 with ⟨_, o3⟩ | ⟨_, o3⟩
          · rw [o3] at b1
            cases b1
          · rw [o3] at b1
            cases b1
            rw [set_refcount_base] at b3
            have : ob.base.parent = some c := b3
            rw [c3] at this
            exact hcctx (Option.some.inj this).symm
      have hothers : ∀ o, o ∉ ids → (∀ l ∈ ids, ∀ g, ¬ Member h g l o) →
          h2.objs o = h.objs o := by
        intro o ho hno
        have hoc : o ≠ c := fun hEq => ho (hEq ▸ hcin)
        have hoo := i5 o ho hno
        rw [← hoo]
        apply e2.objs_eq o hoc
        rintro g ⟨ob2, b1, b2⟩
        rw [hoo] at b1
        exact hno c hcin g ⟨ob2, b1, b2⟩
      refine ⟨h2, by simp [unref_at, hkv, e1], ?_⟩
      rcases e4 with ⟨k1, _, _⟩ | ⟨k1, _, _⟩
      · left
        exact ⟨by simpa using k1, e2.bounded, hk2, hpend, hdone, hothers⟩
      · right
        exact ⟨k1, e2.bounded, hk2, hpend, hdone, hothers⟩)
    h ids ⟨by simpa using hl, hb, hk, fun x hx => ⟨hx, rfl, (hs x hx).2⟩,
      fun x hx hxn => absurd hx hxn, fun _ _ _ => rfl⟩ hb
  exact ⟨h2, e1, fun x hx => e2.2.2.2.2.1 x hx (List.not_mem_nil x), e2.2.2.2.2.2⟩

theorem ListOf.ids_unique {h : Heap} {f : Field} {p : Nat} {a b : List Nat}
    (ha : ListOf h f p a) (hb : ListOf h f p b) (hbd : h.bounded) : a = b := by
  have e1 := entries_spec ha hbd
  have e2 := entries_spec hb hbd
  rw [e1] at e2
  exact Option.some.inj e2

/-- An object that, if allocated, is an entry of the collection `f2` of `ctx`
is no entry of another collection of `ctx` and no child of such an entry: a
stage that changes only those leaves it alone. -/
theorem stage_frame {hX hY : Heap} {f f2 : Field} {ctx x : Nat} {ids : List Nat}
    (hl : ListOf hX f ctx ids) (hk : hX.is_kind Kind.context ctx = true) (hne : f2 ≠ f)
    (hq : ∀ g q, Member hX g q x → q = ctx ∧ g = f2)
    (hst : ∀ o, o ∉ ids → (∀ l ∈ ids, ∀ g, ¬ Member hX g l o) → hY.objs o = hX.objs o) :
    hY.objs x = hX.objs x := by
  apply hst
  · intro hx
    exact hne (hq _ _ (hl.2.2 x hx)).2.symm
  · intro l hlm g hg
    have := (hq _ _ hg).1
    have hnc := (hl.2.2 l hlm).not_context
    rw [this, hk] at hnc
    cases hnc

theorem child_class_congr {hX hY : Heap} {f2 : Field} {ctx x : Nat}
    (e : hY.objs x = hX.objs x) (hq : ∀ g q, Member hX g q x → q = ctx ∧ g = f2) :
    ∀ g q, Member hY g q x → q = ctx ∧ g = f2 := by
  rintro g q ⟨ob, b1, b2⟩
  exact hq g q ⟨ob, by rw [← e]; exact b1, b2⟩

theorem child_class_released {hX hY : Heap} {f2 : Field} {ctx x : Nat}
    (hr : Released hX hY x) (hq : ∀ g q, Member hX g q x → q = ctx ∧ g = f2) :
    ∀ g q, Member hY g q x → q = ctx ∧ g = f2 := by
  rintro g q ⟨ob2, b1, b2, b3⟩
  obtain ⟨ob, o1, o2⟩ := hr
  rcases o2 with ⟨_, o3⟩ | ⟨_, o3⟩
  · rw [o3] at b1
    cases b1
  · rw [o3] at b1
    cases b1
    rw [set_refcount_kind] at b2
    rw [set_refcount_base] at b3
    exact hq g q ⟨ob, o1, b2, b3⟩

theorem child_class_of_member {h : Heap} {f2 : Field} {ctx x : Nat}
    (hm : Member h f2 ctx x) : ∀ g q, Member h g q x → q = ctx ∧ g = f2 := by
  intro g q hg
  have := hg.unique hm
  exact ⟨this.2, this.1⟩

/-- The destruction of a context, entry by entry: an unref that takes the count
of a context to zero applies one unref to each of its models, layouts and
option groups, and frees the context. -/
theorem unref_context_track {h : Heap} {ctx : Nat} {ob : Obj} {mids lids gids : List Nat}
    (hc : h.objs ctx = some ob) (hr : ob.base.refcount = 1)
    (hd : ob.base.destroy = some ob.kind.destroy) (hkc : ob.kind = Kind.context)
    (hlink : h.links (ListRef.link ctx) =
      { prev := some (ListRef.link ctx), next := some (ListRef.link ctx) })
    (hb : h.bounded)
    (hml : ListOf h Field.models ctx mids) (hms : ∀ v ∈ mids, Sound h v)
    (hll : ListOf h Field.layouts ctx lids)
    (hls : ∀ l ∈ lids, Sound h l ∧ SoundLeaves h Field.variants l)
    (hgl : ListOf h Field.option_groups ctx gids)
    (hgs : ∀ g ∈ gids, Sound h g ∧ SoundLeaves h Field.options g) :
    ∃ h2, rxkb_object_unref 3 h ctx = some (h2, NULL) ∧ h2.objs ctx = none ∧
      (∀ x ∈ mids, Released h h2 x) ∧ (∀ x ∈ lids, Released h h2 x) ∧
      (∀ x ∈ gids, Released h h2 x) := by
  have hkh : h.is_kind Kind.context ctx = true := by simp [Heap.is_kind, hc, hkc]
  have hc1 : (h.set_obj ctx (some (ob.set_refcount 0))).objs ctx =
      some (ob.set_refcount 0) := by simp [Heap.set_obj]
  have hb1 := set_obj_bounded hb hc (some (ob.set_refcount 0))
  have hk0 : (ob.set_refcount 0).kind = Kind.context := by
    rw [set_refcount_kind]; exact hkc
  have hp0 : (ob.set_refcount 0).base.parent = ob.base.parent := by
    rw [set_refcount_base]
  have ha1 : CtxAlive (h.set_obj ctx (some (ob.set_refcount 0))) ctx
      (ob.set_refcount 0) := ⟨hb1, hc1, hk0, hlink⟩
  have hlists1 : ∀ g q l, ListOf h g q l →
      ListOf (h.set_obj ctx (some (ob.set_refcount 0))) g q l :=
    set_obj_ext hc (set_refcount_kind _ _) hp0
  have hobj1 : ∀ o, o ≠ ctx →
      (h.set_obj ctx (some (ob.set_refcount 0))).objs o = h.objs o := by
    intro o ho; simp [Heap.set_obj, ho]
  have hnctx : ∀ {f : Field} {x : Nat}, Member h f ctx x → x ≠ ctx := by
    intro f x hm hEq
    rw [← hEq, hm.not_context] at hkh
    cases hkh
  have hm1 : SoundLeaves (h.set_obj ctx (some (ob.set_refcount 0))) Field.models ctx :=
    SoundLeaves.leaves_store ⟨mids, hml, hms⟩ hc hkc (set_refcount_kind _ _) hp0
  have hL1 : SoundMids (h.set_obj ctx (some (ob.set_refcount 0))) Field.layouts ctx
      Field.variants :=
    SoundMids.mids_store ⟨lids, hll, hls⟩ hc hkc (set_refcount_kind _ _) hp0
  have hG1 : SoundMids (h.set_obj ctx (some (ob.set_refcount 0))) Field.option_groups ctx
      Field.options :=
    SoundMids.mids_store ⟨gids, hgl, hgs⟩ hc hkc (set_refcount_kind _ _) hp0
  -- the models
  obtain ⟨hA, eA, aA, lA, gA, llA, glA⟩ := leaves_loop 1 Field.models rfl ctx
    (fun hh => CtxAlive hh ctx (ob.set_refcount 0) ∧
      SoundMids hh Field.layouts ctx Field.variants ∧
      SoundMids hh Field.option_groups ctx Field.options ∧
      ListOf hh Field.layouts ctx lids ∧ ListOf hh Field.option_groups ctx gids)
    (by
      intro hh h2 c hx F hmc _
      have hcc : ctx ≠ c := by
        intro hEq
        have := hx.1.is_ctx
        rw [hEq, hmc.not_context] at this
        cases this
      exact ⟨hx.1.alive_frame F hmc, hx.2.1.mids_frame F hmc (by decide) hx.1.is_ctx,
        hx.2.2.1.mids_frame F hmc (by decide) hx.1.is_ctx,
        F.lists _ _ _ (fun hEq => by cases hEq) hcc hx.2.2.2.1,
        F.lists _ _ _ (fun hEq => by cases hEq) hcc hx.2.2.2.2⟩)
    _ hb1 hm1 ⟨ha1, hL1, hG1, hlists1 _ _ _ hll, hlists1 _ _ _ hgl⟩
  obtain ⟨hA2, eA2, tA, oA⟩ := leaves_track 1 Field.models rfl ctx _ hb1 mids
    (hlists1 _ _ _ hml)
    (fun v hv => (hms v hv).sound_congr (hobj1 v (hnctx (hml.2.2 v hv))))
  have hAA : hA2 = hA := by
    have := eA2.symm.trans eA
    exact Option.some.inj this
  subst hAA
  -- the layouts
  obtain ⟨hB, eB, bB, aB, gB, glB⟩ := mids_loop 0 Field.layouts Field.variants
    (Or.inl ⟨rfl, rfl⟩) ctx
    (fun hh => CtxAlive hh ctx (ob.set_refcount 0) ∧
      SoundMids hh Field.option_groups ctx Field.options ∧
      ListOf hh Field.option_groups ctx gids)
    (by
      intro hh h2 c hx F hmc
      have hcc : ctx ≠ c := by
        intro hEq
        have := hx.1.is_ctx
        rw [hEq, hmc.not_context] at this
        cases this
      exact ⟨hx.1.alive_frame F hmc, hx.2.1.mids_frame F hmc (by decide) hx.1.is_ctx,
        F.lists _ _ _ (fun hEq => by cases hEq) hcc hx.2.2⟩)
    (fun hh hx => hx.1.is_ctx) hA2 aA.1 lA ⟨aA, gA, glA⟩
  obtain ⟨lidsA, lA1, lA2⟩ := lA
  have hlidsA : lidsA = lids := lA1.ids_unique llA aA.1
  subst hlidsA
  obtain ⟨hB2, eB2, tB, oB⟩ := mids_track 0 Field.layouts Field.variants
    (Or.inl ⟨rfl, rfl⟩) ctx hA2 aA.1 aA.is_ctx lidsA llA lA2
  have hBB : hB2 = hB := Option.some.inj (eB2.symm.trans eB)
  subst hBB
  -- the option groups
  obtain ⟨hC, eC, bC, aC⟩ := mids_loop 0 Field.option_groups Field.options
    (Or.inr ⟨rfl, rfl⟩) ctx
    (fun hh => CtxAlive hh ctx (ob.set_refcount 0))
    (fun hh h2 c hx F hmc => hx.alive_frame F hmc)
    (fun hh hx => hx.is_ctx) hB2 aB.1 gB aB
  obtain ⟨gidsB, gB1, gB2⟩ := gB
  have hgidsB : gidsB = gids := gB1.ids_unique glB aB.1
  subst hgidsB
  obtain ⟨hC2, eC2, tC, oC⟩ := mids_track 0 Field.option_groups Field.options
    (Or.inr ⟨rfl, rfl⟩) ctx hB2 aB.1 aB.is_ctx gidsB glB gB2
  have hCC : hC2 = hC := Option.some.inj (eC2.symm.trans eC)
  subst hCC
  -- the context itself
  have hcall : call_destroy (unref_at 2) ob.kind.destroy
      (h.set_obj ctx (some (ob.set_refcount 0))) ctx = some hC2 := by
    rw [hkc]
    simp only [Kind.destroy, call_destroy, ha1.is_ctx, if_true]
    have e2' : for_each_entry_safe (unref_at 2 Kind.model)
        (h.set_obj ctx (some (ob.set_refcount 0))) Field.models ctx = some hA2 := eA
    have e3' : for_each_entry_safe (unref_at 2 Kind.layout) hA2 Field.layouts ctx =
        some hB2 := eB
    have e4' : for_each_entry_safe (unref_at 2 Kind.option_group) hB2
        Field.option_groups ctx = some hC2 := eC
    simp [e2', e3', e4']
  have hok : hC2.ok (ListRef.link ctx) = true := by
    simp [Heap.ok, aC.2.1]
  have hrem : ∃ lk, list_remove hC2.ok hC2.links (ListRef.link ctx) = some lk := by
    simp [list_remove, hok, aC.2.2.2]
  obtain ⟨lk, hlk⟩ := hrem
  have hfin : ∀ o, o ≠ ctx → (free (hC2.set_links lk) ctx).objs o = hC2.objs o := by
    intro o ho
    simp [free, Heap.set_obj, Heap.set_links, ho]
  refine ⟨free (hC2.set_links lk) ctx, ?_, by simp [free, Heap.set_obj], ?_, ?_, ?_⟩
  · rw [show (3 : Nat) = 2 + 1 from rfl, unref_eq 2 hc (by omega), hr]
    simp only [Nat.sub_self, if_true]
    simp only [rxkb_object_destroy, hc1, set_refcount_base, hd, hcall, Option.some_bind, hlk]
    rfl
  · intro x hx
    have hm := hml.2.2 x hx
    have hxc := hnctx hm
    have q1 := child_class_congr (hobj1 x hxc) (child_class_of_member hm)
    have rA := tA x hx
    have qA := child_class_released rA q1
    have eAB := stage_frame llA aA.is_ctx (by decide) qA oB
    have qB := child_class_congr eAB qA
    have eBC := stage_frame glB aB.is_ctx (by decide) qB oC
    exact rA.congr (hobj1 x hxc).symm ((hfin x hxc).trans (eBC.trans eAB))
  · intro x hx
    have hm := hll.2.2 x hx
    have hxc := hnctx hm
    have hxm : x ∉ mids := fun hin => by
      have := (hml.2.2 x hin).unique hm
      cases this.1
    have e1A : hA2.objs x = h.objs x := (oA x hxm).trans (hobj1 x hxc)
    have qA := child_class_congr e1A (child_class_of_member hm)
    have rB := tB x hx
    have qB := child_class_released rB qA
    have eBC := stage_frame glB aB.is_ctx (by decide) qB oC
    exact rB.congr e1A.symm ((hfin x hxc).trans eBC)
  · intro x hx
    have hm := hgl.2.2 x hx
    have hxc := hnctx hm
    have hxm : x ∉ mids := fun hin => by
      have := (hml.2.2 x hin).unique hm
      cases this.1
    have e1A : hA2.objs x = h.objs x := (oA x hxm).trans (hobj1 x hxc)
    have qA := child_class_congr e1A (child_class_of_member hm)
    have eAB := stage_frame llA aA.is_ctx (by decide) qA oB
    have rC := tC x hx
    exact rC.congr (eAB.trans e1A).symm (hfin x hxc)

/-- C24: in a context whose collections are well formed, (1) an unref of an
object whose count is above 1 only lowers the count by one: no destructor runs,
the object and every collection stay as they are; (2) an unref of the context
with count 1 returns, the context is freed, and one unref has been applied to
each model, layout and option group of its collections (`Released`: an entry
with count 1 is freed, an entry with a count above 1 is kept with its count one
lower); (3) an unref of a layout (option group) with count 1 returns, the
layout (option group) is freed, one unref has been applied to each of its
variants (options), and no other object has changed. -/
theorem C24_destroy_cascade (h : Heap) (ctx : Nat) (ms : List config_item)
    (ls : List layout_data) (gs : List group_data) (hr : Registry h ctx ms ls gs) :
    (∀ k o ob, h.objs o = some ob → ob.kind = k → 2 ≤ ob.base.refcount →
      T_unref k h (some o) =
        some (h.set_obj o (some (ob.set_refcount (ob.base.refcount - 1))), NULL)) ∧
    (refcount_of h ctx = some 1 →
      ∃ h2 mids lids gids, rxkb_context_unref h (some ctx) = some (h2, NULL) ∧
        entries Kind.model Field.models h ctx = some mids ∧
        entries Kind.layout Field.layouts h ctx = some lids ∧
        entries Kind.option_group Field.option_groups h ctx = some gids ∧
        h2.objs ctx = none ∧ ∀ x ∈ mids ++ lids ++ gids, Released h h2 x) ∧
    (∀ lids l vids, entries Kind.layout Field.layouts h ctx = some lids → l ∈ lids →
      entries Kind.variant Field.variants h l = some vids → refcount_of h l = some 1 →
      ∃ h2, rxkb_layout_unref h (some l) = some (h2, NULL) ∧ h2.objs l = none ∧
        (∀ v ∈ vids, Released h h2 v) ∧ ∀ o, o ≠ l → o ∉ vids → h2.objs o = h.objs o) ∧
    (∀ gids g oids, entries Kind.option_group Field.option_groups h ctx = some gids →
      g ∈ gids → entries Kind.option Field.options h g = some oids →
      refcount_of h g = some 1 →
      ∃ h2, rxkb_option_group_unref h (some g) = some (h2, NULL) ∧ h2.objs g = none ∧
        (∀ v ∈ oids, Released h h2 v) ∧ ∀ o, o ≠ g → o ∉ oids → h2.objs o = h.objs o) := by
  have hb : h.bounded := hr.1
  obtain ⟨⟨mids, hml, hms⟩, ⟨lids, hll, hls⟩, ⟨gids, hgl, hgs⟩⟩ := hr.sound_tree
  have mid : ∀ (f fc : Field) (ids0 : List Nat),
      (f = Field.layouts ∧ fc = Field.variants) ∨
        (f = Field.option_groups ∧ fc = Field.options) →
      ListOf h f ctx ids0 → (∀ l ∈ ids0, Sound h l ∧ SoundLeaves h fc l) →
      ∀ ids l vids, entries f.child_kind f h ctx = some ids → l ∈ ids →
        entries fc.child_kind fc h l = some vids → refcount_of h l = some 1 →
        ∃ h2, T_unref f.child_kind h (some l) = some (h2, NULL) ∧ h2.objs l = none ∧
          (∀ v ∈ vids, Released h h2 v) ∧
          ∀ o, o ≠ l → o ∉ vids → h2.objs o = h.objs o := by
    intro f fc ids0 hpair hl0 hs0 ids l vids he hlm hev hrc
    have e0 := entries_spec hl0 hb
    rw [he] at e0
    cases e0
    obtain ⟨pre, post, hpp⟩ := List.append_of_mem hlm
    subst hpp
    obtain ⟨⟨ob, o1, _, _, o4⟩, vids0, hvl, hvs⟩ := hs0 l hlm
    have e1 := entries_spec hvl hb
    rw [hev] at e1
    cases e1
    have hrc1 : ob.base.refcount = 1 := by
      simpa [refcount_of, o1] using hrc
    obtain ⟨ob2, b1, b2, _⟩ := hl0.2.2 l hlm
    rw [o1] at b1
    cases b1
    obtain ⟨h2, u1, u2, u3, u4, _⟩ := unref_mid_drop_track 1 fc hpair o1 hrc1 o4 b2 hb hl0
      vids hvl hvs
    have hkind : h.is_kind f.child_kind l = true := by simp [Heap.is_kind, o1, b2]
    exact ⟨h2, by simpa only [T_unref, hkind, if_true, destroy_depth] using u1, u2, u3, u4⟩
  refine ⟨?_, ?_, ?_, ?_⟩
  · intro k o ob ho hk hn
    have hkind : h.is_kind k o = true := by simp [Heap.is_kind, ho, hk]
    have hne : ob.base.refcount - 1 ≠ 0 := by omega
    simp only [T_unref, hkind, if_true, destroy_depth]
    rw [show (3 : Nat) = 2 + 1 from rfl, unref_eq 2 ho (by omega)]
    simp only [hne, if_false]
  · intro hrc
    obtain ⟨⟨ob, c1, _, _, c4⟩, ck, clink⟩ := hr.2.2.2.2
    have hrc1 : ob.base.refcount = 1 := by
      simpa [refcount_of, c1] using hrc
    have hkc : ob.kind = Kind.context := by
      simpa [Heap.is_kind, c1] using ck
    obtain ⟨h2, u1, u2, u3, u4, u5⟩ := unref_context_track c1 hrc1 c4 hkc clink hb hml hms
      hll hls hgl hgs
    refine ⟨h2, mids, lids, gids, ?_, entries_spec hml hb, entries_spec hll hb,
      entries_spec hgl hb, u2, ?_⟩
    · simpa only [rxkb_context_unref, T_unref, ck, if_true, destroy_depth] using u1
    · intro x hx
      rcases List.mem_append.1 hx with hx | hx
      · rcases List.mem_append.1 hx with hx | hx
        · exact u3 x hx
        · exact u4 x hx
      · exact u5 x hx
  · exact mid Field.layouts Field.variants lids (Or.inl ⟨rfl, rfl⟩) hll hls
  · exact mid Field.option_groups Field.options gids (Or.inr ⟨rfl, rfl⟩) hgl hgs

/-- C24 at the sample heap: the unref of its context, whose count is 1, and the
unref of its layout, at address 4 with the variants at 5 and 6.  In
`shared_heap` the model at address 1 has count 2: the cascade leaves it with
count 1 and frees the context and the model at address 2. -/
theorem C24_destroy_cascade_witness :
    Registry sample_heap 0 (document_models sample_document)
      (document_layouts sample_document) (document_groups sample_document) ∧
    (rxkb_context_unref shared_heap (some 0)).map
      (fun r => (r.2, refcount_of r.1 0, refcount_of r.1 1, refcount_of r.1 2)) =
      some (NULL, none, some 1, none) ∧
    (∃ h2 mids lids gids, rxkb_context_unref sample_heap (some 0) = some (h2, NULL) ∧
      entries Kind.model Field.models sample_heap 0 = some mids ∧
      entries Kind.layout Field.layouts sample_heap 0 = some lids ∧
      entries Kind.option_group Field.option_groups sample_heap 0 = some gids ∧
      h2.objs 0 = none ∧ ∀ x ∈ mids ++ lids ++ gids, Released sample_heap h2 x) ∧
    (∃ h2, rxkb_layout_unref sample_heap (some 4) = some (h2, NULL) ∧ h2.objs 4 = none ∧
      (∀ v ∈ [5, 6], Released sample_heap h2 v) ∧
      ∀ o, o ≠ 4 → o ∉ [5, 6] → h2.objs o = sample_heap.objs o) :=
  ⟨sample_heap_registry, rfl,
   (C24_destroy_cascade sample_heap 0 _ _ _ sample_heap_registry).2.1 rfl,
   (C24_destroy_cascade sample_heap 0 _ _ _ sample_heap_registry).2.2.1 [4] 4 [5, 6]
     rfl (by decide) rfl rfl⟩

theorem last_of_map_getLast (head : ListRef) (ids : List Nat) :
    last_of head (ids.map ListRef.link) =
      match ids.getLast? with
      | some o => ListRef.link o
      | none => head := by
  induction ids generalizing head with
  | nil => rfl
  | cons a ids ih =>
    simp only [List.map_cons, last_of, ih (ListRef.link a), List.getLast?_cons]
    cases ids.getLast? <;> rfl

/-- What first entry, last entry, the is-last test and the walk by first/next
read from a well-formed collection. -/
theorem collection_reads {h : Heap} {f : Field} {p : Nat} {ids : List Nat}
    (hl : ListOf h f p ids) (hb : h.bounded) :
    T_first f h p = some ids.head? ∧
    list_last_entry h.links (ListRef.head f p) = ids.getLast? ∧
    (∀ e ∈ ids, list_is_last h.links (ListRef.head f p) (ListRef.link e) =
      decide (ids.getLast? = some e)) ∧
    entries f.child_kind f h p = some ids := by
  refine ⟨T_first_spec hl, ?_, ?_, entries_spec hl hb⟩
  · simp only [list_last_entry, hl.1.head_prev, last_of_map_getLast, Option.some_bind]
    cases ids.getLast? <;> rfl
  · intro e he
    obtain ⟨xs, ys, hsplit⟩ := List.append_of_mem he
    subst hsplit
    have hn : (h.links (ListRef.link e)).next =
        some (first_of (ys.map ListRef.link) (ListRef.head f p)) := by
      have := hl.1
      rw [List.map_append, List.map_cons] at this
      exact this.cell_next
    have hnd := hl.nodup
    cases ys with
    | nil => simp [list_is_last, hn, first_of]
    | cons y ys =>
      have hlast : (xs ++ e :: y :: ys).getLast? = (y :: ys).getLast? := by
        rw [List.getLast?_append_of_ne_nil _ (by simp)]
        simp [List.getLast?_cons_cons]
      have hne : (y :: ys).getLast? ≠ some e := by
        intro hEq
        have hm := List.mem_of_getLast?_eq_some hEq
        have h1 := (List.nodup_cons.mp (List.nodup_append.mp hnd).2.1).1
        exact h1 hm
      simp [list_is_last, hn, first_of, hlast, hne]

/-- The call `list_remove` on an entry of a well-formed collection. -/
theorem heap_list_remove_listOf {h : Heap} {f : Field} {p c : Nat} {pre post : List Nat}
    (hl : ListOf h f p (pre ++ c :: post)) :
    ∃ h1, h.list_remove c = some h1 ∧ ListOf h1 f p (pre ++ post) ∧
      h1.objs = h.objs ∧ h1.brk = h.brk := by
  obtain ⟨lk2, e1, e2, _⟩ := heap_list_remove_spec hl
  refine ⟨h.set_links lk2, by simp [Heap.list_remove, e1], ⟨e2, hl.2.1, ?_⟩, rfl, rfl⟩
  intro o ho
  apply hl.2.2 o
  rcases List.mem_append.1 ho with ho | ho
  · exact List.mem_append_left _ ho
  · exact List.mem_append_right _ (List.mem_cons_of_mem _ ho)

theorem owner_ne_entry {h : Heap} {f : Field} {p c : Nat} {ids : List Nat}
    (hl : ListOf h f p ids) (hc : c ∈ ids) : p ≠ c := by
  intro hEq
  obtain ⟨ob, o1, o2, _⟩ := hl.2.2 c hc
  have := hl.2.1
  simp only [Heap.ok, hEq, o1, o2] at this
  cases f <;> simp [Field.child_kind, Kind.has_field] at this

theorem sample_models_list : ListOf sample_heap Field.models 0 [1, 2, 3] := by
  obtain ⟨hb, ⟨ids, hl, _⟩, _⟩ := sample_heap_registry
  have e1 := entries_spec hl hb
  have e2 : entries Kind.model Field.models sample_heap 0 = some [1, 2, 3] := rfl
  have : ids = [1, 2, 3] := Option.some.inj (e1.symm.trans e2)
  rw [← this]
  exact hl

/-- C25: removing the entry `c` from the well-formed collection
`pre ++ c :: post`, by `list_remove` alone or, as `rxkb_object_destroy` does, by
`list_remove` and `free`, leaves the collection `pre ++ post`: the first entry,
the last entry, the is-last test of every remaining entry and the walk by
first/next are those of the sequence with `c` deleted, the others in their
previous order. -/
theorem C25_removal_keeps_order (f : Field) (h : Heap) (p c : Nat)
    (pre post : List Nat) (hb : h.bounded) (hl : ListOf h f p (pre ++ c :: post)) :
    (∃ h1, h.list_remove c = some h1 ∧
      T_first f h1 p = some (pre ++ post).head? ∧
      list_last_entry h1.links (ListRef.head f p) = (pre ++ post).getLast? ∧
      (∀ e ∈ pre ++ post, list_is_last h1.links (ListRef.head f p) (ListRef.link e) =
        decide ((pre ++ post).getLast? = some e)) ∧
      entries f.child_kind f h1 p = some (pre ++ post)) ∧
    (∃ h2, (h.list_remove c).map (fun h1 => free h1 c) = some h2 ∧
      T_first f h2 p = some (pre ++ post).head? ∧
      list_last_entry h2.links (ListRef.head f p) = (pre ++ post).getLast? ∧
      (∀ e ∈ pre ++ post, list_is_last h2.links (ListRef.head f p) (ListRef.link e) =
        decide ((pre ++ post).getLast? = some e)) ∧
      entries f.child_kind f h2 p = some (pre ++ post)) := by
  constructor
  · obtain ⟨h1, e1, e2, e3, e4⟩ := heap_list_remove_listOf hl
    have hb1 : h1.bounded := by
      intro o ho
      rw [e3]
      rw [e4] at ho
      exact hb o ho
    exact ⟨h1, e1, collection_reads e2 hb1⟩
  · obtain ⟨h2, u1, u2, _, _, _, u6, _⟩ := unlink_free_spec hl hb
      (owner_ne_entry hl (by simp))
    refine ⟨h2, ?_, collection_reads u2 u6⟩
    rw [← u1]
    simp only [Heap.list_remove]
    cases Rxkb.list_remove h.ok h.links (ListRef.link c) <;> rfl

/-- C25 at the models of the sample heap, at addresses 1, 2 and 3, with the
first one removed as in `test_list`. -/
theorem C25_removal_keeps_order_witness :
    sample_heap.bounded ∧ ListOf sample_heap Field.models 0 ([] ++ 1 :: [2, 3]) ∧
    (sample_heap.list_remove 1).map (fun h1 =>
      (T_first Field.models h1 0, list_last_entry h1.links (ListRef.head Field.models 0),
       list_is_last h1.links (ListRef.head Field.models 0) (ListRef.link 2),
       list_is_last h1.links (ListRef.head Field.models 0) (ListRef.link 3))) =
      some (some (some 2), some 3, false, true) ∧
    (∃ h1, sample_heap.list_remove 1 = some h1 ∧
      T_first Field.models h1 0 = some ([] ++ [2, 3]).head? ∧
      list_last_entry h1.links (ListRef.head Field.models 0) = ([] ++ [2, 3]).getLast? ∧
      (∀ e ∈ [] ++ [2, 3],
        list_is_last h1.links (ListRef.head Field.models 0) (ListRef.link e) =
          decide (([] ++ [2, 3]).getLast? = some e)) ∧
      entries Field.models.child_kind Field.models h1 0 = some ([] ++ [2, 3])) ∧
    (∃ h2, (sample_heap.list_remove 1).map (fun h1 => free h1 1) = some h2 ∧
      T_first Field.models h2 0 = some ([] ++ [2, 3]).head? ∧
      list_last_entry h2.links (ListRef.head Field.models 0) = ([] ++ [2, 3]).getLast? ∧
      (∀ e ∈ [] ++ [2, 3],
        list_is_last h2.links (ListRef.head Field.models 0) (ListRef.link e) =
          decide (([] ++ [2, 3]).getLast? = some e)) ∧
      entries Field.models.child_kind Field.models h2 0 = some ([] ++ [2, 3])) :=
  ⟨sample_heap_registry.1, sample_models_list, rfl,
   C25_removal_keeps_order Field.models sample_heap 0 1 [] [2, 3]
     sample_heap_registry.1 sample_models_list⟩

/-- The last reference to the context of a registry: `rxkb_context_unref`
returns `NULL` and frees the context. -/
theorem Registry.unref_last {h : Heap} {ctx : Nat} {ms : List config_item}
    {ls : List layout_data} {gs : List group_data} (hr : Registry h ctx ms ls gs)
    (hrc : refcount_of h ctx = some 1) :
    ∃ h2, rxkb_context_unref h (some ctx) = some (h2, NULL) ∧ h2.objs ctx = none := by
  obtain ⟨hm, hL, hG⟩ := hr.sound_tree
  obtain ⟨hb, _, _, _, ⟨ob, c1, _, _, c4⟩, ck, clink⟩ := hr
  have hrc1 : ob.base.refcount = 1 := by
    simpa [refcount_of, c1] using hrc
  have hkc : ob.kind = Kind.context := by
    simpa [Heap.is_kind, c1] using ck
  obtain ⟨h2, u1, u2⟩ := unref_context_drop_spec c1 hrc1 c4 hkc clink hb hm hL hG
  exact ⟨h2, by simpa only [rxkb_context_unref, T_unref, ck, if_true, destroy_depth] using u1,
    u2⟩

/-- The three accessors `first` on a context whose collections are empty. -/
theorem Registry.firsts_of_empty {h : Heap} {ctx : Nat} (hr : Registry h ctx [] [] []) :
    rxkb_model_first h ctx = some NULL ∧ rxkb_layout_first h ctx = some NULL ∧
    rxkb_option_group_first h ctx = some NULL := by
  obtain ⟨_, ⟨i1, l1, f1⟩, ⟨i2, l2, f2⟩, ⟨i3, l3, f3⟩, _⟩ := hr
  cases f1
  cases f2
  cases f3
  exact ⟨T_first_spec l1, T_first_spec l2, T_first_spec l3⟩

/-- The steps of `rxkb_context_new` up to the test of the flags: the context is
allocated at the fresh address with count 1 and no include path, and its three
lists are initialised. -/
theorem context_new_steps (w : World) (h : Heap) (hb : h.bounded) (flags : Nat) :
    ∃ h3, Registry h3 h.brk [] [] [] ∧
      h3.objs h.brk = some (Obj.context
        { base := Kind.context.init_base NULL, includes := [], userdata := 0 }) ∧
      rxkb_context_new w h flags =
        if flags &&& RXKB_CONTEXT_NO_DEFAULT_INCLUDES = 0 then
          (rxkb_context_include_path_append_default w h3 h.brk).bind fun a =>
            if !a.2 then (rxkb_context_unref a.1 (some h.brk)).map (fun u => (u.1, NULL))
            else some (a.1, some h.brk)
        else some (h3, some h.brk) := by
  obtain ⟨h3, e1, e2, e3, _⟩ := context_lists_init h hb
    { base := Kind.context.init_base NULL, includes := [], userdata := 0 } rfl
  refine ⟨h3, e2, ?_, ?_⟩
  · rw [e3]; simp [Heap.with_new]
  · unfold rxkb_context_new
    simp only [rxkb_context_create, T_create_eq, Option.some_bind]
    have hz : (Obj.zero Kind.context).set_base (Kind.context.init_base NULL) =
        Obj.context { base := Kind.context.init_base NULL, includes := [],
                      userdata := 0 } := rfl
    rw [hz]
    simp only [Option.bind_eq_some] at e1
    obtain ⟨k1, f1, k2, f2, f3⟩ := e1
    rw [f1]
    simp only [Option.some_bind]
    rw [f2]
    simp only [Option.some_bind]
    rw [f3]
    simp only [Option.some_bind]

/-- C26: on a well-formed heap `rxkb_context_new` returns.  With
`RXKB_CONTEXT_NO_DEFAULT_INCLUDES` in the flags the result is a context with
reference count 1, an empty include list and empty collections of models,
layouts and option groups: each accessor `first` returns `NULL`.  Without that
flag the result is `NULL` if and only if none of the default include paths is
usable, the context that was allocated being freed again; otherwise it is a
context with count 1 and empty collections whose include list holds exactly
the usable default paths, in their order. -/
theorem C26_context_new (w : World) (h : Heap) (flags : Nat) (hb : h.bounded) :
    (flags &&& RXKB_CONTEXT_NO_DEFAULT_INCLUDES ≠ 0 →
      ∃ h0 ctx, rxkb_context_new w h flags = some (h0, some ctx) ∧
        refcount_of h0 ctx = some 1 ∧ includes_of h0 ctx = some [] ∧
        rxkb_model_first h0 ctx = some NULL ∧ rxkb_layout_first h0 ctx = some NULL ∧
        rxkb_option_group_first h0 ctx = some NULL) ∧
    (flags &&& RXKB_CONTEXT_NO_DEFAULT_INCLUDES = 0 →
      ∃ h0 r, rxkb_context_new w h flags = some (h0, r) ∧
        (r = NULL ↔ (default_candidates w).any (usable w) = false) ∧
        (r = NULL → h0.objs h.brk = none) ∧
        ∀ ctx, r = some ctx →
          refcount_of h0 ctx = some 1 ∧
          includes_of h0 ctx = some ((default_candidates w).filter (usable w)) ∧
          rxkb_model_first h0 ctx = some NULL ∧ rxkb_layout_first h0 ctx = some NULL ∧
          rxkb_option_group_first h0 ctx = some NULL) := by
  obtain ⟨h3, hr, hc, he⟩ := context_new_steps w h hb flags
  refine ⟨fun hf => ?_, fun hf => ?_⟩
  · obtain ⟨f1, f2, f3⟩ := hr.firsts_of_empty
    refine ⟨h3, h.brk, ?_, ?_, ?_, f1, f2, f3⟩
    · rw [he, if_neg hf]
    · simp only [refcount_of, hc]; rfl
    · simp only [includes_of, hc]
  · have h0 : IncludesAdded h3 h3 h.brk
        { base := Kind.context.init_base NULL, includes := [], userdata := 0 } [] :=
      ⟨hc, fun _ _ => rfl, rfl, rfl⟩
    obtain ⟨h1, e1, a1, a2, a3, a4⟩ :=
      append_each_spec (w := w) (default_candidates w) h3 [] false h0
    rw [Bool.false_or, ← include_path_append_default_eq] at e1
    rw [List.nil_append] at a1
    have hr1 : Registry h1 h.brk [] [] [] := include_path_append_default_registry hr e1
    have hrc : refcount_of h1 h.brk = some 1 := by
      simp only [refcount_of, a1]; rfl
    rw [if_pos hf, e1, Option.some_bind] at he
    cases hu : (default_candidates w).any (usable w) with
    | false =>
      obtain ⟨h2, u1, u2⟩ := hr1.unref_last hrc
      refine ⟨h2, NULL, ?_, ?_, fun _ => u2, ?_⟩
      · rw [he]
        simp only [hu, Bool.not_false, if_true, u1, Option.map_some']
      · simp
      · intro ctx hx
        cases hx
    | true =>
      obtain ⟨f1, f2, f3⟩ := hr1.firsts_of_empty
      refine ⟨h1, some h.brk, ?_, ?_, ?_, ?_⟩
      · rw [he]
        simp [hu]
      · simp [NULL]
      · intro hx
        cases hx
      · intro ctx hx
        cases hx
        refine ⟨hrc, ?_, f1, f2, f3⟩
        simp only [includes_of, a1, List.nil_append]

/-- C26 at the empty heap, as in `test_context_new`: with
`RXKB_CONTEXT_NO_DEFAULT_INCLUDES` the context sits at address 0 with count 1,
no include path and empty collections; with `RXKB_CONTEXT_NO_FLAGS` the result
is a context holding `$HOME/.config/xkb` and the compiled-in root in a world
where these two are usable, and `NULL` in a world where no default path is. -/
theorem C26_context_new_witness :
    Heap.empty.bounded ∧
    RXKB_CONTEXT_NO_DEFAULT_INCLUDES &&& RXKB_CONTEXT_NO_DEFAULT_INCLUDES ≠ 0 ∧
    (∃ h0 ctx, rxkb_context_new pc104_world Heap.empty
        RXKB_CONTEXT_NO_DEFAULT_INCLUDES = some (h0, some ctx) ∧
      refcount_of h0 ctx = some 1 ∧ includes_of h0 ctx = some [] ∧
      rxkb_model_first h0 ctx = some NULL ∧ rxkb_layout_first h0 ctx = some NULL ∧
      rxkb_option_group_first h0 ctx = some NULL) ∧
    RXKB_CONTEXT_NO_FLAGS &&& RXKB_CONTEXT_NO_DEFAULT_INCLUDES = 0 ∧
    (∃ h0 r, rxkb_context_new home_world Heap.empty RXKB_CONTEXT_NO_FLAGS = some (h0, r) ∧
      (r = NULL ↔ (default_candidates home_world).any (usable home_world) = false) ∧
      (r = NULL → h0.objs Heap.empty.brk = none) ∧
      ∀ ctx, r = some ctx →
        refcount_of h0 ctx = some 1 ∧
        includes_of h0 ctx =
          some ((default_candidates home_world).filter (usable home_world)) ∧
        rxkb_model_first h0 ctx = some NULL ∧ rxkb_layout_first h0 ctx = some NULL ∧
        rxkb_option_group_first h0 ctx = some NULL) ∧
    (rxkb_context_new pc104_world Heap.empty RXKB_CONTEXT_NO_DEFAULT_INCLUDES).map
      (fun r => (r.2, refcount_of r.1 0, includes_of r.1 0, rxkb_model_first r.1 0,
        rxkb_layout_first r.1 0, rxkb_option_group_first r.1 0)) =
      some (some 0, some 1, some [], some NULL, some NULL, some NULL) ∧
    (rxkb_context_new home_world Heap.empty RXKB_CONTEXT_NO_FLAGS).map
      (fun r => (r.2, refcount_of r.1 0, includes_of r.1 0, rxkb_model_first r.1 0)) =
      some (some 0, some 1, some ["/home/u/.config/xkb", "/usr/share/X11/xkb"],
        some NULL) ∧
    (default_candidates bare_world).any (usable bare_world) = false ∧
    (rxkb_context_new bare_world Heap.empty RXKB_CONTEXT_NO_FLAGS).map
      (fun r => (r.2, (r.1.objs 0).isNone)) = some (NULL, true) :=
  ⟨Heap.empty_bounded, by decide,
   (C26_context_new pc104_world Heap.empty RXKB_CONTEXT_NO_DEFAULT_INCLUDES
      Heap.empty_bounded).1 (by decide),
   by decide,
   (C26_context_new home_world Heap.empty RXKB_CONTEXT_NO_FLAGS Heap.empty_bounded).2
     (by decide),
   by rfl, by decide, by decide, by rfl⟩

end Rxkb
